import Mathlib

/-!
# The Lua 5.1 runtime core of `readLua`: tables (`ltable.c`) and the stack API (`lapi.c`)

A shallow embedding of the C sources.  Pointers into the node vector and into the
array part of a table become indices, `NULL` becomes `none`, and a function that can
raise a Lua error returns `Except`.
-/

set_option autoImplicit false

namespace Lua
/-! ## Numbers: `lua_Number` is a C `double` -/

/-- A `lua_Number` (C `double`), given by its IEEE-754 binary64 bit pattern. -/
structure lua_Number where
  bits : Nat
deriving DecidableEq

/-- The least `k' ≥ k` with `n < 2 ^ 2 ^ k'`, looked for among `k, ..., k + fuel`. -/
def bitlenUpper : Nat → Nat → Nat → Nat
  | 0, _, k => k
  | fuel + 1, n, k => if n >>> (1 <<< k) = 0 then k else bitlenUpper fuel n (k + 1)

/-- The least `l ≥ lo` with `n < 2 ^ l`, by bisection, for `n < 2 ^ (lo + 2 ^ k)`. -/
def bitlenSearch : Nat → Nat → Nat → Nat
  | 0, n, lo => if n >>> lo = 0 then lo else lo + 1
  | k + 1, n, lo =>
    if n >>> (lo + (1 <<< k)) = 0 then bitlenSearch k n lo
    else bitlenSearch k n (lo + (1 <<< k))

/-- Number of binary digits of `n` (0 for 0): the least `l` with `n < 2 ^ l`. -/
def bitlen (n : Nat) : Nat := bitlenSearch (bitlenUpper n n 0) n 0

namespace lua_Number

/-- Sign bit of the double. -/
def sign (n : lua_Number) : Nat := (n.bits / 2 ^ 63) % 2

/-- Biased exponent field (11 bits). -/
def expo (n : lua_Number) : Nat := (n.bits / 2 ^ 52) % 2048

/-- Fraction field (52 bits). -/
def mant (n : lua_Number) : Nat := n.bits % 2 ^ 52

/-- The double is a NaN. -/
def isnan (n : lua_Number) : Bool := n.expo == 2047 && n.mant != 0

/-- The double is an infinity. -/
def isinf (n : lua_Number) : Bool := n.expo == 2047 && n.mant == 0

/-- Magnitude of a finite double, counted in units of `2^-1074`. -/
def mag (n : lua_Number) : Nat :=
  if n.expo = 0 then n.mant else (2 ^ 52 + n.mant) <<< (n.expo - 1)

/-- Value of a finite double, counted in units of `2^-1074`. -/
def scaled (n : lua_Number) : Int :=
  if n.sign = 1 then -(n.mag : Int) else (n.mag : Int)

/-- Exponent and fraction fields of the double nearest to `a * 2^-1074`
(round to nearest, ties to even; overflow gives infinity). -/
def roundMag (a : Nat) : Nat :=
  if a < 2 ^ 53 then a
  else
    let sh := bitlen a - 53
    let q := a >>> sh
    let r := a - (q <<< sh)
    let half := 1 <<< (sh - 1)
    let q1 := if half < r ∨ (r = half ∧ q % 2 = 1) then q + 1 else q
    let b := sh * 2 ^ 52 + q1
    if 2047 * 2 ^ 52 ≤ b then 2047 * 2 ^ 52 else b

/-- The double nearest to `s * 2^-1074`. -/
def ofScaled (s : Int) : lua_Number :=
  if s < 0 then ⟨2 ^ 63 + roundMag s.natAbs⟩ else ⟨roundMag s.natAbs⟩

/-- The statement `n += 1` of `hashnum` (IEEE addition of `1.0`). -/
def add1 (n : lua_Number) : lua_Number :=
  if n.isnan then ⟨n.sign * 2 ^ 63 + 2047 * 2 ^ 52 + (n.mant ||| 2 ^ 51)⟩
  else if n.isinf then ⟨n.sign * 2 ^ 63 + 2047 * 2 ^ 52⟩
  else ofScaled (n.scaled + ((1 <<< 1074 : Nat) : Int))

end lua_Number

/-- Modelled from the spec: `luai_numeq` is a macro of luaconf.h, which is not among the
sources; it is the C comparison `a == b` of two doubles ("number by IEEE equality
(NaN≠NaN)"): no NaN is equal to anything, `+0` and `-0` are equal. -/
def luai_numeq (a b : lua_Number) : Bool :=
  !a.isnan && !b.isnan &&
    ((a.sign == b.sign && a.expo == b.expo && a.mant == b.mant) ||
      (a.expo == 0 && a.mant == 0 && b.expo == 0 && b.mant == 0))

/-- Modelled from the spec: `luai_numisnan` is a macro of luaconf.h, not among the sources:
`(!luai_numeq((a), (a)))`. -/
def luai_numisnan (a : lua_Number) : Bool := !luai_numeq a a

/-- Modelled from the spec: `cast_num` is a macro of llimits.h, not among the sources:
the C conversion of an integer to `double` (exact below `2^53`, rounded above). -/
def cast_num (k : Int) : lua_Number :=
  lua_Number.ofScaled (if k < 0 then -((k.natAbs <<< 1074 : Nat) : Int) else (k.natAbs <<< 1074 : Nat))

/-- Modelled from the spec: `lua_number2int` is a macro of luaconf.h, not among the
sources; it is taken as the C conversion `(int)(d)`: truncation toward zero, and
`INT_MIN` when the result does not fit an `int` (NaN and infinities included). -/
def lua_number2int (n : lua_Number) : Int :=
  if n.isnan || n.isinf then -(2 ^ 31)
  else
    let q : Int := (n.mag >>> 1074 : Nat)
    let k : Int := if n.sign = 1 then -q else q
    if -(2 ^ 31) ≤ k ∧ k < 2 ^ 31 then k else -(2 ^ 31)

/-! ## Values (`lobject.h`) -/

/-- A pointer to a `TString`, given by the header it points to: the address and the
`hash` field.  Two such pointers are equal when they are the same header. -/
structure TString where
  addr : Nat
  hash : Nat
deriving DecidableEq

/-- The collectable type tags other than `LUA_TSTRING`. -/
inductive GCTag where
  | table
  | function
  | userdata
  | thread
  | proto
  | upval
  | deadkey
deriving DecidableEq

/-- A tagged value `TValue`.  The constructors are the type tags; `gc` covers the
collectable tags other than strings, with the address `value.gc`.  A boolean holds
0 or 1 (every writer normalises it), so it is a `Bool`. -/
inductive TValue where
  | nil
  | boolean (b : Bool)
  | lightuserdata (p : Nat)
  | number (n : lua_Number)
  | string (s : TString)
  | gc (tt : GCTag) (p : Nat)
deriving DecidableEq

def LUA_TNIL : Nat := 0
def LUA_TBOOLEAN : Nat := 1
def LUA_TLIGHTUSERDATA : Nat := 2
def LUA_TNUMBER : Nat := 3
def LUA_TSTRING : Nat := 4
def LUA_TTABLE : Nat := 5
def LUA_TFUNCTION : Nat := 6
def LUA_TUSERDATA : Nat := 7
def LUA_TTHREAD : Nat := 8
def LUA_TPROTO : Nat := 9
def LUA_TUPVAL : Nat := 10
def LUA_TDEADKEY : Nat := 11

/-- The numeric tag of a collectable tag. -/
def GCTag.tag : GCTag → Nat
  | .table => LUA_TTABLE
  | .function => LUA_TFUNCTION
  | .userdata => LUA_TUSERDATA
  | .thread => LUA_TTHREAD
  | .proto => LUA_TPROTO
  | .upval => LUA_TUPVAL
  | .deadkey => LUA_TDEADKEY

/-- The macro `ttype(o)`. -/
def ttype : TValue → Nat
  | .nil => LUA_TNIL
  | .boolean _ => LUA_TBOOLEAN
  | .lightuserdata _ => LUA_TLIGHTUSERDATA
  | .number _ => LUA_TNUMBER
  | .string _ => LUA_TSTRING
  | .gc tt _ => tt.tag

/-- The macro `ttisnil(o)`. -/
def ttisnil (o : TValue) : Bool := ttype o == LUA_TNIL

/-- The macro `ttisnumber(o)`. -/
def ttisnumber (o : TValue) : Bool := ttype o == LUA_TNUMBER

/-- The macro `nvalue(o)`; it is used under `ttisnumber(o)` only. -/
def nvalue : TValue → lua_Number
  | .number n => n
  | _ => ⟨0⟩

/-- The macro `ttistable(o)`. -/
def ttistable (o : TValue) : Bool := ttype o == LUA_TTABLE

/-- The macro `iscollectable(o)`. -/
def iscollectable (o : TValue) : Bool := decide (LUA_TSTRING ≤ ttype o)

/-- The macro `gcvalue(o)`: the address in `value.gc`. -/
def gcvalue : TValue → Nat
  | .string s => s.addr
  | .gc _ p => p
  | _ => 0

/-- The macro `l_isfalse(o)`. -/
def l_isfalse : TValue → Bool
  | .nil => true
  | .boolean b => !b
  | _ => false

/-- Modelled from the spec: `luaO_rawequalObj` lives in lobject.c, which is not among the
sources: "nil==nil; bool by value; number by IEEE equality (NaN≠NaN); strings by
reference after interning; other collectables by reference identity". -/
def luaO_rawequalObj : TValue → TValue → Bool
  | .nil, .nil => true
  | .number a, .number b => luai_numeq a b
  | .boolean a, .boolean b => a == b
  | .lightuserdata p, .lightuserdata q => p == q
  | .string a, .string b => a == b
  | .gc t1 p, .gc t2 q => t1 == t2 && p == q
  | _, _ => false

/-- Modelled from the spec: `luaO_log2` lives in lobject.c, which is not among the sources:
the integer binary logarithm, rounded down, with `luaO_log2 0 = -1`. -/
def luaO_log2 (x : Nat) : Int := (bitlen x : Int) - 1

/-- The macro `ceillog2(x)`, `luaO_log2((x)-1) + 1`, for `x ≥ 1`. -/
def ceillog2 (x : Nat) : Nat := (luaO_log2 (x - 1) + 1).toNat

/-- The macro `twoto(x)`. -/
def twoto (x : Nat) : Nat := 2 ^ x

/-! ## Tables (`ltable.c`) -/

/-- A hash node: value, key and the `next` link of its chain (an index into the node
vector, `none` for `NULL`). -/
structure Node where
  i_val : TValue
  i_key : TValue
  next : Option Nat
deriving DecidableEq

/-- The struct `Table`.  `node` is the node vector; when `isdummy` holds `t->node` is the
shared `dummynode` and the vector is that single node.  `lastfree` is the offset
`t->lastfree - t->node`.  `array` is the allocated block of the array part. -/
structure Table where
  flags : Nat
  lsizenode : Nat
  metatable : Option Nat
  array : List TValue
  node : List Node
  isdummy : Bool
  lastfree : Int
  sizearray : Nat
deriving DecidableEq

/-- A pointer to a value cell as returned by the table functions: a cell of the array
part, the value of a node, or the shared `luaO_nilobject`. -/
inductive Slot where
  | arr (i : Nat)
  | node (i : Nat)
  | nilobject
deriving DecidableEq

/-- Errors raised through `luaG_runerror`, and the two ways the model can fail to follow
the C code: recursion budget exhausted, and a step that is undefined in C. -/
inductive LuaError where
  | table_index_is_nil
  | table_index_is_NaN
  | table_overflow
  | invalid_key_to_next
  | out_of_fuel
  | undefined_behaviour
deriving DecidableEq

def MAXBITS : Nat := 26

def MAXASIZE : Nat := 2 ^ MAXBITS

/-- Modelled from the spec: `MAX_INT` is a macro of llimits.h, not among the sources:
`INT_MAX-2`. -/
def MAX_INT : Nat := 2 ^ 31 - 3

/-- The static `dummynode_`. -/
def dummynode_ : Node := ⟨.nil, .nil, none⟩

/-- The macro `sizenode(t)`. -/
def sizenode (t : Table) : Nat := twoto t.lsizenode

/-- The macro `gnode(t, i)`: the node at index `i`. -/
def gnode (t : Table) (i : Nat) : Node := t.node.getD i dummynode_

/-- The macro `lmod(s, size)` for a size that is a power of two. -/
def lmod (s size : Nat) : Nat := s &&& (size - 1)

/-- The macro `hashpow2(t, n)`, as a node index. -/
def hashpow2 (t : Table) (n : Nat) : Nat := lmod n (sizenode t)

/-- The macro `hashmod(t, n)`, as a node index. -/
def hashmod (t : Table) (n : Nat) : Nat := n % ((sizenode t - 1) ||| 1)

/-- The macro `hashpointer(t, p)`; `IntPoint(p)` is the address as an `unsigned int`. -/
def hashpointer (t : Table) (p : Nat) : Nat := hashmod t (p % 2 ^ 32)

/-- The function `hashnum`: the two `unsigned int` words of `n + 1` are added. -/
def hashnum (t : Table) (n : lua_Number) : Nat :=
  let n1 := n.add1
  let a0 := n1.bits % 2 ^ 32
  let a1 := (n1.bits / 2 ^ 32) % 2 ^ 32
  hashmod t ((a0 + a1) % 2 ^ 32)

/-- The function `mainposition`, as a node index. -/
def mainposition (t : Table) (key : TValue) : Nat :=
  match key with
  | .number n => hashnum t n
  | .string s => hashpow2 t s.hash
  | .boolean b => hashpow2 t b.toNat
  | .lightuserdata p => hashpointer t p
  | k => hashpointer t (gcvalue k)

/-- The function `arrayindex`. -/
def arrayindex (key : TValue) : Int :=
  match key with
  | .number n =>
    let k := lua_number2int n
    if luai_numeq (cast_num k) n then k else -1
  | _ => -1

/-- Read through a slot pointer. -/
def slotval (t : Table) : Slot → TValue
  | .arr i => t.array.getD i .nil
  | .node i => (gnode t i).i_val
  | .nilobject => .nil

/-- Write through a slot pointer (`setobj2t`, `setobjt2t`). -/
def setslot (t : Table) (s : Slot) (v : TValue) : Table :=
  match s with
  | .arr i => { t with array := t.array.set i v }
  | .node i => { t with node := t.node.set i { gnode t i with i_val := v } }
  | .nilobject => t

/-- The loop `do { if (p(n)) return gval(n); else n = gnext(n); } while (n);` followed by
`return luaO_nilobject`, shared by the search functions; a chain has at most
`fuel` nodes. -/
def chainfind (t : Table) (p : Node → Bool) : Nat → Nat → Slot
  | 0, _ => .nilobject
  | fuel + 1, n =>
    if p (gnode t n) then .node n
    else match (gnode t n).next with
      | some m => chainfind t p fuel m
      | none => .nilobject

/-- Wrap-around conversion of an `unsigned int` to `int`. -/
def toInt32 (u : Nat) : Int :=
  if u % 2 ^ 32 < 2 ^ 31 then (u % 2 ^ 32 : Nat) else ((u % 2 ^ 32 : Nat) : Int) - 2 ^ 32

/-- The function `luaH_getnum`. -/
def luaH_getnum (t : Table) (key : Int) : Slot :=
  if ((key - 1) % 2 ^ 32).toNat < t.sizearray % 2 ^ 32 then .arr (key - 1).toNat
  else
    let nk := cast_num key
    chainfind t (fun n => match n.i_key with
      | .number x => luai_numeq x nk
      | _ => false) t.node.length (hashnum t nk)

/-- The function `luaH_getstr`. -/
def luaH_getstr (t : Table) (key : TString) : Slot :=
  chainfind t (fun n => match n.i_key with
    | .string s => s == key
    | _ => false) t.node.length (hashpow2 t key.hash)

/-- The function `luaH_get`. -/
def luaH_get (t : Table) (key : TValue) : Slot :=
  let dflt := chainfind t (fun n => luaO_rawequalObj n.i_key key) t.node.length
    (mainposition t key)
  match key with
  | .nil => .nilobject
  | .string s => luaH_getstr t s
  | .number n =>
    let k := lua_number2int n
    if luai_numeq (cast_num k) n then luaH_getnum t k else dflt
  | _ => dflt

/-- The result of a function that may raise: the error comes with the table as it
was when the error was raised. -/
abbrev Res (α : Type) : Type := Except (LuaError × Table) α

/-- Replace the node at index `i`. -/
def setnode (t : Table) (i : Nat) (nd : Node) : Table :=
  { t with node := t.node.set i nd }

/-- The assignment `gnext(gnode(t, i)) = nx`. -/
def setnext (t : Table) (i : Nat) (nx : Option Nat) : Table :=
  setnode t i { gnode t i with next := nx }

/-- The assignments `gkey(mp)->value = key->value; gkey(mp)->tt = key->tt`. -/
def setkey (t : Table) (i : Nat) (key : TValue) : Table :=
  setnode t i { gnode t i with i_key := key }

/-- The loop of `getfreepos` for `t->lastfree - t->node = n > 0`: the result is the free
node found (if any) and the final offset of `lastfree`. -/
def getfreepos_loop (t : Table) : Nat → Option Nat × Int
  | 0 => (none, -1)
  | n + 1 => if ttisnil (gnode t n).i_key then (some n, n) else getfreepos_loop t n

/-- The function `getfreepos`. -/
def getfreepos (t : Table) : Option Nat × Table :=
  if t.lastfree ≤ 0 then (none, { t with lastfree := t.lastfree - 1 })
  else
    let r := getfreepos_loop t t.lastfree.toNat
    (r.1, { t with lastfree := r.2 })

/-- The loop `while (gnext(othern) != mp) othern = gnext(othern);` of `newkey`;
`none` when it runs into `NULL`. -/
def findprev (t : Table) (mp : Nat) : Nat → Nat → Option Nat
  | 0, _ => none
  | fuel + 1, othern =>
    match (gnode t othern).next with
    | some m => if m = mp then some othern else findprev t mp fuel m
    | none => none

/-- The part of `newkey` that runs once a free node `n` was found: the colliding node
of `mp` is moved to `n`, or the new key goes to `n`. -/
def newkey_collide (t : Table) (key : TValue) (mp n : Nat) : Res (Slot × Table) :=
  let othern := mainposition t (gnode t mp).i_key
  if othern ≠ mp then
    match findprev t mp t.node.length othern with
    | none => .error (.undefined_behaviour, t)
    | some prev =>
      let t2 := setnext t prev (some n)
      let t3 := setnode t2 n (gnode t2 mp)
      let t4 := setnode t3 mp { gnode t3 mp with next := none, i_val := .nil }
      .ok (.node mp, setkey t4 mp key)
  else
    let t2 := setnext t n (gnode t mp).next
    let t3 := setnext t2 mp (some n)
    .ok (.node n, setkey t3 n key)

/-- The function `setarrayvector`: the block is reallocated to `size` cells and the
cells from the old `sizearray` on are set to nil. -/
def setarrayvector (t : Table) (size : Nat) : Table :=
  { t with
    array := (List.range size).map (fun i => if i < t.sizearray then t.array.getD i .nil else .nil)
    sizearray := size }

/-- The function `setnodevector`. -/
def setnodevector (t : Table) (size : Nat) : Res Table :=
  if size = 0 then
    .ok { t with node := [dummynode_], isdummy := true, lsizenode := 0, lastfree := 0 }
  else
    let lsize := ceillog2 size
    if lsize > MAXBITS then .error (.table_overflow, t)
    else
      .ok { t with
        node := List.replicate (twoto lsize) ⟨.nil, .nil, none⟩
        isdummy := false
        lsizenode := lsize
        lastfree := (twoto lsize : Nat) }

/-- Add `d` to `nums[i]`. -/
def addnum (nums : List Nat) (i d : Nat) : List Nat := nums.set i (nums.getD i 0 + d)

/-- The function `countint`: the new `nums` and the returned 0 or 1. -/
def countint (key : TValue) (nums : List Nat) : List Nat × Nat :=
  let k := arrayindex key
  if 0 < k ∧ k ≤ (MAXASIZE : Int) then (addnum nums (ceillog2 k.toNat) 1, 1)
  else (nums, 0)

/-- The outer loop of `numusearray`, from slice `lg` on (`fuel` slices are left);
the result is the final `ause` and `nums`. -/
def numusearray_loop (t : Table) : Nat → Nat → Nat → Nat → Nat → List Nat → Nat × List Nat
  | 0, _, _, _, ause, nums => (ause, nums)
  | fuel + 1, lg, ttlg, i, ause, nums =>
    if t.sizearray < ttlg ∧ t.sizearray < i then (ause, nums)
    else
      let lim := if t.sizearray < ttlg then t.sizearray else ttlg
      let lc := ((List.range' i (lim + 1 - i)).filter
        (fun j => !ttisnil (t.array.getD (j - 1) .nil))).length
      let i1 := if i ≤ lim then lim + 1 else i
      numusearray_loop t fuel (lg + 1) (ttlg * 2) i1 (ause + lc) (addnum nums lg lc)

/-- The function `numusearray`: the returned count and the new `nums`. -/
def numusearray (t : Table) (nums : List Nat) : Nat × List Nat :=
  numusearray_loop t (MAXBITS + 1) 0 1 1 0 nums

/-- The loop `while (i--)` of `numusehash`: the final `totaluse`, `ause` and `nums`. -/
def numusehash_loop (t : Table) : Nat → Nat → Nat → List Nat → Nat × Nat × List Nat
  | 0, totaluse, ause, nums => (totaluse, ause, nums)
  | i + 1, totaluse, ause, nums =>
    if !ttisnil (gnode t i).i_val then
      let r := countint (gnode t i).i_key nums
      numusehash_loop t i (totaluse + 1) (ause + r.2) r.1
    else numusehash_loop t i totaluse ause nums

/-- The function `numusehash`: the returned `totaluse`, the new `*pnasize` and `nums`. -/
def numusehash (t : Table) (nums : List Nat) (pnasize : Nat) : Nat × Nat × List Nat :=
  let r := numusehash_loop t (sizenode t) 0 0 nums
  (r.1, pnasize + r.2.1, r.2.2)

/-- The loop of `computesizes` from index `i` on, with `twotoi = 2^i`; the result is
the final `n` (stored in `*narray`) and `na`. -/
def computesizes_loop (nums : List Nat) (narray : Nat) :
    Nat → Nat → Nat → Nat → Nat → Nat → Nat × Nat
  | 0, _, _, _, na, n => (n, na)
  | fuel + 1, i, twotoi, a, na, n =>
    if twotoi / 2 < narray then
      let a1 := if 0 < nums.getD i 0 then a + nums.getD i 0 else a
      let n1 := if 0 < nums.getD i 0 ∧ twotoi / 2 < a1 then twotoi else n
      let na1 := if 0 < nums.getD i 0 ∧ twotoi / 2 < a1 then a1 else na
      if a1 = narray then (n1, na1)
      else computesizes_loop nums narray fuel (i + 1) (twotoi * 2) a1 na1 n1
    else (n, na)

/-- The function `computesizes`: the new `*narray` and the returned `na`.  The loop
leaves by its own condition within `*narray + 1` rounds. -/
def computesizes (nums : List Nat) (narray : Nat) : Nat × Nat :=
  computesizes_loop nums narray (narray + 2) 0 1 0 0 0

/-- The function `newkey`.  `rehashk t key` stands for the two statements
`rehash(L, t, key); return luaH_set(L, t, key);` taken when no free node is left. -/
def newkey_with (rehashk : Table → TValue → Res (Slot × Table)) (t : Table) (key : TValue) :
    Res (Slot × Table) :=
  let mp := mainposition t key
  if !ttisnil (gnode t mp).i_val || t.isdummy then
    match getfreepos t with
    | (none, t1) => rehashk t1 key
    | (some n, t1) => newkey_collide t1 key mp n
  else .ok (.node mp, setkey t mp key)

/-- The function `luaH_set`, over the same `rehashk` as `newkey_with`. -/
def luaH_set_with (rehashk : Table → TValue → Res (Slot × Table)) (t : Table) (key : TValue) :
    Res (Slot × Table) :=
  let p := luaH_get t key
  let t1 := { t with flags := 0 }
  if p ≠ .nilobject then .ok (p, t1)
  else if ttisnil key then .error (.table_index_is_nil, t1)
  else if ttisnumber key && luai_numisnan (nvalue key) then .error (.table_index_is_NaN, t1)
  else newkey_with rehashk t1 key

/-- The function `luaH_setnum`, over the same `rehashk` as `newkey_with`. -/
def luaH_setnum_with (rehashk : Table → TValue → Res (Slot × Table)) (t : Table) (key : Int) :
    Res (Slot × Table) :=
  let p := luaH_getnum t key
  if p ≠ .nilobject then .ok (p, t)
  else newkey_with rehashk t (.number (cast_num key))

/-- The function `luaH_setstr`, over the same `rehashk` as `newkey_with`. -/
def luaH_setstr_with (rehashk : Table → TValue → Res (Slot × Table)) (t : Table)
    (key : TString) : Res (Slot × Table) :=
  let p := luaH_getstr t key
  if p ≠ .nilobject then .ok (p, t)
  else newkey_with rehashk t (.string key)

/-- One round of the loop of `resize` that re-inserts the vanishing slice of the array. -/
def resize_arraystep (rehashk : Table → TValue → Res (Slot × Table)) (t : Table) (i : Nat) :
    Res Table :=
  if !ttisnil (t.array.getD i .nil) then
    (luaH_setnum_with rehashk t ((i : Int) + 1)).bind
      (fun r => .ok (setslot r.2 r.1 (r.2.array.getD i .nil)))
  else .ok t

/-- One round of the loop of `resize` that re-inserts the old node `old`. -/
def resize_nodestep (rehashk : Table → TValue → Res (Slot × Table)) (t : Table) (old : Node) :
    Res Table :=
  if !ttisnil old.i_val then
    (luaH_set_with rehashk t old.i_key).bind (fun r => .ok (setslot r.2 r.1 old.i_val))
  else .ok t

/-- The function `resize`, over the same `rehashk` as `newkey_with`. -/
def resize_with (rehashk : Table → TValue → Res (Slot × Table)) (t : Table)
    (nasize nhsize : Nat) : Res Table :=
  let oldasize := t.sizearray
  let oldhsize := t.lsizenode
  let nold := t.node
  let t1 := if nasize > oldasize then setarrayvector t nasize else t
  (setnodevector t1 nhsize).bind (fun t2 =>
    (if nasize < oldasize then
      ((List.range' nasize (oldasize - nasize)).foldlM (resize_arraystep rehashk)
        { t2 with sizearray := nasize }).bind
        (fun t3 => .ok { t3 with array := t3.array.take nasize })
    else .ok t2).bind (fun t4 =>
      ((List.range (twoto oldhsize)).reverse.map (fun i => nold.getD i dummynode_)).foldlM
        (resize_nodestep rehashk) t4))

/-- The function `rehash`, over the same `rehashk` as `newkey_with`. -/
def rehash_with (rehashk : Table → TValue → Res (Slot × Table)) (t : Table) (ek : TValue) :
    Res Table :=
  let nums := List.replicate (MAXBITS + 1) 0
  let r1 := numusearray t nums
  let nasize := r1.1
  let totaluse := nasize
  let r2 := numusehash t r1.2 nasize
  let totaluse := totaluse + r2.1
  let r3 := countint ek r2.2.2
  let nasize := r2.2.1 + r3.2
  let totaluse := totaluse + 1
  let r4 := computesizes r3.1 nasize
  resize_with rehashk t r4.1 (totaluse - r4.2)

/-- The statements `rehash(L, t, key); return luaH_set(L, t, key);` of `newkey`, with
calls of `rehash` nested at most `fuel` deep. -/
def rehash_set : Nat → Table → TValue → Res (Slot × Table)
  | 0, t, _ => .error (.out_of_fuel, t)
  | fuel + 1, t, key =>
    (rehash_with (rehash_set fuel) t key).bind
      (fun t2 => luaH_set_with (rehash_set fuel) t2 key)

/-- The function `luaH_set`; `fuel` bounds the nesting of `rehash` calls. -/
def luaH_set (fuel : Nat) (t : Table) (key : TValue) : Res (Slot × Table) :=
  luaH_set_with (rehash_set fuel) t key

/-- The function `luaH_setnum`; `fuel` bounds the nesting of `rehash` calls. -/
def luaH_setnum (fuel : Nat) (t : Table) (key : Int) : Res (Slot × Table) :=
  luaH_setnum_with (rehash_set fuel) t key

/-- The function `luaH_setstr`; `fuel` bounds the nesting of `rehash` calls. -/
def luaH_setstr (fuel : Nat) (t : Table) (key : TString) : Res (Slot × Table) :=
  luaH_setstr_with (rehash_set fuel) t key

/-- The function `resize`; `fuel` bounds the nesting of `rehash` calls. -/
def resize (fuel : Nat) (t : Table) (nasize nhsize : Nat) : Res Table :=
  resize_with (rehash_set fuel) t nasize nhsize

/-- The function `luaH_new`. -/
def luaH_new (narray nhash : Nat) : Res Table :=
  let t : Table :=
    { flags := 255, lsizenode := 0, metatable := none, array := [], node := [dummynode_],
      isdummy := true, lastfree := 0, sizearray := 0 }
  setnodevector (setarrayvector t narray) nhash

/-- The function `findindex`. -/
def findindex (t : Table) (key : TValue) : Except LuaError Int :=
  if ttisnil key then .ok (-1)
  else
    let i := arrayindex key
    if 0 < i ∧ i ≤ (t.sizearray : Int) then .ok (i - 1)
    else
      match chainfind t (fun n => luaO_rawequalObj n.i_key key ||
          (ttype n.i_key == LUA_TDEADKEY && iscollectable key &&
            gcvalue n.i_key == gcvalue key)) t.node.length (mainposition t key) with
      | .node n => .ok ((n : Int) + t.sizearray)
      | _ => .error .invalid_key_to_next

/-- The function `luaH_next`: `some (k, v)` stands for the result 1 with `k` stored in
`key` and `v` in `key+1`, `none` for the result 0. -/
def luaH_next (t : Table) (key : TValue) : Except LuaError (Option (TValue × TValue)) :=
  match findindex t key with
  | .error e => .error e
  | .ok i0 =>
    let i := (i0 + 1).toNat
    match (List.range' i (t.sizearray - i)).find? (fun j => !ttisnil (t.array.getD j .nil)) with
    | some j => .ok (some (.number (cast_num ((j : Int) + 1)), t.array.getD j .nil))
    | none =>
      let i2 := (if i < t.sizearray then t.sizearray else i) - t.sizearray
      match (List.range' i2 (sizenode t - i2)).find? (fun j => !ttisnil (gnode t j).i_val) with
      | some j => .ok (some ((gnode t j).i_key, (gnode t j).i_val))
      | none => .ok none

/-- The binary search loop of `luaH_getn` inside the array part. -/
def getn_arraysearch (t : Table) : Nat → Nat → Nat → Nat
  | 0, i, _ => i
  | fuel + 1, i, j =>
    if j - i > 1 then
      let m := (i + j) / 2
      if ttisnil (t.array.getD (m - 1) .nil) then getn_arraysearch t fuel i m
      else getn_arraysearch t fuel m j
    else i

/-- The linear search of `unbound_search`: `while (!ttisnil(luaH_getnum(t, i))) i++;`
then `return i - 1`; `none` when `fuel` rounds do not reach a nil. -/
def unbound_linear (t : Table) : Nat → Nat → Option Nat
  | 0, _ => none
  | fuel + 1, i =>
    if !ttisnil (slotval t (luaH_getnum t (toInt32 i))) then unbound_linear t fuel (i + 1)
    else some (i - 1)

/-- The binary search loop of `unbound_search`. -/
def unbound_binsearch (t : Table) : Nat → Nat → Nat → Nat
  | 0, i, _ => i
  | fuel + 1, i, j =>
    if j - i > 1 then
      let m := (i + j) / 2
      if ttisnil (slotval t (luaH_getnum t (toInt32 m))) then unbound_binsearch t fuel i m
      else unbound_binsearch t fuel m j
    else i

/-- The first loop of `unbound_search` (doubling `j`), followed by the rest of the
function; `none` when a loop does not end within its budget. -/
def unbound_double (t : Table) : Nat → Nat → Nat → Option Nat
  | 0, _, _ => none
  | fuel + 1, i, j =>
    if !ttisnil (slotval t (luaH_getnum t (toInt32 j))) then
      let i1 := j
      let j1 := (j * 2) % 2 ^ 32
      if j1 > MAX_INT then unbound_linear t (t.sizearray + t.node.length + 2) 1
      else unbound_double t fuel i1 j1
    else some (unbound_binsearch t j i j)

/-- The function `unbound_search`. -/
def unbound_search (t : Table) (j : Nat) : Option Nat :=
  unbound_double t 33 j ((j + 1) % 2 ^ 32)

/-- The function `luaH_getn`; `none` when a loop does not end within its budget. -/
def luaH_getn (t : Table) : Option Nat :=
  let j := t.sizearray
  if j > 0 ∧ ttisnil (t.array.getD (j - 1) .nil) then some (getn_arraysearch t j 0 j)
  else if t.isdummy then some j
  else unbound_search t j

/-! ## Well-formed tables -/

/-- Following `next` links from node `a` leads to node `b`. -/
inductive Reaches (t : Table) : Nat → Nat → Prop where
  | refl (a : Nat) : Reaches t a a
  | step (a b c : Nat) : (gnode t a).next = some b → Reaches t b c → Reaches t a c

/-- Number of nodes that hold a key. -/
def keycount (t : Table) : Nat :=
  ((Finset.range t.node.length).filter (fun i => (gnode t i).i_key ≠ .nil)).card

/-- The invariants of the node vector and of the array part that the functions of
`ltable.c` maintain, apart from those of `lastfree`.  `size`, `lsize`, `asize`,
`amax`, `dummy`: the sizes; `free`: a node without a key has no value and no link;
`next_lt`, `next_inj`, `rank`: the links form disjoint chains without cycles
through nodes that hold keys; `reach`: a key is on the chain that starts at its
main position; `brent`: the node at the main position of a key holds a key whose
main position it is; `nodup`, `keyok`: keys are pairwise different and none is a
NaN; `arr`: no key of the node vector is an index of the array part. -/
structure WFcore (t : Table) : Prop where
  size : t.node.length = 2 ^ t.lsizenode
  lsize : t.lsizenode ≤ MAXBITS
  asize : t.sizearray ≤ t.array.length
  amax : t.sizearray ≤ MAXASIZE
  dummy : t.isdummy = true → t.node = [dummynode_]
  free : ∀ i, i < t.node.length → (gnode t i).i_key = .nil →
    (gnode t i).i_val = .nil ∧ (gnode t i).next = none
  next_lt : ∀ i j, i < t.node.length → (gnode t i).next = some j →
    j < t.node.length ∧ (gnode t j).i_key ≠ .nil
  next_inj : ∀ i i' j, i < t.node.length → i' < t.node.length →
    (gnode t i).next = some j → (gnode t i').next = some j → i = i'
  rank : ∃ r : Nat → Nat, ∀ i j, i < t.node.length → (gnode t i).next = some j → r j < r i
  reach : ∀ i, i < t.node.length → (gnode t i).i_key ≠ .nil →
    Reaches t (mainposition t (gnode t i).i_key) i
  brent : ∀ i, i < t.node.length → (gnode t i).i_key ≠ .nil →
    (gnode t (mainposition t (gnode t i).i_key)).i_key ≠ .nil ∧
    mainposition t (gnode t (mainposition t (gnode t i).i_key)).i_key =
      mainposition t (gnode t i).i_key
  nodup : ∀ i j, i < t.node.length → j < t.node.length → (gnode t i).i_key ≠ .nil →
    luaO_rawequalObj (gnode t i).i_key (gnode t j).i_key = true → i = j
  keyok : ∀ i, i < t.node.length → (gnode t i).i_key ≠ .nil →
    luaO_rawequalObj (gnode t i).i_key (gnode t i).i_key = true
  arr : ∀ i, i < t.node.length →
    ¬ (0 < arrayindex (gnode t i).i_key ∧ arrayindex (gnode t i).i_key ≤ (t.sizearray : Int))
  nodead : ∀ i, i < t.node.length → ttype (gnode t i).i_key ≠ LUA_TDEADKEY

/-- A well-formed table: the invariants of `WFcore`, and every free node lies below
`lastfree` (`lastfree_le`, `lastfree`, `lastfree_dummy`). -/
structure WF (t : Table) extends WFcore t : Prop where
  lastfree_le : t.lastfree ≤ (t.node.length : Int)
  lastfree : ∀ i : Nat, i < t.node.length → t.lastfree ≤ (i : Int) → t.isdummy = false →
    (gnode t i).i_key ≠ .nil
  lastfree_dummy : t.isdummy = true → t.lastfree ≤ 0

/-- The search of the hash part for `key`: the chain that starts at the main position
of `key` is searched for a raw-equal key. -/
def hfind (t : Table) (key : TValue) : Slot :=
  chainfind t (fun n => luaO_rawequalObj n.i_key key) t.node.length (mainposition t key)

/-- The value bound to `key`: what `luaH_get` points to. -/
def getval (t : Table) (key : TValue) : TValue := slotval t (luaH_get t key)

/-- A key that `luaH_set` accepts: a Lua value that is neither nil nor a NaN.  The tag
`LUA_TDEADKEY` marks the key of a node that the collector has cleared; it is not
the tag of a value. -/
structure validkey (key : TValue) : Prop where
  ne : key ≠ .nil
  refl : luaO_rawequalObj key key = true
  nodead : ttype key ≠ LUA_TDEADKEY

/-- The value found for `key` in the hash part. -/
def hval (t : Table) (key : TValue) : TValue := slotval t (hfind t key)

/-- Every binding of the hash part of `t` with a non-nil value is a binding of the
hash part of `t'`. -/
def LiveSub (t t' : Table) : Prop :=
  ∀ i, i < t.node.length → (gnode t i).i_val ≠ .nil →
    ∃ i', i' < t'.node.length ∧ (gnode t' i').i_key = (gnode t i).i_key ∧
      (gnode t' i').i_val = (gnode t i).i_val

/-- What `newkey` guarantees when it returns the value cell of node `j` in table `t'`. -/
structure NewkeyPost (t : Table) (k : TValue) (j : Nat) (t' : Table) : Prop where
  wf : WF t'
  jlt : j < t'.node.length
  key : (gnode t' j).i_key = k
  val : (gnode t' j).i_val = .nil
  array : t'.array = t.array
  sizearray : t'.sizearray = t.sizearray
  lsize : t'.lsizenode = t.lsizenode
  len : t'.node.length = t.node.length
  isdummy : t'.isdummy = false
  flags : t'.flags = t.flags
  sub : LiveSub t t'
  sub' : LiveSub t' t
  count : keycount t' ≤ keycount t + 1

/-- A slot that points into the table: a cell of the array part, or the value of a
node that holds a key. -/
def SlotOk (t : Table) : Slot → Prop
  | .arr i => i < t.sizearray
  | .node j => j < t.node.length ∧ (gnode t j).i_key ≠ .nil
  | .nilobject => False

/-- What the `luaH_set` family guarantees when it returns the slot `s` in table `t'`:
the slot is the one of the key, and no binding has changed. -/
structure PutPost (t : Table) (k : TValue) (s : Slot) (t' : Table) : Prop where
  wf : WF t'
  slot : s = luaH_get t' k
  found : s ≠ .nilobject
  array : t'.array = t.array
  sizearray : t'.sizearray = t.sizearray
  lsize : t'.lsizenode = t.lsizenode
  len : t'.node.length = t.node.length
  isdummy : t'.isdummy = t.isdummy
  read : ∀ x, getval t' x = getval t x
  count : keycount t' ≤
    keycount t + (if 0 < arrayindex k ∧ arrayindex k ≤ (t.sizearray : Int) then 0 else 1)

/-- Table `t'` is table `t` after the assignment `t[k] = v` that needs no `rehash`. -/
structure PutRel (t : Table) (k v : TValue) (t' : Table) : Prop where
  wf : WF t'
  sizearray : t'.sizearray = t.sizearray
  lsize : t'.lsizenode = t.lsizenode
  len : t'.node.length = t.node.length
  isdummy : t'.isdummy = t.isdummy
  alen : t'.array.length = t.array.length
  tail : ∀ j, t.sizearray ≤ j → t'.array.getD j .nil = t.array.getD j .nil
  read : ∀ x, getval t' x = if luaO_rawequalObj x k = true then v else getval t x
  count : keycount t' ≤
    keycount t + (if 0 < arrayindex k ∧ arrayindex k ≤ (t.sizearray : Int) then 0 else 1)

/-- Sum of the counters `nums[0], ..., nums[i-1]`. -/
def binsum (nums : List Nat) (i : Nat) : Nat :=
  ((List.range i).map (fun b => nums.getD b 0)).sum

/-- Number of non-nil cells of the array block with index `j`, `a ≤ j < b`. -/
def acnt (t : Table) (a b : Nat) : Nat :=
  ((List.range' a (b - a)).filter (fun j => !ttisnil (t.array.getD j .nil))).length

/-- Number of nodes below index `i` with a non-nil value and a key whose array index
satisfies `p`. -/
def ncnt (t : Table) (p : Int → Bool) (i : Nat) : Nat :=
  ((List.range i).filter
    (fun j => !ttisnil (gnode t j).i_val && p (arrayindex (gnode t j).i_key))).length

/-- The test `1 ≤ k ≤ m` on an array index. -/
def inrange (m : Nat) (k : Int) : Bool := decide (0 < k ∧ k ≤ (m : Int))

/-- What `luaH_set` guarantees in general, a `rehash` included: the returned slot is the
one of the key, and every key reads as before. -/
structure SetPost (t : Table) (k : TValue) (s : Slot) (t' : Table) : Prop where
  wf : WF t'
  slot : s = luaH_get t' k
  found : s ≠ .nilobject
  read : ∀ x, getval t' x = getval t x

/-- Number of non-nil values stored in the table, array part and node part. -/
def livecount (t : Table) : Nat :=
  acnt t 0 t.sizearray + ncnt t (fun _ => true) t.node.length

/-- The test `ttisnumber(key) && luai_numisnan(nvalue(key))` of `luaH_set`. -/
def isnankey (key : TValue) : Bool := ttisnumber key && luai_numisnan (nvalue key)

/-- The tables of the specification: those reached from `luaH_new` by `luaH_set`,
`luaH_setnum` and `luaH_setstr` and by writes through the slots they return.
The array size asked from `luaH_new` is within the limit `MAXASIZE` that ltable.c
states for the array part, keys are Lua values, and an integer key is an `int`. -/
inductive Reach : Table → Prop where
  | new (narray nhash : Nat) (t : Table) : narray ≤ MAXASIZE →
      luaH_new narray nhash = .ok t → Reach t
  | set (fuel : Nat) (t : Table) (k : TValue) (s : Slot) (t' : Table) (v : TValue) :
      Reach t → ttype k ≠ LUA_TDEADKEY → luaH_set fuel t k = .ok (s, t') →
      Reach (setslot t' s v)
  | setnum (fuel : Nat) (t : Table) (key : Int) (s : Slot) (t' : Table) (v : TValue) :
      Reach t → -(2 ^ 31) ≤ key → key < 2 ^ 31 → luaH_setnum fuel t key = .ok (s, t') →
      Reach (setslot t' s v)
  | setstr (fuel : Nat) (t : Table) (key : TString) (s : Slot) (t' : Table) (v : TValue) :
      Reach t → luaH_setstr fuel t key = .ok (s, t') → Reach (setslot t' s v)

/-- The value `t[i]` of an integer key, as `luaH_getnum` finds it. -/
def tget (t : Table) (i : Int) : TValue := slotval t (luaH_getnum t i)

/-- A border of the table: `n = 0` and `t[1]` is nil, or `t[n]` is not nil and
`t[n+1]` is nil. -/
def isborder (t : Table) (n : Nat) : Prop :=
  (n = 0 ∧ tget t 1 = .nil) ∨ (1 ≤ n ∧ tget t (n : Int) ≠ .nil ∧ tget t ((n : Int) + 1) = .nil)

/-- A full traversal with `luaH_next`: start from `key` (nil for the first call), feed
each returned key back, and collect the returned pairs until `luaH_next` returns 0;
`fuel` bounds the number of calls. -/
def traverse (t : Table) : Nat → TValue → Except LuaError (List (TValue × TValue))
  | 0, _ => .error .out_of_fuel
  | fuel + 1, key =>
    match luaH_next t key with
    | .error e => .error e
    | .ok none => .ok []
    | .ok (some kv) =>
      match traverse t fuel kv.1 with
      | .error e => .error e
      | .ok l => .ok (kv :: l)

/-- The pairs of the array part with a non-nil value, by increasing index. -/
def arrayentries (t : Table) : List (TValue × TValue) :=
  ((List.range t.sizearray).filter (fun i => !ttisnil (t.array.getD i .nil))).map
    (fun (i : Nat) => (TValue.number (cast_num ((i : Int) + 1)), t.array.getD i .nil))

/-- The pairs of the node vector with a non-nil value, by increasing node index. -/
def nodeentries (t : Table) : List (TValue × TValue) :=
  ((List.range t.node.length).filter (fun j => !ttisnil (gnode t j).i_val)).map
    (fun j => ((gnode t j).i_key, (gnode t j).i_val))

/-- The value of the cell numbered `p` by `luaH_next`: array cells first, then nodes. -/
def cellval (t : Table) (p : Nat) : TValue :=
  if p < t.sizearray then t.array.getD p .nil else (gnode t (p - t.sizearray)).i_val

/-- The key of the cell numbered `p` by `luaH_next`. -/
def cellkey (t : Table) (p : Nat) : TValue :=
  if p < t.sizearray then .number (cast_num ((p : Int) + 1))
  else (gnode t (p - t.sizearray)).i_key

/-- The two loops of `luaH_next` as one scan of the cells from number `i` on. -/
def scan (t : Table) (i : Nat) : Option (TValue × TValue) :=
  ((List.range' i (t.sizearray + t.node.length - i)).find?
    (fun p => !ttisnil (cellval t p))).map (fun p => (cellkey t p, cellval t p))

/-- The pairs that a traversal returns from cell number `i` on. -/
def entriesfrom (t : Table) (i : Nat) : List (TValue × TValue) :=
  ((List.range' i (t.sizearray + t.node.length - i)).filter
    (fun p => !ttisnil (cellval t p))).map (fun p => (cellkey t p, cellval t p))

/-- The table after step C of `newkey`: the free node `n` takes the key and is linked
in after the main position `mp`. -/
def linked (t : Table) (k : TValue) (mp n : Nat) : Table :=
  setkey (setnext (setnext t n (gnode t mp).next) mp (some n)) n k

/-- The table after the colliding node `mp` was moved to the free node `n`, with
`mp` left free; `prev` is the node before `mp` on its chain. -/
def moved (t : Table) (mp n prev : Nat) : Table :=
  setnode (setnode (setnext t prev (some n)) n (gnode (setnext t prev (some n)) mp)) mp
    ⟨.nil, .nil, none⟩


/-! ## Small tables used to instantiate the theorems -/

/-- The assignment `t[k] = v` through `luaH_set` with one level of `rehash`; an error
leaves the table as the error found it. -/
def put (t : Table) (k v : TValue) : Table :=
  match luaH_set 1 t k with
  | .ok r => setslot r.2 r.1 v
  | .error e => e.2

/-- The table that `luaH_new(L, 0, 0)` returns. -/
def ex0 : Table :=
  { flags := 255, lsizenode := 0, metatable := none, array := [], node := [dummynode_],
    isdummy := true, lastfree := 0, sizearray := 0 }

/-- The number key `i`. -/
def num (i : Int) : TValue := .number (cast_num i)

/-- A string object for the examples: the strings are interned, one object per
content; the address and the hash are chosen freely. -/
def str (i : Nat) : TValue := .string ⟨4096 + 32 * i, (i * 2654435761) % 2 ^ 32⟩

/-- The table `{10, 20, 30, [5] = 50}`, built key by key from the empty table. -/
def ex1235 : Table :=
  put (put (put (put ex0 (num 1) (num 10)) (num 2) (num 20)) (num 3) (num 30)) (num 5) (num 50)

/-! ## The thread state (`lstate.c`) and the stack API (`lapi.c`)

Pointers into the stack are offsets from `L->stack`; pointers to tables and closures
are addresses in a heap; the memory allocator never fails and the garbage collector
does not run (`luaC_checkGC` and the write barriers are no-ops). -/

/-- Modelled from the spec: `LUAI_MAXCSTACK` is a constant of luaconf.h, which is not
among the sources ("Hard cap: an implementation-defined maximum (configurable)"); 2048
is the value of Lua 5.1.0. -/
def LUAI_MAXCSTACK : Int := 2048

/-- Modelled from the spec: `LUA_MINSTACK` is a constant of lua.h, not among the sources:
the number of slots a C function can count on; 20 in Lua 5.1. -/
def LUA_MINSTACK : Nat := 20

/-- Modelled from the spec: `EXTRA_STACK` is a constant of lstate.h, not among the sources:
the "headroom for error handling" above `stack_last`; 5 in Lua 5.1. -/
def EXTRA_STACK : Nat := 5

/-- Modelled from the spec: `BASIC_STACK_SIZE` is a constant of lstate.h, not among the
sources: `(2*LUA_MINSTACK)` in Lua 5.1. -/
def BASIC_STACK_SIZE : Nat := 2 * LUA_MINSTACK

/-- Modelled from the spec: `LUA_REGISTRYINDEX` ("REGISTRY_INDEX") is a constant of
lua.h, not among the sources; -10000 in Lua 5.1. -/
def LUA_REGISTRYINDEX : Int := -10000

/-- Modelled from the spec: `LUA_ENVIRONINDEX` ("ENVIRON_INDEX") is a constant of lua.h,
not among the sources; -10001 in Lua 5.1. -/
def LUA_ENVIRONINDEX : Int := -10001

/-- Modelled from the spec: `LUA_GLOBALSINDEX` ("GLOBALS_INDEX") is a constant of lua.h,
not among the sources; -10002 in Lua 5.1. -/
def LUA_GLOBALSINDEX : Int := -10002

/-- Modelled from the spec: `LUA_TNONE` is a constant of lua.h, not among the sources: the
type code of "no value", -1. -/
def LUA_TNONE : Int := -1

/-- The view `c` (`CClosure`) of the union `Closure` of lobject.h: `env` is the address of
the environment table, `f` stands for the function pointer, `upvalue` is the vector
`upvalue[]` as allocated. -/
structure Closure where
  isC : Bool
  nupvalues : Nat
  env : Nat
  f : Nat
  upvalue : List TValue
deriving DecidableEq

/-- Modelled from the spec: the struct `CallInfo` is declared in lstate.h, not among the
sources: "`func` (index of the callee on the stack), `base` (index of first local),
`top` (index one past the last slot the callee may use)". -/
structure CallInfo where
  base : Nat
  func : Nat
  top : Nat
deriving DecidableEq

/-- Modelled from the spec: the struct `global_State` is declared in lstate.h, not among
the sources; of its fields the model keeps the "registry table" `l_registry`, and the
collectable objects that the API reads: the tables and the closures, each with its
address, and the strings of the "string pool", each with its address and its bytes. -/
structure global_State where
  l_registry : TValue
  tables : List (Nat × Table)
  closures : List (Nat × Closure)
  strings : List (Nat × List Nat) := []
deriving DecidableEq

/-- Modelled from the spec: the struct `lua_State` is declared in lstate.h, not among the
sources; the fields are those that lapi.c and `stack_init` use.  `top`, `base` and
`stack_last` are offsets from `L->stack`; `ci` is the record `*L->ci` and `callers`
holds the records below it in `base_ci`, the nearest first, so that
`L->ci == L->base_ci` when `callers` is empty; `stack` is the allocated block;
`errfunc` is the "error-handler slot", the offset of the handler or 0. -/
structure lua_State where
  top : Nat
  base : Nat
  l_G : global_State
  ci : CallInfo
  stack_last : Nat
  stack : List TValue
  callers : List CallInfo
  stacksize : Nat
  l_gt : TValue
  env : TValue
  errfunc : Nat := 0
deriving DecidableEq

/-- A pointer to a `TValue` as `index2adr` returns it: a stack slot, the shared
`luaO_nilobject`, the registry, the field `L->env`, the field `L->l_gt`, or an upvalue
of the C closure at address `cl`. -/
inductive Addr where
  | stack (i : Nat)
  | nilobject
  | registry
  | env
  | gt
  | upvalue (cl : Nat) (i : Nat)
deriving DecidableEq

/-- The ways an API call can fail: an `api_check` assertion that does not hold (the
caller broke the contract of the function), a step that is undefined in C (a dangling or
out-of-bounds pointer, a `check_exp` that does not hold), an error raised by the table
code, and the error "no calling environment" of `lua_replace`. -/
inductive ApiError where
  | api_check
  | undefined_behaviour
  | runerror (e : LuaError)
  | no_calling_environment
deriving DecidableEq

/-- The result of an API function that may fail. -/
abbrev Api (α : Type) : Type := Except ApiError α

/-- The object at address `p` of a heap, `none` for a dangling pointer. -/
def heapget {α : Type} : List (Nat × α) → Nat → Option α
  | [], _ => none
  | e :: h, p => if e.1 = p then some e.2 else heapget h p

/-- The heap with the object at address `p` replaced by `x` (added when new). -/
def heapset {α : Type} : List (Nat × α) → Nat → α → List (Nat × α)
  | [], p, x => [(p, x)]
  | e :: h, p, x => if e.1 = p then (p, x) :: h else e :: heapset h p x

/-- An address that no object of the heap has. -/
def freshaddr {α : Type} : List (Nat × α) → Nat
  | [] => 1
  | e :: h => max (e.1 + 1) (freshaddr h)

/-- The address that the allocator gives to a new object: one that no table, no
closure and no string of the global state has. -/
def newaddr (g : global_State) : Nat :=
  max (max (freshaddr g.closures) (freshaddr g.tables)) (freshaddr g.strings)

/-- The macro `api_check(L, c)`. -/
def api_check (c : Prop) [Decidable c] : Api Unit :=
  if c then .ok () else .error .api_check

/-- The macro `api_checknelems(L, n)`. -/
def api_checknelems (L : lua_State) (n : Int) : Api Unit :=
  api_check (n ≤ (L.top : Int) - L.base)

/-- The macro `api_checkvalidindex(L, i)`. -/
def api_checkvalidindex (i : Addr) : Api Unit :=
  api_check (i ≠ .nilobject)

/-- The macro `api_incr_top(L)`. -/
def api_incr_top (L : lua_State) : Api lua_State := do
  api_check (L.top < L.ci.top)
  return { L with top := L.top + 1 }

/-- Read through a pointer to a `TValue`. -/
def getobj (L : lua_State) : Addr → Api TValue
  | .stack i =>
    match L.stack[i]? with
    | some v => .ok v
    | none => .error .undefined_behaviour
  | .nilobject => .ok .nil
  | .registry => .ok L.l_G.l_registry
  | .env => .ok L.env
  | .gt => .ok L.l_gt
  | .upvalue p i =>
    match heapget L.l_G.closures p with
    | some cl =>
      match cl.upvalue[i]? with
      | some v => .ok v
      | none => .error .undefined_behaviour
    | none => .error .undefined_behaviour

/-- Write through a pointer to a `TValue` (the macro `setobj` and its variants, with the
source value already read). -/
def setobj (L : lua_State) : Addr → TValue → Api lua_State
  | .stack i, v =>
    if i < L.stack.length then .ok { L with stack := L.stack.set i v }
    else .error .undefined_behaviour
  | .nilobject, _ => .error .undefined_behaviour
  | .registry, v => .ok { L with l_G := { L.l_G with l_registry := v } }
  | .env, v => .ok { L with env := v }
  | .gt, v => .ok { L with l_gt := v }
  | .upvalue p i, v =>
    match heapget L.l_G.closures p with
    | some cl =>
      if i < cl.upvalue.length then
        .ok { L with l_G := { L.l_G with
          closures := heapset L.l_G.closures p { cl with upvalue := cl.upvalue.set i v } } }
      else .error .undefined_behaviour
    | none => .error .undefined_behaviour

/-- The macro `hvalue(o)`: the address of the table, under `ttistable(o)`. -/
def hvalue : TValue → Api Nat
  | .gc .table p => .ok p
  | _ => .error .undefined_behaviour

/-- Modelled from the spec: `curr_func(L)` is a macro of lstate.h, not among the sources:
`(clvalue(L->ci->func))`, the closure that the running function was called as; the
result is its address and the closure. -/
def curr_func (L : lua_State) : Api (Nat × Closure) :=
  match L.stack[L.ci.func]? with
  | some (.gc .function p) =>
    match heapget L.l_G.closures p with
    | some cl => .ok (p, cl)
    | none => .error .undefined_behaviour
  | _ => .error .undefined_behaviour

/-- The function `index2adr`; the state is returned too, for the case
`LUA_ENVIRONINDEX` stores into `L->env`. -/
def index2adr (L : lua_State) (idx : Int) : Api (Addr × lua_State) :=
  if idx > 0 then do
    let o : Int := (L.base : Int) + (idx - 1)
    api_check (idx ≤ (L.ci.top : Int) - L.base)
    if o ≥ (L.top : Int) then return (.nilobject, L)
    else return (.stack o.toNat, L)
  else if idx > LUA_REGISTRYINDEX then do
    api_check (idx ≠ 0 ∧ -idx ≤ (L.top : Int) - L.base)
    return (.stack ((L.top : Int) + idx).toNat, L)
  else if idx = LUA_REGISTRYINDEX then return (.registry, L)
  else if idx = LUA_ENVIRONINDEX then do
    let func ← curr_func L
    return (.env, { L with env := .gc .table func.2.env })
  else if idx = LUA_GLOBALSINDEX then return (.gt, L)
  else do
    let func ← curr_func L
    let idx1 : Int := LUA_GLOBALSINDEX - idx
    if idx1 ≤ (func.2.nupvalues : Int) then return (.upvalue func.1 (idx1 - 1).toNat, L)
    else return (.nilobject, L)

/-- The function `getcurrenv`: the address of the environment table. -/
def getcurrenv (L : lua_State) : Api Nat :=
  if L.callers = [] then hvalue L.l_gt
  else do
    let func ← curr_func L
    return func.2.env

/-- Modelled from the spec: `luaD_reallocstack` lives in ldo.c, which is not among the
sources ("reallocate the stack buffer, rewriting `stack`, `base`, `top`, `stack_last`"):
the block gets `newsize + 1 + EXTRA_STACK` cells, keeps its content, and
`stack_last = stack + newsize`.  Offsets do not move; a new cell reads as nil. -/
def luaD_reallocstack (L : lua_State) (newsize : Nat) : lua_State :=
  let realsize := newsize + 1 + EXTRA_STACK
  { L with
    stack := (L.stack ++ List.replicate (realsize - L.stack.length) TValue.nil).take realsize,
    stacksize := realsize,
    stack_last := newsize }

/-- Modelled from the spec: `luaD_growstack` lives in ldo.c, which is not among the
sources: the size is doubled when that makes room for `n` cells, and grows by `n`
otherwise. -/
def luaD_growstack (L : lua_State) (n : Nat) : lua_State :=
  if n ≤ L.stacksize then luaD_reallocstack L (2 * L.stacksize)
  else luaD_reallocstack L (L.stacksize + n)

/-- Modelled from the spec: `luaD_checkstack` is a macro of ldo.h, which is not among the
sources ("`checkstack(n)` guarantees `stacksize − (top−stack) ≥ n`; if not, reallocate
the stack buffer"): the stack grows when `stack_last - top <= n`. -/
def luaD_checkstack (L : lua_State) (n : Nat) : lua_State :=
  if (L.stack_last : Int) - L.top ≤ n then luaD_growstack L n else L

/-- The function `lua_checkstack`: the result `res` and the state. -/
def lua_checkstack (L : lua_State) (size : Int) : Int × lua_State :=
  if size > LUAI_MAXCSTACK ∨ (L.top : Int) - L.base + size > LUAI_MAXCSTACK then (0, L)
  else if size > 0 then
    let L1 := luaD_checkstack L size.toNat
    if L1.ci.top < L1.top + size.toNat then
      (1, { L1 with ci := { L1.ci with top := L1.top + size.toNat } })
    else (1, L1)
  else (1, L)

/-- The function `lua_gettop`. -/
def lua_gettop (L : lua_State) : Int := (L.top : Int) - L.base

/-- The loop `while (L->top < L->base + idx) setnilvalue(L->top++);` of `lua_settop`,
with `target = L->base + idx`; it runs at most `target - top` times. -/
def settop_loop (target : Nat) : Nat → lua_State → Api lua_State
  | 0, L => .ok L
  | n + 1, L =>
    if L.top < target then do
      let L1 ← setobj L (.stack L.top) TValue.nil
      settop_loop target n { L1 with top := L1.top + 1 }
    else .ok L

/-- The function `lua_settop`. -/
def lua_settop (L : lua_State) (idx : Int) : Api lua_State :=
  if idx ≥ 0 then do
    api_check (idx ≤ (L.stack_last : Int) - L.base)
    let L1 ← settop_loop (L.base + idx.toNat) (L.base + idx.toNat - L.top) L
    return { L1 with top := L.base + idx.toNat }
  else do
    api_check (-(idx + 1) ≤ (L.top : Int) - L.base)
    return { L with top := ((L.top : Int) + (idx + 1)).toNat }

/-- The loop `while (++p < L->top) setobjs2s(L, p-1, p);` of `lua_remove`, entered with
`p` before the increment; it runs at most `top - p` times. -/
def remove_loop : Nat → Nat → lua_State → Api lua_State
  | 0, _, L => .ok L
  | n + 1, p, L =>
    if p + 1 < L.top then do
      let v ← getobj L (.stack (p + 1))
      let L1 ← setobj L (.stack p) v
      remove_loop n (p + 1) L1
    else .ok L

/-- The function `lua_remove`.  The loop compares `p` with `L->top`, which is defined
for a pointer into the stack only: with a pseudo-index `api_checkvalidindex` holds, the
comparison and the copies go through a pointer outside the stack, and `L->top--` follows
whatever they did; that call is reported as undefined behaviour. -/
def lua_remove (L : lua_State) (idx : Int) : Api lua_State := do
  let r ← index2adr L idx
  api_checkvalidindex r.1
  match r.1 with
  | .stack p =>
    let L1 ← remove_loop (r.2.top - p) p r.2
    return { L1 with top := L1.top - 1 }
  | _ => .error .undefined_behaviour

/-- The loop `for (q = L->top; q>p; q--) setobjs2s(L, q, q-1);` of `lua_insert`; it runs
at most `top - p` times. -/
def insert_loop (p : Nat) : Nat → Nat → lua_State → Api lua_State
  | 0, _, L => .ok L
  | n + 1, q, L =>
    if q > p then do
      let v ← getobj L (.stack (q - 1))
      let L1 ← setobj L (.stack q) v
      insert_loop p n (q - 1) L1
    else .ok L

/-- The function `lua_insert`.  The loop compares `q` with `p`, which is defined for a
pointer into the stack only: with a pseudo-index the call is reported as undefined
behaviour. -/
def lua_insert (L : lua_State) (idx : Int) : Api lua_State := do
  let r ← index2adr L idx
  api_checkvalidindex r.1
  match r.1 with
  | .stack p =>
    let L1 ← insert_loop p (r.2.top - p) r.2.top r.2
    let v ← getobj L1 (.stack L1.top)
    setobj L1 (.stack p) v
  | _ => .error .undefined_behaviour

/-- The function `lua_replace`. -/
def lua_replace (L : lua_State) (idx : Int) : Api lua_State :=
  if idx = LUA_ENVIRONINDEX ∧ L.callers = [] then .error .no_calling_environment
  else do
    api_checknelems L 1
    let r ← index2adr L idx
    api_checkvalidindex r.1
    let L0 := r.2
    let v ← getobj L0 (.stack (L0.top - 1))
    if idx = LUA_ENVIRONINDEX then do
      let func ← curr_func L0
      api_check (ttistable v = true)
      let h ← hvalue v
      return { L0 with
        l_G := { L0.l_G with closures := heapset L0.l_G.closures func.1 { func.2 with env := h } },
        top := L0.top - 1 }
    else do
      let L1 ← setobj L0 r.1 v
      return { L1 with top := L1.top - 1 }

/-- The function `lua_pushvalue`. -/
def lua_pushvalue (L : lua_State) (idx : Int) : Api lua_State := do
  let r ← index2adr L idx
  let v ← getobj r.2 r.1
  let L1 ← setobj r.2 (.stack r.2.top) v
  api_incr_top L1

/-- The function `lua_type`: the type code and the state. -/
def lua_type (L : lua_State) (idx : Int) : Api (Int × lua_State) := do
  let r ← index2adr L idx
  if r.1 = .nilobject then return (LUA_TNONE, r.2)
  else do
    let v ← getobj r.2 r.1
    return ((ttype v : Int), r.2)

/-- The function `lua_rawequal`: the result and the state. -/
def lua_rawequal (L : lua_State) (index1 index2 : Int) : Api (Int × lua_State) := do
  let r1 ← index2adr L index1
  let r2 ← index2adr r1.2 index2
  if r1.1 = .nilobject ∨ r2.1 = .nilobject then return (0, r2.2)
  else do
    let v1 ← getobj r2.2 r1.1
    let v2 ← getobj r2.2 r2.1
    return (if luaO_rawequalObj v1 v2 then 1 else 0, r2.2)

/-- The function `lua_toboolean`: the result and the state. -/
def lua_toboolean (L : lua_State) (idx : Int) : Api (Int × lua_State) := do
  let r ← index2adr L idx
  let v ← getobj r.2 r.1
  return (if l_isfalse v then 0 else 1, r.2)

/-- The function `lua_pushnil`. -/
def lua_pushnil (L : lua_State) : Api lua_State := do
  let L1 ← setobj L (.stack L.top) TValue.nil
  api_incr_top L1

/-- The function `lua_pushnumber`. -/
def lua_pushnumber (L : lua_State) (n : lua_Number) : Api lua_State := do
  let L1 ← setobj L (.stack L.top) (TValue.number n)
  api_incr_top L1

/-- The function `lua_pushinteger`. -/
def lua_pushinteger (L : lua_State) (n : Int) : Api lua_State := do
  let L1 ← setobj L (.stack L.top) (TValue.number (cast_num n))
  api_incr_top L1

/-- The function `lua_pushboolean`. -/
def lua_pushboolean (L : lua_State) (b : Int) : Api lua_State := do
  let L1 ← setobj L (.stack L.top) (TValue.boolean (b != 0))
  api_incr_top L1

/-- The function `lua_pushlightuserdata`. -/
def lua_pushlightuserdata (L : lua_State) (p : Nat) : Api lua_State := do
  let L1 ← setobj L (.stack L.top) (TValue.lightuserdata p)
  api_incr_top L1

/-- Modelled from the spec: `luaF_newCclosure` lives in lfunc.c, which is not among the
sources ("a foreign closure (function pointer + inline vector of upvalue cells used as
plain owned values)"): a new closure with `isC = 1`, the environment `e`,
`nupvalues = cast_byte(nelems)` and a vector of `nelems` cells, at an address that no
closure and no table has; a new cell reads as nil.  The result is the address. -/
def luaF_newCclosure (L : lua_State) (nelems : Int) (e : Nat) : Nat × lua_State :=
  let p := newaddr L.l_G
  let cl : Closure :=
    { isC := true, nupvalues := (nelems % 256).toNat, env := e, f := 0,
      upvalue := List.replicate nelems.toNat TValue.nil }
  (p, { L with l_G := { L.l_G with closures := heapset L.l_G.closures p cl } })

/-- The loop `while (n--) setobj2n(L, &cl->c.upvalue[n], L->top+n);` of
`lua_pushcclosure`, for the closure at address `p`; for `n ≥ 0` it runs `n` times, and
for `n < 0` the first store is outside the vector. -/
def pushcclosure_loop (p : Nat) : Nat → Int → lua_State → Api lua_State
  | 0, n, L => if n = 0 then .ok L else .error .undefined_behaviour
  | fuel + 1, n, L =>
    if n ≠ 0 then
      if n - 1 < 0 then .error .undefined_behaviour
      else do
        let v ← getobj L (.stack (L.top + (n - 1).toNat))
        let L1 ← setobj L (.upvalue p (n - 1).toNat) v
        pushcclosure_loop p fuel (n - 1) L1
    else .ok L

/-- The function `lua_pushcclosure`; `fn` stands for the function pointer. -/
def lua_pushcclosure (L : lua_State) (fn : Nat) (n : Int) : Api lua_State := do
  api_checknelems L n
  let e ← getcurrenv L
  let r := luaF_newCclosure L n e
  let cl := r.1
  let L1 := r.2
  match heapget L1.l_G.closures cl with
  | none => .error .undefined_behaviour
  | some c =>
    let L2 : lua_State :=
      { L1 with l_G := { L1.l_G with closures := heapset L1.l_G.closures cl { c with f := fn } } }
    let L3 : lua_State := { L2 with top := ((L2.top : Int) - n).toNat }
    let L4 ← pushcclosure_loop cl n.toNat n L3
    let L5 ← setobj L4 (.stack L4.top) (TValue.gc .function cl)
    api_incr_top L5

/-- The function `lua_createtable`, for sizes `narray, nrec ≥ 0`; the new table gets an
address that no table and no closure has.  An error of `luaH_new` is raised to the
caller. -/
def lua_createtable (L : lua_State) (narray nrec : Nat) : Api lua_State :=
  match luaH_new narray nrec with
  | .error e => .error (.runerror e.1)
  | .ok t => do
    let p := newaddr L.l_G
    let L1 ← setobj { L with l_G := { L.l_G with tables := heapset L.l_G.tables p t } }
      (.stack L.top) (TValue.gc .table p)
    api_incr_top L1

/-- The function `lua_rawseti`; `fuel` bounds the nesting of `rehash` calls in
`luaH_setnum`.  An error of `luaH_setnum` is raised to the caller. -/
def lua_rawseti (fuel : Nat) (L : lua_State) (idx : Int) (n : Int) : Api lua_State := do
  api_checknelems L 1
  let r ← index2adr L idx
  let o ← getobj r.2 r.1
  api_check (ttistable o = true)
  let h ← hvalue o
  match heapget r.2.l_G.tables h with
  | none => .error .undefined_behaviour
  | some t =>
    match luaH_setnum fuel t n with
    | .error e => .error (.runerror e.1)
    | .ok (s, t1) =>
      let v ← getobj r.2 (.stack (r.2.top - 1))
      return { r.2 with
        l_G := { r.2.l_G with tables := heapset r.2.l_G.tables h (setslot t1 s v) },
        top := r.2.top - 1 }

/-- The function `stack_init` of lstate.c, on a thread `L1` whose other fields are set.
`block` is the vector of `BASIC_STACK_SIZE + EXTRA_STACK` cells as `luaM_newvector`
returns it: the function writes nil to the cell `stack[0]` (the `function` entry of the
first `ci`) and leaves the other cells as they are. -/
def stack_init (block : List TValue) (L1 : lua_State) : lua_State :=
  { L1 with
    callers := [],
    stack := block.set 0 TValue.nil,
    stacksize := BASIC_STACK_SIZE + EXTRA_STACK,
    stack_last := (BASIC_STACK_SIZE + EXTRA_STACK - EXTRA_STACK) - 1,
    ci := { func := 0, base := 1, top := 1 + LUA_MINSTACK },
    top := 1,
    base := 1 }

/-! ## Specification of the stack API -/

/-- The invariant of the stack of a thread, `stack ≤ base ≤ top ≤ ci.top ≤ stack_last`,
with `stack_last` inside the block of `stacksize` cells. -/
structure StackInv (L : lua_State) : Prop where
  base_top : L.base ≤ L.top
  top_ci : L.top ≤ L.ci.top
  ci_last : L.ci.top ≤ L.stack_last
  last_size : L.stack_last < L.stacksize
  size : L.stack.length = L.stacksize

/-- The value at position `i` of the current frame, counted from 1: the content of the
stack slot `base + (i - 1)`; `none` outside the block. -/
def posval (L : lua_State) (i : Nat) : Option TValue := L.stack[L.base + (i - 1)]?

/-- The index `idx` is a valid stack index for position `p` of the frame, `1 ≤ p ≤ gettop`:
the positive index `p`, or the negative index `p - gettop - 1`, which is a stack index
when it is above the pseudo-indices. -/
def StackIndex (L : lua_State) (idx : Int) (p : Nat) : Prop :=
  1 ≤ p ∧ (p : Int) ≤ lua_gettop L ∧
    (idx = (p : Int) ∨ (idx = (p : Int) - lua_gettop L - 1 ∧ LUA_REGISTRYINDEX < idx))

/-- The argument of one of the push functions `lua_pushnil`, `lua_pushnumber`,
`lua_pushinteger`, `lua_pushboolean` and `lua_pushlightuserdata`. -/
inductive PushArg where
  | nil
  | number (n : lua_Number)
  | integer (n : Int)
  | boolean (b : Int)
  | lightuserdata (p : Nat)
deriving DecidableEq

/-- The call of the push function. -/
def push (L : lua_State) : PushArg → Api lua_State
  | .nil => lua_pushnil L
  | .number n => lua_pushnumber L n
  | .integer n => lua_pushinteger L n
  | .boolean b => lua_pushboolean L b
  | .lightuserdata p => lua_pushlightuserdata L p

/-- The Lua value that the argument of a push function stands for. -/
def pushed : PushArg → TValue
  | .nil => .nil
  | .number n => .number n
  | .integer n => .number (cast_num n)
  | .boolean b => .boolean (b != 0)
  | .lightuserdata p => .lightuserdata p

/-! ## Small thread states used to instantiate the theorems -/

/-- The state that an API call leaves, and the state `L` when the call fails. -/
def after (r : Api lua_State) (L : lua_State) : lua_State :=
  match r with
  | .ok L1 => L1
  | .error _ => L

/-- The table that `luaH_new(L, 0, 2)` returns. -/
def extable : Table :=
  match luaH_new 0 2 with
  | .ok t => t
  | .error e => e.2

/-- The main thread as `lua_newstate` sets it up, as far as the model goes: the stack of
`stack_init` on a block whose cells all read as nil, and the table of globals and the
registry of `f_luaopen`, at two addresses chosen freely. -/
def exthread : lua_State :=
  stack_init (List.replicate (BASIC_STACK_SIZE + EXTRA_STACK) TValue.nil)
    { top := 0, base := 0,
      l_G := { l_registry := .gc .table 64, tables := [(32, extable), (64, extable)],
               closures := [] },
      ci := { base := 0, func := 0, top := 0 }, stack_last := 0, stack := [], callers := [],
      stacksize := 0, l_gt := .gc .table 32, env := .nil }

/-- The main thread after `lua_pushinteger` of 10, 20 and 30. -/
def ex3 : lua_State :=
  after (lua_pushinteger (after (lua_pushinteger (after (lua_pushinteger exthread 10) exthread)
    20) exthread) 30) exthread

/-- The live values of the current frame, positions 1 to `gettop`. -/
def live (L : lua_State) : List TValue := (L.stack.drop L.base).take (L.top - L.base)

/-- A C function, called from the main thread with 10000 arguments (all `true`): the
frame that `luaD_precall` sets up has `base = func + 1`, the arguments above it and
`ci->top = top + LUA_MINSTACK`. -/
def exdeep : lua_State :=
  { top := 10001, base := 1,
    l_G := { l_registry := .gc .table 64, tables := [(32, extable), (64, extable)],
             closures := [(96, { isC := true, nupvalues := 0, env := 32, f := 1,
                                 upvalue := [] })] },
    ci := { base := 1, func := 0, top := 10001 + LUA_MINSTACK },
    stack_last := 10001 + LUA_MINSTACK,
    stack := TValue.gc .function 96 :: (List.replicate 10000 (TValue.boolean true) ++
      List.replicate (LUA_MINSTACK + 1 + EXTRA_STACK) TValue.nil),
    callers := [{ base := 1, func := 0, top := 1 + LUA_MINSTACK }],
    stacksize := 10001 + LUA_MINSTACK + 1 + EXTRA_STACK,
    l_gt := .gc .table 32, env := .nil }

/-- The calls of the push functions for a list of arguments, first to last. -/
def pushall : lua_State → List PushArg → Api lua_State
  | L, [] => .ok L
  | L, a :: as =>
    match push L a with
    | .ok L1 => pushall L1 as
    | .error e => .error e

/-- One pop: the value at index `-1`, then `lua_settop(L, -2)` (the macro
`lua_pop(L, 1)`). -/
def pop1 (L : lua_State) : Api (TValue × lua_State) := do
  let r ← index2adr L (-1)
  let v ← getobj r.2 r.1
  let L1 ← lua_settop r.2 (-2)
  return (v, L1)

/-- The values that `k` pops return, first to last, and the state they leave. -/
def popall : Nat → lua_State → Api (List TValue × lua_State)
  | 0, L => .ok ([], L)
  | k + 1, L =>
    match pop1 L with
    | .ok r =>
      match popall k r.2 with
      | .ok rest => .ok (r.1 :: rest.1, rest.2)
      | .error e => .error e
    | .error e => .error e

/-- The main thread after `lua_createtable(L, 0, 0)` and `lua_pushinteger` of 10, 20
and 30. -/
def ext3 : lua_State :=
  after (lua_pushinteger (after (lua_pushinteger (after (lua_pushinteger
    (after (lua_createtable exthread 0 0) exthread) 10) exthread) 20) exthread) 30) exthread

/-- The main thread after `lua_pushinteger` of 10, 20 and 30 and
`lua_pushcclosure(L, fn, 2)`, inside a call of the new closure without arguments: the
frame that `luaD_precall` sets up for a C function. -/
def excall : lua_State :=
  let L := after (lua_pushcclosure ex3 7 2) ex3
  { L with
    ci := { func := L.top - 1, base := L.top, top := L.top + LUA_MINSTACK },
    base := L.top,
    callers := L.ci :: L.callers }

/-! ## Counters used to instantiate the theorems on `computesizes` -/

/-- The counters `nums` of `rehash` for the integer keys 1 and 3: `countint` applied to
both, from counters that are all 0. -/
def nums13 : List Nat :=
  (countint (.number (cast_num 3)) (countint (.number (cast_num 1))
    (List.replicate (MAXBITS + 1) 0)).1).1

/-- The counters `nums` of `rehash` for the integer keys 1, 2, 3 and 5. -/
def nums1235 : List Nat :=
  (countint (.number (cast_num 5)) (countint (.number (cast_num 3))
    (countint (.number (cast_num 2)) (countint (.number (cast_num 1))
      (List.replicate (MAXBITS + 1) 0)).1).1).1).1

/-- A table with three keys of one main position: the light userdata 3, 6 and 9, added
in this order to the empty table (in 4 nodes they all hash to node 0). -/
def excoll : Table :=
  put (put (put ex0 (.lightuserdata 3) (.boolean true)) (.lightuserdata 6) (.boolean true))
    (.lightuserdata 9) (.boolean true)

/-! ## More of the stack API (`lapi.c`) -/

/-- The loop `for (i = 0; i < n; i++) setobj2s(to, to->top++, from->top + i);` of
`lua_xmove`, from round `i` on, with `k` rounds left; the result is the thread `to`. -/
def xmove_loop (fromL : lua_State) : Nat → Nat → lua_State → Api lua_State
  | 0, _, toL => .ok toL
  | k + 1, i, toL => do
    let v ← getobj fromL (.stack (fromL.top + i))
    let toL1 ← setobj toL (.stack toL.top) v
    xmove_loop fromL k (i + 1) { toL1 with top := toL1.top + 1 }

/-- The function `lua_xmove`.  The threads of the process are given with their
addresses in `ths`, and `pfrom`, `pto` are the pointers `from` and `to`.  Every thread
record carries the global state that `G(L)` points to, so the test `G(from) == G(to)`
compares these. -/
def lua_xmove (ths : List (Nat × lua_State)) (pfrom pto : Nat) (n : Int) :
    Api (List (Nat × lua_State)) :=
  if pfrom = pto then .ok ths
  else
    match heapget ths pfrom, heapget ths pto with
    | some fromL, some toL => do
      api_checknelems fromL n
      api_check (fromL.l_G = toL.l_G)
      api_check ((toL.ci.top : Int) - toL.top ≥ n)
      let fromL1 : lua_State := { fromL with top := ((fromL.top : Int) - n).toNat }
      let toL1 ← xmove_loop fromL1 n.toNat 0 toL
      return heapset (heapset ths pfrom fromL1) pto toL1
    | _, _ => .error .undefined_behaviour

/-- The function `lua_next`: the result `more` and the state.  `luaH_next` stores the
next key in the slot of the key, `L->top - 1`, and the value in the slot above it; an
error of `luaH_next` is raised to the caller. -/
def lua_next (L : lua_State) (idx : Int) : Api (Int × lua_State) := do
  let r ← index2adr L idx
  let t ← getobj r.2 r.1
  api_check (ttistable t = true)
  let h ← hvalue t
  match heapget r.2.l_G.tables h with
  | none => .error .undefined_behaviour
  | some tb =>
    if r.2.top = 0 then .error .undefined_behaviour
    else do
      let key ← getobj r.2 (.stack (r.2.top - 1))
      match luaH_next tb key with
      | .error e => .error (.runerror e)
      | .ok (some kv) => do
        let L1 ← setobj r.2 (.stack (r.2.top - 1)) kv.1
        let L2 ← setobj L1 (.stack L1.top) kv.2
        let L3 ← api_incr_top L2
        return (1, L3)
      | .ok none => return (0, { r.2 with top := r.2.top - 1 })

/-! ## Specification of more of the stack API -/

/-- A call of one of the functions `lua_settop`, `lua_pushvalue`, `lua_pushnil`,
`lua_pushnumber`, `lua_pushinteger`, `lua_pushboolean`, `lua_pushlightuserdata`,
`lua_remove`, `lua_insert` and `lua_replace`, with its arguments. -/
inductive StackOp where
  | settop (idx : Int)
  | pushvalue (idx : Int)
  | pusharg (a : PushArg)
  | remove (idx : Int)
  | insert (idx : Int)
  | replace (idx : Int)
deriving DecidableEq

/-- The call of the function. -/
def StackOp.run (L : lua_State) : StackOp → Api lua_State
  | .settop idx => lua_settop L idx
  | .pushvalue idx => lua_pushvalue L idx
  | .pusharg a => push L a
  | .remove idx => lua_remove L idx
  | .insert idx => lua_insert L idx
  | .replace idx => lua_replace L idx

/-- The chain `stack ≤ base ≤ top ≤ ci.top ≤ stack_last` of the stack invariant
(`stack ≤ base` holds of offsets from `stack`). -/
def StackChain (L : lua_State) : Prop :=
  L.base ≤ L.top ∧ L.top ≤ L.ci.top ∧ L.ci.top ≤ L.stack_last

/-- The index `idx` refers to a live slot of the frame: a positive index up to
`gettop`, or a negative one above the pseudo-indices and down to `-gettop`.  These are
the indices that `index2adr` resolves to a stack slot below `top`. -/
def liveindex (L : lua_State) (idx : Int) : Prop :=
  (0 < idx ∧ idx ≤ lua_gettop L) ∨
    (LUA_REGISTRYINDEX < idx ∧ idx < 0 ∧ -idx ≤ lua_gettop L)

instance (L : lua_State) (idx : Int) : Decidable (liveindex L idx) := by
  unfold liveindex
  infer_instance

/-- The conditions on a call of the stack API at a stack index: the `api_check`
conditions of the function (those of `index2adr`, `api_checkvalidindex`,
`api_checknelems` and `api_incr_top`), with an index above the pseudo-indices. -/
def StackOp.checks (L : lua_State) : StackOp → Prop
  | .settop idx =>
    (0 ≤ idx ∧ idx ≤ (L.stack_last : Int) - L.base) ∨
      (idx < 0 ∧ -(idx + 1) ≤ (L.top : Int) - L.base)
  | .pushvalue idx =>
    L.top < L.ci.top ∧
      ((0 < idx ∧ idx ≤ (L.ci.top : Int) - L.base) ∨
        (LUA_REGISTRYINDEX < idx ∧ idx < 0 ∧ -idx ≤ (L.top : Int) - L.base))
  | .pusharg _ => L.top < L.ci.top
  | .remove idx => liveindex L idx
  | .insert idx => liveindex L idx
  | .replace idx => liveindex L idx

instance (L : lua_State) (op : StackOp) : Decidable (StackOp.checks L op) := by
  cases op <;> unfold StackOp.checks <;> infer_instance

/-- The main thread after `lua_pushinteger(L, 0)` and `lua_pushboolean(L, 0)`: the
number 0 and `false`. -/
def ex0f : lua_State :=
  after (lua_pushboolean (after (lua_pushinteger exthread 0) exthread) 0) exthread

/-- Two threads of one global state: the thread at address 1 holds 10, 20 and 30 and the
one at address 2 is empty. -/
def exthreads : List (Nat × lua_State) := [(1, ex3), (2, exthread)]

/-- What a function of the stack API leaves as it is in the thread: the frame `base`
and `ci`, `stack_last`, and the size of the block. -/
def SameFrame (L L1 : lua_State) : Prop :=
  L1.base = L.base ∧ L1.ci = L.ci ∧ L1.stack_last = L.stack_last ∧
    L1.stacksize = L.stacksize ∧ L1.stack.length = L.stack.length

/-- The main thread after `lua_createtable(L, 0, 0)`, `lua_pushinteger` of 10, 20 and
30, `lua_rawseti(L, 1, 1)` and `lua_pushnil`: the table `{30}`, 10, 20 and nil. -/
def exnext : lua_State :=
  after (lua_pushnil (after (lua_rawseti 1 ext3 1 1) ext3)) ext3

/-- The table `{30}` as `lua_rawseti(L, 1, 1)` leaves the new table of `exnext`: one
array slot and no node. -/
def extab30 : Table :=
  { flags := 0, lsizenode := 0, metatable := none, array := [num 30], node := [dummynode_],
    isdummy := true, lastfree := 0, sizearray := 1 }

/-! ## Calls and protected calls (`lua_pcall`, `lua_error` of lapi.c; ldo.c from the
specification) -/

/-- Modelled from the spec: `LUA_MULTRET` is a constant of lua.h, not among the sources:
the request "leave as-is", -1 in Lua 5.1. -/
def LUA_MULTRET : Int := -1

/-- Modelled from the spec: `LUA_ERRRUN` is a constant of lua.h, not among the sources:
the error status "RuntimeError", 2 in Lua 5.1. -/
def LUA_ERRRUN : Int := 2

/-- Modelled from the spec: `LUA_ERRERR` is a constant of lua.h, not among the sources:
the "double-error status", 5 in Lua 5.1. -/
def LUA_ERRERR : Int := 5

/-- The macro `ttisfunction(o)`. -/
def ttisfunction (o : TValue) : Bool := ttype o == LUA_TFUNCTION

/-- How a call ends: it returns; or it raises an error (`raised errcode L`, with the
thread `L` as it is when control is transferred, the error object on top of its
stack); or the callee is not a foreign closure but a script function or a value with
a call handler, which run in the interpreter (lvm.c), outside this development. -/
inductive Outcome (α : Type) where
  | returned (a : α)
  | raised (errcode : Int) (L : lua_State)
  | interpreter

/-- A foreign function (`lua_CFunction`): called with the thread, it returns the number
of its results, which it has left on top of the stack, or raises an error. -/
abbrev lua_CFunction : Type := lua_State → Api (Outcome (Int × lua_State))

/-- Modelled from the spec: `luaD_poscall` lives in ldo.c, which is not among the sources
("on return it has left some number of results above `base`; truncate/pad to `nresults`
(or leave as-is if MULTRET)", "Pop the CallInfo"): the results, which start at
`firstResult`, replace the callee and its arguments. -/
def luaD_poscall (L : lua_State) (wanted : Int) (firstResult : Nat) : Api lua_State :=
  match L.callers with
  | [] => .error .undefined_behaviour
  | c :: cs =>
    let results := (L.stack.drop firstResult).take (L.top - firstResult)
    let res := if wanted = LUA_MULTRET then results
      else (results ++ List.replicate (wanted.toNat - results.length) TValue.nil).take wanted.toNat
    if L.ci.func + res.length ≤ L.stack.length then
      .ok { L with
        stack := L.stack.take L.ci.func ++ res ++ L.stack.drop (L.ci.func + res.length),
        top := L.ci.func + res.length, ci := c, callers := cs, base := c.base }
    else .error .undefined_behaviour

/-- Modelled from the spec: the frame that `luaD_precall` (ldo.c, not among the sources)
sets up for a foreign callee at `func` ("Push a new CallInfo; set its `func`,
`base = func+1`, `top = base + max_stack_needed`"): the callee gets its arguments and
`LUA_MINSTACK` free slots. -/
def precall_frame (L : lua_State) (func : Nat) : lua_State :=
  let L1 := luaD_checkstack L LUA_MINSTACK
  { L1 with
    ci := { func := func, base := func + 1, top := L1.top + LUA_MINSTACK },
    base := func + 1, callers := L1.ci :: L1.callers }

/-- Modelled from the spec: `luaD_call` lives in ldo.c, which is not among the sources
("Ensure the callee is at `top − (nargs+1)`", "Push a new CallInfo", "If callee is
foreign: invoke the function pointer with the thread; on return it has left some
number of results above `base`"); `code` gives the function that a function pointer
stands for. -/
def luaD_call (code : Nat → lua_CFunction) (L : lua_State) (func : Nat) (nresults : Int) :
    Api (Outcome lua_State) := do
  let fv ← getobj L (.stack func)
  match fv with
  | .gc .function p =>
    match heapget L.l_G.closures p with
    | none => .error .undefined_behaviour
    | some cl =>
      if cl.isC then do
        let r ← code cl.f (precall_frame L func)
        match r with
        | .returned nL => do
          let L4 ← luaD_poscall nL.2 nresults ((nL.2.top : Int) - nL.1).toNat
          return .returned L4
        | .raised e Lr => return .raised e Lr
        | .interpreter => return .interpreter
      else return .interpreter
  | _ => return .interpreter

/-- Modelled from the spec: `luaG_errormsg` lives in ldebug.c, which is not among the
sources ("`error(thread)` takes the top-of-stack value as the error object and
transfers control to the innermost active catch frame", "`errfunc` indexes an optional
message handler; if nonzero it is invoked with the raw error value and its result
replaces the error value on the stack"): a handler that is not a function gives the
double-error status. -/
def luaG_errormsg (code : Nat → lua_CFunction) (L : lua_State) :
    Api (Outcome (Int × lua_State)) :=
  if L.errfunc ≠ 0 then do
    let h ← getobj L (.stack L.errfunc)
    if ttisfunction h then do
      let e ← getobj L (.stack (L.top - 1))
      let L1 ← setobj L (.stack L.top) e
      let L2 ← setobj L1 (.stack (L.top - 1)) h
      let L3 := luaD_checkstack { L2 with top := L2.top + 1 } 1
      let r ← luaD_call code L3 (L3.top - 2) 1
      match r with
      | .returned L4 => return .raised LUA_ERRRUN L4
      | .raised s Lr => return .raised s Lr
      | .interpreter => return .interpreter
    else return .raised LUA_ERRERR L
  else return .raised LUA_ERRRUN L

/-- The function `lua_error`: the error object is on top of the stack. -/
def lua_error (code : Nat → lua_CFunction) (L : lua_State) :
    Api (Outcome (Int × lua_State)) := do
  api_checknelems L 1
  luaG_errormsg code L

/-- Modelled from the spec: `luaD_seterrorobj` lives in ldo.c, which is not among the
sources ("ensure the error message is on top of the stack at `oldtop`"): the error
object, on top of the stack when the error is raised, is copied to `oldtop`, and
`top = oldtop + 1`. -/
def luaD_seterrorobj (L : lua_State) (_errcode : Int) (oldtop : Nat) : Api lua_State := do
  let e ← getobj L (.stack (L.top - 1))
  let L1 ← setobj L (.stack oldtop) e
  return { L1 with top := oldtop + 1 }

/-- Modelled from the spec: `luaD_pcall` lives in ldo.c, which is not among the sources
("Snapshot `(ci_depth, base, top, error_handler, allow_hook, nCcalls)`", "Run
`f(thread, ud)`", "On success, leave thread state advanced and return OK", "On failure
at any nested depth, restore the snapshot (truncating the call chain and resetting top
to `oldtop`), ensure the error message is on top of the stack at `oldtop`, and return
the error status").  The hook flag and the counter of C calls are not in the model.
The result is the status and the state; `none` when the callee runs in the
interpreter. -/
def luaD_pcall (L : lua_State) (func : lua_State → Api (Outcome lua_State))
    (old_top ef : Nat) : Api (Option (Int × lua_State)) := do
  let depth := L.callers.length
  let old_errfunc := L.errfunc
  let r ← func { L with errfunc := ef }
  match r with
  | .returned L1 => return some (0, { L1 with errfunc := old_errfunc })
  | .interpreter => return none
  | .raised status Lr => do
    let L1 ← luaD_seterrorobj Lr status old_top
    let chain := L1.ci :: L1.callers
    if chain.length < depth + 1 then .error .undefined_behaviour
    else
      match chain.drop (chain.length - (depth + 1)) with
      | [] => .error .undefined_behaviour
      | c :: cs =>
        return some (status,
          { L1 with ci := c, callers := cs, base := c.base, errfunc := old_errfunc })

/-- The macro `checkresults(L, na, nr)`. -/
def checkresults (L : lua_State) (na nr : Int) : Api Unit :=
  api_check (nr = LUA_MULTRET ∨ (L.ci.top : Int) - L.top ≥ nr - na)

/-- The macro `adjustresults(L, nres)`. -/
def adjustresults (L : lua_State) (nres : Int) : lua_State :=
  if nres = LUA_MULTRET ∧ L.top ≥ L.ci.top then { L with ci := { L.ci with top := L.top } }
  else L

/-- Modelled from the spec: `savestack(L, p)` is a macro of ldo.h, not among the sources:
the offset of a stack slot from `L->stack`; the difference is undefined for a pointer
that is not into the stack. -/
def savestack : Addr → Api Nat
  | .stack i => .ok i
  | _ => .error .undefined_behaviour

/-- The function `lua_pcall` (with `f_call`): the status and the state; `none` when
the callee runs in the interpreter. -/
def lua_pcall (code : Nat → lua_CFunction) (L : lua_State) (nargs nresults errfunc : Int) :
    Api (Option (Int × lua_State)) := do
  api_checknelems L (nargs + 1)
  checkresults L nargs nresults
  let r ← (if errfunc = 0 then (pure (0, L) : Api (Nat × lua_State))
    else do
      let o ← index2adr L errfunc
      api_checkvalidindex o.1
      let func ← savestack o.1
      pure (func, o.2))
  let cfunc := ((r.2.top : Int) - (nargs + 1)).toNat
  let res ← luaD_pcall r.2 (fun L1 => luaD_call code L1 cfunc nresults) cfunc r.1
  match res with
  | some sL => return some (sL.1, adjustresults sL.2 nresults)
  | none => return none

/-- Function pointers for the examples: 8 is a message handler that returns `true` in
place of the error value, every other one a function without results. -/
def excode0 : Nat → lua_CFunction := fun f L =>
  if f = 8 then do
    let L1 ← lua_pushboolean L 1
    return .returned (1, L1)
  else .ok (.returned (0, L))

/-- A foreign function that pushes the junk values `junk` and the error object 42 and
raises the error. -/
def exraise (junk : List PushArg) : lua_CFunction := fun L => do
  let L1 ← pushall L junk
  let L2 ← lua_pushinteger L1 42
  lua_error excode0 L2

/-- Function pointers for the examples: 7 pushes three junk values and raises the error
42; the others are those of `excode0`. -/
def excode : Nat → lua_CFunction := fun f =>
  if f = 7 then exraise [.boolean 1, .nil, .integer 5] else excode0 f

/-- The main thread with 10, 20 and 30, the foreign closure of the function pointer 7
and its argument 99. -/
def expcall : lua_State :=
  after (lua_pushinteger (after (lua_pushcclosure ex3 7 0) ex3) 99) ex3

/-- The main thread with the foreign closure of the function pointer 8 (a message
handler), 10, the foreign closure of the function pointer 7 and its argument 99. -/
def exhandler : lua_State :=
  let L1 := after (lua_pushcclosure exthread 8 0) exthread
  let L2 := after (lua_pushinteger L1 10) L1
  let L3 := after (lua_pushcclosure L2 7 0) L2
  after (lua_pushinteger L3 99) L3

/-- The thread `expcall` inside the call of its foreign function, when the three junk
values and the error object 42 are pushed. -/
def exraised : lua_State :=
  let L1 := precall_frame expcall 4
  let L2 := after (pushall L1 [.boolean 1, .nil, .integer 5]) L1
  after (lua_pushinteger L2 42) L2

/-! ## Strings and `lua_concat` (lapi.c; lstring.c and lvm.c from the specification) -/

/-- The macro `getstr(ts)` of lobject.h: the bytes that follow the header, `none` for a
dangling pointer. -/
def getstr (g : global_State) (ts : TString) : Option (List Nat) := heapget g.strings ts.addr

/-- Modelled from the spec: the loop of the hash in `luaS_newlstr` (lstring.c is not among
the sources): from `l1` down in steps of `step`, on 32-bit unsigned integers. -/
def luaS_hash_loop (str : List Nat) (step : Nat) : Nat → Nat → Nat → Nat
  | 0, _, h => h
  | fuel + 1, l1, h =>
    if l1 ≥ step then
      luaS_hash_loop str step fuel (l1 - step)
        (h ^^^ (((h <<< 5) + (h >>> 2) + str.getD (l1 - 1) 0) % 2 ^ 32))
    else h

/-- Modelled from the spec: the hash in `luaS_newlstr` (lstring.c is not among the
sources): "a hash over length-bounded samples of the bytes for long strings (skip factor
derived from length)". -/
def luaS_hash (str : List Nat) : Nat :=
  luaS_hash_loop str ((str.length >>> 5) + 1) str.length str.length (str.length % 2 ^ 32)

/-- Modelled from the spec: `luaS_newlstr` lives in lstring.c, which is not among the
sources ("table keyed by (length, contents)", "On miss, allocate a fresh immutable
string and link it"): the string of the pool with these bytes, a new one when the pool
has none. -/
def luaS_newlstr (g : global_State) (str : List Nat) : TString × global_State :=
  match g.strings.find? (fun e => heapget g.strings e.1 = some str) with
  | some e => (⟨e.1, luaS_hash str⟩, g)
  | none =>
    (⟨newaddr g, luaS_hash str⟩, { g with strings := heapset g.strings (newaddr g) str })

/-- The bytes of the operands of a concatenation, first to last: `none` when an operand
is not a string. -/
def concat_bytes (g : global_State) : List TValue → Api (Option (List Nat))
  | [] => .ok (some [])
  | .string s :: vs =>
    match getstr g s with
    | none => .error .undefined_behaviour
    | some b =>
      match concat_bytes g vs with
      | .ok (some r) => .ok (some (b ++ r))
      | .ok none => .ok none
      | .error e => .error e
  | _ :: _ => .ok none

/-- Modelled from the spec: `luaV_concat` lives in lvm.c, which is not among the sources
("`concat` of n strings equals left-to-right byte concatenation"): the `total` values
that end at `base + last`, when all are strings, give the string of their bytes, stored
in the slot of the first of them.  The result is `none` when an operand is not a
string: the conversion of numbers and the concatenation handlers are outside this
development. -/
def luaV_concat (L : lua_State) (total : Nat) (last : Int) : Api (Option lua_State) :=
  let top := ((L.base : Int) + last + 1).toNat
  let first := top - total
  match concat_bytes L.l_G ((L.stack.drop first).take total) with
  | .error e => .error e
  | .ok none => .ok none
  | .ok (some bytes) =>
    let r := luaS_newlstr L.l_G bytes
    match setobj { L with l_G := r.2 } (.stack first) (TValue.string r.1) with
    | .ok L1 => .ok (some L1)
    | .error e => .error e

/-- The function `lua_concat`; `luaC_checkGC` has no effect in the model, which never
frees an object, and `cast_int` is the identity on the size of a frame, as in
`lua_gettop`.  The result is `none` when an operand is not a string. -/
def lua_concat (L : lua_State) (n : Int) : Api (Option lua_State) := do
  api_checknelems L n
  if n ≥ 2 then do
    let r ← luaV_concat L n.toNat ((L.top : Int) - L.base - 1)
    match r with
    | some L1 => return some { L1 with top := ((L1.top : Int) - (n - 1)).toNat }
    | none => return none
  else if n = 0 then do
    let r := luaS_newlstr L.l_G []
    let L1 ← setobj { L with l_G := r.2 } (.stack L.top) (TValue.string r.1)
    let L2 ← api_incr_top L1
    return some L2
  else return some L

/-- The function `lua_pushlstring`, with the bytes of the string. -/
def lua_pushlstring (L : lua_State) (s : List Nat) : Api lua_State := do
  let r := luaS_newlstr L.l_G s
  let L1 ← setobj { L with l_G := r.2 } (.stack L.top) (TValue.string r.1)
  api_incr_top L1

/-- The main thread with 10 and the strings "ab", "" and "c". -/
def exstrings : lua_State :=
  let L1 := after (lua_pushinteger exthread 10) exthread
  let L2 := after (lua_pushlstring L1 [97, 98]) L1
  let L3 := after (lua_pushlstring L2 []) L2
  after (lua_pushlstring L3 [99]) L3

/-- The bytes of the strings among the live values of the current frame. -/
def livebytes (L : lua_State) : List (Option (List Nat)) :=
  (live L).map (fun v =>
    match v with
    | .string s => getstr L.l_G s
    | _ => none)

/-! ## Definitions for the claims on the searches and on `computesizes` -/

/-- The table that `luaH_new(L, 4, 0)` returns. -/
def exnew4 : Table :=
  match luaH_new 4 0 with
  | .ok t => t
  | .error e => e.2

/-- The table `{nil, 20, nil, nil}`: the new table with four array cells after
`t[2] = 20`. -/
def exhole : Table := put exnew4 (num 2) (num 20)

/-- The table `{[2] = 20}`: the empty table after `t[2] = 20`, which goes to the hash
part. -/
def exhash2 : Table := put ex0 (num 2) (num 20)

/-- The loop of `computesizes` with the reads of `nums` checked: `none` when `nums[i]` is
read outside the array of counters. -/
def computesizes_loop_chk (nums : List Nat) (narray : Nat) :
    Nat → Nat → Nat → Nat → Nat → Nat → Option (Nat × Nat)
  | 0, _, _, _, na, n => some (n, na)
  | fuel + 1, i, twotoi, a, na, n =>
    if twotoi / 2 < narray then
      match nums[i]? with
      | none => none
      | some c =>
        let a1 := if 0 < c then a + c else a
        let n1 := if 0 < c ∧ twotoi / 2 < a1 then twotoi else n
        let na1 := if 0 < c ∧ twotoi / 2 < a1 then a1 else na
        if a1 = narray then some (n1, na1)
        else computesizes_loop_chk nums narray fuel (i + 1) (twotoi * 2) a1 na1 n1
    else some (n, na)

/-- The function `computesizes` with the reads of `nums` checked. -/
def computesizes_chk (nums : List Nat) (narray : Nat) : Option (Nat × Nat) :=
  computesizes_loop_chk nums narray (narray + 2) 0 1 0 0 0

/-- The counters `nums` and the count `nasize` that `rehash` hands to `computesizes`. -/
def rehash_nums (t : Table) (ek : TValue) : List Nat × Nat :=
  let nums := List.replicate (MAXBITS + 1) 0
  let r1 := numusearray t nums
  let r2 := numusehash t r1.2 r1.1
  let r3 := countint ek r2.2.2
  (r3.1, r2.2.1 + r3.2)

/-- The table with `flags` reset to 0, as `luaH_set` leaves it. -/
def resetflags (t : Table) : Table := { t with flags := 0 }

/-- The result of a function of the `luaH_set` family, with the `flags` of its table
reset to 0. -/
def resetres : Res (Slot × Table) → Res (Slot × Table)
  | .ok r => .ok (r.1, resetflags r.2)
  | .error e => .error (e.1, resetflags e.2)

/-- The result of `resize` or `rehash`, with the `flags` of its table reset to 0. -/
def resettab : Res Table → Res Table
  | .ok t => .ok (resetflags t)
  | .error e => .error (e.1, resetflags e.2)

/-- Modelled from the spec: the collector (lgc.c) is not among the sources.  A node whose
key it marks dead: "mark its slot key-type as "dead" (keeping the pointer bits for
equality during the scan) but clear its value to nil". -/
def deadnode (n : Node) : Node :=
  { n with i_val := .nil, i_key := .gc .deadkey (gcvalue n.i_key) }

/-- Modelled from the spec: the table after the collector marked dead the keys of the
nodes that `dead` selects, those of them that are collectable ("When a collectable key
in the hash part becomes unreachable except through `next` iteration in progress"). -/
def markdead (dead : Nat → Bool) (t : Table) : Table :=
  { t with
    node := (List.range t.node.length).map (fun i =>
      if dead i && iscollectable (gnode t i).i_key then deadnode (gnode t i)
      else gnode t i) }

/-- A table object for the examples, at an address chosen freely. -/
def tab (i : Nat) : TValue := .gc .table (8192 + 64 * i)

/-- The table `{[s] = 10, [u] = 20}` for a string `s` and a table `u`, built key by
key from the empty table. -/
def exkeys : Table := put (put ex0 (str 1) (num 10)) (tab 1) (num 20)

theorem shiftRight_eq_zero_iff (n m : Nat) : n >>> m = 0 ↔ n < 2 ^ m := by
  rw [Nat.shiftRight_eq_div_pow, Nat.div_eq_zero_iff (Nat.pos_pow_of_pos m (by decide))]

theorem bitlenSearch_spec (k : Nat) : ∀ (n lo : Nat), n < 2 ^ (lo + 2 ^ k) →
    lo ≤ bitlenSearch k n lo ∧ n < 2 ^ bitlenSearch k n lo ∧
      ∀ l, lo ≤ l → n < 2 ^ l → bitlenSearch k n lo ≤ l := by
  induction k with
  | zero =>
    intro n lo h
    unfold bitlenSearch
    by_cases h0 : n < 2 ^ lo
    · rw [if_pos ((shiftRight_eq_zero_iff _ _).2 h0)]
      exact ⟨le_refl _, h0, fun l hl _ => hl⟩
    · rw [if_neg (fun e => h0 ((shiftRight_eq_zero_iff _ _).1 e))]
      refine ⟨by omega, by simpa using h, fun l hl hn => ?_⟩
      by_contra hc
      have : l = lo := by omega
      subst this
      exact h0 hn
  | succ k ih =>
    intro n lo h
    unfold bitlenSearch
    simp only [Nat.one_shiftLeft, shiftRight_eq_zero_iff]
    by_cases h0 : n < 2 ^ (lo + 2 ^ k)
    · rw [if_pos h0]
      exact ih n lo h0
    · rw [if_neg h0]
      have h1 : n < 2 ^ (lo + 2 ^ k + 2 ^ k) := by
        have : lo + 2 ^ k + 2 ^ k = lo + 2 ^ (k + 1) := by rw [pow_succ]; omega
        rw [this]; exact h
      obtain ⟨a, b, c⟩ := ih n (lo + 2 ^ k) h1
      refine ⟨Nat.le_trans (Nat.le_add_right _ _) a, b, fun l hl hn => ?_⟩
      apply c l _ hn
      by_contra hc
      apply h0
      exact lt_of_lt_of_le hn (Nat.pow_le_pow_right (by decide) (by omega))

theorem bitlenUpper_spec (fuel : Nat) : ∀ (n k : Nat),
    n < 2 ^ 2 ^ bitlenUpper fuel n k ∨ bitlenUpper fuel n k = k + fuel := by
  induction fuel with
  | zero => intro n k; right; rfl
  | succ f ih =>
    intro n k
    unfold bitlenUpper
    simp only [Nat.one_shiftLeft, shiftRight_eq_zero_iff]
    by_cases h0 : n < 2 ^ 2 ^ k
    · rw [if_pos h0]; left; exact h0
    · rw [if_neg h0]
      rcases ih n (k + 1) with h | h
      · left; exact h
      · right; omega

theorem bitlen_spec (n : Nat) : n < 2 ^ bitlen n ∧ ∀ l, n < 2 ^ l → bitlen n ≤ l := by
  have hu : n < 2 ^ 2 ^ bitlenUpper n n 0 := by
    rcases bitlenUpper_spec n n 0 with h | h
    · exact h
    · rw [h]
      have h1 : n < 2 ^ n := Nat.lt_two_pow n
      have h2 : n < 2 ^ (0 + n) := by simpa using h1
      exact lt_of_lt_of_le h1 (Nat.pow_le_pow_right (by decide) (by simpa using (le_of_lt h2)))
  obtain ⟨_, b, c⟩ := bitlenSearch_spec (bitlenUpper n n 0) n 0 (by simpa using hu)
  exact ⟨b, fun l hl => c l (Nat.zero_le _) hl⟩

theorem bitlen_eq (n l : Nat) (h1 : 2 ^ l ≤ n) (h2 : n < 2 ^ (l + 1)) : bitlen n = l + 1 := by
  obtain ⟨a, b⟩ := bitlen_spec n
  have := b _ h2
  by_contra hc
  have h3 : bitlen n ≤ l := by omega
  have : 2 ^ bitlen n ≤ 2 ^ l := Nat.pow_le_pow_right (by decide) h3
  omega

theorem bitlen_zero : bitlen 0 = 0 := by
  have := (bitlen_spec 0).2 0 (by decide)
  omega

theorem bitlen_pos (n : Nat) (h : 0 < n) : 2 ^ (bitlen n - 1) ≤ n ∧ 0 < bitlen n := by
  obtain ⟨a, b⟩ := bitlen_spec n
  have hpos : 0 < bitlen n := by
    by_contra hc
    have : bitlen n = 0 := by omega
    rw [this] at a
    simp at a
    omega
  refine ⟨?_, hpos⟩
  by_contra hc
  push_neg at hc
  have := b _ hc
  omega

/-- What `luai_numeq a b` says about the fields. -/
theorem luai_numeq_iff (a b : lua_Number) : luai_numeq a b = true ↔
    a.isnan = false ∧ b.isnan = false ∧
      ((a.sign = b.sign ∧ a.expo = b.expo ∧ a.mant = b.mant) ∨
        (a.expo = 0 ∧ a.mant = 0 ∧ b.expo = 0 ∧ b.mant = 0)) := by
  simp only [luai_numeq, Bool.and_eq_true, Bool.or_eq_true, Bool.not_eq_true', beq_iff_eq]
  tauto

theorem luai_numeq_symm (a b : lua_Number) (h : luai_numeq a b = true) :
    luai_numeq b a = true := by
  rw [luai_numeq_iff] at h ⊢
  obtain ⟨h1, h2, h3⟩ := h
  refine ⟨h2, h1, ?_⟩
  rcases h3 with ⟨x, y, z⟩ | ⟨x, y, z, w⟩
  · exact Or.inl ⟨x.symm, y.symm, z.symm⟩
  · exact Or.inr ⟨z, w, x, y⟩

theorem luai_numeq_trans (a b c : lua_Number) (h : luai_numeq a b = true)
    (h' : luai_numeq b c = true) : luai_numeq a c = true := by
  rw [luai_numeq_iff] at h h' ⊢
  obtain ⟨h1, h2, h3⟩ := h
  obtain ⟨_, h5, h6⟩ := h'
  refine ⟨h1, h5, ?_⟩
  rcases h3 with ⟨x, y, z⟩ | ⟨x, y, z, w⟩ <;> rcases h6 with ⟨x', y', z'⟩ | ⟨x', y', z', w'⟩
  · exact Or.inl ⟨x.trans x', y.trans y', z.trans z'⟩
  · exact Or.inr ⟨y.trans x', z.trans y', z', w'⟩
  · exact Or.inr ⟨x, y, y'.symm.trans z, z'.symm.trans w⟩
  · exact Or.inr ⟨x, y, z', w'⟩

theorem luai_numeq_refl_left (a b : lua_Number) (h : luai_numeq a b = true) :
    luai_numeq a a = true := by
  rw [luai_numeq_iff] at h ⊢
  exact ⟨h.1, h.1, Or.inl ⟨rfl, rfl, rfl⟩⟩

theorem luai_numeq_self (a : lua_Number) : luai_numeq a a = !a.isnan := by
  cases h : a.isnan
  · exact (luai_numeq_iff a a).2 ⟨h, h, Or.inl ⟨rfl, rfl, rfl⟩⟩
  · simp [luai_numeq, h]

theorem luai_numisnan_eq (a : lua_Number) : luai_numisnan a = a.isnan := by
  simp [luai_numisnan, luai_numeq_self]

/-- Equal numbers have the same sum with 1: `hashnum` sees `+0` and `-0` alike. -/
theorem add1_congr (a b : lua_Number) (h : luai_numeq a b = true) : a.add1 = b.add1 := by
  rw [luai_numeq_iff] at h
  obtain ⟨h1, h2, h3⟩ := h
  rcases h3 with ⟨x, y, z⟩ | ⟨x, y, z, w⟩
  · simp only [lua_Number.add1, lua_Number.isnan, lua_Number.isinf, lua_Number.scaled,
      lua_Number.mag, x, y, z]
  · have ha : a.isinf = false := by simp [lua_Number.isinf, x]
    have hb : b.isinf = false := by simp [lua_Number.isinf, z]
    simp only [lua_Number.add1, h1, h2, ha, hb, lua_Number.scaled, lua_Number.mag, x, y, z, w]
    simp

theorem lua_number2int_congr (a b : lua_Number) (h : luai_numeq a b = true) :
    lua_number2int a = lua_number2int b := by
  rw [luai_numeq_iff] at h
  obtain ⟨h1, h2, h3⟩ := h
  rcases h3 with ⟨x, y, z⟩ | ⟨x, y, z, w⟩
  · simp only [lua_number2int, lua_Number.isnan, lua_Number.isinf,
      lua_Number.mag, x, y, z]
  · have ha : a.isinf = false := by simp [lua_Number.isinf, x]
    have hb : b.isinf = false := by simp [lua_Number.isinf, z]
    simp only [lua_number2int, h1, h2, ha, hb, lua_Number.mag, x, y, z, w]
    simp

theorem hashnum_congr (t : Table) (a b : lua_Number) (h : luai_numeq a b = true) :
    hashnum t a = hashnum t b := by
  simp only [hashnum, add1_congr a b h]

theorem arrayindex_congr (a b : lua_Number) (h : luai_numeq a b = true) :
    arrayindex (.number a) = arrayindex (.number b) := by
  simp only [arrayindex, lua_number2int_congr a b h]
  by_cases c : luai_numeq (cast_num (lua_number2int b)) a = true
  · rw [if_pos c, if_pos (luai_numeq_trans _ _ _ c h)]
  · rw [if_neg c, if_neg (fun c' => c (luai_numeq_trans _ _ _ c' (luai_numeq_symm _ _ h)))]

/-- Rounding is exact on `m * 2 ^ e` when `m` has at most 53 binary digits. -/
theorem roundMag_exact (m l e : Nat) (h1 : 2 ^ l ≤ m) (h2 : m < 2 ^ (l + 1)) (hl : l ≤ 52)
    (he : 53 ≤ l + e) (he2 : l + e < 2046 + 52) :
    lua_Number.roundMag (m * 2 ^ e) = (l + e - 52) * 2 ^ 52 + m * 2 ^ (52 - l) := by
  have hge : 2 ^ (l + e) ≤ m * 2 ^ e := by
    rw [pow_add]; exact Nat.mul_le_mul_right _ h1
  have hlt : m * 2 ^ e < 2 ^ (l + e + 1) := by
    have : l + e + 1 = (l + 1) + e := by omega
    rw [this, pow_add]
    exact Nat.mul_lt_mul_of_pos_right h2 (Nat.two_pow_pos e)
  have hbl := bitlen_eq _ _ hge hlt
  have h53 : ¬ m * 2 ^ e < 2 ^ 53 := by
    have : 2 ^ 53 ≤ 2 ^ (l + e) := Nat.pow_le_pow_right (by decide) he
    omega
  have hsh : l + e + 1 - 53 = l + e - 52 := by omega
  have hq : (m * 2 ^ e) >>> (l + e - 52) = m * 2 ^ (52 - l) := by
    rw [Nat.shiftRight_eq_div_pow]
    have h3 : 2 ^ e = 2 ^ (52 - l) * 2 ^ (l + e - 52) := by
      rw [← pow_add]; congr 1; omega
    rw [h3, ← Nat.mul_assoc]
    exact Nat.mul_div_cancel _ (Nat.two_pow_pos _)
  have hr : m * 2 ^ e - (m * 2 ^ (52 - l)) <<< (l + e - 52) = 0 := by
    rw [Nat.shiftLeft_eq, Nat.mul_assoc, ← pow_add]
    have : (52 - l) + (l + e - 52) = e := by omega
    rw [this]; exact Nat.sub_self _
  have hhalf : 0 < 1 <<< (l + e - 52 - 1) := by
    rw [Nat.one_shiftLeft]; exact Nat.two_pow_pos _
  have hqlt : m * 2 ^ (52 - l) < 2 ^ 53 := by
    have : 53 = (l + 1) + (52 - l) := by omega
    rw [this, pow_add]
    exact Nat.mul_lt_mul_of_pos_right h2 (Nat.two_pow_pos _)
  unfold lua_Number.roundMag
  rw [if_neg h53]
  simp only [hbl, hsh, hq, hr]
  have hc : ¬ (1 <<< (l + e - 52 - 1) < 0 ∨
      (0 = 1 <<< (l + e - 52 - 1) ∧ m * 2 ^ (52 - l) % 2 = 1)) := by
    intro h
    rcases h with h | h
    · omega
    · omega
  rw [if_neg hc]
  have hb : ¬ 2047 * 2 ^ 52 ≤ (l + e - 52) * 2 ^ 52 + m * 2 ^ (52 - l) := by
    have : (l + e - 52) ≤ 2045 := by omega
    have := Nat.mul_le_mul_right (2 ^ 52) this
    omega
  rw [if_neg hb]

/-- The three fields of a bit pattern put together from them. -/
theorem fields_of_bits (s E M : Nat) (hs : s < 2) (hE : E < 2048) (hM : M < 2 ^ 52) :
    (lua_Number.mk (s * 2 ^ 63 + (E * 2 ^ 52 + M))).sign = s ∧
    (lua_Number.mk (s * 2 ^ 63 + (E * 2 ^ 52 + M))).expo = E ∧
    (lua_Number.mk (s * 2 ^ 63 + (E * 2 ^ 52 + M))).mant = M := by
  simp only [lua_Number.sign, lua_Number.expo, lua_Number.mant]
  refine ⟨by omega, by omega, by omega⟩

/-- The double made of sign `s` and the exact magnitude `m * 2 ^ e` (in units of
`2^-1074`), for `m` of at most 32 binary digits. -/
theorem encode_fields (s m l e : Nat) (hs : s < 2) (h1 : 2 ^ l ≤ m) (h2 : m < 2 ^ (l + 1))
    (hl : l ≤ 31) (he : 53 ≤ e) (he2 : e < 1500) :
    let x := lua_Number.mk (s * 2 ^ 63 + lua_Number.roundMag (m * 2 ^ e))
    x.sign = s ∧ x.isnan = false ∧ x.isinf = false ∧ x.mag = m * 2 ^ e := by
  intro x
  have hr := roundMag_exact m l e h1 h2 (by omega) (by omega) (by omega)
  have hq1 : 2 ^ 52 ≤ m * 2 ^ (52 - l) := by
    have : 2 ^ 52 = 2 ^ l * 2 ^ (52 - l) := by rw [← pow_add]; congr 1; omega
    rw [this]; exact Nat.mul_le_mul_right _ h1
  have hq2 : m * 2 ^ (52 - l) < 2 ^ 53 := by
    have : 2 ^ 53 = 2 ^ (l + 1) * 2 ^ (52 - l) := by rw [← pow_add]; congr 1; omega
    rw [this]; exact Nat.mul_lt_mul_of_pos_right h2 (Nat.two_pow_pos _)
  have hb : lua_Number.roundMag (m * 2 ^ e) =
      (l + e - 51) * 2 ^ 52 + (m * 2 ^ (52 - l) - 2 ^ 52) := by
    rw [hr]
    have : l + e - 51 = (l + e - 52) + 1 := by omega
    rw [this, Nat.add_mul]
    omega
  obtain ⟨f1, f2, f3⟩ := fields_of_bits s (l + e - 51) (m * 2 ^ (52 - l) - 2 ^ 52) hs
    (by omega) (by omega)
  have hx : x = lua_Number.mk (s * 2 ^ 63 + ((l + e - 51) * 2 ^ 52 +
      (m * 2 ^ (52 - l) - 2 ^ 52))) := by
    show lua_Number.mk _ = _
    rw [hb]
  rw [hx]
  refine ⟨f1, ?_, ?_, ?_⟩
  · unfold lua_Number.isnan
    rw [f2, beq_eq_false_iff_ne.2 (by omega), Bool.false_and]
  · unfold lua_Number.isinf
    rw [f2, beq_eq_false_iff_ne.2 (by omega), Bool.false_and]
  · unfold lua_Number.mag
    rw [f2, f3, if_neg (by omega), Nat.shiftLeft_eq]
    have h3 : 2 ^ 52 + (m * 2 ^ (52 - l) - 2 ^ 52) = m * 2 ^ (52 - l) := by omega
    have h4 : 52 - l + (l + e - 51 - 1) = e := by omega
    rw [h3, Nat.mul_assoc, ← pow_add, h4]

/-- Bounds of the binary logarithm of a positive number below `2^32`. -/
theorem exists_log (m : Nat) (h0 : 0 < m) (h : m < 2 ^ 32) :
    ∃ l, l ≤ 31 ∧ 2 ^ l ≤ m ∧ m < 2 ^ (l + 1) := by
  obtain ⟨a, b⟩ := bitlen_spec m
  obtain ⟨c, d⟩ := bitlen_pos m h0
  refine ⟨bitlen m - 1, ?_, c, ?_⟩
  · have := b 32 h; omega
  · have : bitlen m - 1 + 1 = bitlen m := by omega
    rw [this]; exact a

/-- An `int` survives the conversion to `double` and back. -/
theorem cast_num_int (i : Int) (h1 : -(2 ^ 31) ≤ i) (h2 : i < 2 ^ 31) :
    lua_number2int (cast_num i) = i ∧ (cast_num i).isnan = false := by
  by_cases h0 : i = 0
  · subst h0
    exact ⟨by decide, by decide⟩
  · have hm0 : 0 < i.natAbs := Int.natAbs_pos.2 h0
    have hm : i.natAbs < 2 ^ 32 := by omega
    obtain ⟨l, hl, hl1, hl2⟩ := exists_log _ hm0 hm
    obtain ⟨e, he⟩ : ∃ e : Nat, e = 1074 := ⟨_, rfl⟩
    have key : ∀ s : Nat, s < 2 → (if s = 1 then -(i.natAbs : Int) else (i.natAbs : Int)) = i →
        lua_number2int (lua_Number.mk (s * 2 ^ 63 + lua_Number.roundMag (i.natAbs * 2 ^ e))) = i ∧
        (lua_Number.mk (s * 2 ^ 63 + lua_Number.roundMag (i.natAbs * 2 ^ e))).isnan = false := by
      intro s hs hi
      obtain ⟨f1, f2, f3, f4⟩ := encode_fields s i.natAbs l e hs hl1 hl2 hl (by omega) (by omega)
      refine ⟨?_, f2⟩
      unfold lua_number2int
      simp only [f1, f2, f3, f4, Bool.or_self, Bool.false_eq_true, if_false]
      rw [← he, Nat.shiftRight_eq_div_pow, Nat.mul_div_cancel _ (Nat.two_pow_pos _), hi,
        if_pos ⟨h1, h2⟩]
    unfold cast_num lua_Number.ofScaled
    rw [← he]
    by_cases hneg : i < 0
    · have hpos : 0 < i.natAbs <<< e := by
        rw [Nat.shiftLeft_eq]; exact Nat.mul_pos hm0 (Nat.two_pow_pos _)
      rw [if_pos hneg, if_pos (by omega), Int.natAbs_neg, Int.natAbs_ofNat, Nat.shiftLeft_eq]
      have := key 1 (by decide) (by rw [if_pos rfl]; omega)
      simpa using this
    · rw [if_neg hneg, if_neg (Int.not_lt.2 (Int.ofNat_nonneg _)), Int.natAbs_ofNat,
        Nat.shiftLeft_eq]
      have := key 0 (by decide) (by rw [if_neg (by decide)]; omega)
      simpa using this

theorem arrayindex_cast_num (i : Int) (h1 : -(2 ^ 31) ≤ i) (h2 : i < 2 ^ 31) :
    arrayindex (.number (cast_num i)) = i := by
  obtain ⟨a, b⟩ := cast_num_int i h1 h2
  simp only [arrayindex, a]
  have : luai_numeq (cast_num i) (cast_num i) = true := by
    simp [luai_numeq, b]
  rw [if_pos this]

/-! ## Values, raw equality and main positions -/

theorem ttisnil_iff (k : TValue) : ttisnil k = true ↔ k = .nil := by
  cases k with
  | gc tt p => cases tt <;> simp [ttisnil, ttype, GCTag.tag, LUA_TNIL, LUA_TTABLE, LUA_TFUNCTION,
      LUA_TUSERDATA, LUA_TTHREAD, LUA_TPROTO, LUA_TUPVAL, LUA_TDEADKEY]
  | _ => simp [ttisnil, ttype, LUA_TNIL, LUA_TBOOLEAN, LUA_TLIGHTUSERDATA, LUA_TNUMBER,
      LUA_TSTRING]

theorem ttisnil_false_iff (k : TValue) : ttisnil k = false ↔ k ≠ .nil := by
  rw [ne_eq, ← ttisnil_iff, Bool.not_eq_true]

/-- Raw equality, constructor by constructor. -/
theorem rawequal_iff (a b : TValue) : luaO_rawequalObj a b = true ↔
    match a, b with
    | .nil, .nil => True
    | .boolean x, .boolean y => x = y
    | .lightuserdata p, .lightuserdata q => p = q
    | .number x, .number y => luai_numeq x y = true
    | .string x, .string y => x = y
    | .gc t1 p, .gc t2 q => t1 = t2 ∧ p = q
    | _, _ => False := by
  cases a <;> cases b <;> simp [luaO_rawequalObj]

theorem rawequal_symm (a b : TValue) (h : luaO_rawequalObj a b = true) :
    luaO_rawequalObj b a = true := by
  rw [rawequal_iff] at h ⊢
  cases a <;> cases b <;> simp_all
  exact luai_numeq_symm _ _ h

theorem rawequal_trans (a b c : TValue) (h : luaO_rawequalObj a b = true)
    (h' : luaO_rawequalObj b c = true) : luaO_rawequalObj a c = true := by
  rw [rawequal_iff] at h h' ⊢
  cases a <;> cases b <;> simp_all <;> cases c <;> simp_all
  exact luai_numeq_trans _ _ _ h h'

theorem rawequal_nil_left (b : TValue) (h : luaO_rawequalObj .nil b = true) : b = .nil := by
  rw [rawequal_iff] at h
  cases b <;> simp_all

theorem rawequal_nil_right (a : TValue) (h : luaO_rawequalObj a .nil = true) : a = .nil :=
  rawequal_nil_left a (rawequal_symm _ _ h)

theorem rawequal_ne_nil (a b : TValue) (h : luaO_rawequalObj a b = true) (ha : a ≠ .nil) :
    b ≠ .nil := by
  intro e; subst e; exact ha (rawequal_nil_right a h)

theorem rawequal_refl_left (a b : TValue) (h : luaO_rawequalObj a b = true) :
    luaO_rawequalObj a a = true :=
  rawequal_trans _ _ _ h (rawequal_symm _ _ h)

theorem rawequal_refl_right (a b : TValue) (h : luaO_rawequalObj a b = true) :
    luaO_rawequalObj b b = true :=
  rawequal_trans _ _ _ (rawequal_symm _ _ h) h

/-- The predicates compared along a chain agree for raw-equal keys. -/
theorem rawequal_congr_right (x a b : TValue) (h : luaO_rawequalObj a b = true) :
    luaO_rawequalObj x a = luaO_rawequalObj x b := by
  cases e : luaO_rawequalObj x b
  · cases e' : luaO_rawequalObj x a
    · rfl
    · rw [rawequal_trans _ _ _ e' h] at e; exact e
  · exact rawequal_trans _ _ _ e (rawequal_symm _ _ h)

theorem mainposition_congr (t : Table) (a b : TValue) (h : luaO_rawequalObj a b = true) :
    mainposition t a = mainposition t b := by
  rw [rawequal_iff] at h
  cases a <;> cases b <;> simp_all [mainposition]
  exact hashnum_congr t _ _ h

theorem arrayindex_congr_raw (a b : TValue) (h : luaO_rawequalObj a b = true) :
    arrayindex a = arrayindex b := by
  have h0 := h
  rw [rawequal_iff] at h
  cases a <;> cases b <;> simp_all [arrayindex]
  exact arrayindex_congr _ _ h

/-- A NaN is no valid key, and every other number is. -/
theorem validkey_number (n : lua_Number) :
    validkey (.number n) ↔ luai_numisnan n = false := by
  constructor
  · intro h
    have := h.refl
    simp only [luaO_rawequalObj] at this
    simp [luai_numisnan, this]
  · intro h
    refine ⟨by simp, ?_, by simp [ttype, LUA_TNUMBER, LUA_TDEADKEY]⟩
    simp only [luaO_rawequalObj]
    simpa [luai_numisnan] using h

theorem validkey_of_not_number (k : TValue) (h : k ≠ .nil) (hn : ∀ n, k ≠ .number n)
    (hd : ttype k ≠ LUA_TDEADKEY) : validkey k := by
  refine ⟨h, ?_, hd⟩
  rw [rawequal_iff]
  cases k <;> simp_all

/-- The result of `arrayindex` is an `int`. -/
theorem lua_number2int_range (n : lua_Number) :
    -(2 ^ 31) ≤ lua_number2int n ∧ lua_number2int n < 2 ^ 31 := by
  have key : ∀ k : Int, -(2 ^ 31) ≤ (if -(2 ^ 31) ≤ k ∧ k < 2 ^ 31 then k else -(2 ^ 31)) ∧
      (if -(2 ^ 31) ≤ k ∧ k < 2 ^ 31 then k else -(2 ^ 31)) < 2 ^ 31 := by
    intro k
    by_cases h : -(2 ^ 31) ≤ k ∧ k < 2 ^ 31
    · rw [if_pos h]; exact h
    · rw [if_neg h]; exact ⟨le_refl _, by decide⟩
  unfold lua_number2int
  by_cases h1 : (n.isnan || n.isinf) = true
  · rw [if_pos h1]; exact ⟨le_refl _, by decide⟩
  · rw [if_neg h1]; exact key _

theorem arrayindex_range (k : TValue) : -(2 ^ 31) ≤ arrayindex k ∧ arrayindex k < 2 ^ 31 := by
  cases k with
  | number n =>
    simp only [arrayindex]
    by_cases c : luai_numeq (cast_num (lua_number2int n)) n = true
    · rw [if_pos c]; exact lua_number2int_range n
    · rw [if_neg c]; exact ⟨by decide, by decide⟩
  | _ => simp only [arrayindex]; exact ⟨by decide, by decide⟩

/-- A number key with a valid array index is raw-equal to the index cast to a number. -/
theorem arrayindex_pos (k : TValue) (h : 0 < arrayindex k) :
    ∃ n, k = .number n ∧ luai_numeq (cast_num (arrayindex k)) n = true ∧
      arrayindex k = lua_number2int n := by
  cases k with
  | number n =>
    refine ⟨n, rfl, ?_⟩
    simp only [arrayindex] at h ⊢
    by_cases c : luai_numeq (cast_num (lua_number2int n)) n = true
    · rw [if_pos c] at h ⊢; exact ⟨c, rfl⟩
    · rw [if_neg c] at h; omega
  | _ => simp [arrayindex] at h

/-! ## Node vectors -/

theorem sizenode_pos (t : Table) : 0 < sizenode t := Nat.two_pow_pos _

theorem hashmod_lt (t : Table) (n : Nat) : hashmod t n < sizenode t := by
  unfold hashmod
  by_cases h : sizenode t = 1
  · rw [h]; simp; omega
  · have hp := sizenode_pos t
    have hodd : (sizenode t - 1) % 2 = 1 := by
      unfold sizenode twoto at *
      cases hl : t.lsizenode with
      | zero => rw [hl] at h; simp at h
      | succ l =>
        rw [pow_succ]
        have := Nat.two_pow_pos l
        omega
    have hor : (sizenode t - 1) ||| 1 = sizenode t - 1 := by
      apply Nat.eq_of_testBit_eq
      intro i
      rw [Nat.testBit_or]
      cases i with
      | zero => simp [Nat.testBit_zero, hodd]
      | succ i => simp [Nat.testBit_succ]
    rw [hor]
    have : n % (sizenode t - 1) < sizenode t - 1 := Nat.mod_lt _ (by omega)
    omega

theorem hashpow2_lt (t : Table) (n : Nat) : hashpow2 t n < sizenode t := by
  unfold hashpow2 lmod
  have := @Nat.and_le_right n (sizenode t - 1)
  have := sizenode_pos t
  omega

theorem mainposition_lt (t : Table) (k : TValue) : mainposition t k < sizenode t := by
  cases k <;> simp only [mainposition, hashnum, hashpointer] <;>
    first | exact hashmod_lt _ _ | exact hashpow2_lt _ _

theorem mainposition_lt_length (t : Table) (h : t.node.length = 2 ^ t.lsizenode) (k : TValue) :
    mainposition t k < t.node.length := by
  rw [h]; exact mainposition_lt t k

/-- The main position depends on the table through `lsizenode` only. -/
theorem mainposition_lsize (t t' : Table) (h : t'.lsizenode = t.lsizenode) (k : TValue) :
    mainposition t' k = mainposition t k := by
  cases k <;> simp [mainposition, hashnum, hashpointer, hashmod, hashpow2, sizenode, h]

theorem gnode_setnode (t : Table) (i j : Nat) (nd : Node) (hi : i < t.node.length) :
    gnode (setnode t i nd) j = if j = i then nd else gnode t j := by
  unfold gnode setnode
  simp only [List.getD_eq_getElem?_getD, List.getElem?_set]
  by_cases h : i = j
  · subst h; simp [hi]
  · simp [h, Ne.symm h]

theorem length_setnode (t : Table) (i : Nat) (nd : Node) :
    (setnode t i nd).node.length = t.node.length := by
  simp [setnode]

theorem gnode_lt (t : Table) (i : Nat) (h : i < t.node.length) :
    gnode t i = t.node[i] := by
  simp [gnode, List.getD_eq_getElem?_getD, h]

/-! ## Chains and lookups -/

theorem reaches_trans (t : Table) (a b c : Nat) (h : Reaches t a b) (h' : Reaches t b c) :
    Reaches t a c := by
  induction h with
  | refl a => exact h'
  | step a b c' hn _ ih => exact Reaches.step a b c hn (ih h')

theorem reaches_lt (t : Table) (hw : WFcore t) (a b : Nat) (ha : a < t.node.length)
    (h : Reaches t a b) : b < t.node.length := by
  induction h with
  | refl a => exact ha
  | step a b c hn _ ih => exact ih (hw.next_lt a b ha hn).1

/-- A node reached over at least one link holds a key. -/
theorem reaches_key (t : Table) (hw : WFcore t) (a b : Nat) (ha : a < t.node.length)
    (h : Reaches t a b) (hne : a ≠ b) : (gnode t b).i_key ≠ .nil := by
  induction h with
  | refl a => exact absurd rfl hne
  | step a b c hn hr ih =>
    have hb := hw.next_lt a b ha hn
    by_cases e : b = c
    · subst e; exact hb.2
    · exact ih hb.1 e

theorem chainfind_node (t : Table) (p : Node → Bool) : ∀ (f a j : Nat),
    chainfind t p f a = .node j → p (gnode t j) = true ∧ Reaches t a j := by
  intro f
  induction f with
  | zero => intro a j h; simp [chainfind] at h
  | succ f ih =>
    intro a j h
    unfold chainfind at h
    by_cases hp : p (gnode t a) = true
    · rw [if_pos hp] at h
      injection h with h
      subst h
      exact ⟨hp, Reaches.refl a⟩
    · rw [if_neg hp] at h
      cases hn : (gnode t a).next with
      | none => rw [hn] at h; simp at h
      | some m =>
        rw [hn] at h
        obtain ⟨h1, h2⟩ := ih m j h
        exact ⟨h1, Reaches.step a m j hn h2⟩

theorem chainfind_cases (t : Table) (p : Node → Bool) : ∀ (f a : Nat),
    chainfind t p f a = .nilobject ∨ ∃ j, chainfind t p f a = .node j := by
  intro f
  induction f with
  | zero => intro a; left; rfl
  | succ f ih =>
    intro a
    unfold chainfind
    by_cases hp : p (gnode t a) = true
    · rw [if_pos hp]; right; exact ⟨a, rfl⟩
    · rw [if_neg hp]
      cases hn : (gnode t a).next with
      | none => left; rfl
      | some m => exact ih m

/-- A rank that decreases along the links can be taken below the number of nodes. -/
theorem exists_bounded_rank (S : Nat) (nx : Nat → Option Nat) (r : Nat → Nat)
    (hlt : ∀ i j, i < S → nx i = some j → j < S)
    (h : ∀ i j, i < S → nx i = some j → r j < r i) :
    ∃ r' : Nat → Nat, (∀ i, i < S → r' i < S) ∧ ∀ i j, i < S → nx i = some j → r' j < r' i := by
  refine ⟨fun a => ((Finset.range S).filter (fun j => r j < r a)).card, ?_, ?_⟩
  · intro i hi
    have hsub : (Finset.range S).filter (fun j => r j < r i) ⊂ Finset.range S := by
      rw [Finset.ssubset_iff_of_subset (Finset.filter_subset _ _)]
      exact ⟨i, Finset.mem_range.2 hi, by simp⟩
    have := Finset.card_lt_card hsub
    simpa using this
  · intro i j hi hn
    have hj := hlt i j hi hn
    have hr := h i j hi hn
    apply Finset.card_lt_card
    rw [Finset.ssubset_iff_of_subset]
    · refine ⟨j, ?_, ?_⟩
      · simp [hj, hr]
      · simp
    · intro x hx
      simp only [Finset.mem_filter, Finset.mem_range] at hx ⊢
      exact ⟨hx.1, by omega⟩

theorem wf_bounded_rank (t : Table) (hw : WFcore t) :
    ∃ r : Nat → Nat, (∀ i, i < t.node.length → r i < t.node.length) ∧
      ∀ i j, i < t.node.length → (gnode t i).next = some j → r j < r i := by
  obtain ⟨r, hr⟩ := hw.rank
  exact exists_bounded_rank t.node.length (fun i => (gnode t i).next) r
    (fun i j hi hn => (hw.next_lt i j hi hn).1) hr

/-- A chain is searched to its end within the budget: a node on the chain that
satisfies the predicate makes the search succeed. -/
theorem chainfind_complete (t : Table) (hw : WFcore t) (p : Node → Bool) (a i : Nat)
    (ha : a < t.node.length) (h : Reaches t a i) (hp : p (gnode t i) = true) :
    ∃ j, chainfind t p t.node.length a = .node j := by
  obtain ⟨r, hb, hr⟩ := wf_bounded_rank t hw
  have key : ∀ (a i : Nat), Reaches t a i → p (gnode t i) = true → ∀ f,
      a < t.node.length → r a < f → ∃ j, chainfind t p f a = .node j := by
    intro a i h
    induction h with
    | refl a =>
      intro hp f _ hf
      cases f with
      | zero => omega
      | succ f => exact ⟨a, by unfold chainfind; rw [if_pos hp]⟩
    | step a b c hn _ ih =>
      intro hp f ha hf
      cases f with
      | zero => omega
      | succ f =>
        unfold chainfind
        by_cases hpa : p (gnode t a) = true
        · exact ⟨a, by rw [if_pos hpa]⟩
        · rw [if_neg hpa, hn]
          exact ih hp f (hw.next_lt a b ha hn).1 (by have := hr a b ha hn; omega)
  exact key a i h hp _ ha (hb a ha)

/-- The search budget is enough: a larger one gives the same result. -/
theorem chainfind_fuel (t : Table) (hw : WFcore t) (p : Node → Bool) (a : Nat)
    (ha : a < t.node.length) (extra : Nat) :
    chainfind t p (t.node.length + extra) a = chainfind t p t.node.length a := by
  obtain ⟨r, hb, hr⟩ := wf_bounded_rank t hw
  have key : ∀ (f : Nat) (a : Nat), a < t.node.length → r a < f → ∀ g, r a < g →
      chainfind t p f a = chainfind t p g a := by
    intro f
    induction f with
    | zero => intro a _ hf; omega
    | succ f ih =>
      intro a ha _ g hg
      cases g with
      | zero => omega
      | succ g =>
        unfold chainfind
        by_cases hpa : p (gnode t a) = true
        · rw [if_pos hpa, if_pos hpa]
        · rw [if_neg hpa, if_neg hpa]
          cases hn : (gnode t a).next with
          | none => rfl
          | some m =>
            have := hr a m ha hn
            exact ih m (hw.next_lt a m ha hn).1 (by omega) g (by omega)
  exact key _ a ha (by have := hb a ha; omega) _ (hb a ha)

theorem hfind_of_key (t : Table) (hw : WFcore t) (k : TValue) (i : Nat) (hi : i < t.node.length)
    (h : luaO_rawequalObj (gnode t i).i_key k = true) (hk : k ≠ .nil) :
    hfind t k = .node i := by
  have hki : (gnode t i).i_key ≠ .nil := rawequal_ne_nil _ _ (rawequal_symm _ _ h) hk
  have hmp : mainposition t (gnode t i).i_key = mainposition t k := mainposition_congr t _ _ h
  have hr := hw.reach i hi hki
  rw [hmp] at hr
  have ha := mainposition_lt_length t hw.size k
  obtain ⟨j, hj⟩ := chainfind_complete t hw (fun n => luaO_rawequalObj n.i_key k) _ i ha hr h
  obtain ⟨h1, h2⟩ := chainfind_node t _ _ _ _ hj
  have hjlt := reaches_lt t hw _ _ ha h2
  have : i = j := hw.nodup i j hi hjlt hki
    (rawequal_trans _ _ _ h (rawequal_symm _ _ h1))
  subst this
  exact hj

theorem hfind_cases (t : Table) (hw : WFcore t) (k : TValue) :
    hfind t k = .nilobject ∨
      ∃ i, i < t.node.length ∧ hfind t k = .node i ∧
        luaO_rawequalObj (gnode t i).i_key k = true := by
  rcases chainfind_cases t (fun n => luaO_rawequalObj n.i_key k) t.node.length
    (mainposition t k) with h | ⟨j, h⟩
  · left; exact h
  · right
    obtain ⟨h1, h2⟩ := chainfind_node t _ _ _ _ h
    exact ⟨j, reaches_lt t hw _ _ (mainposition_lt_length t hw.size k) h2, h, h1⟩

theorem hfind_absent (t : Table) (hw : WFcore t) (k : TValue)
    (h : ∀ i, i < t.node.length → luaO_rawequalObj (gnode t i).i_key k = false) :
    hfind t k = .nilobject := by
  rcases hfind_cases t hw k with h' | ⟨i, hi, _, h2⟩
  · exact h'
  · rw [h i hi] at h2; cases h2

theorem hfind_nilobject (t : Table) (hw : WFcore t) (k : TValue) (hk : k ≠ .nil)
    (h : hfind t k = .nilobject) (i : Nat) (hi : i < t.node.length) :
    luaO_rawequalObj (gnode t i).i_key k = false := by
  cases e : luaO_rawequalObj (gnode t i).i_key k
  · rfl
  · rw [hfind_of_key t hw k i hi e hk] at h; cases h

/-- The unsigned comparison of `luaH_getnum` is the test `1 <= key <= sizearray`. -/
theorem unsigned_range_test (key : Int) (sa : Nat) (h1 : -(2 ^ 31) ≤ key) (h2 : key < 2 ^ 31)
    (hs : sa < 2 ^ 31) :
    ((key - 1) % 2 ^ 32).toNat < sa % 2 ^ 32 ↔ (0 < key ∧ key ≤ (sa : Int)) := by
  omega

theorem luaH_getnum_eq (t : Table) (hs : t.sizearray < 2 ^ 31) (key : Int)
    (h1 : -(2 ^ 31) ≤ key) (h2 : key < 2 ^ 31) :
    luaH_getnum t key =
      if 0 < key ∧ key ≤ (t.sizearray : Int) then .arr (key - 1).toNat
      else hfind t (.number (cast_num key)) := by
  unfold luaH_getnum
  by_cases c : 0 < key ∧ key ≤ (t.sizearray : Int)
  · rw [if_pos c, if_pos ((unsigned_range_test key _ h1 h2 hs).2 c)]
  · rw [if_neg c, if_neg (fun h => c ((unsigned_range_test key _ h1 h2 hs).1 h))]
    unfold hfind
    simp only [mainposition]
    congr 1
    funext n
    cases n.i_key <;> simp [luaO_rawequalObj]

theorem luaH_getstr_eq (t : Table) (s : TString) : luaH_getstr t s = hfind t (.string s) := by
  unfold luaH_getstr hfind
  simp only [mainposition]
  congr 1
  funext n
  cases n.i_key <;> simp [luaO_rawequalObj]

/-- What `luaH_get` returns: the cell of the array part for an index of the array
part, the node found in the hash part otherwise. -/
theorem luaH_get_eq (t : Table) (hs : t.sizearray < 2 ^ 31) (k : TValue) :
    luaH_get t k =
      if k = .nil then .nilobject
      else if 0 < arrayindex k ∧ arrayindex k ≤ (t.sizearray : Int)
        then .arr (arrayindex k - 1).toNat
      else hfind t k := by
  cases k with
  | nil => simp [luaH_get]
  | string s => simp [luaH_get, luaH_getstr_eq, arrayindex]
  | boolean b => simp [luaH_get, arrayindex, hfind]
  | lightuserdata p => simp [luaH_get, arrayindex, hfind]
  | gc tt p => simp [luaH_get, arrayindex, hfind]
  | number n =>
    have hd : luaH_get t (.number n) =
        if luai_numeq (cast_num (lua_number2int n)) n = true
          then luaH_getnum t (lua_number2int n) else hfind t (.number n) := rfl
    have ha : arrayindex (.number n) =
        if luai_numeq (cast_num (lua_number2int n)) n = true then lua_number2int n else -1 := rfl
    rw [hd, ha, if_neg (show ¬ (TValue.number n = TValue.nil) from by simp)]
    by_cases c : luai_numeq (cast_num (lua_number2int n)) n = true
    · rw [if_pos c, if_pos c]
      obtain ⟨r1, r2⟩ := lua_number2int_range n
      rw [luaH_getnum_eq t hs _ r1 r2]
      have hraw : luaO_rawequalObj (.number (cast_num (lua_number2int n))) (.number n) = true := by
        simpa [luaO_rawequalObj] using c
      by_cases c2 : 0 < lua_number2int n ∧ lua_number2int n ≤ (t.sizearray : Int)
      · rw [if_pos c2, if_pos c2]
      · rw [if_neg c2, if_neg c2]
        unfold hfind
        rw [mainposition_congr t _ _ hraw]
        congr 1
        funext nd
        exact rawequal_congr_right _ _ _ hraw
    · rw [if_neg c, if_neg c, if_neg (by omega)]

/-! ## The steps of `newkey` keep a table well formed -/

theorem gnode_setkey (t : Table) (i j : Nat) (k : TValue) (hi : i < t.node.length) :
    gnode (setkey t i k) j = if j = i then { gnode t i with i_key := k } else gnode t j := by
  unfold setkey; exact gnode_setnode t i j _ hi

theorem gnode_setnext (t : Table) (i j : Nat) (nx : Option Nat) (hi : i < t.node.length) :
    gnode (setnext t i nx) j = if j = i then { gnode t i with next := nx } else gnode t j := by
  unfold setnext; exact gnode_setnode t i j _ hi

/-- Reachability depends on the links only. -/
theorem reaches_congr (t t' : Table) (h : ∀ i, (gnode t' i).next = (gnode t i).next)
    (a b : Nat) (hr : Reaches t a b) : Reaches t' a b := by
  induction hr with
  | refl a => exact Reaches.refl a
  | step a b c hn _ ih => exact Reaches.step a b c (by rw [h]; exact hn) ih

/-- A node with a link holds a key. -/
theorem key_of_next (t : Table) (hw : WFcore t) (i j : Nat) (hi : i < t.node.length)
    (hn : (gnode t i).next = some j) : (gnode t i).i_key ≠ .nil := by
  intro e
  rw [(hw.free i hi e).2] at hn
  cases hn

/-- A node with a value holds a key. -/
theorem key_of_val (t : Table) (hw : WFcore t) (i : Nat) (hi : i < t.node.length)
    (hv : (gnode t i).i_val ≠ .nil) : (gnode t i).i_key ≠ .nil := by
  intro e
  exact hv (hw.free i hi e).1

/-- No link ends in itself. -/
theorem next_ne_self (t : Table) (hw : WFcore t) (i j : Nat) (hi : i < t.node.length)
    (hn : (gnode t i).next = some j) : j ≠ i := by
  obtain ⟨r, hr⟩ := hw.rank
  intro e
  subst e
  have := hr _ _ hi hn
  omega

/-- Step A of `newkey`: the key goes to its main position, whose value is nil. -/
theorem wfcore_setkey (t : Table) (hw : WFcore t) (hd : t.isdummy = false) (k : TValue)
    (hk : validkey k)
    (habs : ∀ i, i < t.node.length → luaO_rawequalObj (gnode t i).i_key k = false)
    (harr : ¬ (0 < arrayindex k ∧ arrayindex k ≤ (t.sizearray : Int))) :
    WFcore (setkey t (mainposition t k) k) := by
  have hmp := mainposition_lt_length t hw.size k
  have hg : ∀ j, gnode (setkey t (mainposition t k) k) j =
      if j = mainposition t k then { gnode t (mainposition t k) with i_key := k }
      else gnode t j := fun j => gnode_setkey t _ j k hmp
  have hlen : (setkey t (mainposition t k) k).node.length = t.node.length := length_setnode _ _ _
  have hm : ∀ x, mainposition (setkey t (mainposition t k) k) x = mainposition t x :=
    fun x => mainposition_lsize _ _ rfl x
  have hnext : ∀ i, (gnode (setkey t (mainposition t k) k) i).next = (gnode t i).next := by
    intro i; rw [hg]; split_ifs with e
    · rw [e]
    · rfl
  have hkey : ∀ i, i ≠ mainposition t k →
      (gnode (setkey t (mainposition t k) k) i).i_key = (gnode t i).i_key := by
    intro i e; rw [hg, if_neg e]
  have hkeymp : (gnode (setkey t (mainposition t k) k) (mainposition t k)).i_key = k := by
    rw [hg, if_pos rfl]
  have hkey' : ∀ i, (gnode t i).i_key ≠ .nil →
      (gnode (setkey t (mainposition t k) k) i).i_key ≠ .nil := by
    intro i h
    by_cases e : i = mainposition t k
    · rw [e, hkeymp]; exact hk.1
    · rw [hkey i e]; exact h
  refine ⟨hlen.trans hw.size, hw.lsize, hw.asize, hw.amax, ?_, ?_, ?_, ?_, ?_, ?_, ?_, ?_, ?_, ?_,
    ?_⟩
  · intro h; exact absurd h (by simp [setkey, setnode, hd])
  · intro i hi hkn
    rw [hlen] at hi
    by_cases e : i = mainposition t k
    · rw [e, hkeymp] at hkn; exact absurd hkn hk.1
    · rw [hkey i e] at hkn
      rw [hg, if_neg e]; exact hw.free i hi hkn
  · intro i j hi hn
    rw [hlen] at hi ⊢
    rw [hnext] at hn
    obtain ⟨h1, h2⟩ := hw.next_lt i j hi hn
    exact ⟨h1, hkey' j h2⟩
  · intro i i' j hi hi' hn hn'
    rw [hlen] at hi hi'
    rw [hnext] at hn hn'
    exact hw.next_inj i i' j hi hi' hn hn'
  · obtain ⟨r, hr⟩ := hw.rank
    refine ⟨r, fun i j hi hn => ?_⟩
    rw [hlen] at hi; rw [hnext] at hn
    exact hr i j hi hn
  · intro i hi hkn
    rw [hlen] at hi
    rw [hm]
    by_cases e : i = mainposition t k
    · rw [e, hkeymp]; exact Reaches.refl _
    · rw [hkey i e] at hkn ⊢
      exact reaches_congr t _ hnext _ _ (hw.reach i hi hkn)
  · intro i hi hkn
    rw [hlen] at hi
    simp only [hm]
    by_cases e : i = mainposition t k
    · rw [e, hkeymp, hkeymp]; exact ⟨hk.1, rfl⟩
    · rw [hkey i e] at hkn ⊢
      obtain ⟨b1, b2⟩ := hw.brent i hi hkn
      by_cases e2 : mainposition t (gnode t i).i_key = mainposition t k
      · rw [e2, hkeymp]; exact ⟨hk.1, rfl⟩
      · rw [hkey _ e2]; exact ⟨b1, b2⟩
  · intro i j hi hj hkn heq
    rw [hlen] at hi hj
    by_cases e : i = mainposition t k <;> by_cases e' : j = mainposition t k
    · rw [e, e']
    · rw [e, hkeymp, hkey j e'] at heq
      have := rawequal_symm _ _ heq
      rw [habs j hj] at this; cases this
    · rw [e', hkeymp, hkey i e] at heq
      rw [habs i hi] at heq; cases heq
    · rw [hkey i e] at hkn heq
      rw [hkey j e'] at heq
      exact hw.nodup i j hi hj hkn heq
  · intro i hi hkn
    rw [hlen] at hi
    by_cases e : i = mainposition t k
    · rw [e, hkeymp]; exact hk.2
    · rw [hkey i e] at hkn ⊢; exact hw.keyok i hi hkn
  · intro i hi
    rw [hlen] at hi
    have hsa : (setkey t (mainposition t k) k).sizearray = t.sizearray := rfl
    rw [hsa]
    by_cases e : i = mainposition t k
    · rw [e, hkeymp]; exact harr
    · rw [hkey i e]; exact hw.arr i hi
  · intro i hi
    rw [hlen] at hi
    by_cases e : i = mainposition t k
    · rw [e, hkeymp]; exact hk.nodead
    · rw [hkey i e]; exact hw.nodead i hi

theorem gnode_linked (t : Table) (k : TValue) (mp n : Nat) (hmp : mp < t.node.length)
    (hn : n < t.node.length) (hne : n ≠ mp) (j : Nat) :
    gnode (linked t k mp n) j =
      if j = n then ⟨(gnode t n).i_val, k, (gnode t mp).next⟩
      else if j = mp then { gnode t mp with next := some n }
      else gnode t j := by
  have l1 : (setnext t n (gnode t mp).next).node.length = t.node.length := length_setnode _ _ _
  have l2 : (setnext (setnext t n (gnode t mp).next) mp (some n)).node.length =
      t.node.length := (length_setnode _ _ _).trans l1
  unfold linked
  simp only [gnode_setkey _ _ _ _ (l2 ▸ hn), gnode_setnext _ _ _ _ (l1 ▸ hmp),
    gnode_setnext _ _ _ _ hn]
  by_cases e : j = n
  · simp [e, hne]
  · by_cases e' : j = mp
    · simp [e', Ne.symm hne]
    · simp [e, e']

theorem length_linked (t : Table) (k : TValue) (mp n : Nat) :
    (linked t k mp n).node.length = t.node.length := by
  simp [linked, setkey, setnext, setnode]

/-- Step C of `newkey`: the colliding node is in its main position, the new key goes
to a free node that is linked in after it. -/
theorem wfcore_linked (t : Table) (hw : WFcore t) (hd : t.isdummy = false) (k : TValue)
    (hk : validkey k)
    (habs : ∀ i, i < t.node.length → luaO_rawequalObj (gnode t i).i_key k = false)
    (harr : ¬ (0 < arrayindex k ∧ arrayindex k ≤ (t.sizearray : Int)))
    (n : Nat) (hn : n < t.node.length) (hfree : (gnode t n).i_key = .nil)
    (hkmp : (gnode t (mainposition t k)).i_key ≠ .nil)
    (hmain : mainposition t (gnode t (mainposition t k)).i_key = mainposition t k) :
    WFcore (linked t k (mainposition t k) n) := by
  have hmp := mainposition_lt_length t hw.size k
  have hne : n ≠ mainposition t k := fun e => hkmp (e ▸ hfree)
  have hg := gnode_linked t k _ n hmp hn hne
  have hlen := length_linked t k (mainposition t k) n
  have hm : ∀ x, mainposition (linked t k (mainposition t k) n) x = mainposition t x :=
    fun x => mainposition_lsize _ _ rfl x
  have hN : ∀ j, (gnode (linked t k (mainposition t k) n) j).next =
      if j = n then (gnode t (mainposition t k)).next
      else if j = mainposition t k then some n else (gnode t j).next := by
    intro j; rw [hg]; split_ifs <;> rfl
  have hK : ∀ j, (gnode (linked t k (mainposition t k) n) j).i_key =
      if j = n then k else (gnode t j).i_key := by
    intro j; rw [hg]; split_ifs with h1 h2
    · rfl
    · rw [h2]
    · rfl
  have hK' : ∀ j, (gnode t j).i_key ≠ .nil →
      (gnode (linked t k (mainposition t k) n) j).i_key = (gnode t j).i_key := by
    intro j h
    rw [hK, if_neg (fun (e : j = n) => h (by rw [e]; exact hfree))]
  have hnn : ∀ i j, i < t.node.length → (gnode t i).next = some j → j ≠ n :=
    fun i j hi h (e : j = n) => (hw.next_lt i j hi h).2 (by rw [e]; exact hfree)
  have hnnone : (gnode t n).next = none := (hw.free n hn hfree).2
  refine ⟨hlen.trans hw.size, hw.lsize, hw.asize, hw.amax, ?_, ?_, ?_, ?_, ?_, ?_, ?_, ?_, ?_, ?_,
    ?_⟩
  · intro h; exact absurd h (by simp [linked, setkey, setnext, setnode, hd])
  · intro i hi hkn
    rw [hlen] at hi
    rw [hK] at hkn
    by_cases e : i = n
    · rw [if_pos e] at hkn; exact absurd hkn hk.1
    · rw [if_neg e] at hkn
      have e' : i ≠ mainposition t k := fun e' => hkmp (e' ▸ hkn)
      rw [hg, if_neg e, if_neg e']; exact hw.free i hi hkn
  · intro i j hi hnx
    rw [hlen] at hi ⊢
    rw [hN] at hnx
    by_cases e : i = n
    · rw [if_pos e] at hnx
      obtain ⟨h1, h2⟩ := hw.next_lt _ j hmp hnx
      exact ⟨h1, by rw [hK' j h2]; exact h2⟩
    · rw [if_neg e] at hnx
      by_cases e' : i = mainposition t k
      · rw [if_pos e'] at hnx
        injection hnx with hnx
        subst hnx
        exact ⟨hn, by rw [hK, if_pos rfl]; exact hk.1⟩
      · rw [if_neg e'] at hnx
        obtain ⟨h1, h2⟩ := hw.next_lt _ j hi hnx
        exact ⟨h1, by rw [hK' j h2]; exact h2⟩
  · intro i i' j hi hi' hnx hnx'
    rw [hlen] at hi hi'
    rw [hN] at hnx hnx'
    by_cases e : i = n <;> by_cases e2 : i' = n
    · rw [e, e2]
    · rw [if_pos e] at hnx
      rw [if_neg e2] at hnx'
      by_cases e3 : i' = mainposition t k
      · rw [if_pos e3] at hnx'
        injection hnx' with hnx'
        exact absurd hnx'.symm (hnn _ j hmp hnx)
      · rw [if_neg e3] at hnx'
        exact absurd (hw.next_inj i' _ j hi' hmp hnx' hnx) e3
    · rw [if_pos e2] at hnx'
      rw [if_neg e] at hnx
      by_cases e3 : i = mainposition t k
      · rw [if_pos e3] at hnx
        injection hnx with hnx
        exact absurd hnx.symm (hnn _ j hmp hnx')
      · rw [if_neg e3] at hnx
        exact absurd (hw.next_inj i _ j hi hmp hnx hnx') e3
    · rw [if_neg e] at hnx
      rw [if_neg e2] at hnx'
      by_cases e3 : i = mainposition t k <;> by_cases e4 : i' = mainposition t k
      · rw [e3, e4]
      · rw [if_pos e3] at hnx
        rw [if_neg e4] at hnx'
        injection hnx with hnx
        exact absurd hnx.symm (hnn _ j hi' hnx')
      · rw [if_pos e4] at hnx'
        rw [if_neg e3] at hnx
        injection hnx' with hnx'
        exact absurd hnx'.symm (hnn _ j hi hnx)
      · rw [if_neg e3] at hnx
        rw [if_neg e4] at hnx'
        exact hw.next_inj i i' j hi hi' hnx hnx'
  · obtain ⟨r, hr⟩ := hw.rank
    refine ⟨fun i => if i = n then 2 * r (mainposition t k) + 1 else 2 * r i + 2,
      fun i j hi hnx => ?_⟩
    rw [hlen] at hi; rw [hN] at hnx
    by_cases e : i = n
    · rw [if_pos e] at hnx
      have := hr _ j hmp hnx
      have hj := hnn _ j hmp hnx
      simp only [if_pos e, if_neg hj]
      omega
    · rw [if_neg e] at hnx
      by_cases e' : i = mainposition t k
      · rw [if_pos e'] at hnx
        injection hnx with hnx
        rw [← hnx, e']
        simp only [if_pos, if_neg hne.symm]
        omega
      · rw [if_neg e'] at hnx
        have := hr _ j hi hnx
        have hj := hnn _ j hi hnx
        simp only [if_neg e, if_neg hj]
        omega
  · have hreach : ∀ a b, Reaches t a b → a ≠ n →
        Reaches (linked t k (mainposition t k) n) a b := by
      intro a b h
      induction h with
      | refl a => intro _; exact Reaches.refl a
      | step a b c hnx hr ih =>
        intro ha
        by_cases hal : a < t.node.length
        · have hb := hnn a b hal hnx
          by_cases e' : a = mainposition t k
          · subst e'
            refine Reaches.step _ n c (by rw [hN, if_neg ha, if_pos rfl]) ?_
            exact Reaches.step n b c (by rw [hN, if_pos rfl]; exact hnx) (ih hb)
          · exact Reaches.step a b c (by rw [hN, if_neg ha, if_neg e']; exact hnx) (ih hb)
        · exfalso
          have : gnode t a = dummynode_ := by
            simp [gnode, List.getD_eq_getElem?_getD, List.getElem?_eq_none (not_lt.1 hal)]
          rw [this] at hnx
          cases hnx
    intro i hi hkn
    rw [hlen] at hi
    rw [hm]
    rw [hK] at hkn ⊢
    by_cases e : i = n
    · rw [if_pos e, e]
      exact Reaches.step _ n n (by rw [hN, if_neg (Ne.symm hne), if_pos rfl]) (Reaches.refl n)
    · rw [if_neg e] at hkn ⊢
      refine hreach _ _ (hw.reach i hi hkn) ?_
      intro e2
      exact (hw.brent i hi hkn).1 (e2 ▸ hfree)
  · intro i hi hkn
    rw [hlen] at hi
    simp only [hm]
    rw [hK] at hkn
    by_cases e : i = n
    · have h1 : (gnode (linked t k (mainposition t k) n) i).i_key = k := by rw [hK, if_pos e]
      rw [h1, hK' _ hkmp]; exact ⟨hkmp, hmain⟩
    · rw [if_neg e] at hkn
      rw [hK' i hkn]
      obtain ⟨b1, b2⟩ := hw.brent i hi hkn
      rw [hK' _ b1]; exact ⟨b1, b2⟩
  · intro i j hi hj hkn heq
    rw [hlen] at hi hj
    rw [hK] at hkn heq
    rw [hK] at heq
    by_cases e : i = n <;> by_cases e' : j = n
    · rw [e, e']
    · rw [if_pos e, if_neg e'] at heq
      have := rawequal_symm _ _ heq
      rw [habs j hj] at this; cases this
    · rw [if_neg e, if_pos e'] at heq
      rw [habs i hi] at heq; cases heq
    · rw [if_neg e] at hkn heq
      rw [if_neg e'] at heq
      exact hw.nodup i j hi hj hkn heq
  · intro i hi hkn
    rw [hlen] at hi
    rw [hK] at hkn ⊢
    by_cases e : i = n
    · rw [if_pos e]; exact hk.2
    · rw [if_neg e] at hkn ⊢; exact hw.keyok i hi hkn
  · intro i hi
    rw [hlen] at hi
    have hsa : (linked t k (mainposition t k) n).sizearray = t.sizearray := rfl
    rw [hsa, hK]
    by_cases e : i = n
    · rw [if_pos e]; exact harr
    · rw [if_neg e]; exact hw.arr i hi
  · intro i hi
    rw [hlen] at hi
    rw [hK]
    by_cases e : i = n
    · rw [if_pos e]; exact hk.nodead
    · rw [if_neg e]; exact hw.nodead i hi

theorem next_some_lt (t : Table) (a b : Nat) (h : (gnode t a).next = some b) :
    a < t.node.length := by
  by_contra hal
  have : gnode t a = dummynode_ := by
    simp [gnode, List.getD_eq_getElem?_getD, List.getElem?_eq_none (not_lt.1 hal)]
  rw [this] at h
  cases h

theorem length_moved (t : Table) (mp n prev : Nat) :
    (moved t mp n prev).node.length = t.node.length := by
  simp [moved, setnext, setnode]

theorem gnode_moved (t : Table) (mp n prev : Nat) (hmp : mp < t.node.length)
    (hn : n < t.node.length) (hp : prev < t.node.length) (h1 : prev ≠ mp) (j : Nat) :
    gnode (moved t mp n prev) j =
      if j = mp then ⟨.nil, .nil, none⟩
      else if j = n then gnode t mp
      else if j = prev then { gnode t prev with next := some n }
      else gnode t j := by
  have l1 : (setnext t prev (some n)).node.length = t.node.length := length_setnode _ _ _
  have l2 : (setnode (setnext t prev (some n)) n (gnode (setnext t prev (some n)) mp)).node.length
      = t.node.length := (length_setnode _ _ _).trans l1
  unfold moved
  rw [gnode_setnode _ _ _ _ (l2 ▸ hmp), gnode_setnode _ _ _ _ (l1 ▸ hn)]
  simp only [gnode_setnext _ _ _ _ hp]
  by_cases e : j = mp
  · simp [e]
  · by_cases e' : j = n
    · simp [e, e', Ne.symm h1]
    · simp [e, e']

/-- The move of step B of `newkey`: the colliding node, which is not in its main
position, goes to a free node; its old place becomes free. -/
theorem wfcore_moved (t : Table) (hw : WFcore t) (hd : t.isdummy = false) (mp n prev : Nat)
    (hmp : mp < t.node.length) (hkmp : (gnode t mp).i_key ≠ .nil)
    (hoth : mainposition t (gnode t mp).i_key ≠ mp)
    (hn : n < t.node.length) (hfree : (gnode t n).i_key = .nil)
    (hprev : (gnode t prev).next = some mp) :
    WFcore (moved t mp n prev) := by
  have hp : prev < t.node.length := next_some_lt t prev mp hprev
  have hpm : prev ≠ mp := fun e => next_ne_self t hw prev mp hp hprev e.symm
  have hkp : (gnode t prev).i_key ≠ .nil := key_of_next t hw prev mp hp hprev
  have hpn : prev ≠ n := fun e => hkp (by rw [e]; exact hfree)
  have hnm : n ≠ mp := fun e => hkmp (by rw [← e]; exact hfree)
  have hg := gnode_moved t mp n prev hmp hn hp hpm
  have hlen := length_moved t mp n prev
  have hm : ∀ x, mainposition (moved t mp n prev) x = mainposition t x :=
    fun x => mainposition_lsize _ _ rfl x
  have hN : ∀ j, (gnode (moved t mp n prev) j).next =
      if j = mp then none else if j = n then (gnode t mp).next
      else if j = prev then some n else (gnode t j).next := by
    intro j; rw [hg]; split_ifs <;> rfl
  have hK : ∀ j, (gnode (moved t mp n prev) j).i_key =
      if j = mp then .nil else if j = n then (gnode t mp).i_key else (gnode t j).i_key := by
    intro j; rw [hg]; split_ifs with a b c
    · rfl
    · rfl
    · rw [c]
    · rfl
  have hK' : ∀ j, j ≠ mp → (gnode t j).i_key ≠ .nil →
      (gnode (moved t mp n prev) j).i_key = (gnode t j).i_key := by
    intro j h1 h2
    rw [hK, if_neg h1, if_neg (fun (e : j = n) => h2 (by rw [e]; exact hfree))]
  have hnn : ∀ i j, i < t.node.length → (gnode t i).next = some j → j ≠ n :=
    fun i j hi h (e : j = n) => (hw.next_lt i j hi h).2 (by rw [e]; exact hfree)
  have hnm' : ∀ i j, i < t.node.length → i ≠ prev → (gnode t i).next = some j → j ≠ mp := by
    intro i j hi hip h e
    rw [e] at h
    exact hip (hw.next_inj i prev mp hi hp h hprev)
  refine ⟨hlen.trans hw.size, hw.lsize, hw.asize, hw.amax, ?_, ?_, ?_, ?_, ?_, ?_, ?_, ?_, ?_, ?_,
    ?_⟩
  · intro h; exact absurd h (by simp [moved, setnext, setnode, hd])
  · intro i hi hkn
    rw [hlen] at hi
    rw [hg]
    rw [hK] at hkn
    by_cases e : i = mp
    · rw [if_pos e]; exact ⟨rfl, rfl⟩
    · rw [if_neg e] at hkn ⊢
      by_cases e2 : i = n
      · rw [if_pos e2] at hkn; exact absurd hkn hkmp
      · rw [if_neg e2] at hkn ⊢
        have e3 : i ≠ prev := fun e3 => hkp (by rw [← e3]; exact hkn)
        rw [if_neg e3]; exact hw.free i hi hkn
  · intro i j hi hnx
    rw [hlen] at hi ⊢
    rw [hN] at hnx
    by_cases e : i = mp
    · rw [if_pos e] at hnx; cases hnx
    · rw [if_neg e] at hnx
      by_cases e2 : i = n
      · rw [if_pos e2] at hnx
        obtain ⟨a, b⟩ := hw.next_lt mp j hmp hnx
        exact ⟨a, by rw [hK' j (next_ne_self t hw mp j hmp hnx) b]; exact b⟩
      · rw [if_neg e2] at hnx
        by_cases e3 : i = prev
        · rw [if_pos e3] at hnx
          injection hnx with hnx
          rw [← hnx]
          exact ⟨hn, by rw [hK, if_neg hnm, if_pos rfl]; exact hkmp⟩
        · rw [if_neg e3] at hnx
          obtain ⟨a, b⟩ := hw.next_lt i j hi hnx
          exact ⟨a, by rw [hK' j (hnm' i j hi e3 hnx) b]; exact b⟩
  · intro i i' j hi hi' hnx hnx'
    rw [hlen] at hi hi'
    rw [hN] at hnx hnx'
    by_cases e : i = mp
    · rw [if_pos e] at hnx; cases hnx
    by_cases e' : i' = mp
    · rw [if_pos e'] at hnx'; cases hnx'
    rw [if_neg e] at hnx
    rw [if_neg e'] at hnx'
    by_cases a : i = n <;> by_cases a' : i' = n
    · rw [a, a']
    · rw [if_pos a] at hnx
      rw [if_neg a'] at hnx'
      by_cases b' : i' = prev
      · rw [if_pos b'] at hnx'
        injection hnx' with hnx'
        exact absurd hnx'.symm (hnn mp j hmp hnx)
      · rw [if_neg b'] at hnx'
        exact absurd (hw.next_inj i' mp j hi' hmp hnx' hnx) e'
    · rw [if_pos a'] at hnx'
      rw [if_neg a] at hnx
      by_cases b : i = prev
      · rw [if_pos b] at hnx
        injection hnx with hnx
        exact absurd hnx.symm (hnn mp j hmp hnx')
      · rw [if_neg b] at hnx
        exact absurd (hw.next_inj i mp j hi hmp hnx hnx') e
    · rw [if_neg a] at hnx
      rw [if_neg a'] at hnx'
      by_cases b : i = prev <;> by_cases b' : i' = prev
      · rw [b, b']
      · rw [if_pos b] at hnx
        rw [if_neg b'] at hnx'
        injection hnx with hnx
        exact absurd hnx.symm (hnn i' j hi' hnx')
      · rw [if_pos b'] at hnx'
        rw [if_neg b] at hnx
        injection hnx' with hnx'
        exact absurd hnx'.symm (hnn i j hi hnx)
      · rw [if_neg b] at hnx
        rw [if_neg b'] at hnx'
        exact hw.next_inj i i' j hi hi' hnx hnx'
  · obtain ⟨r, hr⟩ := hw.rank
    refine ⟨fun i => if i = n then r mp else r i, fun i j hi hnx => ?_⟩
    rw [hlen] at hi; rw [hN] at hnx
    by_cases e : i = mp
    · rw [if_pos e] at hnx; cases hnx
    rw [if_neg e] at hnx
    by_cases a : i = n
    · rw [if_pos a] at hnx
      have := hr mp j hmp hnx
      have hj := hnn mp j hmp hnx
      simp only [if_pos a, if_neg hj]
      exact this
    · rw [if_neg a] at hnx
      by_cases b : i = prev
      · rw [if_pos b] at hnx
        injection hnx with hnx
        have := hr prev mp hp hprev
        rw [← hnx]
        simp only [if_pos, if_neg a]
        rw [b]; exact this
      · rw [if_neg b] at hnx
        have := hr i j hi hnx
        have hj := hnn i j hi hnx
        simp only [if_neg a, if_neg hj]
        exact this
  · have hreach : ∀ a b, Reaches t a b → b ≠ mp →
        (a ≠ mp → a ≠ n → Reaches (moved t mp n prev) a b) ∧
        (a = mp → Reaches (moved t mp n prev) n b) := by
      intro a b h
      induction h with
      | refl a =>
        intro hb
        exact ⟨fun _ _ => Reaches.refl a, fun e => absurd e hb⟩
      | step a a' b hnx _ ih =>
        intro hb
        have hal := next_some_lt t a a' hnx
        have ha'n := hnn a a' hal hnx
        obtain ⟨ih1, ih2⟩ := ih hb
        constructor
        · intro ham han
          by_cases e : a' = mp
          · have hap : a = prev := hw.next_inj a prev mp hal hp (e ▸ hnx) hprev
            exact Reaches.step a n b (by rw [hN, if_neg ham, if_neg han, if_pos hap]) (ih2 e)
          · have hap : a ≠ prev := by
              intro hap
              rw [hap, hprev] at hnx
              injection hnx with hnx
              exact e hnx.symm
            exact Reaches.step a a' b (by rw [hN, if_neg ham, if_neg han, if_neg hap]; exact hnx)
              (ih1 e ha'n)
        · intro ham
          rw [ham] at hnx
          have e : a' ≠ mp := next_ne_self t hw mp a' hmp hnx
          exact Reaches.step n a' b (by rw [hN, if_neg hnm, if_pos rfl]; exact hnx) (ih1 e ha'n)
    have hreach2 : ∀ a b, Reaches t a b → b = mp → a ≠ mp → a ≠ n →
        Reaches (moved t mp n prev) a n := by
      intro a b h
      induction h with
      | refl a => intro hb ham; exact absurd hb ham
      | step a a' b hnx _ ih =>
        intro hb ham han
        have hal := next_some_lt t a a' hnx
        have ha'n := hnn a a' hal hnx
        by_cases e : a' = mp
        · have hap : a = prev := hw.next_inj a prev mp hal hp (e ▸ hnx) hprev
          exact Reaches.step a n n (by rw [hN, if_neg ham, if_neg han, if_pos hap])
            (Reaches.refl n)
        · have hap : a ≠ prev := by
            intro hap
            rw [hap, hprev] at hnx
            injection hnx with hnx
            exact e hnx.symm
          exact Reaches.step a a' n (by rw [hN, if_neg ham, if_neg han, if_neg hap]; exact hnx)
            (ih hb e ha'n)
    intro i hi hkn
    rw [hlen] at hi
    rw [hm]
    rw [hK] at hkn ⊢
    by_cases e : i = mp
    · rw [if_pos e] at hkn; exact absurd rfl hkn
    · rw [if_neg e] at hkn ⊢
      by_cases e2 : i = n
      · rw [if_pos e2, e2]
        refine hreach2 _ mp (hw.reach mp hmp hkmp) rfl hoth ?_
        intro e3
        exact (hw.brent mp hmp hkmp).1 (by rw [e3]; exact hfree)
      · rw [if_neg e2] at hkn ⊢
        obtain ⟨b1, b2⟩ := hw.brent i hi hkn
        refine (hreach _ i (hw.reach i hi hkn) e).1 ?_ ?_
        · intro e3
          rw [e3] at b2
          exact hoth b2
        · intro e3
          exact b1 (by rw [e3]; exact hfree)
  · intro i hi hkn
    rw [hlen] at hi
    simp only [hm]
    have hb : ∀ j, j < t.node.length → (gnode t j).i_key ≠ .nil →
        (gnode (moved t mp n prev) (mainposition t (gnode t j).i_key)).i_key ≠ .nil ∧
        mainposition t (gnode (moved t mp n prev) (mainposition t (gnode t j).i_key)).i_key =
          mainposition t (gnode t j).i_key := by
      intro j hj hkj
      obtain ⟨b1, b2⟩ := hw.brent j hj hkj
      have e3 : mainposition t (gnode t j).i_key ≠ mp := by
        intro e3
        rw [e3] at b2
        exact hoth b2
      rw [hK' _ e3 b1]
      exact ⟨b1, b2⟩
    rw [hK] at hkn
    by_cases e : i = mp
    · rw [if_pos e] at hkn; exact absurd rfl hkn
    · rw [if_neg e] at hkn
      by_cases e2 : i = n
      · rw [if_pos e2] at hkn
        have : (gnode (moved t mp n prev) i).i_key = (gnode t mp).i_key := by
          rw [hK, if_neg e, if_pos e2]
        rw [this]; exact hb mp hmp hkmp
      · rw [if_neg e2] at hkn
        have : (gnode (moved t mp n prev) i).i_key = (gnode t i).i_key := by
          rw [hK, if_neg e, if_neg e2]
        rw [this]; exact hb i hi hkn
  · have hsrc : ∀ i, i < t.node.length → (gnode (moved t mp n prev) i).i_key ≠ .nil →
        ∃ s, s < t.node.length ∧ (gnode (moved t mp n prev) i).i_key = (gnode t s).i_key ∧
          (s = mp ↔ i = n) ∧ (s ≠ mp → s = i) := by
      intro i hi hkn
      rw [hK] at hkn ⊢
      by_cases e : i = mp
      · rw [if_pos e] at hkn; exact absurd rfl hkn
      · rw [if_neg e] at hkn ⊢
        by_cases e2 : i = n
        · rw [if_pos e2]; exact ⟨mp, hmp, rfl, by simp [e2], fun h => absurd rfl h⟩
        · rw [if_neg e2]
          exact ⟨i, hi, rfl, by simp [e, e2], fun _ => rfl⟩
    intro i j hi hj hkn heq
    rw [hlen] at hi hj
    have hkj : (gnode (moved t mp n prev) j).i_key ≠ .nil :=
      rawequal_ne_nil _ _ heq hkn
    obtain ⟨s, hs, es, s1, s2⟩ := hsrc i hi hkn
    obtain ⟨s', hs', es', s1', s2'⟩ := hsrc j hj hkj
    rw [es, es'] at heq
    rw [es] at hkn
    have := hw.nodup s s' hs hs' hkn heq
    subst this
    by_cases c : s = mp
    · rw [s1.1 c, s1'.1 c]
    · rw [← s2 c, ← s2' c]
  · intro i hi hkn
    rw [hlen] at hi
    rw [hK] at hkn ⊢
    by_cases e : i = mp
    · rw [if_pos e] at hkn; exact absurd rfl hkn
    · rw [if_neg e] at hkn ⊢
      by_cases e2 : i = n
      · rw [if_pos e2]; exact hw.keyok mp hmp hkmp
      · rw [if_neg e2] at hkn ⊢; exact hw.keyok i hi hkn
  · intro i hi
    rw [hlen] at hi
    have hsa : (moved t mp n prev).sizearray = t.sizearray := rfl
    rw [hsa, hK]
    by_cases e : i = mp
    · rw [if_pos e]; simp [arrayindex]
    · rw [if_neg e]
      by_cases e2 : i = n
      · rw [if_pos e2]; exact hw.arr mp hmp
      · rw [if_neg e2]; exact hw.arr i hi
  · intro i hi
    rw [hlen] at hi
    rw [hK]
    by_cases e : i = mp
    · rw [if_pos e]; simp [ttype, LUA_TNIL, LUA_TDEADKEY]
    · rw [if_neg e]
      by_cases e2 : i = n
      · rw [if_pos e2]; exact hw.nodead mp hmp
      · rw [if_neg e2]; exact hw.nodead i hi

/-! ## `getfreepos`, `newkey` and the writes through a slot -/

theorem keycount_le (t : Table) : keycount t ≤ t.node.length := by
  unfold keycount
  have := Finset.card_filter_le (Finset.range t.node.length)
    (fun i => (gnode t i).i_key ≠ .nil)
  simpa using this

/-- A table whose nodes do not all hold a key has a free node. -/
theorem exists_free (t : Table) (h : keycount t < t.node.length) :
    ∃ i, i < t.node.length ∧ (gnode t i).i_key = .nil := by
  by_contra hc
  push_neg at hc
  have : (Finset.range t.node.length).filter (fun i => (gnode t i).i_key ≠ .nil) =
      Finset.range t.node.length := by
    apply Finset.filter_true_of_mem
    intro i hi
    exact hc i (Finset.mem_range.1 hi)
  unfold keycount at h
  rw [this] at h
  simp at h

theorem keycount_full (t : Table) (h : ∀ i, i < t.node.length → (gnode t i).i_key ≠ .nil) :
    keycount t = t.node.length := by
  unfold keycount
  rw [Finset.filter_true_of_mem (fun i hi => h i (Finset.mem_range.1 hi))]
  simp

/-- Keys gained at one node at most: the count grows by one at most. -/
theorem keycount_le_succ (t t' : Table) (n : Nat) (hlen : t'.node.length = t.node.length)
    (h : ∀ i, i < t.node.length → (gnode t' i).i_key ≠ .nil →
      (gnode t i).i_key ≠ .nil ∨ i = n) :
    keycount t' ≤ keycount t + 1 := by
  unfold keycount
  rw [hlen]
  have hsub : (Finset.range t.node.length).filter (fun i => (gnode t' i).i_key ≠ .nil) ⊆
      insert n ((Finset.range t.node.length).filter (fun i => (gnode t i).i_key ≠ .nil)) := by
    intro i hi
    simp only [Finset.mem_filter, Finset.mem_range] at hi
    rcases h i hi.1 hi.2 with h1 | h1
    · exact Finset.mem_insert_of_mem (by simp [hi.1, h1])
    · rw [h1]; exact Finset.mem_insert_self _ _
  exact (Finset.card_le_card hsub).trans (Finset.card_insert_le _ _)

theorem keycount_mono (t t' : Table) (hlen : t'.node.length = t.node.length)
    (h : ∀ i, i < t.node.length → (gnode t' i).i_key ≠ .nil → (gnode t i).i_key ≠ .nil) :
    keycount t' ≤ keycount t := by
  unfold keycount
  rw [hlen]
  apply Finset.card_le_card
  intro i hi
  simp only [Finset.mem_filter, Finset.mem_range] at hi ⊢
  exact ⟨hi.1, h i hi.1 hi.2⟩

/-- The loop of `getfreepos` finds the topmost free node below `m`. -/
theorem getfreepos_loop_spec (t : Table) (m : Nat) :
    (∃ n : Nat, getfreepos_loop t m = (some n, (n : Int)) ∧ n < m ∧ (gnode t n).i_key = .nil ∧
      ∀ j, n < j → j < m → (gnode t j).i_key ≠ .nil) ∨
    (getfreepos_loop t m = (none, -1) ∧ ∀ j, j < m → (gnode t j).i_key ≠ .nil) := by
  induction m with
  | zero => right; exact ⟨rfl, fun j hj => absurd hj (Nat.not_lt_zero j)⟩
  | succ m ih =>
    unfold getfreepos_loop
    by_cases h : ttisnil (gnode t m).i_key = true
    · rw [if_pos h]
      left
      exact ⟨m, rfl, Nat.lt_succ_self m, (ttisnil_iff _).1 h, fun j h1 h2 => by omega⟩
    · rw [if_neg h]
      have hk : (gnode t m).i_key ≠ .nil := fun e => h ((ttisnil_iff _).2 e)
      rcases ih with ⟨n, h1, h2, h3, h4⟩ | ⟨h1, h2⟩
      · left
        refine ⟨n, h1, by omega, h3, fun j hj1 hj2 => ?_⟩
        by_cases e : j = m
        · rw [e]; exact hk
        · exact h4 j hj1 (by omega)
      · right
        refine ⟨h1, fun j hj => ?_⟩
        by_cases e : j = m
        · rw [e]; exact hk
        · exact h2 j (by omega)

/-- What `getfreepos` returns on a well-formed table whose node vector is its own. -/
theorem getfreepos_spec (t : Table) (hw : WF t) (hd : t.isdummy = false) :
    (∃ n : Nat, getfreepos t = (some n, { t with lastfree := (n : Int) }) ∧ n < t.node.length ∧
      (gnode t n).i_key = .nil ∧ ∀ j, n < j → j < t.node.length → (gnode t j).i_key ≠ .nil) ∨
    ((getfreepos t).1 = none ∧ (∃ lf, (getfreepos t).2 = { t with lastfree := lf }) ∧
      ∀ j, j < t.node.length → (gnode t j).i_key ≠ .nil) := by
  unfold getfreepos
  by_cases h0 : t.lastfree ≤ 0
  · rw [if_pos h0]
    right
    exact ⟨rfl, ⟨_, rfl⟩, fun j hj => hw.lastfree j hj (by omega) hd⟩
  · rw [if_neg h0]
    have hle := hw.lastfree_le
    rcases getfreepos_loop_spec t t.lastfree.toNat with ⟨n, h1, h2, h3, h4⟩ | ⟨h1, h2⟩
    · left
      refine ⟨n, by rw [h1], by omega, h3, fun j hj1 hj2 => ?_⟩
      by_cases c : j < t.lastfree.toNat
      · exact h4 j hj1 c
      · exact hw.lastfree j hj2 (by omega) hd
    · right
      refine ⟨by rw [h1], ⟨_, rfl⟩, fun j hj => ?_⟩
      by_cases c : j < t.lastfree.toNat
      · exact h2 j c
      · exact hw.lastfree j hj (by omega) hd

/-- The loop of `newkey` that looks for the node before `mp` finds it. -/
theorem findprev_spec (t : Table) (hw : WFcore t) (mp a : Nat) (ha : a < t.node.length)
    (h : Reaches t a mp) (hne : a ≠ mp) :
    ∃ prev, findprev t mp t.node.length a = some prev ∧ (gnode t prev).next = some mp := by
  obtain ⟨r, hb, hr⟩ := wf_bounded_rank t hw
  have key : ∀ (a b : Nat), Reaches t a b → b = mp → a ≠ mp → ∀ f, a < t.node.length →
      r a < f → ∃ prev, findprev t mp f a = some prev ∧ (gnode t prev).next = some mp := by
    intro a b h
    induction h with
    | refl a => intro hb' hne'; exact absurd hb' hne'
    | step a a' b hnx _ ih =>
      intro hb' _ f ha hf
      cases f with
      | zero => omega
      | succ f =>
        unfold findprev
        rw [hnx]
        by_cases e : a' = mp
        · exact ⟨a, by simp [e], by rw [hnx, e]⟩
        · simp only [if_neg e]
          exact ih hb' e f (hw.next_lt a a' ha hnx).1 (by have := hr a a' ha hnx; omega)
  exact key a mp h rfl hne _ ha (hb a ha)


theorem wfcore_lastfree (t : Table) (lf : Int) (hw : WFcore t) :
    WFcore { t with lastfree := lf } :=
  ⟨hw.size, hw.lsize, hw.asize, hw.amax, hw.dummy, hw.free, hw.next_lt, hw.next_inj, hw.rank,
    fun i hi hk => reaches_congr t { t with lastfree := lf } (fun _ => rfl) _ _ (hw.reach i hi hk),
    hw.brent, hw.nodup, hw.keyok, hw.arr, hw.nodead⟩

theorem liveSub_refl (t : Table) : LiveSub t t := fun i hi _ => ⟨i, hi, rfl, rfl⟩

theorem liveSub_trans (a b c : Table) (h : LiveSub a b) (h' : LiveSub b c) : LiveSub a c := by
  intro i hi hv
  obtain ⟨i1, h1, h2, h3⟩ := h i hi hv
  obtain ⟨i2, h4, h5, h6⟩ := h' i1 h1 (by rw [h3]; exact hv)
  exact ⟨i2, h4, h5.trans h2, h6.trans h3⟩

/-- Step A keeps the bindings. -/
theorem live_setkey (t : Table) (k : TValue) (mp : Nat) (hmp : mp < t.node.length)
    (hv : (gnode t mp).i_val = .nil) :
    LiveSub t (setkey t mp k) ∧ LiveSub (setkey t mp k) t := by
  have hlen : (setkey t mp k).node.length = t.node.length := length_setnode _ _ _
  constructor
  · intro i hi hvi
    have e : i ≠ mp := fun e => hvi (by rw [e]; exact hv)
    exact ⟨i, by rw [hlen]; exact hi, by rw [gnode_setkey t mp i k hmp, if_neg e],
      by rw [gnode_setkey t mp i k hmp, if_neg e]⟩
  · intro i hi hvi
    rw [hlen] at hi
    rw [gnode_setkey t mp i k hmp] at hvi ⊢
    by_cases e : i = mp
    · rw [if_pos e] at hvi
      exact absurd hv hvi
    · rw [if_neg e] at hvi ⊢
      exact ⟨i, hi, rfl, rfl⟩

/-- Step A: the main position of the key has a nil value. -/
theorem newkey_stepA (t : Table) (hw : WF t)
    (hd : t.isdummy = false) (k : TValue) (hk : validkey k)
    (habs : ∀ i, i < t.node.length → luaO_rawequalObj (gnode t i).i_key k = false)
    (harr : ¬ (0 < arrayindex k ∧ arrayindex k ≤ (t.sizearray : Int)))
    (hv : (gnode t (mainposition t k)).i_val = .nil) :
    NewkeyPost t k (mainposition t k) (setkey t (mainposition t k) k) := by
  have hmp := mainposition_lt_length t hw.size k
  have hlen : (setkey t (mainposition t k) k).node.length = t.node.length :=
    length_setnode _ _ _
  have hg := fun j => gnode_setkey t (mainposition t k) j k hmp
  refine ⟨⟨wfcore_setkey t hw.toWFcore hd k hk habs harr, ?_, ?_, ?_⟩,
    by rw [hlen]; exact hmp, by rw [hg, if_pos rfl], by rw [hg, if_pos rfl]; exact hv,
    rfl, rfl, rfl, hlen, hd, rfl, (live_setkey t k _ hmp hv).1, (live_setkey t k _ hmp hv).2,
    ?_⟩
  · rw [hlen]; exact hw.lastfree_le
  · intro i hi hlf _
    rw [hlen] at hi
    have := hw.lastfree i hi hlf hd
    rw [hg]
    by_cases e : i = mainposition t k
    · rw [if_pos e]; exact hk.1
    · rw [if_neg e]; exact this
  · intro h; exact absurd h (by simp [setkey, setnode, hd])
  · apply keycount_le_succ t _ (mainposition t k) hlen
    intro i _ hki
    rw [hg] at hki
    by_cases e : i = mainposition t k
    · right; exact e
    · rw [if_neg e] at hki; left; exact hki

/-- Step C: the colliding node is in its main position, the new key goes to the free
node `n`. -/
theorem newkey_stepC (t : Table) (hw : WFcore t) (hd : t.isdummy = false) (k : TValue)
    (hk : validkey k)
    (habs : ∀ i, i < t.node.length → luaO_rawequalObj (gnode t i).i_key k = false)
    (harr : ¬ (0 < arrayindex k ∧ arrayindex k ≤ (t.sizearray : Int)))
    (n : Nat) (hn : n < t.node.length) (hfree : (gnode t n).i_key = .nil)
    (habove : ∀ i, n < i → i < t.node.length → (gnode t i).i_key ≠ .nil)
    (hlf : t.lastfree = (n : Int))
    (hkmp : (gnode t (mainposition t k)).i_key ≠ .nil)
    (hoth : mainposition t (gnode t (mainposition t k)).i_key = mainposition t k) :
    NewkeyPost t k n (linked t k (mainposition t k) n) := by
  have hmp := mainposition_lt_length t hw.size k
  have hnm : n ≠ mainposition t k := fun e => hkmp (by rw [← e]; exact hfree)
  have hwl := wfcore_linked t hw hd k hk habs harr n hn hfree hkmp hoth
  have hg := gnode_linked t k (mainposition t k) n hmp hn hnm
  have hlen := length_linked t k (mainposition t k) n
  have hlf2 : (linked t k (mainposition t k) n).lastfree = (n : Int) := hlf
  refine ⟨⟨hwl, ?_, ?_, ?_⟩, by rw [hlen]; exact hn, ?_, ?_, rfl, rfl, rfl, hlen,
    hd, rfl, ?_, ?_, ?_⟩
  · rw [hlen, hlf2]
    exact_mod_cast le_of_lt hn
  · intro i hi hlf' _
    rw [hlen] at hi
    rw [hlf2] at hlf'
    rw [hg]
    by_cases e : i = n
    · rw [if_pos e]; exact hk.1
    · rw [if_neg e]
      have hki := habove i (by omega) hi
      by_cases e2 : i = mainposition t k
      · rw [if_pos e2]; rw [e2] at hki; exact hki
      · rw [if_neg e2]; exact hki
  · intro h; exact absurd h (by simp [linked, setkey, setnext, setnode, hd])
  · rw [hg]; simp
  · rw [hg]; simp
    exact (hw.free n hn hfree).1
  · intro i hi hvi
    have e : i ≠ n := fun e => hvi (by rw [e]; exact (hw.free n hn hfree).1)
    refine ⟨i, by rw [hlen]; exact hi, ?_, ?_⟩
    · rw [hg, if_neg e]; split_ifs with e2
      · rw [e2]
      · rfl
    · rw [hg, if_neg e]; split_ifs with e2
      · rw [e2]
      · rfl
  · intro i hi hvi
    rw [hlen] at hi
    rw [hg] at hvi ⊢
    by_cases e : i = n
    · rw [if_pos e] at hvi
      exact absurd (hw.free n hn hfree).1 hvi
    · rw [if_neg e] at hvi ⊢
      refine ⟨i, hi, ?_, ?_⟩
      · split_ifs with e2
        · rw [e2]
        · rfl
      · split_ifs with e2
        · rw [e2]
        · rfl
  · apply keycount_le_succ t _ n hlen
    intro i _ hki
    rw [hg] at hki
    by_cases e : i = n
    · right; exact e
    · left
      rw [if_neg e] at hki
      by_cases e2 : i = mainposition t k
      · rw [e2]; exact hkmp
      · rw [if_neg e2] at hki; exact hki

theorem setkey_setnode (t : Table) (i : Nat) (nd : Node) (k : TValue) (hi : i < t.node.length) :
    setkey (setnode t i nd) i k = setnode t i { nd with i_key := k } := by
  unfold setkey
  rw [gnode_setnode t i i nd hi, if_pos rfl]
  simp [setnode, List.set_set]

/-- Step B: the colliding node is out of its main position; it moves to the free node
`n` and the new key takes the main position. -/
theorem newkey_stepB (t : Table) (hw : WFcore t) (hd : t.isdummy = false) (k : TValue)
    (hk : validkey k)
    (habs : ∀ i, i < t.node.length → luaO_rawequalObj (gnode t i).i_key k = false)
    (harr : ¬ (0 < arrayindex k ∧ arrayindex k ≤ (t.sizearray : Int)))
    (n : Nat) (hn : n < t.node.length) (hfree : (gnode t n).i_key = .nil)
    (habove : ∀ i, n < i → i < t.node.length → (gnode t i).i_key ≠ .nil)
    (hlf : t.lastfree = (n : Int))
    (hkmp : (gnode t (mainposition t k)).i_key ≠ .nil)
    (hoth : mainposition t (gnode t (mainposition t k)).i_key ≠ mainposition t k)
    (prev : Nat) (hprev : (gnode t prev).next = some (mainposition t k)) :
    NewkeyPost t k (mainposition t k)
      (setkey (moved t (mainposition t k) n prev) (mainposition t k) k) := by
  have hmp := mainposition_lt_length t hw.size k
  have hnm : n ≠ mainposition t k := fun e => hkmp (by rw [← e]; exact hfree)
  have hp : prev < t.node.length := next_some_lt _ prev _ hprev
  have hpm : prev ≠ mainposition t k :=
    fun e => next_ne_self _ hw prev _ hp hprev e.symm
  have hwm := wfcore_moved t hw hd (mainposition t k) n prev hmp hkmp hoth hn hfree hprev
  have hgm := gnode_moved t (mainposition t k) n prev hmp hn hp hpm
  have hlenm := length_moved t (mainposition t k) n prev
  have hmpm : mainposition (moved t (mainposition t k) n prev) k = mainposition t k :=
    mainposition_lsize _ _ rfl k
  have habs' : ∀ i, i < (moved t (mainposition t k) n prev).node.length →
      luaO_rawequalObj (gnode (moved t (mainposition t k) n prev) i).i_key k = false := by
    intro i hi
    rw [hlenm] at hi
    rw [hgm]
    split_ifs with e1 e2 e3
    · exact Bool.eq_false_iff.2 (fun h => hk.1 (rawequal_nil_left k h))
    · exact habs _ hmp
    · exact habs _ hp
    · exact habs i hi
  have hwk := wfcore_setkey _ hwm hd k hk habs' harr
  rw [hmpm] at hwk
  have hgk := fun j => gnode_setkey (moved t (mainposition t k) n prev) (mainposition t k) j k
    (by rw [hlenm]; exact hmp)
  have hlenk : (setkey (moved t (mainposition t k) n prev)
      (mainposition t k) k).node.length = t.node.length :=
    (length_setnode _ _ _).trans hlenm
  have hlf2 : (setkey (moved t (mainposition t k) n prev)
      (mainposition t k) k).lastfree = (n : Int) := hlf
  refine ⟨⟨hwk, ?_, ?_, ?_⟩, by rw [hlenk]; exact hmp, ?_, ?_, rfl,
    rfl, rfl, hlenk, hd, rfl, ?_, ?_, ?_⟩
  · rw [hlenk, hlf2]
    exact_mod_cast le_of_lt hn
  · intro i hi hlf' _
    rw [hlenk] at hi
    rw [hlf2] at hlf'
    rw [hgk]
    by_cases e : i = mainposition t k
    · rw [if_pos e]; exact hk.1
    · rw [if_neg e, hgm, if_neg e]
      by_cases e2 : i = n
      · rw [if_pos e2]; exact hkmp
      · rw [if_neg e2]
        have hki := habove i (by omega) hi
        split_ifs with e3
        · rw [e3] at hki; exact hki
        · exact hki
  · intro h; exact absurd h (by simp [moved, setkey, setnext, setnode, hd])
  · rw [hgk, if_pos rfl]
  · rw [hgk, if_pos rfl, hgm, if_pos rfl]
  · intro i hi hvi
    by_cases e : i = mainposition t k
    · refine ⟨n, by rw [hlenk]; exact hn, ?_, ?_⟩
      · rw [hgk, if_neg hnm, hgm, if_neg hnm, if_pos rfl, e]
      · rw [hgk, if_neg hnm, hgm, if_neg hnm, if_pos rfl, e]
    · have e2 : i ≠ n := fun e2 => hvi (by rw [e2]; exact (hw.free n hn hfree).1)
      refine ⟨i, by rw [hlenk]; exact hi, ?_, ?_⟩
      · rw [hgk, if_neg e, hgm, if_neg e, if_neg e2]; split_ifs with e3
        · rw [e3]
        · rfl
      · rw [hgk, if_neg e, hgm, if_neg e, if_neg e2]; split_ifs with e3
        · rw [e3]
        · rfl
  · intro i hi hvi
    rw [hlenk] at hi
    rw [hgk] at hvi ⊢
    by_cases e : i = mainposition t k
    · rw [if_pos e, hgm, if_pos rfl] at hvi
      exact absurd rfl hvi
    · rw [if_neg e, hgm, if_neg e] at hvi ⊢
      by_cases e2 : i = n
      · rw [if_pos e2] at hvi ⊢
        exact ⟨_, hmp, rfl, rfl⟩
      · rw [if_neg e2] at hvi ⊢
        refine ⟨i, hi, ?_, ?_⟩
        · split_ifs with e3
          · rw [e3]
          · rfl
        · split_ifs with e3
          · rw [e3]
          · rfl
  · apply keycount_le_succ t _ n hlenk
    intro i hi hki
    rw [hgk] at hki
    by_cases e : i = mainposition t k
    · left; rw [e]; exact hkmp
    · rw [if_neg e, hgm, if_neg e] at hki
      by_cases e2 : i = n
      · right; exact e2
      · left
        rw [if_neg e2] at hki
        split_ifs at hki with e3
        · rw [e3]; exact key_of_next _ hw prev _ hp hprev
        · exact hki

/-- The part of `newkey` after a free node was found. -/
theorem newkey_collide_spec (t : Table) (hw : WFcore t) (hd : t.isdummy = false) (k : TValue)
    (hk : validkey k)
    (habs : ∀ i, i < t.node.length → luaO_rawequalObj (gnode t i).i_key k = false)
    (harr : ¬ (0 < arrayindex k ∧ arrayindex k ≤ (t.sizearray : Int)))
    (n : Nat) (hn : n < t.node.length) (hfree : (gnode t n).i_key = .nil)
    (habove : ∀ i, n < i → i < t.node.length → (gnode t i).i_key ≠ .nil)
    (hlf : t.lastfree = (n : Int))
    (hkmp : (gnode t (mainposition t k)).i_key ≠ .nil) :
    ∃ j t', newkey_collide t k (mainposition t k) n = .ok (.node j, t') ∧
      NewkeyPost t k j t' := by
  have hmp := mainposition_lt_length t hw.size k
  unfold newkey_collide
  by_cases hoth : mainposition t (gnode t (mainposition t k)).i_key = mainposition t k
  · simp only [ne_eq, hoth, not_true_eq_false, if_false]
    exact ⟨n, _, rfl, newkey_stepC t hw hd k hk habs harr n hn hfree habove hlf hkmp hoth⟩
  · simp only [ne_eq, hoth, not_false_eq_true, if_true]
    obtain ⟨prev, hfp, hprev⟩ := findprev_spec t hw (mainposition t k) _
      (mainposition_lt_length t hw.size _) (hw.reach _ hmp hkmp) hoth
    rw [hfp]
    have hp : prev < t.node.length := next_some_lt _ prev _ hprev
    have hl2 : (setnode (setnext t prev (some n)) n
        (gnode (setnext t prev (some n)) (mainposition t k))).node.length = t.node.length :=
      (length_setnode _ _ _).trans (length_setnode _ _ _)
    refine ⟨mainposition t k, _, rfl, ?_⟩
    have h := newkey_stepB t hw hd k hk habs harr n hn hfree habove hlf hkmp hoth prev hprev
    have e1 : setkey (moved t (mainposition t k) n prev) (mainposition t k) k =
        setkey (setnode (setnode (setnext t prev (some n)) n
          (gnode (setnext t prev (some n)) (mainposition t k))) (mainposition t k)
          { gnode (setnode (setnext t prev (some n)) n
              (gnode (setnext t prev (some n)) (mainposition t k))) (mainposition t k) with
            next := none, i_val := .nil }) (mainposition t k) k := by
      unfold moved
      rw [setkey_setnode _ _ _ _ (by rw [hl2]; exact hmp),
        setkey_setnode _ _ _ _ (by rw [hl2]; exact hmp)]
    rw [← e1]
    exact h

/-- What `newkey` does when it needs no `rehash`: the key is absent and either its
main position has a nil value or some node is free. -/
theorem newkey_spec (R : Table → TValue → Res (Slot × Table)) (t : Table) (hw : WF t)
    (hd : t.isdummy = false) (k : TValue) (hk : validkey k)
    (habs : ∀ i, i < t.node.length → luaO_rawequalObj (gnode t i).i_key k = false)
    (harr : ¬ (0 < arrayindex k ∧ arrayindex k ≤ (t.sizearray : Int)))
    (hroom : (gnode t (mainposition t k)).i_val = .nil ∨ keycount t < t.node.length) :
    ∃ j t', newkey_with R t k = .ok (.node j, t') ∧ NewkeyPost t k j t' := by
  have hmp := mainposition_lt_length t hw.size k
  unfold newkey_with
  by_cases hv : (gnode t (mainposition t k)).i_val = .nil
  · have hc : ¬ ((!ttisnil (gnode t (mainposition t k)).i_val || t.isdummy) = true) := by
      simp [hd, (ttisnil_iff _).2 hv]
    simp only [if_neg hc]
    exact ⟨_, _, rfl, newkey_stepA t hw hd k hk habs harr hv⟩
  · have hc : (!ttisnil (gnode t (mainposition t k)).i_val || t.isdummy) = true := by
      have : ttisnil (gnode t (mainposition t k)).i_val = false :=
        (ttisnil_false_iff _).2 hv
      simp [this]
    simp only [if_pos hc]
    have hcount : keycount t < t.node.length := by
      rcases hroom with h | h
      · exact absurd h hv
      · exact h
    obtain ⟨i0, hi0, hi0k⟩ := exists_free t hcount
    rcases getfreepos_spec t hw hd with ⟨n, hg1, hn, hfree, habove⟩ | ⟨_, _, hfull⟩
    swap
    · exact absurd hi0k (hfull i0 hi0)
    rw [hg1]
    simp only
    have hkmp : (gnode t (mainposition t k)).i_key ≠ .nil := key_of_val t hw.toWFcore _ hmp hv
    obtain ⟨j, t', h1, h2⟩ := newkey_collide_spec { t with lastfree := (n : Int) }
      (wfcore_lastfree t _ hw.toWFcore) hd k hk habs harr n hn hfree habove rfl hkmp
    exact ⟨j, t', h1, ⟨h2.wf, h2.jlt, h2.key, h2.val, h2.array, h2.sizearray, h2.lsize, h2.len,
      h2.isdummy, h2.flags, h2.sub, h2.sub', h2.count⟩⟩


theorem chainfind_congr (t t' : Table) (p : Node → Bool)
    (h : ∀ i, p (gnode t' i) = p (gnode t i) ∧ (gnode t' i).next = (gnode t i).next)
    (fuel n : Nat) : chainfind t' p fuel n = chainfind t p fuel n := by
  induction fuel generalizing n with
  | zero => rfl
  | succ f ih =>
    unfold chainfind
    rw [(h n).1, (h n).2]
    cases (gnode t n).next with
    | none => rfl
    | some m => simp only [ih]

theorem key_setslot (t : Table) (s : Slot) (v : TValue) (i : Nat) :
    (gnode (setslot t s v) i).i_key = (gnode t i).i_key := by
  cases s with
  | arr j => rfl
  | nilobject => rfl
  | node j =>
    simp only [setslot, gnode, List.getD_eq_getElem?_getD, List.getElem?_set]
    by_cases e : j = i
    · subst e
      by_cases hj : j < t.node.length
      · simp [hj]
      · simp [hj, List.getElem?_eq_none (not_lt.1 hj)]
    · simp [e]

theorem next_setslot (t : Table) (s : Slot) (v : TValue) (i : Nat) :
    (gnode (setslot t s v) i).next = (gnode t i).next := by
  cases s with
  | arr j => rfl
  | nilobject => rfl
  | node j =>
    simp only [setslot, gnode, List.getD_eq_getElem?_getD, List.getElem?_set]
    by_cases e : j = i
    · subst e
      by_cases hj : j < t.node.length
      · simp [hj]
      · simp [hj, List.getElem?_eq_none (not_lt.1 hj)]
    · simp [e]

theorem val_setslot_node (t : Table) (j : Nat) (v : TValue) (i : Nat) (hj : j < t.node.length) :
    (gnode (setslot t (.node j) v) i).i_val = if i = j then v else (gnode t i).i_val := by
  simp only [setslot, gnode, List.getD_eq_getElem?_getD, List.getElem?_set]
  by_cases e : j = i
  · subst e
    simp [hj]
  · have e' : ¬ i = j := fun h => e h.symm
    simp [e, e']

theorem length_setslot (t : Table) (s : Slot) (v : TValue) :
    (setslot t s v).node.length = t.node.length := by
  cases s <;> simp [setslot]

theorem lsize_setslot (t : Table) (s : Slot) (v : TValue) :
    (setslot t s v).lsizenode = t.lsizenode := by
  cases s <;> rfl

theorem sizearray_setslot (t : Table) (s : Slot) (v : TValue) :
    (setslot t s v).sizearray = t.sizearray := by
  cases s <;> rfl

theorem isdummy_setslot (t : Table) (s : Slot) (v : TValue) :
    (setslot t s v).isdummy = t.isdummy := by
  cases s <;> rfl

theorem lastfree_setslot (t : Table) (s : Slot) (v : TValue) :
    (setslot t s v).lastfree = t.lastfree := by
  cases s <;> rfl

theorem flags_setslot (t : Table) (s : Slot) (v : TValue) :
    (setslot t s v).flags = t.flags := by
  cases s <;> rfl

theorem arraylen_setslot (t : Table) (s : Slot) (v : TValue) :
    (setslot t s v).array.length = t.array.length := by
  cases s <;> simp [setslot]

theorem mainposition_setslot (t : Table) (s : Slot) (v : TValue) (k : TValue) :
    mainposition (setslot t s v) k = mainposition t k :=
  mainposition_lsize _ _ (lsize_setslot t s v) k

theorem reaches_setslot (t : Table) (s : Slot) (v : TValue) (a b : Nat) (h : Reaches t a b) :
    Reaches (setslot t s v) a b :=
  reaches_congr t _ (fun i => next_setslot t s v i) a b h

theorem hfind_setslot (t : Table) (s : Slot) (v : TValue) (k : TValue) :
    hfind (setslot t s v) k = hfind t k := by
  unfold hfind
  rw [length_setslot, mainposition_setslot]
  exact chainfind_congr t _ _ (fun i => ⟨by simp only [key_setslot], next_setslot t s v i⟩) _ _

theorem luaH_get_setslot (t : Table) (hs : t.sizearray < 2 ^ 31) (s : Slot) (v : TValue)
    (k : TValue) : luaH_get (setslot t s v) k = luaH_get t k := by
  rw [luaH_get_eq _ (by rw [sizearray_setslot]; exact hs), luaH_get_eq t hs, sizearray_setslot,
    hfind_setslot]

/-- Writing a value through a slot of the table keeps the table well formed. -/
theorem wf_setslot (t : Table) (hw : WF t) (s : Slot) (hs : SlotOk t s) (v : TValue) :
    WF (setslot t s v) := by
  have hlen := length_setslot t s v
  have hk := key_setslot t s v
  have hn := next_setslot t s v
  have hmp := mainposition_setslot t s v
  refine ⟨⟨?_, ?_, ?_, ?_, ?_, ?_, ?_, ?_, ?_, ?_, ?_, ?_, ?_, ?_, ?_⟩, ?_, ?_, ?_⟩
  · rw [hlen, lsize_setslot]; exact hw.size
  · rw [lsize_setslot]; exact hw.lsize
  · rw [sizearray_setslot, arraylen_setslot]; exact hw.asize
  · rw [sizearray_setslot]; exact hw.amax
  · intro h
    rw [isdummy_setslot] at h
    have h1 := hw.dummy h
    cases s with
    | arr j => exact h1
    | nilobject => exact h1
    | node j =>
      obtain ⟨hj, hkj⟩ := hs
      rw [h1] at hj
      have : j = 0 := by simpa using hj
      subst this
      exact absurd (by simp [gnode, h1, dummynode_]) hkj
  · intro i hi hki
    rw [hlen] at hi
    rw [hk] at hki
    rw [hn]
    refine ⟨?_, (hw.free i hi hki).2⟩
    cases s with
    | arr j => exact (hw.free i hi hki).1
    | nilobject => exact (hw.free i hi hki).1
    | node j =>
      rw [val_setslot_node t j v i hs.1]
      have e : i ≠ j := fun e => hs.2 (by rw [← e]; exact hki)
      rw [if_neg e]
      exact (hw.free i hi hki).1
  · intro i j hi hnx
    rw [hlen] at hi ⊢
    rw [hn] at hnx
    rw [hk]
    exact hw.next_lt i j hi hnx
  · intro i i' j hi hi' h1 h2
    rw [hlen] at hi hi'
    rw [hn] at h1 h2
    exact hw.next_inj i i' j hi hi' h1 h2
  · obtain ⟨r, hr⟩ := hw.rank
    refine ⟨r, fun i j hi hnx => ?_⟩
    rw [hlen] at hi
    rw [hn] at hnx
    exact hr i j hi hnx
  · intro i hi hki
    rw [hlen] at hi
    rw [hk] at hki ⊢
    rw [hmp]
    exact reaches_setslot t s v _ _ (hw.reach i hi hki)
  · intro i hi hki
    rw [hlen] at hi
    rw [hk] at hki ⊢
    rw [hmp, hk, hmp]
    exact hw.brent i hi hki
  · intro i j hi hj hki he
    rw [hlen] at hi hj
    rw [hk] at hki he
    rw [hk] at he
    exact hw.nodup i j hi hj hki he
  · intro i hi hki
    rw [hlen] at hi
    rw [hk] at hki ⊢
    exact hw.keyok i hi hki
  · intro i hi
    rw [hlen] at hi
    rw [hk, sizearray_setslot]
    exact hw.arr i hi
  · intro i hi
    rw [hlen] at hi
    rw [hk]
    exact hw.nodead i hi
  · rw [hlen, lastfree_setslot]; exact hw.lastfree_le
  · intro i hi hlf hd
    rw [hlen] at hi
    rw [lastfree_setslot] at hlf
    rw [isdummy_setslot] at hd
    rw [hk]
    exact hw.lastfree i hi hlf hd
  · intro hd
    rw [isdummy_setslot] at hd
    rw [lastfree_setslot]
    exact hw.lastfree_dummy hd

/-- Reading a slot after a write through a slot. -/
theorem slotval_setslot (t : Table) (hw : WFcore t) (s : Slot) (hs : SlotOk t s) (v : TValue)
    (s' : Slot) : slotval (setslot t s v) s' = if s' = s then v else slotval t s' := by
  cases s with
  | nilobject => exact absurd hs (by simp [SlotOk])
  | arr j =>
    have hj : j < t.array.length := lt_of_lt_of_le hs hw.asize
    cases s' with
    | nilobject => simp [slotval]
    | node i => simp [slotval, setslot, gnode]
    | arr i =>
      simp only [slotval, setslot, List.getD_eq_getElem?_getD, List.getElem?_set]
      by_cases e : j = i
      · subst e; simp [hj]
      · have e' : ¬ i = j := fun h => e h.symm
        simp [e, e']
  | node j =>
    cases s' with
    | nilobject => simp [slotval]
    | arr i => simp [slotval, setslot]
    | node i =>
      simp only [slotval]
      rw [val_setslot_node t j v i hs.1]
      simp

theorem sizearray_lt (t : Table) (hw : WFcore t) : t.sizearray < 2 ^ 31 :=
  lt_of_le_of_lt hw.amax (by unfold MAXASIZE MAXBITS; norm_num)

/-- The slot of a key is the slot of every key equal to it. -/
theorem luaH_get_congr (t : Table) (hw : WFcore t) (x k : TValue)
    (h : luaO_rawequalObj x k = true) : luaH_get t x = luaH_get t k := by
  have hs := sizearray_lt t hw
  rw [luaH_get_eq t hs, luaH_get_eq t hs]
  by_cases hx : x = .nil
  · subst hx
    rw [rawequal_nil_left k h]
  · have hk : k ≠ .nil := rawequal_ne_nil _ _ h hx
    rw [if_neg hx, if_neg hk, arrayindex_congr_raw x k h]
    split_ifs with c
    · rfl
    · rcases hfind_cases t hw k with h1 | ⟨i, hi, h1, h2⟩
      · rw [h1]
        apply hfind_absent t hw
        intro i hi
        have := hfind_nilobject t hw k hk h1 i hi
        rw [rawequal_congr_right _ _ _ h]
        exact this
      · rw [h1]
        exact hfind_of_key t hw x i hi
          (rawequal_trans _ _ _ h2 (rawequal_symm _ _ h)) hx

/-- Two keys with the same positive array index are equal. -/
theorem rawequal_of_arrayindex (x k : TValue) (e : arrayindex x = arrayindex k)
    (h : 0 < arrayindex x) : luaO_rawequalObj x k = true := by
  obtain ⟨n, hx, h1, _⟩ := arrayindex_pos x h
  obtain ⟨m, hk, h2, _⟩ := arrayindex_pos k (by rw [← e]; exact h)
  rw [← e] at h2
  subst hx hk
  exact luai_numeq_trans _ _ _ (luai_numeq_symm _ _ h1) h2

/-- Two keys with the same slot are equal. -/
theorem rawequal_of_slot (t : Table) (hw : WFcore t) (x k : TValue)
    (h : luaH_get t x = luaH_get t k) (hne : luaH_get t k ≠ .nilobject) :
    luaO_rawequalObj x k = true := by
  have hs := sizearray_lt t hw
  rw [luaH_get_eq t hs, luaH_get_eq t hs] at h
  rw [luaH_get_eq t hs] at hne
  by_cases hk : k = .nil
  · rw [if_pos hk] at hne; exact absurd rfl hne
  by_cases hx : x = .nil
  · rw [if_pos hx, if_neg hk] at h
    rw [← h] at hne
    rw [if_neg hk] at hne
    exact absurd rfl hne
  rw [if_neg hx, if_neg hk] at h
  rw [if_neg hk] at hne
  by_cases cx : 0 < arrayindex x ∧ arrayindex x ≤ (t.sizearray : Int)
  · rw [if_pos cx] at h
    by_cases ck : 0 < arrayindex k ∧ arrayindex k ≤ (t.sizearray : Int)
    · rw [if_pos ck] at h
      have e : arrayindex x = arrayindex k := by
        have := Slot.arr.inj h
        omega
      exact rawequal_of_arrayindex x k e cx.1
    · rw [if_neg ck] at h
      rcases hfind_cases t hw k with h1 | ⟨i, _, h1, _⟩
      · rw [h1] at h; cases h
      · rw [h1] at h; cases h
  · rw [if_neg cx] at h
    by_cases ck : 0 < arrayindex k ∧ arrayindex k ≤ (t.sizearray : Int)
    · rw [if_pos ck] at h
      rcases hfind_cases t hw x with h1 | ⟨i, _, h1, _⟩
      · rw [h1] at h; cases h
      · rw [h1] at h; cases h
    · rw [if_neg ck] at h hne
      rcases hfind_cases t hw k with h1 | ⟨i, _, h1, h2⟩
      · exact absurd h1 hne
      · rcases hfind_cases t hw x with h3 | ⟨i', _, h3, h4⟩
        · rw [h3, h1] at h; cases h
        · rw [h3, h1] at h
          have := Slot.node.inj h
          subst this
          exact rawequal_trans _ _ _ (rawequal_symm _ _ h4) h2

/-- The slot that `luaH_get` finds points into the table. -/
theorem slotok_get (t : Table) (hw : WFcore t) (k : TValue)
    (hne : luaH_get t k ≠ .nilobject) : SlotOk t (luaH_get t k) := by
  have hs := sizearray_lt t hw
  rw [luaH_get_eq t hs] at hne ⊢
  by_cases hk : k = .nil
  · rw [if_pos hk] at hne; exact absurd rfl hne
  rw [if_neg hk] at hne ⊢
  by_cases ck : 0 < arrayindex k ∧ arrayindex k ≤ (t.sizearray : Int)
  · rw [if_pos ck]
    show (arrayindex k - 1).toNat < t.sizearray
    omega
  · rw [if_neg ck] at hne ⊢
    rcases hfind_cases t hw k with h1 | ⟨i, hi, h1, h2⟩
    · exact absurd h1 hne
    · rw [h1]
      exact ⟨hi, rawequal_ne_nil _ _ (rawequal_symm _ _ h2) hk⟩

/-- Read after write: the written key reads the new value, the other keys their
old value. -/
theorem getval_setslot (t : Table) (hw : WFcore t) (k : TValue)
    (hne : luaH_get t k ≠ .nilobject) (v : TValue) (x : TValue) :
    getval (setslot t (luaH_get t k) v) x =
      if luaO_rawequalObj x k = true then v else getval t x := by
  have hs := sizearray_lt t hw
  unfold getval
  rw [luaH_get_setslot t hs, slotval_setslot t hw _ (slotok_get t hw k hne)]
  by_cases c : luaO_rawequalObj x k = true
  · rw [if_pos c, if_pos (luaH_get_congr t hw x k c)]
  · rw [if_neg c, if_neg (fun h => c (rawequal_of_slot t hw x k h hne))]

theorem getval_nil (t : Table) : getval t .nil = .nil := rfl

/-- Tables with the same array part and the same bindings in the node part read
alike. -/
theorem getval_congr (t t' : Table) (hw : WFcore t) (hw' : WFcore t')
    (ha : t'.array = t.array) (hsz : t'.sizearray = t.sizearray)
    (h1 : LiveSub t t') (h2 : LiveSub t' t) (x : TValue) : getval t' x = getval t x := by
  have key : ∀ (a b : Table), WFcore a → WFcore b → LiveSub a b → ∀ i, i < a.node.length →
      hfind a x = .node i → luaO_rawequalObj (gnode a i).i_key x = true → x ≠ .nil →
      (gnode a i).i_val ≠ .nil → hval b x = (gnode a i).i_val := by
    intro a b _ hb hab i hi _ hkx hx hv
    obtain ⟨i', hi', e1, e2⟩ := hab i hi hv
    unfold hval
    rw [hfind_of_key b hb x i' hi' (by rw [e1]; exact hkx) hx]
    exact e2
  unfold getval
  rw [luaH_get_eq t (sizearray_lt t hw), luaH_get_eq t' (sizearray_lt t' hw'), hsz]
  by_cases hx : x = .nil
  · rw [if_pos hx, if_pos hx]; rfl
  rw [if_neg hx, if_neg hx]
  by_cases c : 0 < arrayindex x ∧ arrayindex x ≤ (t.sizearray : Int)
  · rw [if_pos c, if_pos c]
    simp only [slotval, ha]
  rw [if_neg c, if_neg c]
  show hval t' x = hval t x
  by_cases hv : hval t x = .nil
  · rw [hv]
    by_contra hv'
    rcases hfind_cases t' hw' x with e | ⟨i, hi, e, e2⟩
    · exact hv' (by unfold hval; rw [e]; rfl)
    · have e3 : hval t' x = (gnode t' i).i_val := by unfold hval; rw [e]; rfl
      rw [e3] at hv'
      have := key t' t hw' hw h2 i hi e e2 hx hv'
      rw [hv] at this
      exact hv' this.symm
  · rcases hfind_cases t hw x with e | ⟨i, hi, e, e2⟩
    · exact absurd (by unfold hval; rw [e]; rfl) hv
    · have e3 : hval t x = (gnode t i).i_val := by unfold hval; rw [e]; rfl
      rw [e3] at hv ⊢
      exact key t t' hw hw' h1 i hi e e2 hx hv


/-- The body shared by `luaH_set`, `luaH_setnum` and `luaH_setstr` when the key needs
no `rehash`: it is in the table, or its main position has a nil value, or some
node is free. -/
theorem put_core (R : Table → TValue → Res (Slot × Table)) (t : Table) (hw : WF t)
    (k : TValue) (hk : validkey k)
    (hroom : luaH_get t k = .nilobject → t.isdummy = false ∧
      ((gnode t (mainposition t k)).i_val = .nil ∨ keycount t < t.node.length)) :
    ∃ s t', (if luaH_get t k ≠ .nilobject then .ok (luaH_get t k, t) else newkey_with R t k) =
      .ok (s, t') ∧ PutPost t k s t' := by
  by_cases c : luaH_get t k = .nilobject
  · rw [if_neg (not_not.2 c)]
    obtain ⟨hd, hr⟩ := hroom c
    have hs := sizearray_lt t hw.toWFcore
    have c' := c
    rw [luaH_get_eq t hs, if_neg hk.1] at c'
    have harr : ¬ (0 < arrayindex k ∧ arrayindex k ≤ (t.sizearray : Int)) := by
      intro h; rw [if_pos h] at c'; cases c'
    rw [if_neg harr] at c'
    obtain ⟨j, t', h1, h2⟩ := newkey_spec R t hw hd k hk
      (hfind_nilobject t hw.toWFcore k hk.1 c') harr hr
    have hget : luaH_get t' k = .node j := by
      rw [luaH_get_eq t' (sizearray_lt t' h2.wf.toWFcore), if_neg hk.1, h2.sizearray,
        if_neg harr]
      exact hfind_of_key t' h2.wf.toWFcore k j h2.jlt (by rw [h2.key]; exact hk.2) hk.1
    refine ⟨_, _, h1, ⟨h2.wf, hget.symm, by simp, h2.array, h2.sizearray, h2.lsize, h2.len,
      by rw [h2.isdummy, hd], ?_, ?_⟩⟩
    · exact getval_congr t t' hw.toWFcore h2.wf.toWFcore h2.array h2.sizearray h2.sub h2.sub'
    · rw [if_neg harr]; exact h2.count
  · rw [if_pos c]
    exact ⟨_, _, rfl, ⟨hw, rfl, c, rfl, rfl, rfl, rfl, rfl, fun _ => rfl, Nat.le_add_right _ _⟩⟩

theorem keycount_setslot (t : Table) (s : Slot) (v : TValue) :
    keycount (setslot t s v) = keycount t := by
  unfold keycount
  rw [length_setslot]
  simp only [key_setslot]

theorem tail_setslot (t : Table) (s : Slot) (hs : SlotOk t s) (v : TValue) (j : Nat)
    (hj : t.sizearray ≤ j) : (setslot t s v).array.getD j .nil = t.array.getD j .nil := by
  cases s with
  | nilobject => rfl
  | node i => rfl
  | arr i =>
    have hi : i < t.sizearray := hs
    have e : i ≠ j := by omega
    simp [setslot, List.getElem?_set, e]

/-- The write `setobj2t(L, luaH_set(L, t, k), v)` seen as one step. -/
theorem putRel_of_post (t : Table) (k : TValue) (s : Slot) (t1 : Table) (v : TValue)
    (h : PutPost t k s t1) : PutRel t k v (setslot t1 s v) := by
  have hne : luaH_get t1 k ≠ .nilobject := by rw [← h.slot]; exact h.found
  have hok : SlotOk t1 s := by rw [h.slot]; exact slotok_get t1 h.wf.toWFcore k hne
  refine ⟨wf_setslot t1 h.wf s hok v, by rw [sizearray_setslot, h.sizearray],
    by rw [lsize_setslot, h.lsize], by rw [length_setslot, h.len],
    by rw [isdummy_setslot, h.isdummy], by rw [arraylen_setslot, h.array], ?_, ?_, ?_⟩
  · intro j hj
    rw [tail_setslot t1 s hok v j (by rw [h.sizearray]; exact hj), h.array]
  · intro x
    rw [h.slot, getval_setslot t1 h.wf.toWFcore k hne v x, h.read]
  · rw [keycount_setslot]; exact h.count

theorem wf_flags (t : Table) (f : Nat) (hw : WF t) : WF { t with flags := f } :=
  ⟨⟨hw.size, hw.lsize, hw.asize, hw.amax, hw.dummy, hw.free, hw.next_lt, hw.next_inj, hw.rank,
    fun i hi hk => reaches_congr t { t with flags := f } (fun _ => rfl) _ _ (hw.reach i hi hk),
    hw.brent, hw.nodup, hw.keyok, hw.arr, hw.nodead⟩, hw.lastfree_le, hw.lastfree, hw.lastfree_dummy⟩

/-- The function `luaH_get` reads the sizes and the node vector only. -/
theorem luaH_get_same (t t' : Table) (hn : t'.node = t.node) (hl : t'.lsizenode = t.lsizenode)
    (hs : t'.sizearray = t.sizearray) (k : TValue) : luaH_get t' k = luaH_get t k := by
  have hc : ∀ p fuel n, chainfind t' p fuel n = chainfind t p fuel n :=
    fun p fuel n => chainfind_congr t t' p (fun i => by simp [gnode, hn]) fuel n
  cases k <;>
    simp only [luaH_get, luaH_getnum, luaH_getstr, mainposition, hashnum, hashpow2,
      hashpointer, hashmod, sizenode, hl, hs, hn, hc]

theorem getval_same (t t' : Table) (hn : t'.node = t.node) (hl : t'.lsizenode = t.lsizenode)
    (hs : t'.sizearray = t.sizearray) (ha : t'.array = t.array) (k : TValue) :
    getval t' k = getval t k := by
  unfold getval
  rw [luaH_get_same t t' hn hl hs]
  cases luaH_get t k <;> simp [slotval, gnode, hn, ha]

theorem putPost_flags (t : Table) (f : Nat) (k : TValue) (s : Slot) (t' : Table)
    (h : PutPost { t with flags := f } k s t') : PutPost t k s t' :=
  ⟨h.wf, h.slot, h.found, h.array, h.sizearray, h.lsize, h.len, h.isdummy,
    fun x => (h.read x).trans (getval_same t { t with flags := f } rfl rfl rfl rfl x), h.count⟩

theorem validkey_not_nan (k : TValue) (hk : validkey k) :
    (ttisnumber k && luai_numisnan (nvalue k)) = false := by
  cases k with
  | number n =>
    have := hk.2
    simp only [luaO_rawequalObj] at this
    simp only [luai_numisnan_eq, nvalue]
    rw [luai_numeq_iff] at this
    rw [this.1]
    simp
  | gc tt p => cases tt <;> rfl
  | _ => rfl

/-- The function `luaH_set` when the key needs no `rehash`. -/
theorem luaH_set_with_spec (R : Table → TValue → Res (Slot × Table)) (t : Table) (hw : WF t)
    (k : TValue) (hk : validkey k)
    (hroom : luaH_get t k = .nilobject → t.isdummy = false ∧
      ((gnode t (mainposition t k)).i_val = .nil ∨ keycount t < t.node.length)) :
    ∃ s t', luaH_set_with R t k = .ok (s, t') ∧ PutPost t k s t' := by
  have hg : luaH_get { t with flags := 0 } k = luaH_get t k :=
    luaH_get_same t { t with flags := 0 } rfl rfl rfl k
  obtain ⟨s, t', h1, h2⟩ := put_core R { t with flags := 0 } (wf_flags t 0 hw) k hk
    (fun h => hroom (hg ▸ h))
  refine ⟨s, t', ?_, putPost_flags t 0 k s t' h2⟩
  unfold luaH_set_with
  rw [hg] at h1
  by_cases c : luaH_get t k = .nilobject
  · rw [if_neg (not_not.2 c)] at h1
    simp only [if_neg (not_not.2 c), (ttisnil_false_iff k).2 hk.1, validkey_not_nan k hk,
      Bool.false_eq_true, if_false]
    exact h1
  · rw [if_pos c] at h1
    simp only [if_pos c]
    exact h1

theorem luaH_get_cast_num (t : Table) (key : Int) (h1 : -(2 ^ 31) ≤ key) (h2 : key < 2 ^ 31) :
    luaH_get t (.number (cast_num key)) = luaH_getnum t key := by
  obtain ⟨a, b⟩ := cast_num_int key h1 h2
  have : luai_numeq (cast_num key) (cast_num key) = true := by
    simp [luai_numeq, b]
  simp only [luaH_get, a, this, if_true]

theorem validkey_cast_num (key : Int) (h1 : -(2 ^ 31) ≤ key) (h2 : key < 2 ^ 31) :
    validkey (.number (cast_num key)) := by
  rw [validkey_number, luai_numisnan_eq]
  exact (cast_num_int key h1 h2).2

/-- The function `luaH_setnum` when the key needs no `rehash`. -/
theorem luaH_setnum_with_spec (R : Table → TValue → Res (Slot × Table)) (t : Table)
    (hw : WF t) (key : Int) (h1 : -(2 ^ 31) ≤ key) (h2 : key < 2 ^ 31)
    (hroom : luaH_get t (.number (cast_num key)) = .nilobject → t.isdummy = false ∧
      ((gnode t (mainposition t (.number (cast_num key)))).i_val = .nil ∨
        keycount t < t.node.length)) :
    ∃ s t', luaH_setnum_with R t key = .ok (s, t') ∧
      PutPost t (.number (cast_num key)) s t' := by
  obtain ⟨s, t', h3, h4⟩ := put_core R t hw _ (validkey_cast_num key h1 h2) hroom
  rw [luaH_get_cast_num t key h1 h2] at h3
  exact ⟨s, t', h3, h4⟩

/-- The function `luaH_setstr` when the key needs no `rehash`. -/
theorem luaH_setstr_with_spec (R : Table → TValue → Res (Slot × Table)) (t : Table)
    (hw : WF t) (key : TString)
    (hroom : luaH_get t (.string key) = .nilobject → t.isdummy = false ∧
      ((gnode t (mainposition t (.string key))).i_val = .nil ∨
        keycount t < t.node.length)) :
    ∃ s t', luaH_setstr_with R t key = .ok (s, t') ∧ PutPost t (.string key) s t' :=
  put_core R t hw _ (validkey_of_not_number _ (by simp) (by simp)
    (by simp [ttype, LUA_TSTRING, LUA_TDEADKEY])) hroom


theorem binsum_zero (nums : List Nat) : binsum nums 0 = 0 := rfl

theorem binsum_succ (nums : List Nat) (i : Nat) :
    binsum nums (i + 1) = binsum nums i + nums.getD i 0 := by
  simp [binsum, List.range_succ]

theorem length_addnum (nums : List Nat) (b d : Nat) : (addnum nums b d).length = nums.length := by
  simp [addnum]

theorem getD_addnum (nums : List Nat) (b d j : Nat) (hb : b < nums.length) :
    (addnum nums b d).getD j 0 = nums.getD j 0 + (if j = b then d else 0) := by
  simp only [addnum, List.getD_eq_getElem?_getD, List.getElem?_set]
  by_cases e : b = j
  · subst e; simp [hb]
  · have e' : ¬ j = b := fun h => e h.symm
    simp [e, e']

theorem binsum_addnum (nums : List Nat) (b d i : Nat) (hb : b < nums.length) :
    binsum (addnum nums b d) i = binsum nums i + (if b < i then d else 0) := by
  induction i with
  | zero => simp [binsum_zero]
  | succ i ih =>
    rw [binsum_succ, binsum_succ, ih, getD_addnum nums b d i hb]
    by_cases c1 : b < i
    · have c2 : i ≠ b := by omega
      have c3 : b < i + 1 := by omega
      simp [c1, c2, c3]; omega
    · by_cases c2 : i = b
      · subst c2; simp; omega
      · have c3 : ¬ b < i + 1 := by omega
        simp [c1, c2, c3]

/-- The loop of `computesizes`: the result is `(0, 0)` or `(2^j, nums[0] + ... + nums[j])`
for a `j` with `nums[j] > 0` and more than half of the `2^j` slots counted. -/
theorem computesizes_loop_spec (nums : List Nat) (narray : Nat) :
    ∀ (fuel i a na n : Nat), a = binsum nums i →
      ((n = 0 ∧ na = 0) ∨ ∃ j, n = 2 ^ j ∧ na = binsum nums (j + 1) ∧ 0 < nums.getD j 0 ∧
        2 ^ j / 2 < na) →
      (((computesizes_loop nums narray fuel i (2 ^ i) a na n).1 = 0 ∧
          (computesizes_loop nums narray fuel i (2 ^ i) a na n).2 = 0) ∨
        ∃ j, (computesizes_loop nums narray fuel i (2 ^ i) a na n).1 = 2 ^ j ∧
          (computesizes_loop nums narray fuel i (2 ^ i) a na n).2 = binsum nums (j + 1) ∧
          0 < nums.getD j 0 ∧
          2 ^ j / 2 < (computesizes_loop nums narray fuel i (2 ^ i) a na n).2) := by
  intro fuel
  induction fuel with
  | zero => intro i a na n _ h; exact h
  | succ f ih =>
    intro i a na n ha h
    unfold computesizes_loop
    by_cases c : 2 ^ i / 2 < narray
    · rw [if_pos c]
      simp only
      have ha1 : (if 0 < nums.getD i 0 then a + nums.getD i 0 else a) = binsum nums (i + 1) := by
        rw [binsum_succ, ← ha]
        split_ifs with c1
        · rfl
        · omega
      rw [ha1]
      by_cases c2 : 0 < nums.getD i 0 ∧ 2 ^ i / 2 < binsum nums (i + 1)
      · simp only [if_pos c2]
        have h1 : (2 ^ i = 0 ∧ binsum nums (i + 1) = 0) ∨
            ∃ j, 2 ^ i = 2 ^ j ∧ binsum nums (i + 1) = binsum nums (j + 1) ∧
              0 < nums.getD j 0 ∧ 2 ^ j / 2 < binsum nums (i + 1) :=
          Or.inr ⟨i, rfl, rfl, c2.1, c2.2⟩
        by_cases c3 : binsum nums (i + 1) = narray
        · rw [if_pos c3]; exact h1
        · rw [if_neg c3]
          have := ih (i + 1) (binsum nums (i + 1)) _ _ rfl h1
          rw [pow_succ] at this
          exact this
      · simp only [if_neg c2]
        by_cases c3 : binsum nums (i + 1) = narray
        · rw [if_pos c3]; exact h
        · rw [if_neg c3]
          have := ih (i + 1) (binsum nums (i + 1)) _ _ rfl h
          rw [pow_succ] at this
          exact this
    · rw [if_neg c]
      exact h

theorem computesizes_spec (nums : List Nat) (narray : Nat) :
    ((computesizes nums narray).1 = 0 ∧ (computesizes nums narray).2 = 0) ∨
      ∃ j, (computesizes nums narray).1 = 2 ^ j ∧
        (computesizes nums narray).2 = binsum nums (j + 1) ∧ 0 < nums.getD j 0 ∧
        2 ^ j / 2 < (computesizes nums narray).2 :=
  computesizes_loop_spec nums narray (narray + 2) 0 0 0 0 rfl (Or.inl ⟨rfl, rfl⟩)

theorem ceillog2_eq (x : Nat) : ceillog2 x = bitlen (x - 1) := by
  unfold ceillog2 luaO_log2
  omega

theorem ceillog2_le_iff (x i : Nat) (hx : 0 < x) : ceillog2 x ≤ i ↔ x ≤ 2 ^ i := by
  rw [ceillog2_eq]
  obtain ⟨h1, h2⟩ := bitlen_spec (x - 1)
  constructor
  · intro h
    have : 2 ^ bitlen (x - 1) ≤ 2 ^ i := Nat.pow_le_pow_right (by decide) h
    omega
  · intro h
    exact h2 i (by omega)

theorem le_twoto_ceillog2 (x : Nat) (hx : 0 < x) : x ≤ 2 ^ ceillog2 x :=
  (ceillog2_le_iff x _ hx).1 (le_refl _)

theorem inrange_iff (m : Nat) (k : Int) : inrange m k = true ↔ 0 < k ∧ k ≤ (m : Int) := by
  simp [inrange]

/-- The function `countint` adds the key to the slice of its array index. -/
theorem countint_spec (key : TValue) (nums : List Nat) (hl : nums.length = MAXBITS + 1) :
    (countint key nums).1.length = MAXBITS + 1 ∧
    (countint key nums).2 = (if inrange MAXASIZE (arrayindex key) then 1 else 0) ∧
    ∀ m, m ≤ MAXBITS → binsum (countint key nums).1 (m + 1) =
      binsum nums (m + 1) + (if inrange (2 ^ m) (arrayindex key) then 1 else 0) := by
  unfold countint
  by_cases c : 0 < arrayindex key ∧ arrayindex key ≤ (MAXASIZE : Int)
  · simp only [if_pos c]
    have hpos : 0 < (arrayindex key).toNat := by omega
    have hle : (arrayindex key).toNat ≤ 2 ^ MAXBITS := by
      have := c.2
      unfold MAXASIZE at this
      omega
    have hb : ceillog2 (arrayindex key).toNat < nums.length := by
      rw [hl]
      exact Nat.lt_succ_of_le ((ceillog2_le_iff _ _ hpos).2 hle)
    refine ⟨by rw [length_addnum, hl], by rw [if_pos ((inrange_iff _ _).2 c)], ?_⟩
    intro m _
    rw [binsum_addnum nums _ 1 (m + 1) hb]
    congr 1
    have e : ceillog2 (arrayindex key).toNat < m + 1 ↔ inrange (2 ^ m) (arrayindex key) = true := by
      rw [Nat.lt_succ_iff, ceillog2_le_iff _ _ hpos, inrange_iff]
      constructor
      · intro h
        refine ⟨c.1, ?_⟩
        have : ((arrayindex key).toNat : Int) ≤ ((2 ^ m : Nat) : Int) := by exact_mod_cast h
        omega
      · intro h
        have h2 := h.2
        have : ((arrayindex key).toNat : Int) ≤ ((2 ^ m : Nat) : Int) := by omega
        exact_mod_cast this
    by_cases c2 : inrange (2 ^ m) (arrayindex key) = true
    · rw [if_pos (e.2 c2), if_pos c2]
    · rw [if_neg (fun h => c2 (e.1 h)), if_neg c2]
  · simp only [if_neg c]
    refine ⟨hl, by rw [if_neg (fun h => c ((inrange_iff _ _).1 h))], ?_⟩
    intro m hm
    have : inrange (2 ^ m) (arrayindex key) = false := by
      apply Bool.eq_false_iff.2
      intro h
      rw [inrange_iff] at h
      apply c
      refine ⟨h.1, le_trans h.2 ?_⟩
      have : 2 ^ m ≤ 2 ^ MAXBITS := Nat.pow_le_pow_right (by decide) hm
      unfold MAXASIZE
      exact_mod_cast this
    rw [this]
    simp

theorem ncnt_zero (t : Table) (p : Int → Bool) : ncnt t p 0 = 0 := rfl

theorem ncnt_succ (t : Table) (p : Int → Bool) (i : Nat) :
    ncnt t p (i + 1) = ncnt t p i +
      (if (!ttisnil (gnode t i).i_val && p (arrayindex (gnode t i).i_key)) = true
        then 1 else 0) := by
  simp only [ncnt, List.range_succ, List.filter_append, List.length_append, List.filter_cons,
    List.filter_nil]
  split_ifs <;> rfl

/-- The loop of `numusehash`: it counts the nodes with a non-nil value, and those of
them whose key is an array index, slice by slice. -/
theorem numusehash_loop_spec (t : Table) : ∀ (i tot ause : Nat) (nums : List Nat),
    nums.length = MAXBITS + 1 →
    (numusehash_loop t i tot ause nums).1 = tot + ncnt t (fun _ => true) i ∧
    (numusehash_loop t i tot ause nums).2.1 = ause + ncnt t (inrange MAXASIZE) i ∧
    (numusehash_loop t i tot ause nums).2.2.length = MAXBITS + 1 ∧
    ∀ m, m ≤ MAXBITS → binsum (numusehash_loop t i tot ause nums).2.2 (m + 1) =
      binsum nums (m + 1) + ncnt t (inrange (2 ^ m)) i := by
  intro i
  induction i with
  | zero =>
    intro tot ause nums hl
    exact ⟨rfl, rfl, hl, fun m _ => rfl⟩
  | succ i ih =>
    intro tot ause nums hl
    unfold numusehash_loop
    by_cases c : (!ttisnil (gnode t i).i_val) = true
    · rw [if_pos c]
      simp only
      obtain ⟨c1, c2, c3⟩ := countint_spec (gnode t i).i_key nums hl
      obtain ⟨h1, h2, h3, h4⟩ := ih (tot + 1) (ause + (countint (gnode t i).i_key nums).2)
        (countint (gnode t i).i_key nums).1 c1
      refine ⟨?_, ?_, h3, ?_⟩
      · rw [h1, ncnt_succ]; simp [c]; omega
      · rw [h2, ncnt_succ, c2]; simp [c]; omega
      · intro m hm
        rw [h4 m hm, c3 m hm, ncnt_succ]; simp [c]; omega
    · rw [if_neg c]
      obtain ⟨h1, h2, h3, h4⟩ := ih tot ause nums hl
      refine ⟨?_, ?_, h3, ?_⟩
      · rw [h1, ncnt_succ]; simp [c]
      · rw [h2, ncnt_succ]; simp [c]
      · intro m hm
        rw [h4 m hm, ncnt_succ]; simp [c]

theorem acnt_of_le (t : Table) (a b : Nat) (h : b ≤ a) : acnt t a b = 0 := by
  unfold acnt
  rw [Nat.sub_eq_zero_of_le h]
  rfl

theorem acnt_split (t : Table) (a b c : Nat) (h1 : a ≤ b) (h2 : b ≤ c) :
    acnt t a c = acnt t a b + acnt t b c := by
  unfold acnt
  have e : List.range' a (c - a) = List.range' a (b - a) ++ List.range' b (c - b) := by
    have := List.range'_append_1 a (b - a) (c - b)
    rw [show a + (b - a) = b by omega, show c - b + (b - a) = c - a by omega] at this
    exact this.symm
  rw [e, List.filter_append, List.length_append]

theorem acnt_shift (t : Table) (i n : Nat) (hi : 0 < i) :
    ((List.range' i n).filter (fun j => !ttisnil (t.array.getD (j - 1) .nil))).length =
      acnt t (i - 1) (i - 1 + n) := by
  unfold acnt
  have e : List.range' i n = (List.range' (i - 1) n).map (fun x => 1 + x) := by
    rw [List.map_add_range']
    congr 1
    omega
  rw [e, List.filter_map, List.length_map, Nat.add_sub_cancel_left]
  congr 2
  funext x
  simp

/-- The loop of `numusearray`: it counts the non-nil cells of the array part, slice
by slice. -/
theorem numusearray_loop_spec (t : Table) (hsa : t.sizearray ≤ 2 ^ MAXBITS) :
    ∀ (fuel lg ause : Nat) (nums : List Nat), nums.length = MAXBITS + 1 →
    lg + fuel = MAXBITS + 1 →
    (numusearray_loop t fuel lg (2 ^ lg) (min (2 ^ lg / 2) t.sizearray + 1) ause nums).1 =
      ause + acnt t (min (2 ^ lg / 2) t.sizearray) t.sizearray ∧
    (numusearray_loop t fuel lg (2 ^ lg) (min (2 ^ lg / 2) t.sizearray + 1) ause nums).2.length =
      MAXBITS + 1 ∧
    ∀ m, m ≤ MAXBITS →
      binsum (numusearray_loop t fuel lg (2 ^ lg)
        (min (2 ^ lg / 2) t.sizearray + 1) ause nums).2 (m + 1) =
      binsum nums (m + 1) +
        acnt t (min (2 ^ lg / 2) t.sizearray) (min (2 ^ m) t.sizearray) := by
  intro fuel
  induction fuel with
  | zero =>
    intro lg ause nums hl hlg
    have e : lg = MAXBITS + 1 := by omega
    have h2 : 2 ^ lg / 2 = 2 ^ MAXBITS := by
      rw [e, pow_succ]; omega
    have hmin : min (2 ^ lg / 2) t.sizearray = t.sizearray := by omega
    unfold numusearray_loop
    rw [hmin]
    refine ⟨by rw [acnt_of_le t _ _ (le_refl _)]; rfl, hl, fun m _ => ?_⟩
    rw [acnt_of_le t _ _ (by omega)]; rfl
  | succ f ih =>
    intro lg ause nums hl hlg
    have hp : 2 ^ (lg + 1) = 2 ^ lg * 2 := pow_succ 2 lg
    have hpos : 0 < 2 ^ lg := Nat.two_pow_pos lg
    unfold numusearray_loop
    by_cases c : t.sizearray < 2 ^ lg ∧ t.sizearray < min (2 ^ lg / 2) t.sizearray + 1
    · rw [if_pos c]
      have hmin : min (2 ^ lg / 2) t.sizearray = t.sizearray := by omega
      rw [hmin]
      refine ⟨by rw [acnt_of_le t _ _ (le_refl _)]; rfl, hl, fun m _ => ?_⟩
      rw [acnt_of_le t _ _ (by omega)]; rfl
    · rw [if_neg c]
      simp only
      have hlim : (if t.sizearray < 2 ^ lg then t.sizearray else 2 ^ lg) =
          min (2 ^ lg) t.sizearray := by
        split_ifs <;> omega
      rw [hlim]
      have hlc := acnt_shift t (min (2 ^ lg / 2) t.sizearray + 1)
        (min (2 ^ lg) t.sizearray + 1 - (min (2 ^ lg / 2) t.sizearray + 1)) (Nat.succ_pos _)
      rw [show min (2 ^ lg / 2) t.sizearray + 1 - 1 +
          (min (2 ^ lg) t.sizearray + 1 - (min (2 ^ lg / 2) t.sizearray + 1)) =
          min (2 ^ lg) t.sizearray by omega, Nat.add_sub_cancel] at hlc
      rw [hlc]
      have hi1 : (if min (2 ^ lg / 2) t.sizearray + 1 ≤ min (2 ^ lg) t.sizearray
          then min (2 ^ lg) t.sizearray + 1 else min (2 ^ lg / 2) t.sizearray + 1) =
          min (2 ^ (lg + 1) / 2) t.sizearray + 1 := by
        split_ifs <;> omega
      rw [hi1]
      have hlgb : lg < nums.length := by omega
      obtain ⟨h1, h2, h3⟩ := ih (lg + 1)
        (ause + acnt t (min (2 ^ lg / 2) t.sizearray) (min (2 ^ lg) t.sizearray))
        (addnum nums lg (acnt t (min (2 ^ lg / 2) t.sizearray) (min (2 ^ lg) t.sizearray)))
        (by rw [length_addnum]; exact hl) (by omega)
      rw [hp] at h1 h2 h3
      have hhalf : 2 ^ lg * 2 / 2 = 2 ^ lg := by omega
      rw [hhalf] at h1 h2 h3
      rw [hp, hhalf]
      refine ⟨?_, h2, ?_⟩
      · rw [h1, acnt_split t (min (2 ^ lg / 2) t.sizearray) (min (2 ^ lg) t.sizearray)
          t.sizearray (by omega) (by omega)]
        omega
      · intro m hm
        rw [h3 m hm, binsum_addnum nums lg _ (m + 1) hlgb]
        by_cases c2 : lg < m + 1
        · rw [if_pos c2]
          have : 2 ^ lg ≤ 2 ^ m := Nat.pow_le_pow_right (by decide) (by omega)
          rw [acnt_split t (min (2 ^ lg / 2) t.sizearray) (min (2 ^ lg) t.sizearray)
            (min (2 ^ m) t.sizearray) (by omega) (by omega)]
          omega
        · rw [if_neg c2]
          have h5 : 2 ^ (m + 1) ≤ 2 ^ lg := Nat.pow_le_pow_right (by decide) (by omega)
          rw [pow_succ] at h5
          rw [acnt_of_le t _ _ (show min (2 ^ m) t.sizearray ≤ min (2 ^ lg) t.sizearray by omega),
            acnt_of_le t _ _
              (show min (2 ^ m) t.sizearray ≤ min (2 ^ lg / 2) t.sizearray by omega)]

/-- The function `numusearray`. -/
theorem numusearray_spec (t : Table) (hsa : t.sizearray ≤ 2 ^ MAXBITS) (nums : List Nat)
    (hl : nums.length = MAXBITS + 1) :
    (numusearray t nums).1 = acnt t 0 t.sizearray ∧
    (numusearray t nums).2.length = MAXBITS + 1 ∧
    ∀ m, m ≤ MAXBITS → binsum (numusearray t nums).2 (m + 1) =
      binsum nums (m + 1) + acnt t 0 (min (2 ^ m) t.sizearray) := by
  have h := numusearray_loop_spec t hsa (MAXBITS + 1) 0 0 nums hl (by omega)
  have e : min (2 ^ 0 / 2) t.sizearray = 0 := by simp
  rw [e] at h
  simpa [numusearray] using h

theorem binsum_replicate (n i : Nat) : binsum (List.replicate n 0) i = 0 := by
  induction i with
  | zero => rfl
  | succ i ih =>
    rw [binsum_succ, ih]
    simp [List.getD_eq_getElem?_getD, List.getElem?_replicate]
    split_ifs <;> rfl

theorem ncnt_false (t : Table) (p : Int → Bool) (hp : ∀ k, p k = false) (i : Nat) :
    ncnt t p i = 0 := by
  induction i with
  | zero => rfl
  | succ i ih => rw [ncnt_succ, ih, hp]; simp

theorem inrange_zero (k : Int) : inrange 0 k = false := by
  apply Bool.eq_false_iff.2
  intro h
  rw [inrange_iff] at h
  omega

/-- The sizes that `rehash` passes to `resize`: the array size `n` is 0 or a power of 2
up to `2^MAXBITS`, and the hash size is the number of all entries, the new key
included, minus the number `na` of those with a key in `1..n`. -/
theorem rehash_sizes (R : Table → TValue → Res (Slot × Table)) (t : Table) (hw : WFcore t)
    (ek : TValue) :
    ∃ n na, rehash_with R t ek = resize_with R t n
        (acnt t 0 t.sizearray + ncnt t (fun _ => true) t.node.length + 1 - na) ∧
      n ≤ MAXASIZE ∧
      na = acnt t 0 (min n t.sizearray) + ncnt t (inrange n) t.node.length +
        (if inrange n (arrayindex ek) then 1 else 0) := by
  have hsa : t.sizearray ≤ 2 ^ MAXBITS := hw.amax
  have hl0 : (List.replicate (MAXBITS + 1) 0).length = MAXBITS + 1 := List.length_replicate _ _
  obtain ⟨a1, a2, a3⟩ := numusearray_spec t hsa _ hl0
  have hsz : sizenode t = t.node.length := by
    unfold sizenode twoto; exact hw.size.symm
  obtain ⟨b1, b2, b3, b4⟩ := numusehash_loop_spec t t.node.length 0 0
    (numusearray t (List.replicate (MAXBITS + 1) 0)).2 a2
  obtain ⟨c1, c2, c3⟩ := countint_spec ek
    (numusehash_loop t t.node.length 0 0 (numusearray t (List.replicate (MAXBITS + 1) 0)).2).2.2 b3
  have hbin : ∀ m, m ≤ MAXBITS →
      binsum (countint ek (numusehash_loop t t.node.length 0 0
        (numusearray t (List.replicate (MAXBITS + 1) 0)).2).2.2).1 (m + 1) =
      acnt t 0 (min (2 ^ m) t.sizearray) + ncnt t (inrange (2 ^ m)) t.node.length +
        (if inrange (2 ^ m) (arrayindex ek) then 1 else 0) := by
    intro m hm
    rw [c3 m hm, b4 m hm, a3 m hm, binsum_replicate]
    omega
  unfold rehash_with
  simp only [numusehash]
  rw [hsz, a1, b1]
  rcases computesizes_spec (countint ek (numusehash_loop t t.node.length 0 0
      (numusearray t (List.replicate (MAXBITS + 1) 0)).2).2.2).1
    (acnt t 0 t.sizearray + (numusehash_loop t t.node.length 0 0
      (numusearray t (List.replicate (MAXBITS + 1) 0)).2).2.1 +
      (countint ek (numusehash_loop t t.node.length 0 0
        (numusearray t (List.replicate (MAXBITS + 1) 0)).2).2.2).2) with ⟨h1, h2⟩ | ⟨j, h1, h2, h3, _⟩
  · refine ⟨0, 0, ?_, Nat.zero_le _, ?_⟩
    · rw [h1, h2]
      simp
    · rw [ncnt_false t _ inrange_zero, inrange_zero]
      simp [acnt_of_le]
  · have hj : j ≤ MAXBITS := by
      by_contra hc
      have : (countint ek (numusehash_loop t t.node.length 0 0
          (numusearray t (List.replicate (MAXBITS + 1) 0)).2).2.2).1.getD j 0 = 0 := by
        rw [List.getD_eq_getElem?_getD, List.getElem?_eq_none (by rw [c1]; omega)]
        rfl
      omega
    refine ⟨2 ^ j, _, ?_, ?_, rfl⟩
    · rw [h1, h2, hbin j hj]
      simp
    · unfold MAXASIZE
      exact Nat.pow_le_pow_right (by decide) hj


/-- A loop of assignments `t[key a] = val a` over the entries `a` of a list with
pairwise different keys, in a table with enough free nodes: it ends without a
`rehash`, binds every key of the list and keeps the other bindings. -/
theorem fold_put {α : Type} (step : Table → α → Res Table) (key val : α → TValue)
    (live : α → Bool) (Good : α → Prop) (Inv : Table → Prop)
    (hInv : ∀ tt tt' k v, Inv tt → PutRel tt k v tt' → Inv tt')
    (hskip : ∀ a tt, Good a → live a = false → Inv tt → step tt a = .ok tt)
    (hstep : ∀ a tt, Good a → live a = true → WF tt → Inv tt →
      (inrange tt.sizearray (arrayindex (key a)) = false →
        tt.isdummy = false ∧ keycount tt < tt.node.length) →
      ∃ tt', step tt a = .ok tt' ∧ PutRel tt (key a) (val a) tt') :
    ∀ (l : List α) (tt : Table), WF tt → Inv tt → (∀ a ∈ l, Good a) →
      l.Pairwise (fun a b => live a = true → live b = true →
        luaO_rawequalObj (key a) (key b) = false) →
      (∀ a ∈ l, live a = true → luaO_rawequalObj (key a) (key a) = true) →
      keycount tt + l.countP (fun a => live a && !inrange tt.sizearray (arrayindex (key a))) ≤
        tt.node.length →
      (tt.isdummy = true →
        l.countP (fun a => live a && !inrange tt.sizearray (arrayindex (key a))) = 0) →
      ∃ tt', l.foldlM step tt = .ok tt' ∧ WF tt' ∧ Inv tt' ∧
        tt'.sizearray = tt.sizearray ∧ tt'.lsizenode = tt.lsizenode ∧
        tt'.node.length = tt.node.length ∧ tt'.isdummy = tt.isdummy ∧
        keycount tt' ≤ keycount tt +
          l.countP (fun a => live a && !inrange tt.sizearray (arrayindex (key a))) ∧
        (∀ a ∈ l, live a = true → getval tt' (key a) = val a) ∧
        (∀ x, (∀ a ∈ l, live a = true → luaO_rawequalObj x (key a) = false) →
          getval tt' x = getval tt x) := by
  intro l
  induction l with
  | nil =>
    intro tt hw hi _ _ _ _ _
    exact ⟨tt, rfl, hw, hi, rfl, rfl, rfl, rfl, by simp, by simp, fun _ _ => rfl⟩
  | cons a l ih =>
    intro tt hw hi hgood hpw hrefl hroom hdum
    have hga : Good a := hgood a (List.mem_cons_self _ _)
    have hgl : ∀ b ∈ l, Good b := fun b hb => hgood b (List.mem_cons_of_mem _ hb)
    have hpwl := (List.pairwise_cons.1 hpw).2
    have hpwa := (List.pairwise_cons.1 hpw).1
    have hrefll : ∀ b ∈ l, live b = true → luaO_rawequalObj (key b) (key b) = true :=
      fun b hb => hrefl b (List.mem_cons_of_mem _ hb)
    rw [List.countP_cons] at hroom hdum
    rw [List.countP_cons]
    by_cases hlive : live a = true
    · -- the entry is assigned
      have hra : inrange tt.sizearray (arrayindex (key a)) = false →
          tt.isdummy = false ∧ keycount tt < tt.node.length := by
        intro hr
        have hpa : (live a && !inrange tt.sizearray (arrayindex (key a))) = true := by
          rw [hlive, hr]; rfl
        rw [if_pos hpa] at hroom hdum
        constructor
        · cases e : tt.isdummy
          · rfl
          · have := hdum e; omega
        · omega
      obtain ⟨tt1, hs1, hp1⟩ := hstep a tt hga hlive hw hi hra
      have hcnt : keycount tt1 ≤ keycount tt +
          (if (live a && !inrange tt.sizearray (arrayindex (key a))) = true then 1 else 0) := by
        have := hp1.count
        by_cases c : 0 < arrayindex (key a) ∧ arrayindex (key a) ≤ (tt.sizearray : Int)
        · rw [if_pos c] at this; omega
        · rw [if_neg c] at this
          have hr : inrange tt.sizearray (arrayindex (key a)) = false :=
            Bool.eq_false_iff.2 (fun h => c ((inrange_iff _ _).1 h))
          rw [hlive, hr]
          simpa using this
      obtain ⟨tt', h1, h2, h3, h4, h5, h6, h7, h8, h9, h10⟩ := ih tt1 hp1.wf
        (hInv tt tt1 _ _ hi hp1) hgl hpwl hrefll
        (by rw [hp1.sizearray, hp1.len]; omega)
        (by
          intro hd
          rw [hp1.isdummy] at hd
          rw [hp1.sizearray]
          have := hdum hd
          omega)
      rw [hp1.sizearray] at h8
      refine ⟨tt', ?_, h2, h3, h4.trans hp1.sizearray, h5.trans hp1.lsize, h6.trans hp1.len,
        h7.trans hp1.isdummy, by omega, ?_, ?_⟩
      · rw [List.foldlM_cons, hs1]
        exact h1
      · intro b hb hlb
        rcases List.mem_cons.1 hb with e | hbl
        · subst e
          rw [h10 (key b) (fun c hc hlc => hpwa c hc hlb hlc), hp1.read,
            if_pos (hrefl b (List.mem_cons_self _ _) hlb)]
        · exact h9 b hbl hlb
      · intro x hx
        rw [h10 x (fun c hc hlc => hx c (List.mem_cons_of_mem _ hc) hlc), hp1.read,
          if_neg (by rw [hx a (List.mem_cons_self _ _) hlive]; simp)]
    · -- the entry is skipped
      have hlive' : live a = false := by simpa using hlive
      have hpa : ¬ ((live a && !inrange tt.sizearray (arrayindex (key a))) = true) := by
        rw [hlive']; simp
      rw [if_neg hpa] at hroom hdum ⊢
      obtain ⟨tt', h1, h2, h3, h4, h5, h6, h7, h8, h9, h10⟩ := ih tt hw hi hgl hpwl hrefll
        hroom hdum
      refine ⟨tt', ?_, h2, h3, h4, h5, h6, h7, h8, ?_, ?_⟩
      · rw [List.foldlM_cons, hskip a tt hga hlive' hi]
        exact h1
      · intro b hb hlb
        rcases List.mem_cons.1 hb with e | hbl
        · subst e; exact absurd hlb hlive
        · exact h9 b hbl hlb
      · intro x hx
        exact h10 x (fun c hc hlc => hx c (List.mem_cons_of_mem _ hc) hlc)

theorem inrange_of_get_nil (t : Table) (hw : WFcore t) (k : TValue) (hk : k ≠ .nil)
    (h : luaH_get t k = .nilobject) : inrange t.sizearray (arrayindex k) = false := by
  rw [luaH_get_eq t (sizearray_lt t hw), if_neg hk] at h
  apply Bool.eq_false_iff.2
  intro c
  rw [if_pos ((inrange_iff _ _).1 c)] at h
  cases h

/-- One round of the loop of `resize` over the old nodes. -/
theorem resize_nodestep_spec (R : Table → TValue → Res (Slot × Table)) (old : Node)
    (tt : Table) (hk : validkey old.i_key) (hlive : (!ttisnil old.i_val) = true) (hw : WF tt)
    (hroom : inrange tt.sizearray (arrayindex old.i_key) = false →
      tt.isdummy = false ∧ keycount tt < tt.node.length) :
    ∃ tt', resize_nodestep R tt old = .ok tt' ∧ PutRel tt old.i_key old.i_val tt' := by
  obtain ⟨s, t1, h1, h2⟩ := luaH_set_with_spec R tt hw old.i_key hk (fun h =>
    ⟨(hroom (inrange_of_get_nil tt hw.toWFcore _ hk.1 h)).1,
      Or.inr (hroom (inrange_of_get_nil tt hw.toWFcore _ hk.1 h)).2⟩)
  refine ⟨setslot t1 s old.i_val, ?_, putRel_of_post tt _ s t1 _ h2⟩
  unfold resize_nodestep
  rw [if_pos hlive, h1]
  rfl

/-- One round of the loop of `resize` over the vanishing slice of the array part. -/
theorem resize_arraystep_spec (R : Table → TValue → Res (Slot × Table)) (i : Nat)
    (hi : i < 2 ^ MAXBITS) (tt : Table) (hlive : (!ttisnil (tt.array.getD i .nil)) = true)
    (hw : WF tt)
    (hroom : inrange tt.sizearray (arrayindex (.number (cast_num ((i : Int) + 1)))) = false →
      tt.isdummy = false ∧ keycount tt < tt.node.length) :
    ∃ tt', resize_arraystep R tt i = .ok tt' ∧
      PutRel tt (.number (cast_num ((i : Int) + 1))) (tt.array.getD i .nil) tt' := by
  have hb : (2 : Int) ^ MAXBITS < 2 ^ 31 := by unfold MAXBITS; norm_num
  have hi' : (i : Int) < 2 ^ MAXBITS := by exact_mod_cast hi
  have h1 : -(2 ^ 31) ≤ (i : Int) + 1 := by omega
  have h2 : (i : Int) + 1 < 2 ^ 31 := by omega
  have hk := validkey_cast_num _ h1 h2
  obtain ⟨s, t1, h3, h4⟩ := luaH_setnum_with_spec R tt hw _ h1 h2 (fun h =>
    ⟨(hroom (inrange_of_get_nil tt hw.toWFcore _ hk.1 h)).1,
      Or.inr (hroom (inrange_of_get_nil tt hw.toWFcore _ hk.1 h)).2⟩)
  refine ⟨setslot t1 s (tt.array.getD i .nil), ?_, putRel_of_post tt _ s t1 _ h4⟩
  unfold resize_arraystep
  rw [if_pos hlive, h3]
  show Except.ok (setslot t1 s (t1.array.getD i .nil)) = _
  rw [h4.array]

/-- A table whose nodes are all free is well formed. -/
theorem wf_allfree (t : Table) (h : ∀ i, gnode t i = dummynode_)
    (hsize : t.node.length = 2 ^ t.lsizenode) (hl : t.lsizenode ≤ MAXBITS)
    (ha : t.sizearray ≤ t.array.length) (hm : t.sizearray ≤ MAXASIZE)
    (hd : t.isdummy = true → t.node = [dummynode_])
    (hlf : t.isdummy = false → t.lastfree = (t.node.length : Int))
    (hlf3 : t.isdummy = true → t.lastfree ≤ 0) : WF t := by
  have hk : ∀ i, (gnode t i).i_key = .nil := fun i => by rw [h i]; rfl
  have hn : ∀ i, (gnode t i).next = none := fun i => by rw [h i]; rfl
  refine ⟨⟨hsize, hl, ha, hm, hd, fun i _ _ => ⟨by rw [h i]; rfl, hn i⟩, ?_, ?_, ⟨fun _ => 0, ?_⟩,
    fun i _ hki => absurd (hk i) hki, fun i _ hki => absurd (hk i) hki,
    fun i _ _ _ hki => absurd (hk i) hki, fun i _ hki => absurd (hk i) hki, ?_,
    fun i _ => by rw [hk i]; simp [ttype, LUA_TNIL, LUA_TDEADKEY]⟩, ?_, ?_, hlf3⟩
  · intro i j _ hnx; rw [hn i] at hnx; cases hnx
  · intro i _ j _ _ hnx; rw [hn i] at hnx; cases hnx
  · intro i j _ hnx; rw [hn i] at hnx; cases hnx
  · intro i _
    rw [hk i]
    simp [arrayindex]
  · cases e : t.isdummy
    · rw [hlf e]
    · have := hlf3 e; omega
  · intro i hi hle hdm
    rw [hlf hdm] at hle
    omega

theorem keycount_allfree (t : Table) (h : ∀ i, gnode t i = dummynode_) : keycount t = 0 := by
  unfold keycount
  rw [Finset.card_eq_zero, Finset.filter_eq_empty_iff]
  intro i _
  rw [h i]
  simp [dummynode_]

/-- Reading a table whose nodes are all free: only the array part can answer. -/
theorem getval_allfree (t : Table) (hw : WFcore t) (h : ∀ i, gnode t i = dummynode_)
    (x : TValue) :
    getval t x = if inrange t.sizearray (arrayindex x) = true
      then t.array.getD (arrayindex x - 1).toNat .nil else .nil := by
  unfold getval
  rw [luaH_get_eq t (sizearray_lt t hw)]
  by_cases hx : x = .nil
  · subst hx
    have : inrange t.sizearray (arrayindex .nil) = false := by
      apply Bool.eq_false_iff.2
      intro c
      rw [inrange_iff] at c
      simp [arrayindex] at c
    rw [if_pos rfl, this]
    rfl
  · rw [if_neg hx]
    by_cases c : 0 < arrayindex x ∧ arrayindex x ≤ (t.sizearray : Int)
    · rw [if_pos c, if_pos ((inrange_iff _ _).2 c)]
      rfl
    · rw [if_neg c, if_neg (fun h' => c ((inrange_iff _ _).1 h'))]
      rw [hfind_absent t hw x (fun i _ => by
        rw [h i]
        exact Bool.eq_false_iff.2 (fun e => hx (rawequal_nil_left x e)))]
      rfl


theorem gnode_replicate (t : Table) (n : Nat) (h : t.node = List.replicate n dummynode_)
    (i : Nat) : gnode t i = dummynode_ := by
  unfold gnode
  rw [h, List.getD_eq_getElem?_getD, List.getElem?_replicate]
  split_ifs <;> rfl

/-- The function `setnodevector`: it raises `table overflow`, or installs a vector of
free nodes of the least power of 2 that holds `size` nodes (the shared
`dummynode` for size 0). -/
theorem setnodevector_spec (t1 : Table) (size : Nat) :
    (size ≠ 0 ∧ MAXBITS < ceillog2 size ∧
      setnodevector t1 size = .error (.table_overflow, t1)) ∨
    ∃ t2, setnodevector t1 size = .ok t2 ∧ (∀ i, gnode t2 i = dummynode_) ∧
      t2.node.length = 2 ^ t2.lsizenode ∧ t2.lsizenode ≤ MAXBITS ∧
      t2.array = t1.array ∧ t2.sizearray = t1.sizearray ∧
      (t2.isdummy = true → t2.node = [dummynode_]) ∧
      (t2.isdummy = false → t2.lastfree = (t2.node.length : Int)) ∧
      (t2.isdummy = true → t2.lastfree ≤ 0) ∧ size ≤ t2.node.length ∧
      (t2.isdummy = true ↔ size = 0) ∧ t2.flags = t1.flags ∧ t2.metatable = t1.metatable := by
  unfold setnodevector
  by_cases h0 : size = 0
  · right
    rw [if_pos h0]
    refine ⟨_, rfl, fun i => gnode_replicate _ 1 rfl i, rfl, Nat.zero_le _, rfl, rfl,
      fun _ => rfl, fun h => (by cases h), fun _ => le_refl _, by rw [h0]; exact Nat.zero_le _,
      ⟨fun _ => h0, fun _ => rfl⟩, rfl, rfl⟩
  · rw [if_neg h0]
    simp only
    by_cases h1 : ceillog2 size > MAXBITS
    · left
      rw [if_pos h1]
      exact ⟨h0, h1, rfl⟩
    · right
      rw [if_neg h1]
      refine ⟨_, rfl, fun i => gnode_replicate _ (twoto (ceillog2 size)) rfl i,
        by simp [twoto], by simpa using h1, rfl, rfl, fun h => (by cases h),
        fun _ => by simp, fun h => (by cases h), ?_, ⟨fun h => (by cases h), fun h => absurd h h0⟩,
        rfl, rfl⟩
      simp only [List.length_replicate, twoto]
      exact le_twoto_ceillog2 size (Nat.pos_of_ne_zero h0)

theorem getval_congr_raw (t : Table) (hw : WFcore t) (x k : TValue)
    (h : luaO_rawequalObj x k = true) : getval t x = getval t k := by
  unfold getval
  rw [luaH_get_congr t hw x k h]

/-- Cutting the array block down to `sizearray` cells changes no reading. -/
theorem getval_take (t : Table) (hw : WFcore t) (x : TValue) :
    getval { t with array := t.array.take t.sizearray } x = getval t x := by
  unfold getval
  rw [luaH_get_same t { t with array := t.array.take t.sizearray } rfl rfl rfl]
  have hok : luaH_get t x ≠ .nilobject → SlotOk t (luaH_get t x) := slotok_get t hw x
  cases e : luaH_get t x with
  | nilobject => rfl
  | node i => rfl
  | arr i =>
    rw [e] at hok
    have hi : i < t.sizearray := hok (by simp)
    simp only [slotval, List.getD_eq_getElem?_getD, List.getElem?_take]
    rw [if_pos hi]

theorem wf_take (t : Table) (hw : WF t) : WF { t with array := t.array.take t.sizearray } :=
  ⟨⟨hw.size, hw.lsize, by
      show t.sizearray ≤ (t.array.take t.sizearray).length
      rw [List.length_take]
      exact le_min (le_refl _) hw.asize,
    hw.amax, hw.dummy, hw.free, hw.next_lt, hw.next_inj, hw.rank,
    fun i hi hk => reaches_congr t { t with array := t.array.take t.sizearray }
      (fun _ => rfl) _ _ (hw.reach i hi hk),
    hw.brent, hw.nodup, hw.keyok, hw.arr, hw.nodead⟩, hw.lastfree_le, hw.lastfree, hw.lastfree_dummy⟩

theorem arrayindex_key (i : Nat) (hi : i < 2 ^ MAXBITS) :
    arrayindex (.number (cast_num ((i : Int) + 1))) = (i : Int) + 1 := by
  have hb : (2 : Int) ^ MAXBITS < 2 ^ 31 := by unfold MAXBITS; norm_num
  have hi' : (i : Int) < 2 ^ MAXBITS := by exact_mod_cast hi
  exact arrayindex_cast_num _ (by omega) (by omega)

theorem acnt_eq_countP (t : Table) (a b : Nat) :
    acnt t a b = (List.range' a (b - a)).countP (fun j => !ttisnil (t.array.getD j .nil)) := by
  unfold acnt
  rw [List.countP_eq_length_filter]

theorem getD_setarrayvector (t : Table) (size j : Nat) (hj : j < size) :
    (setarrayvector t size).array.getD j .nil =
      if j < t.sizearray then t.array.getD j .nil else .nil := by
  simp only [setarrayvector, List.getD_eq_getElem?_getD]
  rw [List.getElem?_map, List.getElem?_range hj]
  rfl

/-- The array part after `resize` has grown it or left it alone, with the new node
vector in place. -/
theorem resize_noshrink (t : Table) (hw : WFcore t) (nasize : Nat) (hn : nasize ≤ MAXASIZE)
    (hge : t.sizearray ≤ nasize) (t2 : Table)
    (ha : t2.array = (if nasize > t.sizearray then setarrayvector t nasize else t).array)
    (hs : t2.sizearray = (if nasize > t.sizearray then setarrayvector t nasize else t).sizearray)
    (hfree : ∀ i, gnode t2 i = dummynode_) (hsize : t2.node.length = 2 ^ t2.lsizenode)
    (hl : t2.lsizenode ≤ MAXBITS) (hd : t2.isdummy = true → t2.node = [dummynode_])
    (hlf : t2.isdummy = false → t2.lastfree = (t2.node.length : Int))
    (hlf3 : t2.isdummy = true → t2.lastfree ≤ 0) :
    WF t2 ∧ t2.sizearray = nasize ∧
      ∀ x, getval t2 x = if inrange t.sizearray (arrayindex x) = true
        then t.array.getD (arrayindex x - 1).toNat .nil else .nil := by
  have hsn : t2.sizearray = nasize := by
    rw [hs]
    split_ifs with c
    · rfl
    · show t.sizearray = nasize
      omega
  have hal : t2.sizearray ≤ t2.array.length := by
    rw [hs, ha]
    split_ifs with c
    · simp [setarrayvector]
    · exact hw.asize
  have hwf : WF t2 := wf_allfree t2 hfree hsize hl hal (by rw [hsn]; exact hn) hd hlf hlf3
  refine ⟨hwf, hsn, fun x => ?_⟩
  rw [getval_allfree t2 hwf.toWFcore hfree, hsn]
  by_cases c1 : inrange t.sizearray (arrayindex x) = true
  · have c2 : inrange nasize (arrayindex x) = true := by
      rw [inrange_iff] at c1 ⊢
      exact ⟨c1.1, le_trans c1.2 (by exact_mod_cast hge)⟩
    rw [if_pos c1, if_pos c2, ha]
    rw [inrange_iff] at c1 c2
    split_ifs with c
    · rw [getD_setarrayvector t nasize _ (by omega), if_pos (by omega)]
    · rfl
  · rw [if_neg c1]
    by_cases c2 : inrange nasize (arrayindex x) = true
    · rw [if_pos c2, ha]
      have c1' : ¬ (0 < arrayindex x ∧ arrayindex x ≤ (t.sizearray : Int)) :=
        fun h => c1 ((inrange_iff _ _).2 h)
      rw [inrange_iff] at c2
      split_ifs with c
      · rw [getD_setarrayvector t nasize _ (by omega), if_neg (by omega)]
      · exfalso
        have : t.sizearray = nasize := by omega
        rw [this] at c1'
        exact c1' c2
    · rw [if_neg c2]

theorem wf_take_eq (t : Table) (hw : WF t) (n : Nat) (h : n = t.sizearray) :
    WF { t with array := t.array.take n } := by
  subst h; exact wf_take t hw

theorem getval_take_eq (t : Table) (hw : WFcore t) (n : Nat) (h : n = t.sizearray)
    (x : TValue) : getval { t with array := t.array.take n } x = getval t x := by
  subst h; exact getval_take t hw x

theorem toNat_pred_eq (a : Nat) (k : Int) (e : k = (a : Int) + 1) : a = (k - 1).toNat := by
  omega

/-- The array part after `resize` has shrunk it: the cells of the vanishing slice are in
the new node vector. -/
theorem resize_shrink (R : Table → TValue → Res (Slot × Table)) (t : Table) (hw : WFcore t)
    (nasize : Nat) (hlt : nasize < t.sizearray) (t2 : Table) (ha : t2.array = t.array)
    (hfree : ∀ i, gnode t2 i = dummynode_) (hsize : t2.node.length = 2 ^ t2.lsizenode)
    (hl : t2.lsizenode ≤ MAXBITS) (hd : t2.isdummy = true → t2.node = [dummynode_])
    (hlf : t2.isdummy = false → t2.lastfree = (t2.node.length : Int))
    (hlf3 : t2.isdummy = true → t2.lastfree ≤ 0)
    (hroom : acnt t nasize t.sizearray ≤ t2.node.length)
    (hdum : t2.isdummy = true → acnt t nasize t.sizearray = 0) :
    ∃ t4, ((List.range' nasize (t.sizearray - nasize)).foldlM (resize_arraystep R)
        { t2 with sizearray := nasize }).bind
        (fun t3 => .ok { t3 with array := t3.array.take nasize }) = .ok t4 ∧
      WF t4 ∧ t4.sizearray = nasize ∧ t4.lsizenode = t2.lsizenode ∧
      t4.node.length = t2.node.length ∧ t4.isdummy = t2.isdummy ∧
      keycount t4 ≤ acnt t nasize t.sizearray ∧
      ∀ x, getval t4 x = if inrange t.sizearray (arrayindex x) = true
        then t.array.getD (arrayindex x - 1).toNat .nil else .nil := by
  have hsa : t.sizearray ≤ 2 ^ MAXBITS := hw.amax
  have hfree' : ∀ i, gnode { t2 with sizearray := nasize } i = dummynode_ := hfree
  have hw2 : WF { t2 with sizearray := nasize } :=
    wf_allfree _ hfree' hsize hl
      (by
        show nasize ≤ t2.array.length
        rw [ha]
        exact le_trans (le_of_lt hlt) hw.asize)
      (le_trans (le_of_lt hlt) hw.amax) hd hlf hlf3
  have hmem : ∀ a, a ∈ List.range' nasize (t.sizearray - nasize) →
      nasize ≤ a ∧ a < t.sizearray := by
    intro a h
    rw [List.mem_range'_1] at h
    omega
  have hcount : (List.range' nasize (t.sizearray - nasize)).countP (fun a =>
      (!ttisnil (t.array.getD a .nil)) &&
        !inrange nasize (arrayindex (.number (cast_num ((a : Int) + 1))))) =
      acnt t nasize t.sizearray := by
    rw [acnt_eq_countP]
    apply List.countP_congr
    intro a h
    obtain ⟨h1, h2⟩ := hmem a h
    have : inrange nasize (arrayindex (.number (cast_num ((a : Int) + 1)))) = false := by
      apply Bool.eq_false_iff.2
      intro c
      rw [inrange_iff, arrayindex_key a (by omega)] at c
      omega
    rw [this]
    simp
  obtain ⟨t3, h1, h2, h3, h4, h5, h6, h7, h8, h9, h10⟩ := fold_put (resize_arraystep R)
    (fun i : Nat => TValue.number (cast_num ((i : Int) + 1)))
    (fun i => t.array.getD i .nil) (fun i => !ttisnil (t.array.getD i .nil))
    (fun i => nasize ≤ i ∧ i < t.sizearray)
    (fun tt => tt.sizearray = nasize ∧ ∀ j, nasize ≤ j → tt.array.getD j .nil = t.array.getD j .nil)
    (fun tt tt' k v hi hp => ⟨hp.sizearray.trans hi.1,
      fun j hj => (hp.tail j (by rw [hi.1]; exact hj)).trans (hi.2 j hj)⟩)
    (fun a tt hg hlive hi => by
      unfold resize_arraystep
      rw [hi.2 a hg.1]
      simp only at hlive
      rw [hlive]
      rfl)
    (fun a tt hg hlive hwt hi hr => by
      simp only at hlive
      rw [← hi.2 a hg.1] at hlive
      have := resize_arraystep_spec R a (by omega) tt hlive hwt hr
      rw [hi.2 a hg.1] at this
      exact this)
    (List.range' nasize (t.sizearray - nasize)) { t2 with sizearray := nasize } hw2
    ⟨rfl, fun j _ => by
      show t2.array.getD j .nil = _
      rw [ha]⟩
    hmem
    (by
      apply List.Pairwise.imp_of_mem _ (List.pairwise_lt_range' nasize (t.sizearray - nasize))
      intro a b ha' hb' hab _ _
      apply Bool.eq_false_iff.2
      intro c
      have := arrayindex_congr_raw _ _ c
      rw [arrayindex_key a (by have := hmem a ha'; omega),
        arrayindex_key b (by have := hmem b hb'; omega)] at this
      omega)
    (fun a ha' _ => by
      have hb : (2 : Int) ^ MAXBITS < 2 ^ 31 := by unfold MAXBITS; norm_num
      have := hmem a ha'
      have hi' : (a : Int) < 2 ^ MAXBITS := by exact_mod_cast (show a < 2 ^ MAXBITS by omega)
      exact (validkey_cast_num _ (by omega) (by omega)).2)
    (by
      rw [keycount_allfree _ hfree']
      show 0 + (List.range' nasize (t.sizearray - nasize)).countP _ ≤ t2.node.length
      rw [hcount]
      omega)
    (by
      intro hdm
      show (List.range' nasize (t.sizearray - nasize)).countP _ = 0
      rw [hcount]
      exact hdum hdm)
  have hs3 : t3.sizearray = nasize := h4
  refine ⟨{ t3 with array := t3.array.take nasize }, ?_, wf_take_eq t3 h2 nasize hs3.symm, hs3, h5,
    h6, h7, ?_, ?_⟩
  · rw [h1]; rfl
  · have : keycount { t3 with array := t3.array.take nasize } = keycount t3 := rfl
    rw [this]
    rw [keycount_allfree _ hfree'] at h8
    have hc : (List.range' nasize (t.sizearray - nasize)).countP (fun a =>
        (!ttisnil (t.array.getD a .nil)) &&
          !inrange ({ t2 with sizearray := nasize } : Table).sizearray
            (arrayindex (.number (cast_num ((a : Int) + 1))))) =
        acnt t nasize t.sizearray := hcount
    rw [hc] at h8
    omega
  · intro x
    rw [getval_take_eq t3 h2.toWFcore nasize hs3.symm]
    have hbase : ∀ y, getval { t2 with sizearray := nasize } y =
        if inrange nasize (arrayindex y) = true
          then t.array.getD (arrayindex y - 1).toNat .nil else .nil := by
      intro y
      rw [getval_allfree _ hw2.toWFcore hfree']
      show (if inrange nasize (arrayindex y) = true
        then t2.array.getD (arrayindex y - 1).toNat .nil else .nil) = _
      rw [ha]
    by_cases c1 : inrange nasize (arrayindex x) = true
    · -- the cell stays in the array part
      have c2 : inrange t.sizearray (arrayindex x) = true := by
        rw [inrange_iff] at c1 ⊢
        exact ⟨c1.1, by omega⟩
      rw [if_pos c2, h10 x, hbase x, if_pos c1]
      intro a ha' _
      apply Bool.eq_false_iff.2
      intro c
      have := arrayindex_congr_raw _ _ c
      rw [arrayindex_key a (by have := hmem a ha'; omega)] at this
      rw [inrange_iff] at c1
      have := hmem a ha'
      omega
    · by_cases c2 : inrange t.sizearray (arrayindex x) = true
      · -- the cell is in the vanishing slice
        rw [if_pos c2]
        rw [inrange_iff] at c2
        have c1' : ¬ (0 < arrayindex x ∧ arrayindex x ≤ (nasize : Int)) :=
          fun h => c1 ((inrange_iff _ _).2 h)
        have hi1 : nasize ≤ (arrayindex x - 1).toNat ∧ (arrayindex x - 1).toNat < t.sizearray := by
          omega
        have hin : (arrayindex x - 1).toNat ∈ List.range' nasize (t.sizearray - nasize) := by
          rw [List.mem_range'_1]; omega
        have hkey : arrayindex (.number (cast_num ((((arrayindex x - 1).toNat : Nat) : Int) + 1))) =
            arrayindex x := by
          rw [arrayindex_key _ (by omega)]
          omega
        have hraw : luaO_rawequalObj x
            (.number (cast_num ((((arrayindex x - 1).toNat : Nat) : Int) + 1))) = true :=
          rawequal_of_arrayindex _ _ hkey.symm c2.1
        by_cases hlive : (!ttisnil (t.array.getD (arrayindex x - 1).toNat .nil)) = true
        · rw [getval_congr_raw t3 h2.toWFcore _ _ hraw]
          exact h9 _ hin hlive
        · have hnil : t.array.getD (arrayindex x - 1).toNat .nil = .nil := by
            have : ttisnil (t.array.getD (arrayindex x - 1).toNat .nil) = true := by
              simpa using hlive
            exact (ttisnil_iff _).1 this
          rw [hnil, h10 x, hbase x, if_neg c1]
          intro a ha' hla
          apply Bool.eq_false_iff.2
          intro c
          have e := arrayindex_congr_raw _ _ c
          rw [arrayindex_key a (by have := hmem a ha'; omega)] at e
          have : a = (arrayindex x - 1).toNat := toNat_pred_eq a _ e
          subst this
          exact hlive hla
      · rw [if_neg c2, h10 x, hbase x, if_neg c1]
        intro a ha' _
        apply Bool.eq_false_iff.2
        intro c
        have e := arrayindex_congr_raw _ _ c
        rw [arrayindex_key a (by have := hmem a ha'; omega)] at e
        apply c2
        rw [inrange_iff]
        have := hmem a ha'
        omega

theorem ncnt_eq_countP (t : Table) (p : Int → Bool) (n : Nat) :
    ncnt t p n = ((List.range n).reverse.map (fun i => gnode t i)).countP
      (fun a => !ttisnil a.i_val && p (arrayindex a.i_key)) := by
  unfold ncnt
  rw [List.countP_map, (List.reverse_perm (List.range n)).countP_eq,
    List.countP_eq_length_filter]
  rfl

/-- The loop of `resize` that re-inserts the old nodes. -/
theorem resize_nodephase (R : Table → TValue → Res (Slot × Table)) (t : Table) (hw : WFcore t)
    (nasize : Nat) (t4 : Table) (hw4 : WF t4) (hs4 : t4.sizearray = nasize)
    (hread4 : ∀ x, getval t4 x = if inrange t.sizearray (arrayindex x) = true
      then t.array.getD (arrayindex x - 1).toNat .nil else .nil)
    (hroom : keycount t4 + ncnt t (fun k => !inrange nasize k) t.node.length ≤ t4.node.length)
    (hdum : t4.isdummy = true → ncnt t (fun k => !inrange nasize k) t.node.length = 0) :
    ∃ t', ((List.range (twoto t.lsizenode)).reverse.map
        (fun i => t.node.getD i dummynode_)).foldlM (resize_nodestep R) t4 = .ok t' ∧
      WF t' ∧ t'.sizearray = nasize ∧ t'.lsizenode = t4.lsizenode ∧
      t'.node.length = t4.node.length ∧ t'.isdummy = t4.isdummy ∧
      keycount t' ≤ keycount t4 + ncnt t (fun k => !inrange nasize k) t.node.length ∧
      ∀ x, getval t' x = getval t x := by
  have htw : twoto t.lsizenode = t.node.length := by unfold twoto; exact hw.size.symm
  rw [htw]
  have hmem : ∀ a, a ∈ (List.range t.node.length).reverse.map
      (fun i => t.node.getD i dummynode_) → ∃ i, i < t.node.length ∧ gnode t i = a := by
    intro a h
    simp only [List.mem_map, List.mem_reverse, List.mem_range] at h
    exact h
  have hlivekey : ∀ i, i < t.node.length → (!ttisnil (gnode t i).i_val) = true →
      (gnode t i).i_key ≠ .nil := by
    intro i hi hl
    apply key_of_val t hw i hi
    intro e
    rw [e] at hl
    exact absurd hl (by decide)
  have hcount : ((List.range t.node.length).reverse.map
      (fun i => t.node.getD i dummynode_)).countP (fun a =>
        !ttisnil a.i_val && !inrange t4.sizearray (arrayindex a.i_key)) =
      ncnt t (fun k => !inrange nasize k) t.node.length := by
    rw [ncnt_eq_countP, hs4]
    rfl
  obtain ⟨t', h1, h2, _, h4, h5, h6, h7, h8, h9, h10⟩ := fold_put (resize_nodestep R)
    (fun a : Node => a.i_key) (fun a => a.i_val) (fun a => !ttisnil a.i_val)
    (fun a => (!ttisnil a.i_val) = true → validkey a.i_key) (fun _ => True)
    (fun _ _ _ _ _ _ => trivial)
    (fun a tt _ hlive _ => by
      have hlive2 : (!ttisnil a.i_val) = false := hlive
      unfold resize_nodestep
      rw [hlive2]
      rfl)
    (fun a tt hg hlive hwt _ hr => resize_nodestep_spec R a tt (hg hlive) hlive hwt hr)
    ((List.range t.node.length).reverse.map (fun i => t.node.getD i dummynode_)) t4 hw4 trivial
    (fun a ha hl => by
      obtain ⟨i, hi, e⟩ := hmem a ha
      subst e
      exact ⟨hlivekey i hi hl, hw.keyok i hi (hlivekey i hi hl), hw.nodead i hi⟩)
    (by
      rw [List.pairwise_map]
      apply List.Pairwise.imp_of_mem _ (List.nodup_reverse.2 (List.nodup_range t.node.length))
      intro i j hi hj hne hli hlj
      simp only [List.mem_reverse, List.mem_range] at hi hj
      apply Bool.eq_false_iff.2
      intro c
      exact hne (hw.nodup i j hi hj (hlivekey i hi hli) c))
    (fun a ha hl => by
      obtain ⟨i, hi, e⟩ := hmem a ha
      subst e
      exact hw.keyok i hi (hlivekey i hi hl))
    (by rw [hcount]; exact hroom)
    (fun hd => by rw [hcount]; exact hdum hd)
  rw [hcount] at h8
  refine ⟨t', h1, h2, h4.trans hs4, h5, h6, h7, h8, fun x => ?_⟩
  by_cases hex : ∃ i, i < t.node.length ∧ (!ttisnil (gnode t i).i_val) = true ∧
      luaO_rawequalObj x (gnode t i).i_key = true
  · obtain ⟨i, hi, hl, hr⟩ := hex
    have hki := hlivekey i hi hl
    have hx : x ≠ .nil := rawequal_ne_nil _ _ (rawequal_symm _ _ hr) hki
    rw [getval_congr_raw t' h2.toWFcore x _ hr]
    have hin : gnode t i ∈ (List.range t.node.length).reverse.map
        (fun i => t.node.getD i dummynode_) := by
      simp only [List.mem_map, List.mem_reverse, List.mem_range]
      exact ⟨i, hi, rfl⟩
    rw [h9 _ hin hl]
    unfold getval
    rw [luaH_get_eq t (sizearray_lt t hw), if_neg hx, arrayindex_congr_raw x _ hr,
      if_neg (hw.arr i hi), hfind_of_key t hw x i hi (rawequal_symm _ _ hr) hx]
    rfl
  · have hno : ∀ i, i < t.node.length → luaO_rawequalObj x (gnode t i).i_key = true →
        (gnode t i).i_val = .nil := by
      intro i hi hr
      by_contra hv
      exact hex ⟨i, hi, by rw [(ttisnil_false_iff _).2 hv]; rfl, hr⟩
    rw [h10 x (fun a ha hl => by
      obtain ⟨i, hi, e⟩ := hmem a ha
      subst e
      apply Bool.eq_false_iff.2
      intro c
      have := hno i hi c
      have hl2 : (!ttisnil (gnode t i).i_val) = true := hl
      rw [this] at hl2
      exact absurd hl2 (by decide)), hread4 x]
    unfold getval
    rw [luaH_get_eq t (sizearray_lt t hw)]
    by_cases hx : x = .nil
    · subst hx
      rw [if_pos rfl, if_neg (by
        intro c
        rw [inrange_iff] at c
        simp [arrayindex] at c)]
      rfl
    · rw [if_neg hx]
      by_cases c : inrange t.sizearray (arrayindex x) = true
      · rw [if_pos c, if_pos ((inrange_iff _ _).1 c)]
        rfl
      · rw [if_neg c, if_neg (fun h => c ((inrange_iff _ _).2 h))]
        rcases hfind_cases t hw x with e | ⟨i, hi, e, hr⟩
        · rw [e]; rfl
        · rw [e]
          exact (hno i hi (rawequal_symm _ _ hr)).symm


/-- The two outcomes of `getfreepos`: a free node, the topmost one, or no free node
at all. -/
theorem getfreepos_cases (t : Table) (hw : WF t) :
    (∃ n : Nat, t.isdummy = false ∧ getfreepos t = (some n, { t with lastfree := (n : Int) }) ∧
      n < t.node.length ∧ (gnode t n).i_key = .nil ∧
      ∀ j, n < j → j < t.node.length → (gnode t j).i_key ≠ .nil) ∨
    (∃ lf : Int, getfreepos t = (none, { t with lastfree := lf }) ∧ lf ≤ 0 ∧
      (t.isdummy = false → ∀ j, j < t.node.length → (gnode t j).i_key ≠ .nil)) := by
  unfold getfreepos
  by_cases h0 : t.lastfree ≤ 0
  · rw [if_pos h0]
    right
    exact ⟨_, rfl, by omega, fun hd j hj => hw.lastfree j hj (by omega) hd⟩
  · rw [if_neg h0]
    have hd : t.isdummy = false := by
      cases e : t.isdummy
      · rfl
      · exact absurd (hw.lastfree_dummy e) h0
    have hle := hw.lastfree_le
    rcases getfreepos_loop_spec t t.lastfree.toNat with ⟨n, h1, h2, h3, h4⟩ | ⟨h1, h2⟩
    · left
      refine ⟨n, hd, by rw [h1], by omega, h3, fun j hj1 hj2 => ?_⟩
      by_cases c : j < t.lastfree.toNat
      · exact h4 j hj1 c
      · exact hw.lastfree j hj2 (by omega) hd
    · right
      refine ⟨-1, by rw [h1], by omega, fun _ j hj => ?_⟩
      by_cases c : j < t.lastfree.toNat
      · exact h2 j c
      · exact hw.lastfree j hj (by omega) hd

theorem wf_lastfree_full (t : Table) (hw : WF t) (lf : Int) (hlf : lf ≤ 0)
    (hfull : t.isdummy = false → ∀ j, j < t.node.length → (gnode t j).i_key ≠ .nil) :
    WF { t with lastfree := lf } :=
  ⟨wfcore_lastfree t lf hw.toWFcore,
    le_trans hlf (Int.natCast_nonneg _),
    fun i hi _ hd => hfull hd i hi, fun _ => hlf⟩

/-- The function `newkey` on an absent key: it stores the key in a free node, or, when
it finds no free node, goes on with `rehash` and `luaH_set`. -/
theorem newkey_cases (R : Table → TValue → Res (Slot × Table)) (t : Table) (hw : WF t)
    (k : TValue) (hk : validkey k)
    (habs : ∀ i, i < t.node.length → luaO_rawequalObj (gnode t i).i_key k = false)
    (harr : ¬ (0 < arrayindex k ∧ arrayindex k ≤ (t.sizearray : Int))) :
    (∃ j t', newkey_with R t k = .ok (.node j, t') ∧ NewkeyPost t k j t') ∨
    (∃ lf : Int, newkey_with R t k = R { t with lastfree := lf } k ∧
      WF { t with lastfree := lf }) := by
  by_cases hroom : t.isdummy = false ∧
      ((gnode t (mainposition t k)).i_val = .nil ∨ keycount t < t.node.length)
  · left
    exact newkey_spec R t hw hroom.1 k hk habs harr hroom.2
  · right
    have hc : (!ttisnil (gnode t (mainposition t k)).i_val || t.isdummy) = true := by
      cases hd : t.isdummy
      · have hv : (gnode t (mainposition t k)).i_val ≠ .nil :=
          fun e => hroom ⟨hd, Or.inl e⟩
        rw [(ttisnil_false_iff _).2 hv]
        rfl
      · simp
    unfold newkey_with
    simp only [if_pos hc]
    rcases getfreepos_cases t hw with ⟨n, hd, _, hn, hfree, _⟩ | ⟨lf, h1, h2, h3⟩
    · exfalso
      apply hroom
      refine ⟨hd, Or.inr ?_⟩
      have h1 := keycount_le t
      by_contra hc2
      have hfull : keycount t = t.node.length := by omega
      unfold keycount at hfull
      have := (Finset.filter_card_eq (hfull.trans (Finset.card_range _).symm)) n
        (Finset.mem_range.2 hn)
      exact this hfree
    · rw [h1]
      exact ⟨lf, rfl, wf_lastfree_full t hw lf h2 h3⟩

theorem bind_ok {ε α β : Type} (a : α) (f : α → Except ε β) : (Except.ok a).bind f = f a := rfl

theorem bind_error {ε α β : Type} (e : ε) (f : α → Except ε β) :
    (Except.error e : Except ε α).bind f = .error e := rfl

theorem ncnt_split (t : Table) (p : Int → Bool) (n : Nat) :
    ncnt t (fun _ => true) n = ncnt t p n + ncnt t (fun k => !p k) n := by
  induction n with
  | zero => rfl
  | succ n ih =>
    rw [ncnt_succ, ncnt_succ, ncnt_succ, ih]
    cases ttisnil (gnode t n).i_val <;> cases p (arrayindex (gnode t n).i_key) <;> simp <;> omega

/-- The function `resize` with a new array size `nasize` and a hash size `nhsize` that
covers the entries that do not fit the new array part, plus `extra` more: it
raises `table overflow` or returns a table with the same bindings and `extra`
free nodes, without any nested `rehash`. -/
theorem resize_spec (R : Table → TValue → Res (Slot × Table)) (t : Table) (hw : WF t)
    (nasize nhsize : Nat) (hn : nasize ≤ MAXASIZE) (extra : Nat)
    (hroom : acnt t nasize t.sizearray + ncnt t (fun k => !inrange nasize k) t.node.length +
      extra ≤ nhsize) :
    (nhsize ≠ 0 ∧ MAXBITS < ceillog2 nhsize ∧
      ∃ tb, resize_with R t nasize nhsize = .error (.table_overflow, tb)) ∨
    ∃ t', resize_with R t nasize nhsize = .ok t' ∧ WF t' ∧ t'.sizearray = nasize ∧
      keycount t' + extra ≤ t'.node.length ∧ (0 < extra → t'.isdummy = false) ∧
      (nhsize ≤ t'.node.length) ∧ (t'.isdummy = true ↔ nhsize = 0) ∧
      ∀ x, getval t' x = getval t x := by
  unfold resize_with
  simp only
  rcases setnodevector_spec (if nasize > t.sizearray then setarrayvector t nasize else t) nhsize
    with ⟨h1, h2, h3⟩ | ⟨t2, h1, hfree, hsize, hl, ha, hs, hd, hlf, hlf3, hsz, hdi, _, _⟩
  · left
    rw [h3]
    exact ⟨h1, h2, _, rfl⟩
  · right
    rw [h1, bind_ok]
    have hdum0 : t2.isdummy = true →
        acnt t nasize t.sizearray + ncnt t (fun k => !inrange nasize k) t.node.length = 0 := by
      intro h
      have := hdi.1 h
      omega
    have hphase : ∃ t4, (if nasize < t.sizearray then
          ((List.range' nasize (t.sizearray - nasize)).foldlM (resize_arraystep R)
            { t2 with sizearray := nasize }).bind
            (fun t3 => .ok { t3 with array := t3.array.take nasize })
        else .ok t2) = .ok t4 ∧
        WF t4 ∧ t4.sizearray = nasize ∧ t4.lsizenode = t2.lsizenode ∧
        t4.node.length = t2.node.length ∧ t4.isdummy = t2.isdummy ∧
        keycount t4 ≤ acnt t nasize t.sizearray ∧
        ∀ x, getval t4 x = if inrange t.sizearray (arrayindex x) = true
          then t.array.getD (arrayindex x - 1).toNat .nil else .nil := by
      by_cases c : nasize < t.sizearray
      · rw [if_pos c]
        have c' : ¬ nasize > t.sizearray := by omega
        rw [if_neg c'] at ha
        exact resize_shrink R t hw.toWFcore nasize c t2 ha hfree hsize hl hd hlf hlf3
          (by omega) (fun h => by have := hdum0 h; omega)
      · rw [if_neg c]
        obtain ⟨a1, a2, a3⟩ := resize_noshrink t hw.toWFcore nasize hn (by omega) t2 ha hs hfree
          hsize hl hd hlf hlf3
        exact ⟨t2, rfl, a1, a2, rfl, rfl, rfl, by rw [keycount_allfree t2 hfree]; omega, a3⟩
    obtain ⟨t4, e4, hw4, hs4, _, hlen4, hd4, hk4, hr4⟩ := hphase
    rw [e4, bind_ok]
    obtain ⟨t', e', hw', hs', _, hlen', hd', hk', hr'⟩ := resize_nodephase R t hw.toWFcore nasize
      t4 hw4 hs4 hr4 (by rw [hlen4]; omega)
      (fun h => by
        rw [hd4] at h
        have := hdum0 h
        omega)
    refine ⟨t', e', hw', hs', by rw [hlen', hlen4]; omega, ?_, by rw [hlen', hlen4]; exact hsz,
      by rw [hd', hd4]; exact hdi, hr'⟩
    intro hex
    rw [hd', hd4]
    cases e : t2.isdummy
    · rfl
    · have := hdi.1 e
      omega

/-- The function `rehash`: it raises `table overflow` or returns a table with the
same bindings and room for the new key, without any nested `rehash`. -/
theorem rehash_spec (R : Table → TValue → Res (Slot × Table)) (t : Table) (hw : WF t)
    (ek : TValue) :
    (2 ^ MAXBITS ≤ livecount t ∧ ∃ tb, rehash_with R t ek = .error (.table_overflow, tb)) ∨
    ∃ t', rehash_with R t ek = .ok t' ∧ WF t' ∧ (∀ x, getval t' x = getval t x) ∧
      (inrange t'.sizearray (arrayindex ek) = false →
        t'.isdummy = false ∧ keycount t' < t'.node.length) := by
  obtain ⟨n, na, e, hn, hna⟩ := rehash_sizes R t hw.toWFcore ek
  rw [e]
  have hA := acnt_split t 0 (min n t.sizearray) t.sizearray (Nat.zero_le _) (min_le_right _ _)
  have hA2 : acnt t n t.sizearray = acnt t (min n t.sizearray) t.sizearray := by
    by_cases c : n ≤ t.sizearray
    · rw [min_eq_left c]
    · rw [acnt_of_le t _ _ (by omega), acnt_of_le t _ _ (by omega)]
  have hH := ncnt_split t (inrange n) t.node.length
  rcases resize_spec R t hw n
      (acnt t 0 t.sizearray + ncnt t (fun _ => true) t.node.length + 1 - na) hn
      (if inrange n (arrayindex ek) = true then 0 else 1)
      (by
        rw [hna]
        split_ifs <;> omega)
    with ⟨h0, hov, tb, h⟩ | ⟨t', h1, h2, h3, h4, h5, _, _, h6⟩
  · left
    refine ⟨?_, tb, h⟩
    have h7 : ¬ (acnt t 0 t.sizearray + ncnt t (fun _ => true) t.node.length + 1 - na ≤
        2 ^ MAXBITS) := fun h8 =>
      absurd ((ceillog2_le_iff _ _ (Nat.pos_of_ne_zero h0)).2 h8) (by omega)
    unfold livecount
    omega
  · right
    refine ⟨t', h1, h2, h6, fun hr => ?_⟩
    rw [h3] at hr
    rw [if_neg (by rw [hr]; simp)] at h4 h5
    exact ⟨h5 (by omega), by omega⟩

theorem setPost_of_put (t : Table) (k : TValue) (s : Slot) (t' : Table)
    (h : PutPost t k s t') : SetPost t k s t' :=
  ⟨h.wf, h.slot, h.found, h.read⟩

/-- The statements `rehash(L, t, key); return luaH_set(L, t, key);` of `newkey`: one
level of `rehash` is enough. -/
theorem rehash_set_spec (fuel : Nat) (t : Table) (hw : WF t) (k : TValue) (hk : validkey k) :
    (2 ^ MAXBITS ≤ livecount t ∧
      ∃ tb, rehash_set (fuel + 1) t k = .error (.table_overflow, tb)) ∨
    ∃ s t', rehash_set (fuel + 1) t k = .ok (s, t') ∧ SetPost t k s t' := by
  unfold rehash_set
  rcases rehash_spec (rehash_set fuel) t hw k with ⟨hl, tb, h⟩ | ⟨t2, h1, h2, h3, h4⟩
  · left
    rw [h]
    exact ⟨hl, tb, rfl⟩
  · right
    rw [h1, bind_ok]
    obtain ⟨s, t', h5, h6⟩ := luaH_set_with_spec (rehash_set fuel) t2 h2 k hk (fun hg =>
      ⟨(h4 (inrange_of_get_nil t2 h2.toWFcore k hk.1 hg)).1,
        Or.inr (h4 (inrange_of_get_nil t2 h2.toWFcore k hk.1 hg)).2⟩)
    exact ⟨s, t', h5, ⟨h6.wf, h6.slot, h6.found, fun x => (h6.read x).trans (h3 x)⟩⟩

/-- The shared body of the `luaH_set` family on any valid key: with one level of
`rehash` allowed it returns the slot of the key, in a table with the same
bindings, unless the hash part would exceed `2^MAXBITS` nodes. -/
theorem put_total (fuel : Nat) (t : Table) (hw : WF t) (k : TValue) (hk : validkey k) :
    (2 ^ MAXBITS ≤ livecount t ∧
      ∃ tb, (if luaH_get t k ≠ .nilobject then .ok (luaH_get t k, t)
        else newkey_with (rehash_set (fuel + 1)) t k) = .error (.table_overflow, tb)) ∨
    ∃ s t', (if luaH_get t k ≠ .nilobject then .ok (luaH_get t k, t)
        else newkey_with (rehash_set (fuel + 1)) t k) = .ok (s, t') ∧ SetPost t k s t' := by
  by_cases c : luaH_get t k = .nilobject
  · rw [if_neg (not_not.2 c)]
    have hs := sizearray_lt t hw.toWFcore
    have c' := c
    rw [luaH_get_eq t hs, if_neg hk.1] at c'
    have harr : ¬ (0 < arrayindex k ∧ arrayindex k ≤ (t.sizearray : Int)) := by
      intro h; rw [if_pos h] at c'; cases c'
    rw [if_neg harr] at c'
    rcases newkey_cases (rehash_set (fuel + 1)) t hw k hk
      (hfind_nilobject t hw.toWFcore k hk.1 c') harr with ⟨j, t', h1, h2⟩ | ⟨lf, h1, h2⟩
    · right
      have hget : luaH_get t' k = .node j := by
        rw [luaH_get_eq t' (sizearray_lt t' h2.wf.toWFcore), if_neg hk.1, h2.sizearray,
          if_neg harr]
        exact hfind_of_key t' h2.wf.toWFcore k j h2.jlt (by rw [h2.key]; exact hk.2) hk.1
      exact ⟨_, _, h1, ⟨h2.wf, hget.symm, by simp,
        getval_congr t t' hw.toWFcore h2.wf.toWFcore h2.array h2.sizearray h2.sub h2.sub'⟩⟩
    · rw [h1]
      rcases rehash_set_spec fuel { t with lastfree := lf } h2 k hk with h | ⟨s, t', h3, h4⟩
      · left; exact h
      · right
        exact ⟨s, t', h3, ⟨h4.wf, h4.slot, h4.found, fun x =>
          (h4.read x).trans (getval_same t { t with lastfree := lf } rfl rfl rfl rfl x)⟩⟩
  · right
    rw [if_pos c]
    exact ⟨_, _, rfl, ⟨hw, rfl, c, fun _ => rfl⟩⟩

/-- The function `luaH_set` on a valid key, with one level of `rehash` allowed. -/
theorem luaH_set_total (fuel : Nat) (t : Table) (hw : WF t) (k : TValue) (hk : validkey k) :
    (2 ^ MAXBITS ≤ livecount t ∧
      ∃ tb, luaH_set (fuel + 1) t k = .error (.table_overflow, tb)) ∨
    ∃ s t', luaH_set (fuel + 1) t k = .ok (s, t') ∧ SetPost t k s t' := by
  have hg : luaH_get { t with flags := 0 } k = luaH_get t k :=
    luaH_get_same t { t with flags := 0 } rfl rfl rfl k
  have key : luaH_set (fuel + 1) t k =
      (if luaH_get { t with flags := 0 } k ≠ .nilobject
        then .ok (luaH_get { t with flags := 0 } k, { t with flags := 0 })
        else newkey_with (rehash_set (fuel + 1)) { t with flags := 0 } k) := by
    unfold luaH_set luaH_set_with
    rw [hg]
    by_cases c : luaH_get t k = .nilobject
    · simp only [if_neg (not_not.2 c), (ttisnil_false_iff k).2 hk.1, validkey_not_nan k hk,
        Bool.false_eq_true, if_false]
    · simp only [if_pos c]
  rw [key]
  rcases put_total fuel { t with flags := 0 } (wf_flags t 0 hw) k hk with h | ⟨s, t', h1, h2⟩
  · left; exact h
  · right
    exact ⟨s, t', h1, ⟨h2.wf, h2.slot, h2.found, fun x =>
      (h2.read x).trans (getval_same t { t with flags := 0 } rfl rfl rfl rfl x)⟩⟩


theorem chainfind_false (t : Table) (p : Node → Bool) (hp : ∀ n, p n = false) (fuel n : Nat) :
    chainfind t p fuel n = .nilobject := by
  induction fuel generalizing n with
  | zero => rfl
  | succ f ih =>
    unfold chainfind
    rw [hp]
    cases (gnode t n).next with
    | none => rfl
    | some m => exact ih m

theorem chainfind_none (t : Table) (p : Node → Bool) (hp : ∀ i, p (gnode t i) = false)
    (fuel n : Nat) : chainfind t p fuel n = .nilobject := by
  induction fuel generalizing n with
  | zero => rfl
  | succ f ih =>
    unfold chainfind
    rw [hp]
    cases (gnode t n).next with
    | none => rfl
    | some m => exact ih m

theorem isnankey_iff (k : TValue) :
    isnankey k = true ↔ ∃ n, k = .number n ∧ luai_numisnan n = true := by
  cases k with
  | number n => simp [isnankey, ttisnumber, ttype, nvalue]
  | gc tt p => cases tt <;> simp [isnankey, ttisnumber, ttype, GCTag.tag, LUA_TNUMBER,
      LUA_TTABLE, LUA_TFUNCTION, LUA_TUSERDATA, LUA_TTHREAD, LUA_TPROTO, LUA_TUPVAL, LUA_TDEADKEY]
  | _ => simp [isnankey, ttisnumber, ttype, LUA_TNUMBER, LUA_TNIL, LUA_TBOOLEAN,
      LUA_TLIGHTUSERDATA, LUA_TSTRING]

/-- No key is raw-equal to a NaN. -/
theorem rawequal_nan (x : TValue) (n : lua_Number) (h : luai_numisnan n = true) :
    luaO_rawequalObj x (.number n) = false := by
  apply Bool.eq_false_iff.2
  intro c
  have := rawequal_refl_right _ _ c
  simp only [luaO_rawequalObj] at this
  simp [luai_numisnan, this] at h

/-- The function `luaH_get` finds nothing for nil and for a NaN, in any table. -/
theorem luaH_get_invalid (t : Table) (k : TValue) (h : k = .nil ∨ isnankey k = true) :
    luaH_get t k = .nilobject := by
  rcases h with h | h
  · subst h; rfl
  · obtain ⟨n, hk, hn⟩ := (isnankey_iff k).1 h
    subst hk
    have h1 : luai_numeq (cast_num (lua_number2int n)) n = false := by
      apply Bool.eq_false_iff.2
      intro c
      have := luai_numeq_refl_left _ _ (luai_numeq_symm _ _ c)
      simp [luai_numisnan, this] at hn
    simp only [luaH_get, h1]
    exact chainfind_false t _ (fun nd => rawequal_nan nd.i_key n hn) _ _

theorem validkey_of (k : TValue) (h1 : k ≠ .nil) (h2 : isnankey k = false)
    (h3 : ttype k ≠ LUA_TDEADKEY) : validkey k := by
  cases k with
  | number n =>
    rw [validkey_number]
    cases e : luai_numisnan n
    · rfl
    · have := (isnankey_iff (.number n)).2 ⟨n, rfl, e⟩
      rw [this] at h2
      cases h2
  | nil => exact absurd rfl h1
  | boolean b => exact validkey_of_not_number _ h1 (by simp) h3
  | lightuserdata p => exact validkey_of_not_number _ h1 (by simp) h3
  | string s => exact validkey_of_not_number _ h1 (by simp) h3
  | gc tt p => exact validkey_of_not_number _ h1 (by simp) h3

/-- The function `luaH_set` on nil and on a NaN: the error is raised and the table is
as before, but for the `flags` field. -/
theorem luaH_set_invalid (fuel : Nat) (t : Table) (k : TValue) :
    (k = .nil → luaH_set fuel t k = .error (.table_index_is_nil, { t with flags := 0 })) ∧
    (isnankey k = true →
      luaH_set fuel t k = .error (.table_index_is_NaN, { t with flags := 0 })) := by
  constructor
  · intro h
    subst h
    rfl
  · intro h
    have hg := luaH_get_invalid t k (Or.inr h)
    have hn : ttisnil k = false := by
      obtain ⟨n, hk, _⟩ := (isnankey_iff k).1 h
      subst hk
      rfl
    unfold luaH_set luaH_set_with
    unfold isnankey at h
    simp only [hg, hn, h, ne_eq, not_true_eq_false, if_false, Bool.false_eq_true, if_true]

/-- The shared body of the `luaH_set` family with any bound on the nesting of `rehash`:
when it returns, it returns the slot of the key in a table with the same bindings. -/
theorem put_any (fuel : Nat) (t : Table) (hw : WF t) (k : TValue) (hk : validkey k) (s : Slot)
    (t' : Table)
    (h : (if luaH_get t k ≠ .nilobject then .ok (luaH_get t k, t)
        else newkey_with (rehash_set fuel) t k) = .ok (s, t')) : SetPost t k s t' := by
  cases fuel with
  | succ f =>
    rcases put_total f t hw k hk with ⟨_, tb, h1⟩ | ⟨s1, t1, h1, h2⟩
    · rw [h1] at h; cases h
    · rw [h1] at h
      cases h
      exact h2
  | zero =>
    by_cases c : luaH_get t k = .nilobject
    · rw [if_neg (not_not.2 c)] at h
      have hs := sizearray_lt t hw.toWFcore
      have c' := c
      rw [luaH_get_eq t hs, if_neg hk.1] at c'
      have harr : ¬ (0 < arrayindex k ∧ arrayindex k ≤ (t.sizearray : Int)) := by
        intro h; rw [if_pos h] at c'; cases c'
      rw [if_neg harr] at c'
      rcases newkey_cases (rehash_set 0) t hw k hk
        (hfind_nilobject t hw.toWFcore k hk.1 c') harr with ⟨j, t1, h1, h2⟩ | ⟨lf, h1, _⟩
      · rw [h1] at h
        cases h
        have hget : luaH_get t' k = .node j := by
          rw [luaH_get_eq t' (sizearray_lt t' h2.wf.toWFcore), if_neg hk.1, h2.sizearray,
            if_neg harr]
          exact hfind_of_key t' h2.wf.toWFcore k j h2.jlt (by rw [h2.key]; exact hk.2) hk.1
        exact ⟨h2.wf, hget.symm, by simp,
          getval_congr t t' hw.toWFcore h2.wf.toWFcore h2.array h2.sizearray h2.sub h2.sub'⟩
      · rw [h1] at h
        cases h
    · rw [if_pos c] at h
      cases h
      exact ⟨hw, rfl, c, fun _ => rfl⟩

/-- Whenever `luaH_set` returns, the key is valid and the result is the slot of the
key in a table with the same bindings. -/
theorem luaH_set_any (fuel : Nat) (t : Table) (hw : WF t) (k : TValue)
    (hd : ttype k ≠ LUA_TDEADKEY) (s : Slot) (t' : Table)
    (h : luaH_set fuel t k = .ok (s, t')) : validkey k ∧ SetPost t k s t' := by
  have hk1 : k ≠ .nil := by
    intro e
    rw [(luaH_set_invalid fuel t k).1 e] at h
    cases h
  have hk2 : isnankey k = false := by
    cases e : isnankey k
    · rfl
    · rw [(luaH_set_invalid fuel t k).2 e] at h
      cases h
  have hk := validkey_of k hk1 hk2 hd
  refine ⟨hk, ?_⟩
  have hg : luaH_get { t with flags := 0 } k = luaH_get t k :=
    luaH_get_same t { t with flags := 0 } rfl rfl rfl k
  have key : luaH_set fuel t k =
      (if luaH_get { t with flags := 0 } k ≠ .nilobject
        then .ok (luaH_get { t with flags := 0 } k, { t with flags := 0 })
        else newkey_with (rehash_set fuel) { t with flags := 0 } k) := by
    unfold luaH_set luaH_set_with
    rw [hg]
    by_cases c : luaH_get t k = .nilobject
    · simp only [if_neg (not_not.2 c), (ttisnil_false_iff k).2 hk.1, validkey_not_nan k hk,
        Bool.false_eq_true, if_false]
    · simp only [if_pos c]
  rw [key] at h
  have h2 := put_any fuel { t with flags := 0 } (wf_flags t 0 hw) k hk s t' h
  exact ⟨h2.wf, h2.slot, h2.found, fun x =>
    (h2.read x).trans (getval_same t { t with flags := 0 } rfl rfl rfl rfl x)⟩

/-- Whenever `luaH_setnum` returns, the result is the slot of the key in a table with
the same bindings. -/
theorem luaH_setnum_any (fuel : Nat) (t : Table) (hw : WF t) (key : Int)
    (h1 : -(2 ^ 31) ≤ key) (h2 : key < 2 ^ 31) (s : Slot) (t' : Table)
    (h : luaH_setnum fuel t key = .ok (s, t')) :
    SetPost t (.number (cast_num key)) s t' := by
  unfold luaH_setnum luaH_setnum_with at h
  rw [← luaH_get_cast_num t key h1 h2] at h
  exact put_any fuel t hw _ (validkey_cast_num key h1 h2) s t' h

/-- Whenever `luaH_setstr` returns, the result is the slot of the key in a table with
the same bindings. -/
theorem luaH_setstr_any (fuel : Nat) (t : Table) (hw : WF t) (key : TString) (s : Slot)
    (t' : Table) (h : luaH_setstr fuel t key = .ok (s, t')) :
    SetPost t (.string key) s t' :=
  put_any fuel t hw _ (validkey_of_not_number _ (by simp) (by simp)
    (by simp [ttype, LUA_TSTRING, LUA_TDEADKEY])) s t' h

theorem wf_write (t : Table) (k : TValue) (s : Slot) (t' : Table) (h : SetPost t k s t')
    (v : TValue) : WF (setslot t' s v) :=
  wf_setslot t' h.wf s (by
    rw [h.slot]
    exact slotok_get t' h.wf.toWFcore k (by rw [← h.slot]; exact h.found)) v

/-- The function `luaH_new`: it raises `table overflow` when the hash size asked for
is beyond `2^MAXBITS`, and returns a table with free nodes and nil cells
otherwise. -/
theorem luaH_new_spec (narray nhash : Nat) :
    (nhash ≠ 0 ∧ MAXBITS < ceillog2 nhash ∧
      ∃ tb, luaH_new narray nhash = .error (.table_overflow, tb)) ∨
    ∃ t, luaH_new narray nhash = .ok t ∧ (∀ i, gnode t i = dummynode_) ∧
      (∀ i, t.array.getD i .nil = .nil) ∧ t.sizearray = narray ∧ t.array.length = narray ∧
      t.node.length = 2 ^ t.lsizenode ∧ t.lsizenode ≤ MAXBITS ∧
      (t.isdummy = true → t.node = [dummynode_]) ∧
      (t.isdummy = false → t.lastfree = (t.node.length : Int)) ∧
      (t.isdummy = true → t.lastfree ≤ 0) ∧ nhash ≤ t.node.length ∧
      (t.isdummy = true ↔ nhash = 0) ∧ t.flags = 255 ∧ t.metatable = none := by
  unfold luaH_new
  simp only
  rcases setnodevector_spec (setarrayvector
      { flags := 255, lsizenode := 0, metatable := none, array := [], node := [dummynode_],
        isdummy := true, lastfree := 0, sizearray := 0 } narray) nhash
    with ⟨h1, h2, h3⟩ | ⟨t, h1, h2, h3, h4, h5, h6, h7, h8, h9, h10, h11, h12, h13⟩
  · left
    exact ⟨h1, h2, _, h3⟩
  · right
    refine ⟨t, h1, h2, ?_, by rw [h6]; rfl, by rw [h5]; simp [setarrayvector], h3, h4, h7, h8,
      h9, h10, h11, by rw [h12]; rfl, by rw [h13]; rfl⟩
    intro i
    rw [h5]
    simp only [setarrayvector, List.getD_eq_getElem?_getD, List.getElem?_map]
    cases (List.range narray)[i]? <;> simp

theorem wf_new (narray nhash : Nat) (t : Table) (hn : narray ≤ MAXASIZE)
    (h : luaH_new narray nhash = .ok t) : WF t := by
  rcases luaH_new_spec narray nhash with ⟨_, _, tb, h1⟩ |
    ⟨t1, h1, h2, _, h4, h5, h6, h7, h8, h9, h10, _⟩
  · rw [h1] at h; cases h
  · rw [h1] at h
    cases h
    exact wf_allfree t h2 h6 h7 (by rw [h4, h5]) (by rw [h4]; exact hn) h8 h9 h10

/-- Every table of the specification is well formed. -/
theorem reach_wf (t : Table) (h : Reach t) : WF t := by
  induction h with
  | new narray nhash t hn h => exact wf_new narray nhash t hn h
  | set fuel t k s t' v _ hd h ih => exact wf_write t k s t' (luaH_set_any fuel t ih k hd s t' h).2 v
  | setnum fuel t key s t' v _ h1 h2 h ih =>
    exact wf_write t _ s t' (luaH_setnum_any fuel t ih key h1 h2 s t' h) v
  | setstr fuel t key s t' v _ h ih =>
    exact wf_write t _ s t' (luaH_setstr_any fuel t ih key s t' h) v


theorem toInt32_small (m : Nat) (h : m < 2 ^ 31) : toInt32 m = (m : Int) := by
  unfold toInt32
  have h1 : m % 2 ^ 32 = m := Nat.mod_eq_of_lt (by omega)
  rw [h1, if_pos h]

/-- Inside the array part `t[m]` is the cell `array[m-1]`. -/
theorem tget_array (t : Table) (hw : WFcore t) (m : Nat) (h1 : 0 < m) (h2 : m ≤ t.sizearray) :
    tget t (m : Int) = t.array.getD (m - 1) .nil := by
  have hs := sizearray_lt t hw
  have hs' : (t.sizearray : Int) < 2 ^ 31 := by exact_mod_cast hs
  unfold tget
  rw [luaH_getnum_eq t hs _ (by omega) (by omega), if_pos ⟨by omega, by exact_mod_cast h2⟩]
  show t.array.getD ((m : Int) - 1).toNat .nil = _
  congr 1
  omega

/-- The binary search of `luaH_getn` inside the array part. -/
theorem getn_arraysearch_spec (t : Table) : ∀ (fuel i j : Nat), i < j → j - i ≤ fuel + 1 →
    (i = 0 ∨ t.array.getD (i - 1) .nil ≠ .nil) → t.array.getD (j - 1) .nil = .nil →
    getn_arraysearch t fuel i j < j ∧
    (getn_arraysearch t fuel i j = 0 ∨
      t.array.getD (getn_arraysearch t fuel i j - 1) .nil ≠ .nil) ∧
    t.array.getD (getn_arraysearch t fuel i j) .nil = .nil := by
  intro fuel
  induction fuel with
  | zero =>
    intro i j h1 h2 h3 h4
    have : j - 1 = i := by omega
    rw [this] at h4
    exact ⟨h1, h3, h4⟩
  | succ f ih =>
    intro i j h1 h2 h3 h4
    unfold getn_arraysearch
    by_cases c : j - i > 1
    · rw [if_pos c]
      simp only
      by_cases c2 : ttisnil (t.array.getD ((i + j) / 2 - 1) .nil) = true
      · rw [if_pos c2]
        obtain ⟨a, b, d⟩ := ih i ((i + j) / 2) (by omega) (by omega) h3 ((ttisnil_iff _).1 c2)
        exact ⟨by omega, b, d⟩
      · rw [if_neg c2]
        exact ih ((i + j) / 2) j (by omega) (by omega)
          (Or.inr (fun e => c2 ((ttisnil_iff _).2 e))) h4
    · rw [if_neg c]
      have : j - 1 = i := by omega
      rw [this] at h4
      exact ⟨h1, h3, h4⟩

/-- The binary search of `unbound_search`. -/
theorem unbound_binsearch_spec (t : Table) : ∀ (fuel i j : Nat), i < j → j - i ≤ fuel + 1 →
    j < 2 ^ 31 → (i = 0 ∨ tget t (i : Int) ≠ .nil) → tget t (j : Int) = .nil →
    (unbound_binsearch t fuel i j = 0 ∨ tget t (unbound_binsearch t fuel i j : Nat) ≠ .nil) ∧
    tget t ((unbound_binsearch t fuel i j : Nat) + 1) = .nil := by
  intro fuel
  induction fuel with
  | zero =>
    intro i j h1 h2 _ h3 h4
    have : j = i + 1 := by omega
    subst this
    exact ⟨h3, by exact_mod_cast h4⟩
  | succ f ih =>
    intro i j h1 h2 hj h3 h4
    unfold unbound_binsearch
    by_cases c : j - i > 1
    · rw [if_pos c]
      simp only
      have hm : toInt32 ((i + j) / 2) = (((i + j) / 2 : Nat) : Int) :=
        toInt32_small _ (by omega)
      rw [hm]
      by_cases c2 : ttisnil (slotval t (luaH_getnum t (((i + j) / 2 : Nat) : Int))) = true
      · rw [if_pos c2]
        exact ih i ((i + j) / 2) (by omega) (by omega) (by omega) h3 ((ttisnil_iff _).1 c2)
      · rw [if_neg c2]
        exact ih ((i + j) / 2) j (by omega) (by omega) hj
          (Or.inr (fun e => c2 ((ttisnil_iff _).2 e))) h4
    · rw [if_neg c]
      have : j = i + 1 := by omega
      subst this
      exact ⟨h3, by exact_mod_cast h4⟩

/-- The linear search of `unbound_search`: it stops at the first nil, if there is one
within the budget. -/
theorem unbound_linear_spec (t : Table) : ∀ (fuel i N : Nat), 0 < i → i ≤ N → N < 2 ^ 31 →
    N - i < fuel → (i = 1 ∨ tget t ((i : Int) - 1) ≠ .nil) → tget t (N : Int) = .nil →
    ∃ n, unbound_linear t fuel i = some n ∧ (n = 0 ∨ tget t (n : Int) ≠ .nil) ∧
      tget t ((n : Int) + 1) = .nil := by
  intro fuel
  induction fuel with
  | zero => intro i N _ _ _ h; omega
  | succ f ih =>
    intro i N h0 h1 h2 h3 h4 h5
    unfold unbound_linear
    rw [toInt32_small i (by omega)]
    by_cases c : (!ttisnil (slotval t (luaH_getnum t (i : Int)))) = true
    · rw [if_pos c]
      have hne : tget t (i : Int) ≠ .nil := by
        intro e
        unfold tget at e
        rw [e] at c
        exact absurd c (by decide)
      have hiN : i ≠ N := by
        intro e
        rw [e] at hne
        exact hne h5
      have := ih (i + 1) N (by omega) (by omega) h2 (by omega)
        (Or.inr (by
          have : ((i + 1 : Nat) : Int) - 1 = (i : Int) := by push_cast; omega
          rw [this]; exact hne)) h5
      exact this
    · rw [if_neg c]
      have hnil : tget t (i : Int) = .nil := by
        have : ttisnil (slotval t (luaH_getnum t (i : Int))) = true := by simpa using c
        exact (ttisnil_iff _).1 this
      refine ⟨i - 1, rfl, ?_, ?_⟩
      · rcases h4 with h4 | h4
        · left; omega
        · right
          have : ((i - 1 : Nat) : Int) = (i : Int) - 1 := by omega
          rw [this]; exact h4
      · have : ((i - 1 : Nat) : Int) + 1 = (i : Int) := by omega
        rw [this]; exact hnil

theorem tget_ne_nil_slot (t : Table) (i : Int) (h : tget t i ≠ .nil) :
    luaH_getnum t i ≠ .nilobject := by
  intro e
  unfold tget at h
  rw [e] at h
  exact h rfl

/-- Some integer key from 1 to `sizearray + sizenode + 1` is unbound: the table has not
that many cells. -/
theorem exists_nil (t : Table) (hw : WFcore t) :
    ∃ N : Nat, 0 < N ∧ N ≤ t.sizearray + t.node.length + 1 ∧ tget t (N : Int) = .nil := by
  by_contra hc
  push_neg at hc
  have hs := sizearray_lt t hw
  have hlen : t.node.length ≤ 2 ^ MAXBITS := by
    rw [hw.size]; exact Nat.pow_le_pow_right (by decide) hw.lsize
  have hsa : t.sizearray ≤ 2 ^ MAXBITS := hw.amax
  have hM : (2 : Nat) ^ MAXBITS = 67108864 := by unfold MAXBITS; norm_num
  have hrange : ∀ N : Nat, 0 < N → N ≤ t.sizearray + t.node.length + 1 →
      -(2 ^ 31) ≤ (N : Int) ∧ (N : Int) < 2 ^ 31 := by
    intro N _ h2
    constructor <;> omega
  have hget : ∀ N : Nat, 0 < N → N ≤ t.sizearray + t.node.length + 1 →
      luaH_get t (.number (cast_num (N : Int))) = luaH_getnum t (N : Int) := fun N h1 h2 =>
    luaH_get_cast_num t _ (hrange N h1 h2).1 (hrange N h1 h2).2
  have hok : ∀ N : Nat, 0 < N → N ≤ t.sizearray + t.node.length + 1 →
      SlotOk t (luaH_getnum t (N : Int)) := by
    intro N h1 h2
    rw [← hget N h1 h2]
    apply slotok_get t hw
    rw [hget N h1 h2]
    exact tget_ne_nil_slot t _ (hc N h1 h2)
  have hcard := Finset.card_le_card_of_injOn
    (s := Finset.Icc 1 (t.sizearray + t.node.length + 1))
    (t := Finset.range (t.sizearray + t.node.length))
    (fun N => match luaH_getnum t (N : Int) with
      | .arr i => i
      | .node j => t.sizearray + j
      | .nilobject => 0)
    (by
      intro N hN
      have hN' := Finset.mem_Icc.1 hN
      have := hok N (by omega) hN'.2
      rw [Finset.mem_range]
      beta_reduce
      cases e : luaH_getnum t (N : Int) with
      | arr i =>
        rw [e] at this
        show i < t.sizearray + t.node.length
        have : i < t.sizearray := this
        omega
      | node j =>
        rw [e] at this
        show t.sizearray + j < t.sizearray + t.node.length
        have := this.1
        omega
      | nilobject => rw [e] at this; exact absurd this (by simp [SlotOk]))
    (by
      intro N hN N' hN' heq
      have hN1 := Finset.mem_Icc.1 (Finset.mem_coe.1 hN)
      have hN2 := Finset.mem_Icc.1 (Finset.mem_coe.1 hN')
      have o1 := hok N (by omega) hN1.2
      have o2 := hok N' (by omega) hN2.2
      have hslot : luaH_getnum t (N : Int) = luaH_getnum t (N' : Int) := by
        simp only at heq
        cases e1 : luaH_getnum t (N : Int) with
        | arr i =>
          rw [e1] at heq o1
          cases e2 : luaH_getnum t (N' : Int) with
          | arr i' => rw [e2] at heq; simp only at heq; rw [heq]
          | node j' =>
            rw [e2] at heq; simp only at heq
            have : i < t.sizearray := o1
            omega
          | nilobject => rw [e2] at o2; exact absurd o2 (by simp [SlotOk])
        | node j =>
          rw [e1] at heq o1
          cases e2 : luaH_getnum t (N' : Int) with
          | arr i' =>
            rw [e2] at heq o2; simp only at heq
            have : i' < t.sizearray := o2
            omega
          | node j' =>
            rw [e2] at heq; simp only at heq
            have : j = j' := by omega
            rw [this]
          | nilobject => rw [e2] at o2; exact absurd o2 (by simp [SlotOk])
        | nilobject => rw [e1] at o1; exact absurd o1 (by simp [SlotOk])
      rw [← hget N (by omega) hN1.2, ← hget N' (by omega) hN2.2] at hslot
      have hraw := rawequal_of_slot t hw _ _ hslot (by
        rw [hget N' (by omega) hN2.2]
        exact tget_ne_nil_slot t _ (hc N' (by omega) hN2.2))
      have := arrayindex_congr_raw _ _ hraw
      rw [arrayindex_cast_num _ (hrange N (by omega) hN1.2).1 (hrange N (by omega) hN1.2).2,
        arrayindex_cast_num _ (hrange N' (by omega) hN2.2).1 (hrange N' (by omega) hN2.2).2]
        at this
      exact_mod_cast this)
  simp at hcard

theorem border_of (t : Table) (n : Nat) (h1 : n = 0 ∨ tget t (n : Int) ≠ .nil)
    (h2 : tget t ((n : Int) + 1) = .nil) : isborder t n := by
  by_cases c : n = 0
  · left
    subst c
    exact ⟨rfl, by simpa using h2⟩
  · right
    rcases h1 with h1 | h1
    · exact absurd h1 c
    · exact ⟨by omega, h1, h2⟩

/-- The doubling loop of `unbound_search`, with what follows it: the loop is left within
31 rounds, and the result is a border. -/
theorem unbound_double_spec (t : Table) (hw : WFcore t) : ∀ (fuel i j : Nat), i < j →
    j ≤ MAX_INT → 2 ^ 33 ≤ j * 2 ^ fuel → (i = 0 ∨ tget t (i : Int) ≠ .nil) →
    ∃ n, unbound_double t fuel i j = some n ∧ isborder t n := by
  have hMI : MAX_INT = 2147483645 := by unfold MAX_INT; norm_num
  intro fuel
  induction fuel with
  | zero =>
    intro i j _ h2 h3 _
    rw [hMI] at h2
    norm_num at h3
    omega
  | succ f ih =>
    intro i j h1 h2 h3 h4
    have hj31 : j < 2 ^ 31 := by rw [hMI] at h2; omega
    unfold unbound_double
    rw [toInt32_small j hj31]
    by_cases c : (!ttisnil (slotval t (luaH_getnum t (j : Int)))) = true
    · rw [if_pos c]
      simp only
      have hne : tget t (j : Int) ≠ .nil := by
        intro e
        unfold tget at e
        rw [e] at c
        exact absurd c (by decide)
      have hj2 : j * 2 % 2 ^ 32 = j * 2 := Nat.mod_eq_of_lt (by omega)
      rw [hj2]
      by_cases c2 : j * 2 > MAX_INT
      · rw [if_pos c2]
        obtain ⟨N, hN1, hN2, hN3⟩ := exists_nil t hw
        have hlen : t.node.length ≤ 2 ^ MAXBITS := by
          rw [hw.size]; exact Nat.pow_le_pow_right (by decide) hw.lsize
        have hsa : t.sizearray ≤ 2 ^ MAXBITS := hw.amax
        have hM : (2 : Nat) ^ MAXBITS = 67108864 := by unfold MAXBITS; norm_num
        obtain ⟨n, e1, e2, e3⟩ := unbound_linear_spec t (t.sizearray + t.node.length + 2) 1 N
          (by omega) (by omega) (by omega) (by omega) (Or.inl rfl) hN3
        exact ⟨n, e1, border_of t n e2 e3⟩
      · rw [if_neg c2]
        have h5 : j * 2 * 2 ^ f = j * 2 ^ (f + 1) := by rw [pow_succ]; ring
        exact ih j (j * 2) (by omega) (by omega) (by rw [h5]; exact h3) (Or.inr hne)
    · rw [if_neg c]
      have hnil : tget t (j : Int) = .nil := by
        have : ttisnil (slotval t (luaH_getnum t (j : Int))) = true := by simpa using c
        exact (ttisnil_iff _).1 this
      obtain ⟨e1, e2⟩ := unbound_binsearch_spec t j i j h1 (by omega) hj31 h4 hnil
      exact ⟨_, rfl, border_of t _ e1 e2⟩

/-- The function `luaH_getn` returns, and what it returns is a border. -/
theorem luaH_getn_spec (t : Table) (hw : WF t) : ∃ n, luaH_getn t = some n ∧ isborder t n := by
  have hs := sizearray_lt t hw.toWFcore
  have hsa : t.sizearray ≤ 2 ^ MAXBITS := hw.amax
  have hM : (2 : Nat) ^ MAXBITS = 67108864 := by unfold MAXBITS; norm_num
  have hMI : MAX_INT = 2147483645 := by unfold MAX_INT; norm_num
  unfold luaH_getn
  simp only
  by_cases c : t.sizearray > 0 ∧ ttisnil (t.array.getD (t.sizearray - 1) .nil) = true
  · rw [if_pos c]
    obtain ⟨h1, h2, h3⟩ := getn_arraysearch_spec t t.sizearray 0 t.sizearray c.1 (by omega)
      (Or.inl rfl) ((ttisnil_iff _).1 c.2)
    refine ⟨_, rfl, border_of t _ ?_ ?_⟩
    · by_cases c0 : getn_arraysearch t t.sizearray 0 t.sizearray = 0
      · left; exact c0
      · right
        rcases h2 with h2 | h2
        · exact absurd h2 c0
        · rw [tget_array t hw.toWFcore _ (by omega) (by omega)]
          exact h2
    · have := tget_array t hw.toWFcore (getn_arraysearch t t.sizearray 0 t.sizearray + 1)
        (by omega) (by omega)
      rw [Nat.add_sub_cancel] at this
      rw [← h3, ← this]
      push_cast
      rfl
  · rw [if_neg c]
    have hpre : t.sizearray = 0 ∨ tget t (t.sizearray : Int) ≠ .nil := by
      by_cases c0 : t.sizearray = 0
      · left; exact c0
      · right
        rw [tget_array t hw.toWFcore _ (by omega) (le_refl _)]
        intro e
        exact c ⟨by omega, (ttisnil_iff _).2 e⟩
    by_cases cd : t.isdummy = true
    · rw [if_pos cd]
      refine ⟨_, rfl, border_of t _ hpre ?_⟩
      unfold tget
      have hs' : (t.sizearray : Int) < 2 ^ 31 := by exact_mod_cast hs
      rw [luaH_getnum_eq t hs _ (by omega) (by omega), if_neg (by omega)]
      rw [hfind_absent t hw.toWFcore _ (fun i hi => by
        have hn := hw.dummy cd
        have : gnode t i = dummynode_ := by
          unfold gnode
          rw [hn]
          cases i <;> rfl
        rw [this]
        rfl)]
      rfl
    · rw [if_neg cd]
      unfold unbound_search
      have e : (t.sizearray + 1) % 2 ^ 32 = t.sizearray + 1 := Nat.mod_eq_of_lt (by omega)
      rw [e]
      exact unbound_double_spec t hw.toWFcore 33 t.sizearray (t.sizearray + 1) (by omega)
        (by omega) (by norm_num) hpre


theorem find_congr {α : Type} (l : List α) (p q : α → Bool) (h : ∀ x ∈ l, p x = q x) :
    l.find? p = l.find? q := by
  induction l with
  | nil => rfl
  | cons a l ih =>
    simp only [List.find?_cons]
    rw [h a (List.mem_cons_self _ _), ih (fun x hx => h x (List.mem_cons_of_mem _ hx))]

theorem chainfind_pred_congr (t : Table) (p q : Node → Bool)
    (h : ∀ i, p (gnode t i) = q (gnode t i)) (fuel n : Nat) :
    chainfind t p fuel n = chainfind t q fuel n := by
  induction fuel generalizing n with
  | zero => rfl
  | succ f ih =>
    unfold chainfind
    rw [h n]
    cases (gnode t n).next with
    | none => rfl
    | some m => simp only [ih]

/-- Without dead keys in the table, the search of `findindex` is the search of
`luaH_get`. -/
theorem findindex_eq (t : Table) (hw : WFcore t) (key : TValue) :
    findindex t key =
      if key = .nil then .ok (-1)
      else if 0 < arrayindex key ∧ arrayindex key ≤ (t.sizearray : Int)
        then .ok (arrayindex key - 1)
      else match hfind t key with
        | .node n => .ok ((n : Int) + t.sizearray)
        | _ => .error .invalid_key_to_next := by
  unfold findindex
  by_cases hk : key = .nil
  · subst hk
    rfl
  · rw [(ttisnil_false_iff key).2 hk, if_neg hk]
    simp only [Bool.false_eq_true, if_false]
    split_ifs with c
    · rfl
    · unfold hfind
      rewrite [chainfind_pred_congr t _ (fun n => luaO_rawequalObj n.i_key key) (fun i => by
        have hnd : ttype (gnode t i).i_key ≠ LUA_TDEADKEY := by
          by_cases hi : i < t.node.length
          · exact hw.nodead i hi
          · have : gnode t i = dummynode_ := by
              unfold gnode
              rw [List.getD_eq_getElem?_getD, List.getElem?_eq_none (by omega)]
              rfl
            rw [this]
            simp [dummynode_, ttype, LUA_TNIL, LUA_TDEADKEY]
        have : (ttype (gnode t i).i_key == LUA_TDEADKEY) = false := by
          simpa using hnd
        simp only [this, Bool.false_and, Bool.or_false])]
      cases chainfind t (fun n => luaO_rawequalObj n.i_key key) t.node.length
        (mainposition t key) <;> rfl

/-- The index that `findindex` gives for the key of a cell of the array part. -/
theorem findindex_array (t : Table) (hw : WFcore t) (p : Nat) (hp : p < t.sizearray) :
    findindex t (cellkey t p) = .ok (p : Int) := by
  have hsa : t.sizearray ≤ 2 ^ MAXBITS := hw.amax
  unfold cellkey
  rw [if_pos hp, findindex_eq t hw, if_neg (by simp), arrayindex_key p (by omega),
    if_pos ⟨by omega, by omega⟩]
  congr 1
  omega

/-- The index that `findindex` gives for the key of a node with a key. -/
theorem findindex_node (t : Table) (hw : WFcore t) (p : Nat) (hp : t.sizearray ≤ p)
    (hp2 : p < t.sizearray + t.node.length)
    (hk : (gnode t (p - t.sizearray)).i_key ≠ .nil) :
    findindex t (cellkey t p) = .ok (p : Int) := by
  have hj : p - t.sizearray < t.node.length := by omega
  unfold cellkey
  rw [if_neg (by omega), findindex_eq t hw, if_neg hk, if_neg (hw.arr _ hj),
    hfind_of_key t hw _ _ hj (hw.keyok _ hj hk) hk]
  simp only
  congr 1
  omega

theorem cellval_node (t : Table) (j : Nat) :
    cellval t (t.sizearray + j) = (gnode t j).i_val := by
  unfold cellval
  rw [if_neg (by omega), Nat.add_sub_cancel_left]

theorem cellkey_node (t : Table) (j : Nat) :
    cellkey t (t.sizearray + j) = (gnode t j).i_key := by
  unfold cellkey
  rw [if_neg (by omega), Nat.add_sub_cancel_left]

theorem cellval_array (t : Table) (p : Nat) (h : p < t.sizearray) :
    cellval t p = t.array.getD p .nil := by
  unfold cellval
  rw [if_pos h]

theorem cellkey_array (t : Table) (p : Nat) (h : p < t.sizearray) :
    cellkey t p = .number (cast_num ((p : Int) + 1)) := by
  unfold cellkey
  rw [if_pos h]

/-- The loop of `luaH_next` over the hash part, in the numbering of the cells. -/
theorem node_scan (t : Table) (i2 n : Nat) :
    ((List.range' (t.sizearray + i2) n).find? (fun p => !ttisnil (cellval t p))).map
      (fun p => (cellkey t p, cellval t p)) =
    ((List.range' i2 n).find? (fun j => !ttisnil (gnode t j).i_val)).map
      (fun j => ((gnode t j).i_key, (gnode t j).i_val)) := by
  rw [← List.map_add_range', List.find?_map]
  have e : ((fun p => !ttisnil (cellval t p)) ∘ fun x => t.sizearray + x) =
      fun j => !ttisnil (gnode t j).i_val := by
    funext j
    simp only [Function.comp, cellval_node]
  rw [e]
  cases (List.range' i2 n).find? (fun j => !ttisnil (gnode t j).i_val) with
  | none => rfl
  | some j =>
    simp only [Option.map]
    rw [cellkey_node, cellval_node]

/-- The two loops of `luaH_next` are one scan of the cells. -/
theorem next_scan (t : Table) (hsz : sizenode t = t.node.length) (i : Nat) :
    (match (List.range' i (t.sizearray - i)).find?
        (fun j => !ttisnil (t.array.getD j .nil)) with
      | some j => (.ok (some (.number (cast_num ((j : Int) + 1)), t.array.getD j .nil)) :
          Except LuaError (Option (TValue × TValue)))
      | none =>
        match (List.range' ((if i < t.sizearray then t.sizearray else i) - t.sizearray)
            (sizenode t - ((if i < t.sizearray then t.sizearray else i) - t.sizearray))).find?
            (fun j => !ttisnil (gnode t j).i_val) with
        | some j => .ok (some ((gnode t j).i_key, (gnode t j).i_val))
        | none => .ok none) = .ok (scan t i) := by
  rw [hsz]
  unfold scan
  by_cases c : i < t.sizearray
  · rw [if_pos c, Nat.sub_self, Nat.sub_zero]
    have hU : List.range' i (t.sizearray + t.node.length - i) =
        List.range' i (t.sizearray - i) ++ List.range' (t.sizearray + 0) t.node.length := by
      have := List.range'_append_1 i (t.sizearray - i) t.node.length
      rw [show i + (t.sizearray - i) = t.sizearray + 0 by omega,
        show t.node.length + (t.sizearray - i) = t.sizearray + t.node.length - i by omega] at this
      exact this.symm
    rw [hU, List.find?_append]
    have e1 : (List.range' i (t.sizearray - i)).find? (fun p => !ttisnil (cellval t p)) =
        (List.range' i (t.sizearray - i)).find? (fun j => !ttisnil (t.array.getD j .nil)) := by
      apply find_congr
      intro x hx
      rw [List.mem_range'_1] at hx
      rw [cellval_array t x (by omega)]
    rw [e1]
    cases e : (List.range' i (t.sizearray - i)).find?
        (fun j => !ttisnil (t.array.getD j .nil)) with
    | some j =>
      have hj := List.mem_of_find?_eq_some e
      rw [List.mem_range'_1] at hj
      simp only [Option.or, Option.map]
      rw [cellkey_array t j (by omega), cellval_array t j (by omega)]
    | none =>
      simp only [Option.or]
      rw [node_scan t 0 t.node.length]
      cases (List.range' 0 t.node.length).find? (fun j => !ttisnil (gnode t j).i_val) <;> rfl
  · rw [if_neg c]
    have h0 : t.sizearray - i = 0 := by omega
    rw [h0]
    simp only [List.range'_zero, List.find?_nil]
    have hU : List.range' i (t.sizearray + t.node.length - i) =
        List.range' (t.sizearray + (i - t.sizearray)) (t.node.length - (i - t.sizearray)) := by
      congr 1 <;> omega
    rw [hU, node_scan t (i - t.sizearray) (t.node.length - (i - t.sizearray))]
    cases (List.range' (i - t.sizearray) (t.node.length - (i - t.sizearray))).find?
        (fun j => !ttisnil (gnode t j).i_val) <;> rfl

/-- The function `luaH_next`: the cell of the key is found, and the scan goes on from the
next cell. -/
theorem luaH_next_scan (t : Table) (hw : WFcore t) (key : TValue) :
    luaH_next t key =
      match findindex t key with
      | .error e => .error e
      | .ok i0 => .ok (scan t (i0 + 1).toNat) := by
  have hsz : sizenode t = t.node.length := by unfold sizenode twoto; exact hw.size.symm
  unfold luaH_next
  cases findindex t key with
  | error e => rfl
  | ok i0 =>
    simp only
    exact next_scan t hsz _

/-- The first hit of a search in `s, s+1, ..., s+n-1` splits the list of all hits. -/
theorem find_filter (p : Nat → Bool) : ∀ (n s : Nat),
    ((List.range' s n).find? p = none → (List.range' s n).filter p = []) ∧
    (∀ q, (List.range' s n).find? p = some q → s ≤ q ∧ q < s + n ∧ p q = true ∧
      (List.range' s n).filter p = q :: (List.range' (q + 1) (s + n - (q + 1))).filter p) := by
  intro n
  induction n with
  | zero =>
    intro s
    exact ⟨fun _ => rfl, fun q h => by simp at h⟩
  | succ n ih =>
    intro s
    rw [List.range'_succ]
    simp only [List.find?_cons, List.filter_cons]
    cases hp : p s with
    | true =>
      simp only [if_true]
      refine ⟨fun h => (by cases h), fun q h => ?_⟩
      have : s = q := by simpa using h
      subst this
      refine ⟨le_refl _, by omega, hp, ?_⟩
      rw [show s + (n + 1) - (s + 1) = n by omega]
    | false =>
      simp only [Bool.false_eq_true, if_false]
      refine ⟨fun h => (ih (s + 1)).1 h, fun q h => ?_⟩
      obtain ⟨h1, h2, h3, h4⟩ := (ih (s + 1)).2 q h
      refine ⟨by omega, by omega, h3, ?_⟩
      rw [h4, show s + 1 + n - (q + 1) = s + (n + 1) - (q + 1) by omega]

/-- A traversal that goes on from the key of cell `i - 1` returns the pairs of the cells
from `i` on that hold a value, within as many calls as there are cells left, plus the
last call that returns 0. -/
theorem traverse_from (t : Table) (hw : WFcore t) : ∀ (fuel i : Nat) (key : TValue),
    findindex t key = .ok ((i : Int) - 1) → t.sizearray + t.node.length - i < fuel →
    traverse t fuel key = .ok (entriesfrom t i) := by
  intro fuel
  induction fuel with
  | zero => intro i key _ h; omega
  | succ f ih =>
    intro i key hfi hfuel
    unfold traverse
    rw [luaH_next_scan t hw, hfi]
    simp only
    rw [show ((i : Int) - 1 + 1).toNat = i by omega]
    unfold scan entriesfrom
    obtain ⟨h1, h2⟩ := find_filter (fun p => !ttisnil (cellval t p))
      (t.sizearray + t.node.length - i) i
    cases e : (List.range' i (t.sizearray + t.node.length - i)).find?
        (fun p => !ttisnil (cellval t p)) with
    | none =>
      rw [h1 e]
      rfl
    | some q =>
      obtain ⟨a, b, c, d⟩ := h2 q e
      simp only [Option.map]
      have hq : q < t.sizearray + t.node.length := by omega
      have hlive : cellval t q ≠ .nil := by
        intro e2
        simp only [e2] at c
        exact absurd c (by decide)
      have hfq : findindex t (cellkey t q) = .ok (((q + 1 : Nat) : Int) - 1) := by
        have : (((q + 1 : Nat) : Int) - 1) = (q : Int) := by push_cast; omega
        rw [this]
        by_cases c1 : q < t.sizearray
        · exact findindex_array t hw q c1
        · have hj : q - t.sizearray < t.node.length := by omega
          apply findindex_node t hw q (by omega) hq
          apply key_of_val t hw _ hj
          unfold cellval at hlive
          rw [if_neg c1] at hlive
          exact hlive
      rw [ih (q + 1) (cellkey t q) hfq (by omega)]
      simp only
      unfold entriesfrom
      rw [d, List.map_cons,
        show i + (t.sizearray + t.node.length - i) - (q + 1) =
          t.sizearray + t.node.length - (q + 1) by omega]

theorem entriesfrom_zero (t : Table) : entriesfrom t 0 = arrayentries t ++ nodeentries t := by
  unfold entriesfrom arrayentries nodeentries
  have hU : List.range' 0 (t.sizearray + t.node.length - 0) =
      List.range t.sizearray ++ (List.range t.node.length).map (fun x => t.sizearray + x) := by
    rw [Nat.sub_zero, List.range_eq_range', List.range_eq_range', List.map_add_range',
      Nat.add_zero]
    have := List.range'_append_1 0 t.sizearray t.node.length
    rw [Nat.zero_add, Nat.add_comm t.node.length] at this
    exact this.symm
  rw [hU, List.filter_append, List.map_append]
  congr 1
  · have e1 : (List.range t.sizearray).filter (fun p => !ttisnil (cellval t p)) =
        (List.range t.sizearray).filter (fun i => !ttisnil (t.array.getD i .nil)) := by
      apply List.filter_congr
      intro x hx
      rw [cellval_array t x (List.mem_range.1 hx)]
    rw [e1]
    apply List.map_congr_left
    intro x hx
    have hx' := List.mem_range.1 (List.mem_of_mem_filter hx)
    rw [cellkey_array t x hx', cellval_array t x hx']
  · rw [List.filter_map, List.map_map]
    have e2 : ((fun p => !ttisnil (cellval t p)) ∘ fun x => t.sizearray + x) =
        fun j => !ttisnil (gnode t j).i_val := by
      funext j
      simp only [Function.comp, cellval_node]
    rw [e2]
    apply List.map_congr_left
    intro x _
    simp only [Function.comp, cellkey_node, cellval_node]

/-- A full traversal returns the pairs of the array part and then those of the node
vector, within `sizearray + sizenode + 1` calls of `luaH_next`. -/
theorem traverse_spec (t : Table) (hw : WFcore t) (fuel : Nat)
    (hf : t.sizearray + t.node.length < fuel) :
    traverse t fuel .nil = .ok (arrayentries t ++ nodeentries t) := by
  rw [← entriesfrom_zero]
  exact traverse_from t hw fuel 0 .nil (by rw [findindex_eq t hw, if_pos rfl]; rfl) (by omega)

theorem mem_arrayentries (t : Table) (kv : TValue × TValue) :
    kv ∈ arrayentries t ↔ ∃ i, i < t.sizearray ∧ t.array.getD i .nil ≠ .nil ∧
      kv = (.number (cast_num ((i : Int) + 1)), t.array.getD i .nil) := by
  unfold arrayentries
  simp only [List.mem_map, List.mem_filter, List.mem_range]
  constructor
  · rintro ⟨i, ⟨h1, h2⟩, h3⟩
    refine ⟨i, h1, ?_, h3.symm⟩
    intro e
    rw [e] at h2
    exact absurd h2 (by decide)
  · rintro ⟨i, h1, h2, h3⟩
    exact ⟨i, ⟨h1, by rw [(ttisnil_false_iff _).2 h2]; rfl⟩, h3.symm⟩

theorem mem_nodeentries (t : Table) (kv : TValue × TValue) :
    kv ∈ nodeentries t ↔ ∃ j, j < t.node.length ∧ (gnode t j).i_val ≠ .nil ∧
      kv = ((gnode t j).i_key, (gnode t j).i_val) := by
  unfold nodeentries
  simp only [List.mem_map, List.mem_filter, List.mem_range]
  constructor
  · rintro ⟨i, ⟨h1, h2⟩, h3⟩
    refine ⟨i, h1, ?_, h3.symm⟩
    intro e
    rw [e] at h2
    exact absurd h2 (by decide)
  · rintro ⟨i, h1, h2, h3⟩
    exact ⟨i, ⟨h1, by rw [(ttisnil_false_iff _).2 h2]; rfl⟩, h3.symm⟩

theorem getval_arraykey (t : Table) (hw : WFcore t) (i : Nat) (hi : i < t.sizearray) :
    getval t (.number (cast_num ((i : Int) + 1))) = t.array.getD i .nil := by
  have hsa : t.sizearray ≤ 2 ^ MAXBITS := hw.amax
  unfold getval
  rw [luaH_get_eq t (sizearray_lt t hw), if_neg (by simp), arrayindex_key i (by omega),
    if_pos ⟨by omega, by omega⟩]
  show t.array.getD ((i : Int) + 1 - 1).toNat .nil = _
  congr 1
  omega

theorem getval_nodekey (t : Table) (hw : WFcore t) (j : Nat) (hj : j < t.node.length)
    (hk : (gnode t j).i_key ≠ .nil) : getval t (gnode t j).i_key = (gnode t j).i_val := by
  unfold getval
  rw [luaH_get_eq t (sizearray_lt t hw), if_neg hk, if_neg (hw.arr j hj),
    hfind_of_key t hw _ j hj (hw.keyok j hj hk) hk]
  rfl

/-- Every pair of a traversal is a binding of the table with a non-nil value. -/
theorem entries_sound (t : Table) (hw : WFcore t) (kv : TValue × TValue)
    (h : kv ∈ arrayentries t ++ nodeentries t) : kv.2 ≠ .nil ∧ getval t kv.1 = kv.2 := by
  rcases List.mem_append.1 h with h | h
  · obtain ⟨i, h1, h2, h3⟩ := (mem_arrayentries t kv).1 h
    subst h3
    exact ⟨h2, getval_arraykey t hw i h1⟩
  · obtain ⟨j, h1, h2, h3⟩ := (mem_nodeentries t kv).1 h
    subst h3
    exact ⟨h2, getval_nodekey t hw j h1 (key_of_val t hw j h1 h2)⟩

/-- Every binding of the table with a non-nil value is a pair of a traversal. -/
theorem entries_complete (t : Table) (hw : WFcore t) (k : TValue) (h : getval t k ≠ .nil) :
    ∃ kv, kv ∈ arrayentries t ++ nodeentries t ∧ luaO_rawequalObj kv.1 k = true ∧
      kv.2 = getval t k := by
  have hsa : t.sizearray ≤ 2 ^ MAXBITS := hw.amax
  have hk : k ≠ .nil := by
    intro e
    rw [e] at h
    exact h rfl
  have h0 := h
  unfold getval at h ⊢
  rw [luaH_get_eq t (sizearray_lt t hw), if_neg hk] at h ⊢
  by_cases c : 0 < arrayindex k ∧ arrayindex k ≤ (t.sizearray : Int)
  · rw [if_pos c] at h ⊢
    have hi : (arrayindex k - 1).toNat < t.sizearray := by omega
    refine ⟨(.number (cast_num (((arrayindex k - 1).toNat : Nat) + 1)),
      t.array.getD (arrayindex k - 1).toNat .nil), List.mem_append_left _
        ((mem_arrayentries t _).2 ⟨_, hi, h, rfl⟩), ?_, rfl⟩
    apply rawequal_of_arrayindex
    · rw [arrayindex_key _ (by omega)]
      omega
    · rw [arrayindex_key _ (by omega)]
      omega
  · rw [if_neg c] at h ⊢
    rcases hfind_cases t hw k with e | ⟨j, hj, e, hr⟩
    · rw [e] at h
      exact absurd rfl h
    · rw [e] at h ⊢
      exact ⟨((gnode t j).i_key, (gnode t j).i_val), List.mem_append_right _
        ((mem_nodeentries t _).2 ⟨j, hj, h, rfl⟩), hr, rfl⟩

/-- No two pairs of a traversal have raw-equal keys. -/
theorem entries_nodup (t : Table) (hw : WFcore t) :
    (arrayentries t ++ nodeentries t).Pairwise
      (fun a b => luaO_rawequalObj a.1 b.1 = false) := by
  have hsa : t.sizearray ≤ 2 ^ MAXBITS := hw.amax
  rw [List.pairwise_append]
  refine ⟨?_, ?_, ?_⟩
  · unfold arrayentries
    rw [List.pairwise_map]
    apply List.Pairwise.filter
    apply List.Pairwise.imp_of_mem _ (List.pairwise_lt_range t.sizearray)
    intro a b ha hb hab
    apply Bool.eq_false_iff.2
    intro c
    have := arrayindex_congr_raw _ _ c
    rw [arrayindex_key a (by have := List.mem_range.1 ha; omega),
      arrayindex_key b (by have := List.mem_range.1 hb; omega)] at this
    omega
  · unfold nodeentries
    rw [List.pairwise_map]
    have hp : ((List.range t.node.length).filter (fun j => !ttisnil (gnode t j).i_val)).Pairwise
        (fun a b => a < b) := List.Pairwise.filter _ (List.pairwise_lt_range t.node.length)
    apply List.Pairwise.imp_of_mem _ hp
    intro a b ha hb hab
    rw [List.mem_filter, List.mem_range] at ha hb
    apply Bool.eq_false_iff.2
    intro c
    have hka : (gnode t a).i_key ≠ .nil := by
      apply key_of_val t hw a ha.1
      intro e
      have := ha.2
      simp only [e] at this
      exact absurd this (by decide)
    have := hw.nodup a b ha.1 hb.1 hka c
    omega
  · intro a ha b hb
    obtain ⟨i, h1, _, h3⟩ := (mem_arrayentries t a).1 ha
    obtain ⟨j, h4, _, h6⟩ := (mem_nodeentries t b).1 hb
    subst h3 h6
    apply Bool.eq_false_iff.2
    intro c
    have := arrayindex_congr_raw _ _ c
    rw [arrayindex_key i (by omega)] at this
    exact hw.arr j h4 (by rw [← this]; omega)

/-- The keys of a traversal depend on the keys of the nodes and on which cells hold a
value, not on the values. -/
theorem entries_keys_congr (t t' : Table) (hs : t'.sizearray = t.sizearray)
    (hl : t'.node.length = t.node.length)
    (ha : ∀ i, i < t.sizearray → (t'.array.getD i .nil = .nil ↔ t.array.getD i .nil = .nil))
    (hk : ∀ j, j < t.node.length → (gnode t' j).i_key = (gnode t j).i_key)
    (hv : ∀ j, j < t.node.length → ((gnode t' j).i_val = .nil ↔ (gnode t j).i_val = .nil)) :
    (arrayentries t' ++ nodeentries t').map Prod.fst =
      (arrayentries t ++ nodeentries t).map Prod.fst := by
  have hb : ∀ a b : TValue, (a = .nil ↔ b = .nil) → (!ttisnil a) = (!ttisnil b) := by
    intro a b h
    cases ea : ttisnil a <;> cases eb : ttisnil b
    · rfl
    · exact absurd (h.2 ((ttisnil_iff _).1 eb)) ((ttisnil_false_iff _).1 ea)
    · exact absurd (h.1 ((ttisnil_iff _).1 ea)) ((ttisnil_false_iff _).1 eb)
    · rfl
  rw [List.map_append, List.map_append]
  congr 1
  · unfold arrayentries
    rw [List.map_map, List.map_map, hs]
    congr 1
    apply List.filter_congr
    intro x hx
    exact hb _ _ (ha x (List.mem_range.1 hx))
  · unfold nodeentries
    rw [List.map_map, List.map_map, hl]
    have e : (List.range t.node.length).filter (fun j => !ttisnil (gnode t' j).i_val) =
        (List.range t.node.length).filter (fun j => !ttisnil (gnode t j).i_val) := by
      apply List.filter_congr
      intro x hx
      exact hb _ _ (hv x (List.mem_range.1 hx))
    rw [e]
    apply List.map_congr_left
    intro x hx
    exact hk x (List.mem_range.1 (List.mem_of_mem_filter hx))

/-- Overwriting a non-nil value with a non-nil value keeps the keys of a traversal. -/
theorem entries_keys_setslot (t : Table) (hw : WFcore t) (s : Slot) (hs : SlotOk t s)
    (hold : slotval t s ≠ .nil) (v : TValue) (hv : v ≠ .nil) :
    (arrayentries (setslot t s v) ++ nodeentries (setslot t s v)).map Prod.fst =
      (arrayentries t ++ nodeentries t).map Prod.fst := by
  apply entries_keys_congr t _ (sizearray_setslot t s v) (length_setslot t s v)
  · intro i hi
    have := slotval_setslot t hw s hs v (.arr i)
    simp only [slotval] at this
    rw [this]
    split_ifs with c
    · rw [← c] at hold
      exact ⟨fun e => absurd e hv, fun e => absurd e hold⟩
    · rfl
  · intro j _
    exact key_setslot t s v j
  · intro j _
    have := slotval_setslot t hw s hs v (.node j)
    simp only [slotval] at this
    rw [this]
    split_ifs with c
    · rw [← c] at hold
      exact ⟨fun e => absurd e hv, fun e => absurd e hold⟩
    · rfl

/-! ## The stack API: index resolution and the loops -/

theorem api_check_pos (c : Prop) [Decidable c] (h : c) : api_check c = .ok () := by
  simp [api_check, h]

theorem api_check_neg (c : Prop) [Decidable c] (h : ¬ c) : api_check c = .error .api_check := by
  simp [api_check, h]

theorem index2adr_pos (L : lua_State) (idx : Int) (h1 : 0 < idx)
    (h2 : idx ≤ (L.ci.top : Int) - L.base) :
    index2adr L idx = .ok (if (L.base : Int) + (idx - 1) ≥ (L.top : Int) then .nilobject
      else .stack ((L.base : Int) + (idx - 1)).toNat, L) := by
  unfold index2adr
  rw [if_pos h1, api_check_pos _ h2]
  by_cases c : (L.base : Int) + (idx - 1) ≥ (L.top : Int)
  · simp only [if_pos c]; rfl
  · simp only [if_neg c]; rfl

theorem index2adr_neg (L : lua_State) (idx : Int) (h1 : idx < 0) (h2 : LUA_REGISTRYINDEX < idx)
    (h3 : -idx ≤ (L.top : Int) - L.base) :
    index2adr L idx = .ok (.stack ((L.top : Int) + idx).toNat, L) := by
  unfold index2adr
  rw [if_neg (by omega), if_pos h2, api_check_pos _ ⟨by omega, h3⟩]
  rfl

/-- A valid stack index for position `p` resolves to the slot `base + (p - 1)`. -/
theorem index2adr_index (L : lua_State) (hinv : StackInv L) (idx : Int) (p : Nat)
    (h : StackIndex L idx p) : index2adr L idx = .ok (.stack (L.base + (p - 1)), L) := by
  obtain ⟨h1, h2, h3⟩ := h
  have hb := hinv.base_top
  have hc := hinv.top_ci
  unfold lua_gettop at h2 h3
  rcases h3 with h3 | ⟨h3, h4⟩
  · rw [index2adr_pos L idx (by omega) (by omega), if_neg (by omega)]
    congr 3
    omega
  · rw [index2adr_neg L idx (by omega) h4 (by omega)]
    congr 3
    omega

theorem posval_lt (L : lua_State) (hinv : StackInv L) (j : Nat) (h1 : 1 ≤ j)
    (h2 : L.base + j ≤ L.stack_last + 1) : ∃ v, posval L j = some v := by
  have := hinv.last_size
  have := hinv.size
  have hlt : L.base + (j - 1) < L.stack.length := by omega
  exact ⟨L.stack[L.base + (j - 1)], by unfold posval; exact List.getElem?_eq_getElem hlt⟩

theorem setobj_stack (L : lua_State) (i : Nat) (v : TValue) (h : i < L.stack.length) :
    setobj L (.stack i) v = .ok { L with stack := L.stack.set i v } := by
  simp [setobj, h]

theorem getobj_stack (L : lua_State) (i : Nat) (v : TValue) (h : L.stack[i]? = some v) :
    getobj L (.stack i) = .ok v := by
  simp [getobj, h]

theorem settop_loop_spec (target : Nat) : ∀ (n : Nat) (L : lua_State),
    target ≤ L.stack.length → target - L.top ≤ n →
    ∃ S, settop_loop target n L = .ok { L with stack := S, top := max L.top target } ∧
      S.length = L.stack.length ∧
      ∀ i, S[i]? = if L.top ≤ i ∧ i < target then some .nil else L.stack[i]? := by
  intro n
  induction n with
  | zero =>
    intro L h1 h2
    refine ⟨L.stack, ?_, rfl, fun i => ?_⟩
    · have : max L.top target = L.top := by omega
      rw [this]; rfl
    · rw [if_neg (by omega)]
  | succ n ih =>
    intro L h1 h2
    by_cases c : L.top < target
    · have hs := setobj_stack L L.top .nil (by omega)
      obtain ⟨S, e1, e2, e3⟩ := ih { L with stack := L.stack.set L.top .nil, top := L.top + 1 }
        (by simpa using h1) (by simp only; omega)
      refine ⟨S, ?_, by simpa using e2, fun i => ?_⟩
      · unfold settop_loop
        rw [if_pos c, hs]
        have : max L.top target = max (L.top + 1) target := by omega
        rw [this]
        exact e1
      · rw [e3 i]
        simp only [List.getElem?_set]
        by_cases c1 : L.top = i
        · subst c1
          rw [if_neg (by omega), if_pos rfl, if_pos (by omega), if_pos ⟨le_refl _, c⟩]
        · by_cases c2 : L.top + 1 ≤ i ∧ i < target
          · rw [if_pos c2, if_pos ⟨by omega, c2.2⟩]
          · rw [if_neg c2, if_neg c1, if_neg (by omega)]
    · refine ⟨L.stack, ?_, rfl, fun i => ?_⟩
      · unfold settop_loop
        rw [if_neg c]
        have : max L.top target = L.top := by omega
        rw [this]
      · rw [if_neg (by omega)]

/-- The function `lua_settop` with an index `n ≥ 0` inside the `api_check` bound: the new
top is `base + n`, the slots from the old top to the new one are set to nil, and
nothing else changes. -/
theorem lua_settop_nonneg (L : lua_State) (hinv : StackInv L) (n : Nat)
    (hn : L.base + n ≤ L.stack_last) :
    ∃ S, lua_settop L n = .ok { L with stack := S, top := L.base + n } ∧
      S.length = L.stack.length ∧
      ∀ i, S[i]? = if L.top ≤ i ∧ i < L.base + n then some .nil else L.stack[i]? := by
  have h1 := hinv.last_size
  have h2 := hinv.size
  obtain ⟨S, e1, e2, e3⟩ := settop_loop_spec (L.base + n) (L.base + n - L.top) L (by omega)
    (le_refl _)
  refine ⟨S, ?_, e2, e3⟩
  unfold lua_settop
  rw [if_pos (by omega), api_check_pos _ (by omega)]
  simp only [Int.toNat_ofNat]
  rw [e1]
  rfl

/-- The function `lua_settop` with an index `idx < 0` inside the `api_check` bound: only
the top changes. -/
theorem lua_settop_neg (L : lua_State) (idx : Int) (h1 : idx < 0)
    (h2 : -(idx + 1) ≤ (L.top : Int) - L.base) :
    lua_settop L idx = .ok { L with top := ((L.top : Int) + (idx + 1)).toNat } := by
  unfold lua_settop
  rw [if_neg (by omega), api_check_pos _ h2]
  rfl

/-- A push function stores its value at the top and moves the top up. -/
theorem push_spec (L : lua_State) (hinv : StackInv L) (h : L.top < L.ci.top) (a : PushArg) :
    push L a = .ok { L with stack := L.stack.set L.top (pushed a), top := L.top + 1 } := by
  have h1 := hinv.last_size
  have h2 := hinv.size
  have h3 := hinv.ci_last
  have hs := setobj_stack L L.top (pushed a) (by omega)
  have hi : api_incr_top { L with stack := L.stack.set L.top (pushed a) } =
      .ok { L with stack := L.stack.set L.top (pushed a), top := L.top + 1 } := by
    unfold api_incr_top
    rw [api_check_pos _ (by exact h)]
    rfl
  cases a <;>
    simp only [push, lua_pushnil, lua_pushnumber, lua_pushinteger, lua_pushboolean,
      lua_pushlightuserdata] <;>
    simp only [pushed] at hs hi <;>
    rw [hs] <;>
    exact hi

theorem getobj_stack_lt (L : lua_State) (i : Nat) (h : i < L.stack.length) :
    getobj L (.stack i) = .ok L.stack[i] :=
  getobj_stack L i _ (List.getElem?_eq_getElem h)

theorem remove_loop_spec : ∀ (n p : Nat) (L : lua_State),
    L.top ≤ L.stack.length → L.top - p ≤ n + 1 →
    ∃ S, remove_loop n p L = .ok { L with stack := S } ∧
      S.length = L.stack.length ∧
      ∀ i, S[i]? = if p ≤ i ∧ i + 1 < L.top then L.stack[i + 1]? else L.stack[i]? := by
  intro n
  induction n with
  | zero =>
    intro p L h1 h2
    refine ⟨L.stack, rfl, rfl, fun i => ?_⟩
    rw [if_neg (by omega)]
  | succ n ih =>
    intro p L h1 h2
    by_cases c : p + 1 < L.top
    · have hg := getobj_stack_lt L (p + 1) (by omega)
      have hs := setobj_stack L p L.stack[p + 1] (by omega)
      obtain ⟨S, e1, e2, e3⟩ := ih (p + 1) { L with stack := L.stack.set p L.stack[p + 1] }
        (by simpa using h1) (by simp only; omega)
      refine ⟨S, ?_, by simpa using e2, fun i => ?_⟩
      · unfold remove_loop
        rw [if_pos c, hg]
        show (setobj L (.stack p) L.stack[p + 1] >>= fun L1 => remove_loop n (p + 1) L1) = _
        rw [hs]
        exact e1
      · rw [e3 i]
        simp only [List.getElem?_set]
        have hl : p < L.stack.length := by omega
        have hv : L.stack[p + 1]? = some L.stack[p + 1] := List.getElem?_eq_getElem _
        split_ifs <;> first | rfl | omega | (subst_vars; simp_all)
    · refine ⟨L.stack, ?_, rfl, fun i => ?_⟩
      · unfold remove_loop
        rw [if_neg c]
      · rw [if_neg (by omega)]

theorem insert_loop_spec (p : Nat) : ∀ (n q : Nat) (L : lua_State),
    q < L.stack.length → q - p ≤ n →
    ∃ S, insert_loop p n q L = .ok { L with stack := S } ∧
      S.length = L.stack.length ∧
      ∀ i, S[i]? = if p < i ∧ i ≤ q then L.stack[i - 1]? else L.stack[i]? := by
  intro n
  induction n with
  | zero =>
    intro q L h1 h2
    refine ⟨L.stack, rfl, rfl, fun i => ?_⟩
    rw [if_neg (by omega)]
  | succ n ih =>
    intro q L h1 h2
    by_cases c : q > p
    · have hg := getobj_stack_lt L (q - 1) (by omega)
      have hs := setobj_stack L q L.stack[q - 1] (by omega)
      obtain ⟨S, e1, e2, e3⟩ := ih (q - 1) { L with stack := L.stack.set q L.stack[q - 1] }
        (by simp only [List.length_set]; omega) (by omega)
      refine ⟨S, ?_, by simpa using e2, fun i => ?_⟩
      · unfold insert_loop
        rw [if_pos c, hg]
        show (setobj L (.stack q) L.stack[q - 1] >>= fun L1 => insert_loop p n (q - 1) L1) = _
        rw [hs]
        exact e1
      · rw [e3 i]
        simp only [List.getElem?_set]
        have hl : q < L.stack.length := by omega
        have hv : L.stack[q - 1]? = some L.stack[q - 1] := List.getElem?_eq_getElem _
        split_ifs <;> first | rfl | omega | (subst_vars; simp_all)
    · refine ⟨L.stack, ?_, rfl, fun i => ?_⟩
      · unfold insert_loop
        rw [if_neg c]
      · rw [if_neg (by omega)]

theorem stackIndex_bounds (L : lua_State) (hinv : StackInv L) (idx : Int) (p : Nat)
    (h : StackIndex L idx p) :
    L.base + (p - 1) < L.top ∧ L.top < L.stack.length ∧ L.base ≤ L.base + (p - 1) := by
  obtain ⟨h1, h2, _⟩ := h
  unfold lua_gettop at h2
  have := hinv.base_top
  have := hinv.top_ci
  have := hinv.ci_last
  have := hinv.last_size
  have := hinv.size
  omega

/-- The function `lua_remove` at a valid stack index for position `p`: the slots above
`base + (p - 1)` move down by one and the top goes down by one. -/
theorem lua_remove_spec (L : lua_State) (hinv : StackInv L) (idx : Int) (p : Nat)
    (h : StackIndex L idx p) :
    ∃ S, lua_remove L idx = .ok { L with stack := S, top := L.top - 1 } ∧
      S.length = L.stack.length ∧
      ∀ i, S[i]? = if L.base + (p - 1) ≤ i ∧ i + 1 < L.top then L.stack[i + 1]?
        else L.stack[i]? := by
  obtain ⟨b1, b2, _⟩ := stackIndex_bounds L hinv idx p h
  obtain ⟨S, e1, e2, e3⟩ := remove_loop_spec (L.top - (L.base + (p - 1))) (L.base + (p - 1)) L
    (by omega) (by omega)
  refine ⟨S, ?_, e2, e3⟩
  unfold lua_remove
  rw [index2adr_index L hinv idx p h]
  simp only [bind, Except.bind, api_checkvalidindex]
  rw [api_check_pos _ (by simp)]
  simp only [e1]
  rfl

/-- The function `lua_insert` at a valid stack index for position `p`: the slots from
`base + (p - 1)` to the top move up by one (the slot at the top is written, it is
above the live values) and the former top value goes to `base + (p - 1)`. -/
theorem lua_insert_spec (L : lua_State) (hinv : StackInv L) (idx : Int) (p : Nat)
    (h : StackIndex L idx p) :
    ∃ S, lua_insert L idx = .ok { L with stack := S } ∧
      S.length = L.stack.length ∧
      ∀ i, S[i]? = if i = L.base + (p - 1) then L.stack[L.top - 1]?
        else if L.base + (p - 1) < i ∧ i ≤ L.top then L.stack[i - 1]? else L.stack[i]? := by
  obtain ⟨b1, b2, _⟩ := stackIndex_bounds L hinv idx p h
  obtain ⟨S, e1, e2, e3⟩ := insert_loop_spec (L.base + (p - 1)) (L.top - (L.base + (p - 1)))
    L.top L b2 (le_refl _)
  have hS : L.top < S.length := by omega
  have hg := getobj_stack_lt { L with stack := S } L.top hS
  have hs := setobj_stack { L with stack := S } (L.base + (p - 1)) S[L.top] (by simp only; omega)
  refine ⟨S.set (L.base + (p - 1)) S[L.top], ?_, by simp [e2], fun i => ?_⟩
  · unfold lua_insert
    rw [index2adr_index L hinv idx p h]
    simp only [bind, Except.bind, api_checkvalidindex]
    rw [api_check_pos _ (by simp)]
    simp only [e1, hg]
    exact hs
  · have hv : S[L.top]? = some S[L.top] := List.getElem?_eq_getElem _
    have e4 := e3 L.top
    rw [if_pos ⟨by omega, le_refl _⟩, hv] at e4
    simp only [List.getElem?_set]
    by_cases c : L.base + (p - 1) = i
    · rw [if_pos c, if_pos (by omega), if_pos c.symm, e4]
    · rw [if_neg c, if_neg (fun e => c e.symm), e3 i]

/-- The function `lua_replace` at a valid stack index for position `p`: the top value
is stored at `base + (p - 1)` and the top goes down by one. -/
theorem lua_replace_spec (L : lua_State) (hinv : StackInv L) (idx : Int) (p : Nat)
    (h : StackIndex L idx p) :
    ∃ v, L.stack[L.top - 1]? = some v ∧
      lua_replace L idx =
        .ok { L with stack := L.stack.set (L.base + (p - 1)) v, top := L.top - 1 } := by
  obtain ⟨b1, b2, _⟩ := stackIndex_bounds L hinv idx p h
  have hidx : idx ≠ LUA_ENVIRONINDEX := by
    obtain ⟨h1, h2, h3⟩ := h
    unfold LUA_ENVIRONINDEX
    unfold LUA_REGISTRYINDEX at h3
    omega
  have hn : (1 : Int) ≤ (L.top : Int) - L.base := by omega
  have hg := getobj_stack_lt L (L.top - 1) (by omega)
  have hs := setobj_stack L (L.base + (p - 1)) L.stack[L.top - 1] (by omega)
  refine ⟨L.stack[L.top - 1], List.getElem?_eq_getElem _, ?_⟩
  unfold lua_replace
  rw [if_neg (fun c => hidx c.1)]
  unfold api_checknelems
  rw [api_check_pos _ hn, index2adr_index L hinv idx p h]
  simp only [bind, Except.bind, api_checkvalidindex]
  rw [api_check_pos _ (by simp)]
  simp only [hg, if_neg hidx, hs]
  rfl

/-- What `luaD_checkstack(L, n)` leaves: more than `n` cells between the top and
`stack_last`, in a block that keeps its content; only `stack`, `stacksize` and
`stack_last` change. -/
theorem luaD_checkstack_spec (L : lua_State) (hinv : StackInv L) (n : Nat) :
    ∃ k last, luaD_checkstack L n =
        { L with stack := L.stack ++ List.replicate k TValue.nil,
                 stacksize := L.stacksize + k, stack_last := last } ∧
      L.top + n < last ∧ last < L.stacksize + k ∧ L.stack_last ≤ last := by
  have h1 := hinv.last_size
  have h2 := hinv.size
  have h3 := hinv.top_ci
  have h4 := hinv.ci_last
  unfold luaD_checkstack
  by_cases c : (L.stack_last : Int) - L.top ≤ n
  · rw [if_pos c]
    unfold luaD_growstack
    by_cases d : n ≤ L.stacksize
    · rw [if_pos d]
      refine ⟨2 * L.stacksize + 1 + EXTRA_STACK - L.stacksize, 2 * L.stacksize, ?_, by omega,
        by omega, by omega⟩
      unfold luaD_reallocstack
      simp only
      rw [List.take_of_length_le (by simp; omega), h2]
      congr 1
      omega
    · rw [if_neg d]
      refine ⟨L.stacksize + n + 1 + EXTRA_STACK - L.stacksize, L.stacksize + n, ?_, by omega,
        by omega, by omega⟩
      unfold luaD_reallocstack
      simp only
      rw [List.take_of_length_le (by simp; omega), h2]
      congr 1
      omega
  · rw [if_neg c]
    exact ⟨0, L.stack_last, by simp, by omega, by omega, le_refl _⟩

/-- The function `lua_checkstack` when it does not report a failure, for `size > 0`. -/
theorem lua_checkstack_spec (L : lua_State) (hinv : StackInv L) (size : Nat) (h0 : 0 < size)
    (h1 : (size : Int) ≤ LUAI_MAXCSTACK)
    (h2 : (L.top : Int) - L.base + size ≤ LUAI_MAXCSTACK) :
    ∃ k last, lua_checkstack L size =
        (1, { L with stack := L.stack ++ List.replicate k TValue.nil,
                     stacksize := L.stacksize + k, stack_last := last,
                     ci := { L.ci with top := max L.ci.top (L.top + size) } }) ∧
      L.top + size < last ∧ last < L.stacksize + k ∧ L.stack_last ≤ last := by
  obtain ⟨k, last, e, a1, a2, a3⟩ := luaD_checkstack_spec L hinv size
  refine ⟨k, last, ?_, a1, a2, a3⟩
  unfold lua_checkstack
  rw [if_neg (by omega), if_pos (by omega)]
  simp only [Int.toNat_ofNat, e]
  by_cases c : L.ci.top < L.top + size
  · rw [if_pos c]
    have : max L.ci.top (L.top + size) = L.top + size := by omega
    rw [this]
  · rw [if_neg c]
    have : max L.ci.top (L.top + size) = L.ci.top := by omega
    rw [this]

theorem inv_exthread : StackInv exthread := ⟨by decide, by decide, by decide, by decide, by decide⟩

theorem inv_ex3 : StackInv ex3 := ⟨by decide, by decide, by decide, by decide, by decide⟩

theorem inv_exdeep : StackInv exdeep :=
  ⟨by decide, by decide, by decide, by decide, by
    show (TValue.gc .function 96 :: (List.replicate 10000 (TValue.boolean true) ++
      List.replicate (LUA_MINSTACK + 1 + EXTRA_STACK) TValue.nil)).length =
        10001 + LUA_MINSTACK + 1 + EXTRA_STACK
    rw [List.length_cons, List.length_append, List.length_replicate, List.length_replicate]
    decide⟩

theorem inv_push (L : lua_State) (hinv : StackInv L) (h : L.top < L.ci.top) (v : TValue) :
    StackInv { L with stack := L.stack.set L.top v, top := L.top + 1 } :=
  ⟨by have := hinv.base_top; show L.base ≤ L.top + 1; omega, h, hinv.ci_last, hinv.last_size,
    by show (L.stack.set L.top v).length = L.stacksize; rw [List.length_set]; exact hinv.size⟩

theorem inv_setstack (L : lua_State) (hinv : StackInv L) (S : List TValue)
    (h : S.length = L.stack.length) : StackInv { L with stack := S } :=
  ⟨hinv.base_top, hinv.top_ci, hinv.ci_last, hinv.last_size, h.trans hinv.size⟩

/-- One pop from a frame that is not empty. -/
theorem pop1_spec (L : lua_State) (hinv : StackInv L) (h : L.base < L.top) :
    ∃ v, L.stack[L.top - 1]? = some v ∧ pop1 L = .ok (v, { L with top := L.top - 1 }) := by
  have h1 := hinv.top_ci
  have h2 := hinv.ci_last
  have h3 := hinv.last_size
  have h4 := hinv.size
  have e := index2adr_neg L (-1) (by omega) (by decide) (by omega)
  have e2 : ((L.top : Int) + -1).toNat = L.top - 1 := by omega
  rw [e2] at e
  have hg := getobj_stack_lt L (L.top - 1) (by omega)
  have hs := lua_settop_neg L (-2) (by omega) (by omega)
  have e3 : ((L.top : Int) + (-2 + 1)).toNat = L.top - 1 := by omega
  rw [e3] at hs
  refine ⟨L.stack[L.top - 1], List.getElem?_eq_getElem _, ?_⟩
  unfold pop1
  rw [e]
  simp only [bind, Except.bind, hg, hs]
  rfl

theorem popall_step (k : Nat) (L : lua_State) :
    popall (k + 1) L = (match pop1 L with
      | Except.ok r => (match popall k r.2 with
        | Except.ok rest => Except.ok (r.1 :: rest.1, rest.2)
        | Except.error e => Except.error e)
      | Except.error e => Except.error e) := rfl

theorem popall_succ (k : Nat) : ∀ (L : lua_State) (vs : List TValue) (L1 : lua_State)
    (v : TValue) (L2 : lua_State), popall k L = .ok (vs, L1) → pop1 L1 = .ok (v, L2) →
    popall (k + 1) L = .ok (vs ++ [v], L2) := by
  induction k with
  | zero =>
    intro L vs L1 v L2 h1 h2
    cases h1
    rw [popall_step, h2]
    rfl
  | succ k ih =>
    intro L vs L1 v L2 h1 h2
    rw [popall_step] at h1 ⊢
    cases hp : pop1 L with
    | error e => rw [hp] at h1; cases h1
    | ok r =>
      rw [hp] at h1
      simp only at h1 ⊢
      cases hq : popall k r.2 with
      | error e => rw [hq] at h1; cases h1
      | ok rest =>
        rw [hq] at h1
        simp only at h1
        cases h1
        rw [ih r.2 rest.1 rest.2 v L2 hq h2]
        rfl

/-- Pushes followed by as many pops: the pops return the pushed values, last pushed
first, and leave the state of before the pushes but for the slots above the top. -/
theorem pushall_popall (as : List PushArg) : ∀ (L : lua_State), StackInv L →
    L.top + as.length ≤ L.ci.top →
    ∃ L1 S, pushall L as = .ok L1 ∧ L1.top = L.top + as.length ∧ L1.base = L.base ∧
      popall as.length L1 = .ok ((as.map pushed).reverse, { L with stack := S }) ∧
      S.length = L.stack.length ∧ ∀ i, i < L.top → S[i]? = L.stack[i]? := by
  induction as with
  | nil =>
    intro L _ _
    exact ⟨L, L.stack, rfl, rfl, rfl, rfl, rfl, fun _ _ => rfl⟩
  | cons a as ih =>
    intro L hinv h
    have hb := hinv.base_top
    have h3 := hinv.ci_last
    have h4 := hinv.last_size
    have h5 := hinv.size
    simp only [List.length_cons] at h
    have hp := push_spec L hinv (by omega) a
    have hinv1 := inv_push L hinv (by omega) (pushed a)
    obtain ⟨L1, S, e1, e2, e3, e4, e5, e6⟩ :=
      ih { L with stack := L.stack.set L.top (pushed a), top := L.top + 1 } hinv1
        (by show L.top + 1 + as.length ≤ L.ci.top; omega)
    simp only [List.length_set] at e5
    obtain ⟨v, hv, hpop⟩ := pop1_spec
      { L with stack := S, top := L.top + 1 }
      (inv_setstack _ hinv1 S (by simp only [List.length_set]; exact e5))
      (by show L.base < L.top + 1; omega)
    have hv2 : v = pushed a := by
      have := e6 L.top (by show L.top < L.top + 1; omega)
      simp only [Nat.add_sub_cancel] at hv
      rw [hv] at this
      simp only [List.getElem?_set, if_true] at this
      rw [if_pos (by omega)] at this
      exact Option.some.inj this
    refine ⟨L1, S, ?_, ?_, e3, ?_, e5, fun i hi => ?_⟩
    · rw [pushall, hp]
      exact e1
    · rw [e2]; simp only [List.length_cons]; omega
    · simp only [List.length_cons, List.map_cons, List.reverse_cons]
      rw [popall_succ as.length L1 _ _ v _ e4 hpop, hv2]
      rfl
    · rw [e6 i (by show i < L.top + 1; omega)]
      simp only [List.getElem?_set]
      rw [if_neg (by omega)]

theorem heapget_cons {α : Type} (e : Nat × α) (h : List (Nat × α)) (p : Nat) :
    heapget (e :: h) p = if e.1 = p then some e.2 else heapget h p := rfl

theorem heapset_cons {α : Type} (e : Nat × α) (h : List (Nat × α)) (p : Nat) (x : α) :
    heapset (e :: h) p x = if e.1 = p then (p, x) :: h else e :: heapset h p x := rfl

theorem heapget_heapset_same {α : Type} (h : List (Nat × α)) (p : Nat) (x : α) :
    heapget (heapset h p x) p = some x := by
  induction h with
  | nil => simp [heapset, heapget]
  | cons e h ih =>
    rw [heapset_cons]
    by_cases c : e.1 = p
    · rw [if_pos c, heapget_cons, if_pos rfl]
    · rw [if_neg c, heapget_cons, if_neg c]; exact ih

theorem heapget_heapset_other {α : Type} (h : List (Nat × α)) (p q : Nat) (x : α)
    (hq : q ≠ p) : heapget (heapset h p x) q = heapget h q := by
  induction h with
  | nil => simp [heapset, heapget, Ne.symm hq]
  | cons e h ih =>
    rw [heapset_cons]
    by_cases c : e.1 = p
    · rw [if_pos c, heapget_cons, heapget_cons, if_neg (Ne.symm hq),
        if_neg (by rw [c]; exact Ne.symm hq)]
    · rw [if_neg c, heapget_cons, heapget_cons, ih]

theorem heapset_heapset {α : Type} (h : List (Nat × α)) (p : Nat) (x y : α) :
    heapset (heapset h p x) p y = heapset h p y := by
  induction h with
  | nil => simp [heapset]
  | cons e h ih =>
    rw [heapset_cons, heapset_cons]
    by_cases c : e.1 = p
    · rw [if_pos c, if_pos c, heapset_cons, if_pos rfl]
    · rw [if_neg c, if_neg c, heapset_cons, if_neg c, ih]

theorem heapset_self {α : Type} (h : List (Nat × α)) (p : Nat) (x : α)
    (hx : heapget h p = some x) : heapset h p x = h := by
  induction h with
  | nil => simp [heapget] at hx
  | cons e h ih =>
    rw [heapget_cons] at hx
    rw [heapset_cons]
    by_cases c : e.1 = p
    · rw [if_pos c] at hx ⊢
      cases hx
      rw [← c]
    · rw [if_neg c] at hx ⊢
      rw [ih hx]

theorem getobj_upvalue (L : lua_State) (p i : Nat) (cl : Closure)
    (h : heapget L.l_G.closures p = some cl) (hi : i < cl.upvalue.length) :
    getobj L (.upvalue p i) = .ok cl.upvalue[i] := by
  simp [getobj, h, List.getElem?_eq_getElem hi]

theorem setobj_upvalue (L : lua_State) (p i : Nat) (cl : Closure) (v : TValue)
    (h : heapget L.l_G.closures p = some cl) (hi : i < cl.upvalue.length) :
    setobj L (.upvalue p i) v = .ok { L with l_G := { L.l_G with
      closures := heapset L.l_G.closures p { cl with upvalue := cl.upvalue.set i v } } } := by
  simp [setobj, h, hi]

/-- The loop of `lua_pushcclosure` for `n ≥ 0`: the cells `0..n-1` of the upvalue vector
get the values of the slots `top..top+n-1`. -/
theorem pushcclosure_loop_spec (p : Nat) : ∀ (n fuel : Nat) (L : lua_State) (cl : Closure),
    heapget L.l_G.closures p = some cl → n ≤ cl.upvalue.length →
    L.top + n ≤ L.stack.length → n ≤ fuel →
    ∃ U, pushcclosure_loop p fuel n L =
        .ok { L with l_G := { L.l_G with
          closures := heapset L.l_G.closures p { cl with upvalue := U } } } ∧
      U.length = cl.upvalue.length ∧
      ∀ i, U[i]? = if i < n then L.stack[L.top + i]? else cl.upvalue[i]? := by
  intro n
  induction n with
  | zero =>
    intro fuel L cl h1 _ _ _
    refine ⟨cl.upvalue, ?_, rfl, fun i => by rw [if_neg (by omega)]⟩
    have e : heapset L.l_G.closures p { cl with upvalue := cl.upvalue } = L.l_G.closures :=
      heapset_self _ _ _ h1
    rw [e]
    cases fuel <;> rfl
  | succ m ih =>
    intro fuel L cl h1 h2 h3 h4
    obtain ⟨f, rfl⟩ : ∃ f, fuel = f + 1 := ⟨fuel - 1, by omega⟩
    have hg := getobj_stack_lt L (L.top + m) (by omega)
    have hs := setobj_upvalue L p m cl L.stack[L.top + m] h1 (by omega)
    obtain ⟨U, e1, e2, e3⟩ := ih f
      { L with l_G := { L.l_G with
          closures := heapset L.l_G.closures p
            { cl with upvalue := cl.upvalue.set m L.stack[L.top + m] } } }
      { cl with upvalue := cl.upvalue.set m L.stack[L.top + m] }
      (heapget_heapset_same _ _ _) (by simp only [List.length_set]; omega) (by simpa using by omega)
      (by omega)
    simp only [heapset_heapset] at e1
    refine ⟨U, ?_, by simpa using e2, fun i => ?_⟩
    · unfold pushcclosure_loop
      have c1 : ((m + 1 : Nat) : Int) ≠ 0 := by omega
      have c2 : ¬ (((m + 1 : Nat) : Int) - 1 < 0) := by omega
      have c3 : (((m + 1 : Nat) : Int) - 1).toNat = m := by omega
      have c4 : (((m + 1 : Nat) : Int) - 1) = (m : Int) := by omega
      rw [if_pos c1, if_neg c2, c3, hg]
      simp only [bind, Except.bind, hs, c4]
      exact e1
    · rw [e3 i]
      simp only [List.getElem?_set]
      have hv : L.stack[L.top + m]? = some L.stack[L.top + m] := List.getElem?_eq_getElem _
      by_cases c : i < m
      · rw [if_pos c, if_pos (by omega)]
      · rw [if_neg c]
        by_cases d : m = i
        · subst d
          rw [if_pos rfl, if_pos (by omega), if_pos (by omega), hv]
        · rw [if_neg d, if_neg (by omega)]

/-- The function `lua_pushcclosure` for `0 ≤ n ≤ gettop` and room for the closure: the
new closure holds the `n` top values, which are popped, and is pushed. -/
theorem lua_pushcclosure_spec (L : lua_State) (hinv : StackInv L) (fn n e : Nat)
    (hn : (n : Int) ≤ lua_gettop L) (hroom : L.top - n < L.ci.top)
    (he : getcurrenv L = .ok e) :
    ∃ U, lua_pushcclosure L fn n = .ok { L with
        l_G := { L.l_G with
          closures := heapset L.l_G.closures (newaddr L.l_G)
            { isC := true, nupvalues := ((n : Int) % 256).toNat, env := e, f := fn,
              upvalue := U } },
        stack := L.stack.set (L.top - n) (.gc .function (newaddr L.l_G)),
        top := L.top - n + 1 } ∧
      U.length = n ∧ ∀ i, i < n → U[i]? = L.stack[L.top - n + i]? := by
  have hb := hinv.base_top
  have h1 := hinv.top_ci
  have h2 := hinv.ci_last
  have h3 := hinv.last_size
  have h4 := hinv.size
  unfold lua_gettop at hn
  obtain ⟨U, e1, e2, e3⟩ := pushcclosure_loop_spec (newaddr L.l_G) n n
    { L with
      l_G := { L.l_G with
        closures := heapset L.l_G.closures (newaddr L.l_G)
          { isC := true, nupvalues := ((n : Int) % 256).toNat, env := e, f := fn,
            upvalue := List.replicate n TValue.nil } },
      top := L.top - n }
    { isC := true, nupvalues := ((n : Int) % 256).toNat, env := e, f := fn,
      upvalue := List.replicate n TValue.nil }
    (heapget_heapset_same _ _ _) (by simp) (by simp only; omega) (le_refl _)
  simp only [heapset_heapset, List.length_replicate] at e1 e2
  refine ⟨U, ?_, e2, fun i hi => by rw [e3 i, if_pos hi]⟩
  unfold lua_pushcclosure api_checknelems
  rw [api_check_pos _ hn, he]
  simp only [bind, Except.bind, luaF_newCclosure, heapget_heapset_same, heapset_heapset,
    Int.toNat_ofNat]
  have ht : ((L.top : Int) - (n : Int)).toNat = L.top - n := by omega
  rw [ht, e1]
  simp only
  rw [setobj_stack _ _ _ (by simp only; omega)]
  simp only [api_incr_top]
  rw [api_check_pos _ (by exact hroom)]
  rfl

/-- Resolving an index changes at most the field `L->env`. -/
theorem index2adr_state (L : lua_State) (idx : Int) (r : Addr × lua_State)
    (h : index2adr L idx = .ok r) : ∃ ev, r.2 = { L with env := ev } := by
  unfold index2adr at h
  by_cases c1 : idx > 0
  · rw [if_pos c1] at h
    by_cases ca : idx ≤ (L.ci.top : Int) - L.base
    · rw [api_check_pos _ ca] at h
      simp only [bind, Except.bind, pure, Except.pure] at h
      split_ifs at h <;> cases h <;> exact ⟨L.env, rfl⟩
    · rw [api_check_neg _ ca] at h
      cases h
  rw [if_neg c1] at h
  by_cases c2 : idx > LUA_REGISTRYINDEX
  · rw [if_pos c2] at h
    by_cases ca : idx ≠ 0 ∧ -idx ≤ (L.top : Int) - L.base
    · rw [api_check_pos _ ca] at h
      cases h
      exact ⟨L.env, rfl⟩
    · rw [api_check_neg _ ca] at h
      cases h
  rw [if_neg c2] at h
  by_cases c3 : idx = LUA_REGISTRYINDEX
  · rw [if_pos c3] at h
    cases h
    exact ⟨L.env, rfl⟩
  rw [if_neg c3] at h
  by_cases c4 : idx = LUA_ENVIRONINDEX
  · rw [if_pos c4] at h
    cases hc : curr_func L with
    | error e => rw [hc] at h; cases h
    | ok f =>
      rw [hc] at h
      cases h
      exact ⟨_, rfl⟩
  rw [if_neg c4] at h
  by_cases c5 : idx = LUA_GLOBALSINDEX
  · rw [if_pos c5] at h
    cases h
    exact ⟨L.env, rfl⟩
  rw [if_neg c5] at h
  cases hc : curr_func L with
  | error e => rw [hc] at h; cases h
  | ok f =>
    rw [hc] at h
    simp only [bind, Except.bind, pure, Except.pure] at h
    split_ifs at h <;> cases h <;> exact ⟨L.env, rfl⟩

theorem binsum_mono (nums : List Nat) (i j : Nat) (h : i ≤ j) : binsum nums i ≤ binsum nums j := by
  induction j with
  | zero =>
    have : i = 0 := by omega
    rw [this]
  | succ j ih =>
    by_cases c : i = j + 1
    · rw [c]
    · have := ih (by omega)
      rw [binsum_succ]
      omega

theorem half_pow_le (i k : Nat) (h : i ≤ k) : 2 ^ i / 2 ≤ 2 ^ k / 2 :=
  Nat.div_le_div_right (Nat.pow_le_pow_right (by decide) h)

theorem pow_le_half_pow (i k : Nat) (h : i < k) : 2 ^ i ≤ 2 ^ k / 2 := by
  obtain ⟨d, rfl⟩ : ∃ d, k = i + 1 + d := ⟨k - (i + 1), by omega⟩
  have h1 : 2 ^ (i + 1 + d) = 2 * (2 ^ i * 2 ^ d) := by rw [pow_add, pow_succ]; ring
  have h2 : 0 < 2 ^ d := Nat.two_pow_pos d
  rw [h1, Nat.mul_div_cancel_left _ (by decide : 0 < 2)]
  exact Nat.le_mul_of_pos_right _ h2

theorem lt_half_pow (n i : Nat) (h : n + 2 ≤ i) : n ≤ 2 ^ i / 2 := by
  have h1 : n < 2 ^ n := Nat.lt_two_pow n
  have h2 := pow_le_half_pow n i (by omega)
  omega

/-- The loop of `computesizes` when `nums` counts distinct integer keys (at most `2^i`
of them are at most `2^i`) and `narray` is at least their number: the result is the
largest power of 2 of which more than half the slots are counted, with the count for
it, or `(0, 0)` when there is none. -/
theorem computesizes_loop_max (nums : List Nat) (narray : Nat)
    (hc : ∀ i, binsum nums (i + 1) ≤ 2 ^ i) (htot : ∀ i, binsum nums i ≤ narray) :
    ∀ (fuel i a na n : Nat), a = binsum nums i → narray + 2 ≤ fuel + i →
      ((n = 0 ∧ na = 0 ∧ ∀ k, k < i → ¬ 2 ^ k / 2 < binsum nums (k + 1)) ∨
        ∃ j, j < i ∧ n = 2 ^ j ∧ na = binsum nums (j + 1) ∧ 2 ^ j / 2 < binsum nums (j + 1) ∧
          ∀ k, j < k → k < i → ¬ 2 ^ k / 2 < binsum nums (k + 1)) →
      (((computesizes_loop nums narray fuel i (2 ^ i) a na n).1 = 0 ∧
          (computesizes_loop nums narray fuel i (2 ^ i) a na n).2 = 0 ∧
          ∀ k, ¬ 2 ^ k / 2 < binsum nums (k + 1)) ∨
        ∃ j, (computesizes_loop nums narray fuel i (2 ^ i) a na n).1 = 2 ^ j ∧
          (computesizes_loop nums narray fuel i (2 ^ i) a na n).2 = binsum nums (j + 1) ∧
          2 ^ j / 2 < binsum nums (j + 1) ∧
          ∀ k, j < k → ¬ 2 ^ k / 2 < binsum nums (k + 1)) := by
  -- once `2^i / 2 ≥ narray`, no index from `i` on is good
  have stop : ∀ i, narray ≤ 2 ^ i / 2 → ∀ k, i ≤ k → ¬ 2 ^ k / 2 < binsum nums (k + 1) := by
    intro i h k hk
    have := htot (k + 1)
    have := half_pow_le i k hk
    omega
  have finish : ∀ (i na n : Nat), (∀ k, i ≤ k → ¬ 2 ^ k / 2 < binsum nums (k + 1)) →
      ((n = 0 ∧ na = 0 ∧ ∀ k, k < i → ¬ 2 ^ k / 2 < binsum nums (k + 1)) ∨
        ∃ j, j < i ∧ n = 2 ^ j ∧ na = binsum nums (j + 1) ∧ 2 ^ j / 2 < binsum nums (j + 1) ∧
          ∀ k, j < k → k < i → ¬ 2 ^ k / 2 < binsum nums (k + 1)) →
      ((n = 0 ∧ na = 0 ∧ ∀ k, ¬ 2 ^ k / 2 < binsum nums (k + 1)) ∨
        ∃ j, n = 2 ^ j ∧ na = binsum nums (j + 1) ∧ 2 ^ j / 2 < binsum nums (j + 1) ∧
          ∀ k, j < k → ¬ 2 ^ k / 2 < binsum nums (k + 1)) := by
    intro i na n hs h
    rcases h with ⟨h1, h2, h3⟩ | ⟨j, h0, h1, h2, h3, h4⟩
    · left
      refine ⟨h1, h2, fun k => ?_⟩
      by_cases c : k < i
      · exact h3 k c
      · exact hs k (by omega)
    · right
      refine ⟨j, h1, h2, h3, fun k hk => ?_⟩
      by_cases c : k < i
      · exact h4 k hk c
      · exact hs k (by omega)
  intro fuel
  induction fuel with
  | zero =>
    intro i a na n _ hf h
    exact finish i na n (stop i (lt_half_pow narray i (by omega))) h
  | succ f ih =>
    intro i a na n ha hf h
    unfold computesizes_loop
    by_cases c : 2 ^ i / 2 < narray
    · rw [if_pos c]
      simp only
      have ha1 : (if 0 < nums.getD i 0 then a + nums.getD i 0 else a) = binsum nums (i + 1) := by
        rw [binsum_succ, ← ha]
        split_ifs with c1
        · rfl
        · omega
      rw [ha1]
      -- the test of the loop body is the test "more than half"
      have hgood : (0 < nums.getD i 0 ∧ 2 ^ i / 2 < binsum nums (i + 1)) ↔
          2 ^ i / 2 < binsum nums (i + 1) := by
        constructor
        · exact fun h => h.2
        · intro h
          refine ⟨?_, h⟩
          by_contra c0
          have e : binsum nums (i + 1) = binsum nums i := by rw [binsum_succ]; omega
          rw [e] at h
          cases i with
          | zero => simp [binsum_zero] at h
          | succ m =>
            have := hc m
            have e2 : 2 ^ (m + 1) / 2 = 2 ^ m := by
              rw [pow_succ, Nat.mul_div_cancel _ (by decide : 0 < 2)]
            omega
      have hnext : ((if 0 < nums.getD i 0 ∧ 2 ^ i / 2 < binsum nums (i + 1) then 2 ^ i else n) = 0 ∧
          (if 0 < nums.getD i 0 ∧ 2 ^ i / 2 < binsum nums (i + 1) then binsum nums (i + 1)
            else na) = 0 ∧ ∀ k, k < i + 1 → ¬ 2 ^ k / 2 < binsum nums (k + 1)) ∨
          ∃ j, j < i + 1 ∧
            (if 0 < nums.getD i 0 ∧ 2 ^ i / 2 < binsum nums (i + 1) then 2 ^ i else n) = 2 ^ j ∧
            (if 0 < nums.getD i 0 ∧ 2 ^ i / 2 < binsum nums (i + 1) then binsum nums (i + 1)
              else na) = binsum nums (j + 1) ∧ 2 ^ j / 2 < binsum nums (j + 1) ∧
            ∀ k, j < k → k < i + 1 → ¬ 2 ^ k / 2 < binsum nums (k + 1) := by
        by_cases g : 2 ^ i / 2 < binsum nums (i + 1)
        · rw [if_pos (hgood.2 g), if_pos (hgood.2 g)]
          right
          exact ⟨i, by omega, rfl, rfl, g, fun k k1 k2 => by omega⟩
        · rw [if_neg (fun x => g (hgood.1 x)), if_neg (fun x => g (hgood.1 x))]
          rcases h with ⟨h1, h2, h3⟩ | ⟨j, h0, h1, h2, h3, h4⟩
          · left
            refine ⟨h1, h2, fun k hk => ?_⟩
            by_cases e : k = i
            · rw [e]; exact g
            · exact h3 k (by omega)
          · right
            refine ⟨j, by omega, h1, h2, h3, fun k k1 k2 => ?_⟩
            by_cases e : k = i
            · rw [e]; exact g
            · exact h4 k k1 (by omega)
      by_cases d : binsum nums (i + 1) = narray
      · rw [if_pos d]
        apply finish (i + 1) _ _ _ hnext
        intro k hk
        have h1 := htot (k + 1)
        have h2 := hc i
        have h3 := pow_le_half_pow i k (by omega)
        omega
      · rw [if_neg d]
        have e2 : 2 ^ i * 2 = 2 ^ (i + 1) := by rw [pow_succ]
        rw [e2]
        exact ih (i + 1) _ _ _ rfl (by omega) hnext
    · rw [if_neg c]
      exact finish i na n (stop i (by omega)) h

/-- The function `computesizes` on counters of distinct integer keys. -/
theorem computesizes_max (nums : List Nat) (narray : Nat)
    (hc : ∀ i, binsum nums (i + 1) ≤ 2 ^ i) (htot : ∀ i, binsum nums i ≤ narray) :
    ((computesizes nums narray).1 = 0 ∧ (computesizes nums narray).2 = 0 ∧
        ∀ k, ¬ 2 ^ k / 2 < binsum nums (k + 1)) ∨
      ∃ j, (computesizes nums narray).1 = 2 ^ j ∧
        (computesizes nums narray).2 = binsum nums (j + 1) ∧
        2 ^ j / 2 < binsum nums (j + 1) ∧
        ∀ k, j < k → ¬ 2 ^ k / 2 < binsum nums (k + 1) :=
  computesizes_loop_max nums narray hc htot (narray + 2) 0 0 0 0 rfl (by omega)
    (Or.inl ⟨rfl, rfl, fun k hk => by omega⟩)

theorem binsum_ge_length (nums : List Nat) (i : Nat) (h : nums.length ≤ i) :
    binsum nums i = binsum nums nums.length := by
  induction i with
  | zero =>
    have : nums.length = 0 := by omega
    rw [this]
  | succ i ih =>
    by_cases c : nums.length = i + 1
    · rw [c]
    · rw [binsum_succ, ih (by omega), List.getD_eq_getElem?_getD,
        List.getElem?_eq_none (by omega)]
      rfl

/-- Counters that are checked slice by slice satisfy the hypotheses of
`computesizes_max`. -/
theorem counters_ok (nums : List Nat) (narray : Nat) (h0 : 0 < nums.length)
    (h1 : ∀ i, i < nums.length → binsum nums (i + 1) ≤ 2 ^ i)
    (h2 : binsum nums nums.length ≤ narray) :
    (∀ i, binsum nums (i + 1) ≤ 2 ^ i) ∧ ∀ i, binsum nums i ≤ narray := by
  constructor
  · intro i
    by_cases c : i < nums.length
    · exact h1 i c
    · rw [binsum_ge_length nums (i + 1) (by omega)]
      have e := h1 (nums.length - 1) (by omega)
      have e2 : nums.length - 1 + 1 = nums.length := by omega
      rw [e2] at e
      have : 2 ^ (nums.length - 1) ≤ 2 ^ i := Nat.pow_le_pow_right (by decide) (by omega)
      omega
  · intro i
    by_cases c : i ≤ nums.length
    · exact (binsum_mono nums i _ c).trans h2
    · rw [binsum_ge_length nums i (by omega)]
      exact h2

theorem bind_ok_inv {ε α β : Type} (x : Except ε α) (f : α → Except ε β) (b : β)
    (h : x.bind f = .ok b) : ∃ a, x = .ok a ∧ f a = .ok b := by
  cases x with
  | error e => cases h
  | ok a => exact ⟨a, rfl, h⟩

theorem sameFrame_refl (L : lua_State) : SameFrame L L := ⟨rfl, rfl, rfl, rfl, rfl⟩

theorem sameFrame_trans (L L1 L2 : lua_State) (h1 : SameFrame L L1) (h2 : SameFrame L1 L2) :
    SameFrame L L2 :=
  ⟨h2.1.trans h1.1, h2.2.1.trans h1.2.1, h2.2.2.1.trans h1.2.2.1,
    h2.2.2.2.1.trans h1.2.2.2.1, h2.2.2.2.2.trans h1.2.2.2.2⟩

theorem setobj_frame (L : lua_State) (a : Addr) (v : TValue) (L1 : lua_State)
    (h : setobj L a v = .ok L1) : SameFrame L L1 ∧ L1.top = L.top := by
  cases a with
  | stack i =>
    simp only [setobj] at h
    split_ifs at h
    cases h
    exact ⟨⟨rfl, rfl, rfl, rfl, by simp⟩, rfl⟩
  | nilobject => cases h
  | registry => cases h; exact ⟨sameFrame_refl _, rfl⟩
  | env => cases h; exact ⟨sameFrame_refl _, rfl⟩
  | gt => cases h; exact ⟨sameFrame_refl _, rfl⟩
  | upvalue p i =>
    simp only [setobj] at h
    cases hc : heapget L.l_G.closures p with
    | none => rw [hc] at h; cases h
    | some cl =>
      rw [hc] at h
      simp only at h
      split_ifs at h
      cases h
      exact ⟨sameFrame_refl _, rfl⟩

theorem index2adr_frame (L : lua_State) (idx : Int) (r : Addr × lua_State)
    (h : index2adr L idx = .ok r) : SameFrame L r.2 ∧ r.2.top = L.top ∧ r.2.stack = L.stack := by
  obtain ⟨ev, e⟩ := index2adr_state L idx r h
  rw [e]
  exact ⟨sameFrame_refl _, rfl, rfl⟩

theorem api_incr_top_inv (L L1 : lua_State) (h : api_incr_top L = .ok L1) :
    L.top < L.ci.top ∧ L1 = { L with top := L.top + 1 } := by
  unfold api_incr_top at h
  by_cases c : L.top < L.ci.top
  · rw [api_check_pos _ c] at h
    cases h
    exact ⟨c, rfl⟩
  · rw [api_check_neg _ c] at h
    cases h

theorem api_check_inv (c : Prop) [Decidable c] (u : Unit) (h : api_check c = .ok u) : c := by
  by_contra hc
  rw [api_check_neg _ hc] at h
  cases h

theorem settop_loop_frame (target : Nat) : ∀ (n : Nat) (L L1 : lua_State),
    settop_loop target n L = .ok L1 → SameFrame L L1 := by
  intro n
  induction n with
  | zero => intro L L1 h; cases h; exact sameFrame_refl _
  | succ n ih =>
    intro L L1 h
    unfold settop_loop at h
    split_ifs at h
    · obtain ⟨La, ha, h⟩ := bind_ok_inv _ _ _ h
      have f1 := (setobj_frame _ _ _ _ ha).1
      have f2 := ih _ _ h
      exact sameFrame_trans _ _ _ f1 (sameFrame_trans _ { La with top := La.top + 1 } _
        ⟨rfl, rfl, rfl, rfl, rfl⟩ f2)
    · cases h; exact sameFrame_refl _

theorem remove_loop_frame : ∀ (n p : Nat) (L L1 : lua_State),
    remove_loop n p L = .ok L1 → SameFrame L L1 ∧ L1.top = L.top := by
  intro n
  induction n with
  | zero => intro p L L1 h; cases h; exact ⟨sameFrame_refl _, rfl⟩
  | succ n ih =>
    intro p L L1 h
    unfold remove_loop at h
    split_ifs at h
    · obtain ⟨v, _, h⟩ := bind_ok_inv _ _ _ h
      obtain ⟨La, ha, h⟩ := bind_ok_inv _ _ _ h
      have f1 := setobj_frame _ _ _ _ ha
      have f2 := ih _ _ _ h
      exact ⟨sameFrame_trans _ _ _ f1.1 f2.1, f2.2.trans f1.2⟩
    · cases h; exact ⟨sameFrame_refl _, rfl⟩

theorem insert_loop_frame (p : Nat) : ∀ (n q : Nat) (L L1 : lua_State),
    insert_loop p n q L = .ok L1 → SameFrame L L1 ∧ L1.top = L.top := by
  intro n
  induction n with
  | zero => intro q L L1 h; cases h; exact ⟨sameFrame_refl _, rfl⟩
  | succ n ih =>
    intro q L L1 h
    unfold insert_loop at h
    split_ifs at h
    · obtain ⟨v, _, h⟩ := bind_ok_inv _ _ _ h
      obtain ⟨La, ha, h⟩ := bind_ok_inv _ _ _ h
      have f1 := setobj_frame _ _ _ _ ha
      have f2 := ih _ _ _ h
      exact ⟨sameFrame_trans _ _ _ f1.1 f2.1, f2.2.trans f1.2⟩
    · cases h; exact ⟨sameFrame_refl _, rfl⟩

/-- What a call of `lua_settop` that returns does to the frame. -/
theorem lua_settop_frame (L L1 : lua_State) (idx : Int) (h : lua_settop L idx = .ok L1) :
    SameFrame L L1 ∧
    ((0 ≤ idx ∧ idx ≤ (L.stack_last : Int) - L.base ∧ L1.top = L.base + idx.toNat) ∨
      (idx < 0 ∧ -(idx + 1) ≤ (L.top : Int) - L.base ∧
        L1.top = ((L.top : Int) + (idx + 1)).toNat)) := by
  unfold lua_settop at h
  by_cases c : idx ≥ 0
  · rw [if_pos c] at h
    obtain ⟨u, hu, h⟩ := bind_ok_inv _ _ _ h
    obtain ⟨La, ha, h⟩ := bind_ok_inv _ _ _ h
    cases h
    have f := settop_loop_frame _ _ _ _ ha
    exact ⟨sameFrame_trans _ _ { La with top := L.base + idx.toNat } f ⟨rfl, rfl, rfl, rfl, rfl⟩,
      Or.inl ⟨c, api_check_inv _ u hu, rfl⟩⟩
  · rw [if_neg c] at h
    obtain ⟨u, hu, h⟩ := bind_ok_inv _ _ _ h
    cases h
    exact ⟨⟨rfl, rfl, rfl, rfl, rfl⟩, Or.inr ⟨by omega, api_check_inv _ u hu, rfl⟩⟩

/-- What a call of `lua_pushvalue` that returns does to the frame. -/
theorem lua_pushvalue_frame (L L1 : lua_State) (idx : Int) (h : lua_pushvalue L idx = .ok L1) :
    SameFrame L L1 ∧ L.top < L.ci.top ∧ L1.top = L.top + 1 := by
  unfold lua_pushvalue at h
  obtain ⟨r, hr, h⟩ := bind_ok_inv _ _ _ h
  obtain ⟨v, _, h⟩ := bind_ok_inv _ _ _ h
  obtain ⟨La, ha, h⟩ := bind_ok_inv _ _ _ h
  obtain ⟨f0, t0, _⟩ := index2adr_frame _ _ _ hr
  obtain ⟨f1, t1⟩ := setobj_frame _ _ _ _ ha
  obtain ⟨c, e⟩ := api_incr_top_inv _ _ h
  have f := sameFrame_trans _ _ _ f0 f1
  rw [e]
  refine ⟨sameFrame_trans _ _ { La with top := La.top + 1 } f ⟨rfl, rfl, rfl, rfl, rfl⟩, ?_, ?_⟩
  · rw [t1, t0, f.2.1] at c; exact c
  · show La.top + 1 = L.top + 1
    rw [t1, t0]

/-- What a call of a push function that returns does to the frame. -/
theorem push_frame (L L1 : lua_State) (a : PushArg) (h : push L a = .ok L1) :
    SameFrame L L1 ∧ L.top < L.ci.top ∧ L1.top = L.top + 1 := by
  have key : ∀ v : TValue, (setobj L (.stack L.top) v).bind api_incr_top = .ok L1 →
      SameFrame L L1 ∧ L.top < L.ci.top ∧ L1.top = L.top + 1 := by
    intro v h
    obtain ⟨La, ha, h⟩ := bind_ok_inv _ _ _ h
    obtain ⟨f1, t1⟩ := setobj_frame _ _ _ _ ha
    obtain ⟨c, e⟩ := api_incr_top_inv _ _ h
    rw [e]
    refine ⟨sameFrame_trans _ _ { La with top := La.top + 1 } f1 ⟨rfl, rfl, rfl, rfl, rfl⟩, ?_, ?_⟩
    · rw [t1, f1.2.1] at c; exact c
    · show La.top + 1 = L.top + 1
      rw [t1]
  cases a <;> exact key _ h

/-- A stack slot that `index2adr` returns is a live slot of the frame. -/
theorem index2adr_stack_inv (L : lua_State) (idx : Int) (p : Nat) (L0 : lua_State)
    (h : index2adr L idx = .ok (.stack p, L0)) : L.base ≤ p ∧ p < L.top := by
  unfold index2adr at h
  by_cases c1 : idx > 0
  · rw [if_pos c1] at h
    by_cases ca : idx ≤ (L.ci.top : Int) - L.base
    · rw [api_check_pos _ ca] at h
      simp only [bind, Except.bind, pure, Except.pure] at h
      split_ifs at h with c
      · cases h
      · cases h
        omega
    · rw [api_check_neg _ ca] at h
      cases h
  rw [if_neg c1] at h
  by_cases c2 : idx > LUA_REGISTRYINDEX
  · rw [if_pos c2] at h
    by_cases ca : idx ≠ 0 ∧ -idx ≤ (L.top : Int) - L.base
    · rw [api_check_pos _ ca] at h
      cases h
      omega
    · rw [api_check_neg _ ca] at h
      cases h
  rw [if_neg c2] at h
  by_cases c3 : idx = LUA_REGISTRYINDEX
  · rw [if_pos c3] at h
    cases h
  rw [if_neg c3] at h
  by_cases c4 : idx = LUA_ENVIRONINDEX
  · rw [if_pos c4] at h
    cases hc : curr_func L with
    | error e => rw [hc] at h; cases h
    | ok f =>
      rw [hc] at h
      cases h
  rw [if_neg c4] at h
  by_cases c5 : idx = LUA_GLOBALSINDEX
  · rw [if_pos c5] at h
    cases h
  rw [if_neg c5] at h
  cases hc : curr_func L with
  | error e => rw [hc] at h; cases h
  | ok f =>
    rw [hc] at h
    simp only [bind, Except.bind, pure, Except.pure] at h
    split_ifs at h <;> cases h

/-- What a call of `lua_remove` that returns does to the frame. -/
theorem lua_remove_frame (L L1 : lua_State) (idx : Int) (h : lua_remove L idx = .ok L1) :
    SameFrame L L1 ∧ L.base < L.top ∧ L1.top = L.top - 1 := by
  unfold lua_remove at h
  obtain ⟨r, hr, h⟩ := bind_ok_inv _ _ _ h
  obtain ⟨u, hu, h⟩ := bind_ok_inv _ _ _ h
  obtain ⟨f0, t0, _⟩ := index2adr_frame _ _ _ hr
  obtain ⟨a, L0⟩ := r
  cases a with
  | stack p =>
    obtain ⟨b1, b2⟩ := index2adr_stack_inv _ _ _ _ hr
    obtain ⟨La, ha, h⟩ := bind_ok_inv _ _ _ h
    cases h
    obtain ⟨f1, t1⟩ := remove_loop_frame _ _ _ _ ha
    simp only at t0 f0 t1 f1
    refine ⟨sameFrame_trans _ _ { La with top := La.top - 1 } (sameFrame_trans _ _ _ f0 f1)
      ⟨rfl, rfl, rfl, rfl, rfl⟩, by omega, ?_⟩
    show La.top - 1 = L.top - 1
    rw [t1, t0]
  | nilobject => cases h
  | registry => cases h
  | env => cases h
  | gt => cases h
  | upvalue p i => cases h

/-- What a call of `lua_insert` that returns does to the frame. -/
theorem lua_insert_frame (L L1 : lua_State) (idx : Int) (h : lua_insert L idx = .ok L1) :
    SameFrame L L1 ∧ L1.top = L.top := by
  unfold lua_insert at h
  obtain ⟨r, hr, h⟩ := bind_ok_inv _ _ _ h
  obtain ⟨u, hu, h⟩ := bind_ok_inv _ _ _ h
  obtain ⟨f0, t0, _⟩ := index2adr_frame _ _ _ hr
  obtain ⟨a, L0⟩ := r
  cases a with
  | stack p =>
    obtain ⟨La, ha, h⟩ := bind_ok_inv _ _ _ h
    obtain ⟨v, _, h⟩ := bind_ok_inv _ _ _ h
    obtain ⟨f1, t1⟩ := insert_loop_frame _ _ _ _ _ ha
    obtain ⟨f2, t2⟩ := setobj_frame _ _ _ _ h
    simp only at t0 f0 t1 f1
    exact ⟨sameFrame_trans _ _ _ (sameFrame_trans _ _ _ f0 f1) f2, by rw [t2, t1, t0]⟩
  | nilobject => cases h
  | registry => cases h
  | env => cases h
  | gt => cases h
  | upvalue p i => cases h

/-- What a call of `lua_replace` that returns does to the frame. -/
theorem lua_replace_frame (L L1 : lua_State) (idx : Int) (h : lua_replace L idx = .ok L1) :
    SameFrame L L1 ∧ L.base < L.top ∧ L1.top = L.top - 1 := by
  unfold lua_replace at h
  by_cases c0 : idx = LUA_ENVIRONINDEX ∧ L.callers = []
  · rw [if_pos c0] at h
    cases h
  rw [if_neg c0] at h
  obtain ⟨u, hu, h⟩ := bind_ok_inv _ _ _ h
  have hn := api_check_inv _ u hu
  obtain ⟨r, hr, h⟩ := bind_ok_inv _ _ _ h
  obtain ⟨u2, hu2, h⟩ := bind_ok_inv _ _ _ h
  obtain ⟨f0, t0, _⟩ := index2adr_frame _ _ _ hr
  obtain ⟨v, _, h⟩ := bind_ok_inv _ _ _ h
  have hlt : L.base < L.top := by omega
  by_cases c1 : idx = LUA_ENVIRONINDEX
  · rw [if_pos c1] at h
    obtain ⟨fn, _, h⟩ := bind_ok_inv _ _ _ h
    obtain ⟨u3, _, h⟩ := bind_ok_inv _ _ _ h
    obtain ⟨hh, _, h⟩ := bind_ok_inv _ _ _ h
    cases h
    refine ⟨sameFrame_trans _ _ _ f0 ⟨rfl, rfl, rfl, rfl, rfl⟩, hlt, ?_⟩
    show r.2.top - 1 = L.top - 1
    rw [t0]
  · rw [if_neg c1] at h
    obtain ⟨La, ha, h⟩ := bind_ok_inv _ _ _ h
    cases h
    obtain ⟨f1, t1⟩ := setobj_frame _ _ _ _ ha
    refine ⟨sameFrame_trans _ _ { La with top := La.top - 1 } (sameFrame_trans _ _ _ f0 f1)
      ⟨rfl, rfl, rfl, rfl, rfl⟩, hlt, ?_⟩
    show La.top - 1 = L.top - 1
    rw [t1, t0]

/-- The loop of `lua_xmove`: `k` values of `from`, from the slot `top + i` on, are
stored above the top of `to`. -/
theorem xmove_loop_spec (fromL : lua_State) : ∀ (k i : Nat) (toL : lua_State),
    fromL.top + i + k ≤ fromL.stack.length → toL.top + k ≤ toL.stack.length →
    ∃ S, xmove_loop fromL k i toL = .ok { toL with stack := S, top := toL.top + k } ∧
      S.length = toL.stack.length ∧
      ∀ j, S[j]? = if toL.top ≤ j ∧ j < toL.top + k
        then fromL.stack[fromL.top + i + (j - toL.top)]? else toL.stack[j]? := by
  intro k
  induction k with
  | zero =>
    intro i toL _ _
    exact ⟨toL.stack, rfl, rfl, fun j => by rw [if_neg (by omega)]⟩
  | succ k ih =>
    intro i toL h1 h2
    have hg := getobj_stack_lt fromL (fromL.top + i) (by omega)
    have hs := setobj_stack toL toL.top fromL.stack[fromL.top + i] (by omega)
    obtain ⟨S, e1, e2, e3⟩ := ih (i + 1)
      { toL with stack := toL.stack.set toL.top fromL.stack[fromL.top + i], top := toL.top + 1 }
      (by omega) (by simp only [List.length_set]; omega)
    refine ⟨S, ?_, by simpa using e2, fun j => ?_⟩
    · unfold xmove_loop
      rw [hg]
      simp only [bind, Except.bind, hs]
      rw [e1]
      simp only [Nat.add_assoc, Nat.add_comm 1 k]
    · rw [e3 j]
      simp only [List.getElem?_set]
      have hv : fromL.stack[fromL.top + i]? = some fromL.stack[fromL.top + i] :=
        List.getElem?_eq_getElem _
      by_cases c : toL.top = j
      · subst c
        rw [if_neg (by omega), if_pos rfl, if_pos (by omega), if_pos ⟨le_refl _, by omega⟩]
        simp [hv]
      · by_cases d : toL.top + 1 ≤ j ∧ j < toL.top + 1 + k
        · rw [if_pos d, if_pos ⟨by omega, by omega⟩]
          congr 1
          omega
        · rw [if_neg d, if_neg c, if_neg (by omega)]

theorem inv_exnext : StackInv exnext :=
  ⟨by decide, by decide, by decide, by decide, by decide⟩

theorem drop_chain {α : Type} (x : α) (pre rest : List α) (c : α) :
    (x :: (pre ++ c :: rest)).drop ((x :: (pre ++ c :: rest)).length - (rest.length + 1)) =
      c :: rest := by
  have h : (x :: (pre ++ c :: rest)).length - (rest.length + 1) = (x :: pre).length := by
    simp only [List.length_cons, List.length_append]
    omega
  rw [h]
  show ((x :: pre) ++ c :: rest).drop (x :: pre).length = c :: rest
  exact List.drop_left _ _

theorem inv_expcall : StackInv expcall :=
  ⟨by decide, by decide, by decide, by decide, by decide⟩

theorem heapget_lt_freshaddr {α : Type} (h : List (Nat × α)) (p : Nat) (x : α)
    (e : heapget h p = some x) : p < freshaddr h := by
  induction h with
  | nil => cases e
  | cons a h ih =>
    unfold heapget at e
    unfold freshaddr
    by_cases c : a.1 = p
    · omega
    · rw [if_neg c] at e
      have := ih e
      omega

theorem heapget_newaddr (g : global_State) : heapget g.strings (newaddr g) = none := by
  cases e : heapget g.strings (newaddr g) with
  | none => rfl
  | some x =>
    have := heapget_lt_freshaddr _ _ _ e
    unfold newaddr at this
    omega

theorem luaS_newlstr_spec (g : global_State) (str : List Nat) :
    getstr (luaS_newlstr g str).2 (luaS_newlstr g str).1 = some str ∧
    (∀ s b, getstr g s = some b → getstr (luaS_newlstr g str).2 s = some b) ∧
    (luaS_newlstr g str).2.tables = g.tables ∧
    (luaS_newlstr g str).2.closures = g.closures ∧
    (luaS_newlstr g str).2.l_registry = g.l_registry := by
  unfold luaS_newlstr
  cases e : g.strings.find? (fun e => heapget g.strings e.1 = some str) with
  | some a =>
    have := List.find?_some e
    simp only [decide_eq_true_eq] at this
    exact ⟨this, fun s b h => h, rfl, rfl, rfl⟩
  | none =>
    refine ⟨heapget_heapset_same _ _ _, fun s b h => ?_, rfl, rfl, rfl⟩
    unfold getstr at h ⊢
    show heapget (heapset g.strings (newaddr g) str) s.addr = some b
    have hne : s.addr ≠ newaddr g := by
      intro c
      rw [c, heapget_newaddr] at h
      cases h
    rw [heapget_heapset_other _ _ _ _ hne]
    exact h

theorem concat_bytes_strings (g : global_State) : ∀ (ss : List TString) (bs : List (List Nat)),
    ss.map (getstr g) = bs.map some →
    concat_bytes g (ss.map TValue.string) = .ok (some bs.flatten) := by
  intro ss
  induction ss with
  | nil =>
    intro bs h
    cases bs with
    | nil => rfl
    | cons b bs => cases h
  | cons s ss ih =>
    intro bs h
    cases bs with
    | nil => cases h
    | cons b bs =>
      simp only [List.map_cons, List.cons.injEq] at h
      show concat_bytes g (TValue.string s :: ss.map TValue.string) = _
      unfold concat_bytes
      rw [h.1]
      simp only [ih bs h.2]
      rfl

theorem live_drop (L : lua_State) (n : Nat) (h1 : L.base ≤ L.top) (h2 : n ≤ L.top - L.base) :
    (live L).drop (L.top - L.base - n) = (L.stack.drop (L.top - n)).take n := by
  unfold live
  rw [List.drop_take, List.drop_drop]
  congr 1
  · omega
  · congr 1
    omega

theorem inv_exstrings : StackInv exstrings :=
  ⟨by decide, by decide, by decide, by decide, by decide⟩

/-! ## Lemmas for the claims on hashing, the fast paths, `rehash` and `luaH_next` -/

theorem or_one_of_pow (l : Nat) : (2 ^ (l + 1) - 1) ||| 1 = 2 ^ (l + 1) - 1 := by
  have hodd : (2 ^ (l + 1) - 1) % 2 = 1 := by
    rw [pow_succ]
    have := Nat.two_pow_pos l
    omega
  apply Nat.eq_of_testBit_eq
  intro i
  rw [Nat.testBit_or]
  cases i with
  | zero => simp [Nat.testBit_zero, hodd]
  | succ i => simp [Nat.testBit_succ]

theorem hashmod_modulus (t : Table) :
    (sizenode t - 1) ||| 1 = (if t.lsizenode = 0 then 1 else sizenode t - 1) ∧
    0 < ((sizenode t - 1) ||| 1) := by
  unfold sizenode twoto
  cases hl : t.lsizenode with
  | zero => simp
  | succ l =>
    rw [or_one_of_pow l, if_neg (by omega)]
    have := Nat.two_pow_pos l
    refine ⟨rfl, ?_⟩
    rw [pow_succ]
    omega

/-- In a well-formed table the test of `findindex` on a node is the raw equality of its
key with the key looked for: no node holds a dead key. -/
theorem findindex_pred (t : Table) (hw : WFcore t) (k : TValue) (j : Nat) :
    (luaO_rawequalObj (gnode t j).i_key k ||
      (ttype (gnode t j).i_key == LUA_TDEADKEY && iscollectable k &&
        gcvalue (gnode t j).i_key == gcvalue k)) = luaO_rawequalObj (gnode t j).i_key k := by
  have hd : ttype (gnode t j).i_key ≠ LUA_TDEADKEY := by
    by_cases hj : j < t.node.length
    · exact hw.nodead j hj
    · have : gnode t j = dummynode_ := by
        unfold gnode
        rw [List.getD_eq_getElem?_getD, List.getElem?_eq_none (by omega)]
        rfl
      rw [this]
      decide
  have : (ttype (gnode t j).i_key == LUA_TDEADKEY) = false := by
    simpa using hd
  rw [this]
  simp

theorem findindex_held (t : Table) (hw : WFcore t) (k : TValue)
    (h : luaH_get t k ≠ .nilobject) :
    (0 < arrayindex k ∧ arrayindex k ≤ (t.sizearray : Int) ∧
      luaH_get t k = .arr (arrayindex k - 1).toNat ∧ findindex t k = .ok (arrayindex k - 1)) ∨
    (¬ (0 < arrayindex k ∧ arrayindex k ≤ (t.sizearray : Int)) ∧
      ∃ n, n < t.node.length ∧ luaH_get t k = .node n ∧
        findindex t k = .ok ((n : Int) + t.sizearray)) := by
  have hg := luaH_get_eq t (sizearray_lt t hw) k
  have hf := findindex_eq t hw k
  by_cases hk : k = .nil
  · rw [hg, if_pos hk] at h
    exact absurd rfl h
  rw [if_neg hk] at hg hf
  by_cases hr : 0 < arrayindex k ∧ arrayindex k ≤ (t.sizearray : Int)
  · rw [if_pos hr] at hg hf
    exact Or.inl ⟨hr.1, hr.2, hg, hf⟩
  · rw [if_neg hr] at hg hf
    right
    refine ⟨hr, ?_⟩
    rcases hfind_cases t hw k with e | ⟨i, hi, e, _⟩
    · rw [hg, e] at h
      exact absurd rfl h
    · rw [e] at hg hf
      exact ⟨i, hi, hg, hf⟩

theorem scan_congr (t t' : Table) (i : Nat) (hs : t'.sizearray = t.sizearray)
    (hl : t'.node.length = t.node.length)
    (hv : ∀ p, i ≤ p → cellval t' p = cellval t p)
    (hk : ∀ p, cellkey t' p = cellkey t p) : scan t' i = scan t i := by
  unfold scan
  rw [hs, hl]
  rw [find_congr _ (fun p => !ttisnil (cellval t' p)) (fun p => !ttisnil (cellval t p))
    (fun p hp => by
      have : i ≤ p := (List.mem_range'_1.1 hp).1
      show (!ttisnil (cellval t' p)) = !ttisnil (cellval t p)
      rw [hv p this])]
  cases e : (List.range' i (t.sizearray + t.node.length - i)).find?
      (fun p => !ttisnil (cellval t p)) with
  | none => rfl
  | some p =>
    have hm := List.mem_of_find?_eq_some e
    have : i ≤ p := (List.mem_range'_1.1 hm).1
    show some (cellkey t' p, cellval t' p) = some (cellkey t p, cellval t p)
    rw [hk p, hv p this]

theorem cell_setslot (t : Table) (hw : WFcore t) (s : Slot) (hs : SlotOk t s) (v : TValue) :
    (∀ p, cellkey (setslot t s v) p = cellkey t p) ∧
    (∀ q, s = .arr q → ∀ p, p ≠ q → cellval (setslot t s v) p = cellval t p) ∧
    (∀ n, s = .node n → ∀ p, p ≠ t.sizearray + n → cellval (setslot t s v) p = cellval t p) := by
  refine ⟨fun p => ?_, fun q hq p hp => ?_, fun n hn p hp => ?_⟩
  · unfold cellkey
    rw [sizearray_setslot, key_setslot]
  · subst hq
    unfold cellval
    rw [sizearray_setslot]
    split_ifs with c
    · have := slotval_setslot t hw (.arr q) hs v (.arr p)
      rw [if_neg (by intro h; cases h; exact hp rfl)] at this
      exact this
    · have := slotval_setslot t hw (.arr q) hs v (.node (p - t.sizearray))
      rw [if_neg (by intro h; cases h)] at this
      exact this
  · subst hn
    unfold cellval
    rw [sizearray_setslot]
    split_ifs with c
    · have := slotval_setslot t hw (.node n) hs v (.arr p)
      rw [if_neg (by intro h; cases h)] at this
      exact this
    · have := slotval_setslot t hw (.node n) hs v (.node (p - t.sizearray))
      rw [if_neg (by intro h; cases h; omega)] at this
      exact this

theorem getn_arraysearch_allnil (t : Table) : ∀ (fuel j : Nat),
    (∀ i, i < j → t.array.getD i .nil = .nil) → getn_arraysearch t fuel 0 j = 0 := by
  intro fuel
  induction fuel with
  | zero => intro j _; rfl
  | succ fuel ih =>
    intro j h
    unfold getn_arraysearch
    by_cases c : j - 0 > 1
    · rw [if_pos c]
      simp only
      have hm : t.array.getD ((0 + j) / 2 - 1) .nil = .nil := h _ (by omega)
      rw [hm]
      simp only [ttisnil, ttype, beq_self_eq_true, if_true]
      exact ih _ (fun i hi => h i (by omega))
    · rw [if_neg c]

theorem computesizes_loop_chk_spec (nums : List Nat) (narray : Nat)
    (hl : nums.length = MAXBITS + 1) (hsum : binsum nums (MAXBITS + 1) = narray) :
    ∀ (fuel i a na n : Nat), i ≤ MAXBITS → a = binsum nums i →
      computesizes_loop_chk nums narray fuel i (2 ^ i) a na n =
        some (computesizes_loop nums narray fuel i (2 ^ i) a na n) := by
  intro fuel
  induction fuel with
  | zero => intro i a na n _ _; rfl
  | succ fuel ih =>
    intro i a na n hi ha
    unfold computesizes_loop_chk computesizes_loop
    by_cases c : 2 ^ i / 2 < narray
    · rw [if_pos c, if_pos c]
      have hlt : i < nums.length := by omega
      have hg : nums[i]? = some (nums.getD i 0) := by
        rw [List.getD_eq_getElem?_getD, List.getElem?_eq_getElem hlt]
        rfl
      rw [hg]
      simp only
      have ha1 : (if 0 < nums.getD i 0 then a + nums.getD i 0 else a) = binsum nums (i + 1) := by
        rw [binsum_succ, ha]
        split_ifs <;> omega
      by_cases d : (if 0 < nums.getD i 0 then a + nums.getD i 0 else a) = narray
      · rw [if_pos d, if_pos d]
      · rw [if_neg d, if_neg d]
        have hi1 : i + 1 ≤ MAXBITS := by
          by_contra hc
          have : i = MAXBITS := by omega
          rw [ha1, this, hsum] at d
          exact d rfl
        rw [← pow_succ]
        exact ih (i + 1) _ _ _ hi1 ha1
    · rw [if_neg c, if_neg c]

theorem rehash_nums_spec (t : Table) (ek : TValue) (hsa : t.sizearray ≤ MAXASIZE) :
    (rehash_nums t ek).1.length = MAXBITS + 1 ∧
    binsum (rehash_nums t ek).1 (MAXBITS + 1) = (rehash_nums t ek).2 := by
  have hl0 : (List.replicate (MAXBITS + 1) 0).length = MAXBITS + 1 := List.length_replicate _ _
  obtain ⟨a1, a2, a3⟩ := numusearray_spec t hsa _ hl0
  obtain ⟨b1, b2, b3, b4⟩ := numusehash_loop_spec t (sizenode t) 0 0
    (numusearray t (List.replicate (MAXBITS + 1) 0)).2 a2
  obtain ⟨c1, c2, c3⟩ := countint_spec ek
    (numusehash_loop t (sizenode t) 0 0 (numusearray t (List.replicate (MAXBITS + 1) 0)).2).2.2 b3
  unfold rehash_nums
  simp only [numusehash]
  refine ⟨c1, ?_⟩
  rw [c3 MAXBITS (le_refl _), b4 MAXBITS (le_refl _), a3 MAXBITS (le_refl _), binsum_replicate,
    c2, b2, a1]
  have hm : 2 ^ MAXBITS ⊓ t.sizearray = t.sizearray := Nat.min_eq_right hsa
  rw [hm]
  show _ = acnt t 0 t.sizearray + (0 + ncnt t (inrange (2 ^ MAXBITS)) (sizenode t)) +
    if inrange (2 ^ MAXBITS) (arrayindex ek) = true then 1 else 0
  omega

theorem resetflags_idem (t : Table) : resetflags (resetflags t) = resetflags t := rfl

theorem resetres_idem (r : Res (Slot × Table)) : resetres (resetres r) = resetres r := by
  cases r <;> rfl

theorem luaH_get_resetflags (t : Table) (k : TValue) :
    luaH_get (resetflags t) k = luaH_get t k :=
  luaH_get_same t (resetflags t) rfl rfl rfl k

theorem getfreepos_loop_resetflags (t : Table) (n : Nat) :
    getfreepos_loop (resetflags t) n = getfreepos_loop t n := by
  induction n with
  | zero => rfl
  | succ n ih =>
    unfold getfreepos_loop
    rw [ih]
    rfl

theorem getfreepos_resetflags (t : Table) :
    getfreepos (resetflags t) = ((getfreepos t).1, resetflags (getfreepos t).2) := by
  unfold getfreepos
  have hl : (resetflags t).lastfree = t.lastfree := rfl
  simp only [hl]
  by_cases c : t.lastfree ≤ 0
  · rw [if_pos c, if_pos c]
    rfl
  · rw [if_neg c, if_neg c]
    simp only
    rw [getfreepos_loop_resetflags]
    rfl

theorem gnode_resetflags (t : Table) (i : Nat) : gnode (resetflags t) i = gnode t i := rfl

theorem findprev_resetflags (t : Table) (mp : Nat) : ∀ (fuel o : Nat),
    findprev (resetflags t) mp fuel o = findprev t mp fuel o := by
  intro fuel
  induction fuel with
  | zero => intro o; rfl
  | succ fuel ih =>
    intro o
    unfold findprev
    simp only [gnode_resetflags]
    cases (gnode t o).next with
    | none => rfl
    | some m =>
      simp only
      rw [ih]

theorem mainposition_resetflags (t : Table) (k : TValue) :
    mainposition (resetflags t) k = mainposition t k := mainposition_lsize t _ rfl k

theorem node_resetflags (t : Table) : (resetflags t).node = t.node := rfl

theorem newkey_collide_resetflags (t : Table) (key : TValue) (mp n : Nat) :
    newkey_collide (resetflags t) key mp n = resetres (newkey_collide t key mp n) := by
  unfold newkey_collide
  simp only [gnode_resetflags, mainposition_resetflags, node_resetflags, findprev_resetflags]
  by_cases c : mainposition t (gnode t mp).i_key ≠ mp
  · rw [if_pos c, if_pos c]
    cases findprev t mp t.node.length (mainposition t (gnode t mp).i_key) with
    | none => rfl
    | some prev => rfl
  · rw [if_neg c, if_neg c]
    rfl

theorem isdummy_resetflags (t : Table) : (resetflags t).isdummy = t.isdummy := rfl

theorem newkey_with_resetflags (R : Table → TValue → Res (Slot × Table))
    (hR : ∀ t k, R (resetflags t) k = resetres (R t k)) (t : Table) (key : TValue) :
    newkey_with R (resetflags t) key = resetres (newkey_with R t key) := by
  unfold newkey_with
  simp only [gnode_resetflags, mainposition_resetflags, isdummy_resetflags]
  by_cases c : (!ttisnil (gnode t (mainposition t key)).i_val || t.isdummy) = true
  · rw [if_pos c, if_pos c, getfreepos_resetflags]
    cases e : (getfreepos t).1 with
    | none =>
      have : getfreepos t = (none, (getfreepos t).2) := by rw [← e]
      rw [this]
      exact hR _ _
    | some n =>
      have : getfreepos t = (some n, (getfreepos t).2) := by rw [← e]
      rw [this]
      exact newkey_collide_resetflags _ _ _ _
  · rw [if_neg c, if_neg c]
    rfl

theorem luaH_set_with_resetflags (R : Table → TValue → Res (Slot × Table))
    (hR : ∀ t k, R (resetflags t) k = resetres (R t k)) (t : Table) (key : TValue) :
    luaH_set_with R (resetflags t) key = luaH_set_with R t key ∧
    resetres (luaH_set_with R t key) = luaH_set_with R t key := by
  have e : luaH_set_with R t key =
      if luaH_get t key ≠ .nilobject then .ok (luaH_get t key, resetflags t)
      else if ttisnil key then .error (.table_index_is_nil, resetflags t)
      else if ttisnumber key && luai_numisnan (nvalue key) then
        .error (.table_index_is_NaN, resetflags t)
      else newkey_with R (resetflags t) key := rfl
  have e' : luaH_set_with R (resetflags t) key =
      if luaH_get (resetflags t) key ≠ .nilobject then
        .ok (luaH_get (resetflags t) key, resetflags t)
      else if ttisnil key then .error (.table_index_is_nil, resetflags t)
      else if ttisnumber key && luai_numisnan (nvalue key) then
        .error (.table_index_is_NaN, resetflags t)
      else newkey_with R (resetflags t) key := rfl
  constructor
  · rw [e, e', luaH_get_resetflags]
  · rw [e]
    split_ifs
    · rfl
    · rfl
    · rfl
    · rw [newkey_with_resetflags R hR, resetres_idem]

theorem luaH_setnum_with_resetflags (R : Table → TValue → Res (Slot × Table))
    (hR : ∀ t k, R (resetflags t) k = resetres (R t k)) (t : Table) (key : Int) :
    luaH_setnum_with R (resetflags t) key = resetres (luaH_setnum_with R t key) := by
  unfold luaH_setnum_with
  have hg : luaH_getnum (resetflags t) key = luaH_getnum t key := by
    unfold luaH_getnum
    have hs : (resetflags t).sizearray = t.sizearray := rfl
    have hh : ∀ x, hashnum (resetflags t) x = hashnum t x := fun x =>
      mainposition_resetflags t (.number x)
    simp only [hs, hh, node_resetflags]
    rw [chainfind_congr t (resetflags t) _ (fun i => ⟨rfl, rfl⟩)]
  simp only [hg]
  by_cases c : luaH_getnum t key ≠ .nilobject
  · rw [if_pos c, if_pos c]
    rfl
  · rw [if_neg c, if_neg c]
    exact newkey_with_resetflags R hR _ _

theorem luaH_getstr_resetflags (t : Table) (key : TString) :
    luaH_getstr (resetflags t) key = luaH_getstr t key := by
  unfold luaH_getstr
  have hh : hashpow2 (resetflags t) key.hash = hashpow2 t key.hash :=
    mainposition_resetflags t (.string key)
  simp only [hh, node_resetflags]
  rw [chainfind_congr t (resetflags t) _ (fun i => ⟨rfl, rfl⟩)]

theorem luaH_setstr_with_resetflags (R : Table → TValue → Res (Slot × Table))
    (hR : ∀ t k, R (resetflags t) k = resetres (R t k)) (t : Table) (key : TString) :
    luaH_setstr_with R (resetflags t) key = resetres (luaH_setstr_with R t key) := by
  unfold luaH_setstr_with
  simp only [luaH_getstr_resetflags]
  by_cases c : luaH_getstr t key ≠ .nilobject
  · rw [if_pos c, if_pos c]
    rfl
  · rw [if_neg c, if_neg c]
    exact newkey_with_resetflags R hR _ _

theorem setslot_resetflags (t : Table) (s : Slot) (v : TValue) :
    setslot (resetflags t) s v = resetflags (setslot t s v) := by
  cases s <;> rfl

theorem resettab_bind (x : Res (Slot × Table)) (f : Slot × Table → Table)
    (hf : ∀ r : Slot × Table, f (r.1, resetflags r.2) = resetflags (f r)) :
    (resetres x).bind (fun r => .ok (f r)) = resettab (x.bind (fun r => .ok (f r))) := by
  cases x with
  | error e => rfl
  | ok r =>
    show Except.ok (f (r.1, resetflags r.2)) = Except.ok (resetflags (f r))
    rw [hf]

theorem resize_arraystep_resetflags (R : Table → TValue → Res (Slot × Table))
    (hR : ∀ t k, R (resetflags t) k = resetres (R t k)) (t : Table) (i : Nat) :
    resize_arraystep R (resetflags t) i = resettab (resize_arraystep R t i) := by
  unfold resize_arraystep
  have ha : (resetflags t).array = t.array := rfl
  simp only [ha]
  by_cases c : (!ttisnil (t.array.getD i .nil)) = true
  · rw [if_pos c, if_pos c, luaH_setnum_with_resetflags R hR]
    exact resettab_bind _ (fun r => setslot r.2 r.1 (r.2.array.getD i .nil))
      (fun r => setslot_resetflags _ _ _)
  · rw [if_neg c, if_neg c]
    rfl

theorem resize_nodestep_resetflags (R : Table → TValue → Res (Slot × Table))
    (hR : ∀ t k, R (resetflags t) k = resetres (R t k)) (t : Table) (old : Node) :
    resize_nodestep R (resetflags t) old = resettab (resize_nodestep R t old) := by
  unfold resize_nodestep
  by_cases c : (!ttisnil old.i_val) = true
  · rw [if_pos c, if_pos c, (luaH_set_with_resetflags R hR t old.i_key).1]
    have := (luaH_set_with_resetflags R hR t old.i_key).2
    revert this
    cases luaH_set_with R t old.i_key with
    | error e =>
      intro h
      have h2 : resetflags e.2 = e.2 := by
        have := congrArg (fun r => match r with
          | Except.error x => x.2
          | Except.ok (x : Slot × Table) => x.2) h
        exact this
      show Except.error e = Except.error (e.1, resetflags e.2)
      rw [h2]
    | ok r =>
      intro h
      have h2 : resetflags r.2 = r.2 := by
        have := congrArg (fun r => match r with
          | Except.error (x : LuaError × Table) => x.2
          | Except.ok (x : Slot × Table) => x.2) h
        exact this
      show Except.ok (setslot r.2 r.1 old.i_val) =
        Except.ok (resetflags (setslot r.2 r.1 old.i_val))
      have h3 : resetflags (setslot r.2 r.1 old.i_val) = setslot (resetflags r.2) r.1 old.i_val := by
        cases r.1 <;> rfl
      rw [h3, h2]
  · rw [if_neg c, if_neg c]
    rfl

theorem foldlM_resetflags {α : Type} (step : Table → α → Res Table)
    (hstep : ∀ t a, step (resetflags t) a = resettab (step t a)) :
    ∀ (l : List α) (t : Table),
      l.foldlM step (resetflags t) = resettab (l.foldlM step t) := by
  intro l
  induction l with
  | nil => intro t; rfl
  | cons a l ih =>
    intro t
    simp only [List.foldlM_cons, bind, Except.bind]
    rw [hstep]
    cases step t a with
    | error e => rfl
    | ok t1 => exact ih t1

theorem setnodevector_resetflags (t : Table) (size : Nat) :
    setnodevector (resetflags t) size = resettab (setnodevector t size) := by
  unfold setnodevector
  by_cases c : size = 0
  · rw [if_pos c, if_pos c]
    rfl
  · rw [if_neg c, if_neg c]
    simp only
    by_cases d : ceillog2 size > MAXBITS
    · rw [if_pos d, if_pos d]
      rfl
    · rw [if_neg d, if_neg d]
      rfl

theorem numusearray_loop_resetflags (t : Table) : ∀ (fuel lg ttlg i ause : Nat)
    (nums : List Nat),
    numusearray_loop (resetflags t) fuel lg ttlg i ause nums =
      numusearray_loop t fuel lg ttlg i ause nums := by
  intro fuel
  induction fuel with
  | zero => intros; rfl
  | succ fuel ih =>
    intro lg ttlg i ause nums
    unfold numusearray_loop
    have hs : (resetflags t).sizearray = t.sizearray := rfl
    have ha : (resetflags t).array = t.array := rfl
    simp only [hs, ha, ih]

theorem numusehash_loop_resetflags (t : Table) : ∀ (i tot ause : Nat) (nums : List Nat),
    numusehash_loop (resetflags t) i tot ause nums = numusehash_loop t i tot ause nums := by
  intro i
  induction i with
  | zero => intros; rfl
  | succ i ih =>
    intro tot ause nums
    unfold numusehash_loop
    simp only [gnode_resetflags, ih]

theorem resettab_bind_tab (x : Res Table) (g g' : Table → Res Table)
    (hg : ∀ t, g' (resetflags t) = resettab (g t)) :
    (resettab x).bind g' = resettab (x.bind g) := by
  cases x with
  | error e => rfl
  | ok t => exact hg t

theorem resize_with_resetflags (R : Table → TValue → Res (Slot × Table))
    (hR : ∀ t k, R (resetflags t) k = resetres (R t k)) (t : Table) (nasize nhsize : Nat) :
    resize_with R (resetflags t) nasize nhsize = resettab (resize_with R t nasize nhsize) := by
  unfold resize_with
  have hs : (resetflags t).sizearray = t.sizearray := rfl
  have hl : (resetflags t).lsizenode = t.lsizenode := rfl
  simp only [hs, hl, node_resetflags]
  have h1 : (if nasize > t.sizearray then setarrayvector (resetflags t) nasize else resetflags t) =
      resetflags (if nasize > t.sizearray then setarrayvector t nasize else t) := by
    split_ifs <;> rfl
  rw [h1, setnodevector_resetflags]
  apply resettab_bind_tab
  intro t2
  have h2 : (if nasize < t.sizearray then
      ((List.range' nasize (t.sizearray - nasize)).foldlM (resize_arraystep R)
        { resetflags t2 with sizearray := nasize }).bind
        (fun t3 => .ok { t3 with array := t3.array.take nasize })
      else .ok (resetflags t2)) =
      resettab (if nasize < t.sizearray then
      ((List.range' nasize (t.sizearray - nasize)).foldlM (resize_arraystep R)
        { t2 with sizearray := nasize }).bind
        (fun t3 => .ok { t3 with array := t3.array.take nasize })
      else .ok t2) := by
    by_cases c : nasize < t.sizearray
    · rw [if_pos c, if_pos c]
      have := foldlM_resetflags (resize_arraystep R) (resize_arraystep_resetflags R hR)
        (List.range' nasize (t.sizearray - nasize)) { t2 with sizearray := nasize }
      rw [show ({ resetflags t2 with sizearray := nasize } : Table) =
        resetflags { t2 with sizearray := nasize } from rfl, this]
      exact resettab_bind_tab _ _ _ (fun t3 => rfl)
    · rw [if_neg c, if_neg c]
      rfl
  rw [h2]
  apply resettab_bind_tab
  intro t4
  exact foldlM_resetflags (resize_nodestep R) (resize_nodestep_resetflags R hR) _ t4

theorem rehash_with_resetflags (R : Table → TValue → Res (Slot × Table))
    (hR : ∀ t k, R (resetflags t) k = resetres (R t k)) (t : Table) (ek : TValue) :
    rehash_with R (resetflags t) ek = resettab (rehash_with R t ek) := by
  unfold rehash_with numusearray numusehash
  have hz : sizenode (resetflags t) = sizenode t := rfl
  simp only [numusearray_loop_resetflags, numusehash_loop_resetflags, hz]
  exact resize_with_resetflags R hR t _ _

theorem rehash_set_resetflags : ∀ (fuel : Nat) (t : Table) (k : TValue),
    rehash_set fuel (resetflags t) k = resetres (rehash_set fuel t k) := by
  intro fuel
  induction fuel with
  | zero => intro t k; rfl
  | succ fuel ih =>
    intro t k
    unfold rehash_set
    rw [rehash_with_resetflags _ ih]
    cases rehash_with (rehash_set fuel) t k with
    | error e => rfl
    | ok t2 =>
      show luaH_set_with (rehash_set fuel) (resetflags t2) k =
        resetres (luaH_set_with (rehash_set fuel) t2 k)
      rw [(luaH_set_with_resetflags _ ih t2 k).1, (luaH_set_with_resetflags _ ih t2 k).2]

theorem getval_resetflags (t : Table) (x : TValue) : getval (resetflags t) x = getval t x :=
  getval_same t (resetflags t) rfl rfl rfl rfl x

/-- An index that `index2adr` resolves to a stack slot refers to a live slot. -/
theorem index2adr_stack_live (L : lua_State) (idx : Int) (p : Nat) (L0 : lua_State)
    (h : index2adr L idx = .ok (.stack p, L0)) : liveindex L idx := by
  unfold index2adr at h
  unfold liveindex lua_gettop
  by_cases c1 : idx > 0
  · rw [if_pos c1] at h
    by_cases ca : idx ≤ (L.ci.top : Int) - L.base
    · rw [api_check_pos _ ca] at h
      simp only [bind, Except.bind, pure, Except.pure] at h
      split_ifs at h with c
      · cases h
      · left
        omega
    · rw [api_check_neg _ ca] at h
      cases h
  rw [if_neg c1] at h
  by_cases c2 : idx > LUA_REGISTRYINDEX
  · rw [if_pos c2] at h
    by_cases ca : idx ≠ 0 ∧ -idx ≤ (L.top : Int) - L.base
    · right
      omega
    · rw [api_check_neg _ ca] at h
      cases h
  rw [if_neg c2] at h
  by_cases c3 : idx = LUA_REGISTRYINDEX
  · rw [if_pos c3] at h
    cases h
  rw [if_neg c3] at h
  by_cases c4 : idx = LUA_ENVIRONINDEX
  · rw [if_pos c4] at h
    cases hc : curr_func L with
    | error e => rw [hc] at h; cases h
    | ok f =>
      rw [hc] at h
      cases h
  rw [if_neg c4] at h
  by_cases c5 : idx = LUA_GLOBALSINDEX
  · rw [if_pos c5] at h
    cases h
  rw [if_neg c5] at h
  cases hc : curr_func L with
  | error e => rw [hc] at h; cases h
  | ok f =>
    rw [hc] at h
    simp only [bind, Except.bind, pure, Except.pure] at h
    split_ifs at h <;> cases h

/-- A live index is a valid stack index for a position of the frame. -/
theorem liveindex_position (L : lua_State) (idx : Int) (h : liveindex L idx) :
    ∃ p, StackIndex L idx p := by
  unfold liveindex at h
  rcases h with ⟨h1, h2⟩ | ⟨h1, h2, h3⟩
  · refine ⟨idx.toNat, ?_, ?_, Or.inl ?_⟩ <;> omega
  · refine ⟨(lua_gettop L + idx + 1).toNat, ?_, ?_, Or.inr ⟨?_, h1⟩⟩ <;> omega

/-- A call of `lua_remove` that returns was made at a live index. -/
theorem lua_remove_live (L L1 : lua_State) (idx : Int) (h : lua_remove L idx = .ok L1) :
    liveindex L idx := by
  unfold lua_remove at h
  obtain ⟨r, hr, h⟩ := bind_ok_inv _ _ _ h
  obtain ⟨u, hu, h⟩ := bind_ok_inv _ _ _ h
  obtain ⟨a, L0⟩ := r
  cases a with
  | stack p => exact index2adr_stack_live _ _ _ _ hr
  | nilobject => cases h
  | registry => cases h
  | env => cases h
  | gt => cases h
  | upvalue p i => cases h

/-- A call of `lua_insert` that returns was made at a live index. -/
theorem lua_insert_live (L L1 : lua_State) (idx : Int) (h : lua_insert L idx = .ok L1) :
    liveindex L idx := by
  unfold lua_insert at h
  obtain ⟨r, hr, h⟩ := bind_ok_inv _ _ _ h
  obtain ⟨u, hu, h⟩ := bind_ok_inv _ _ _ h
  obtain ⟨a, L0⟩ := r
  cases a with
  | stack p => exact index2adr_stack_live _ _ _ _ hr
  | nilobject => cases h
  | registry => cases h
  | env => cases h
  | gt => cases h
  | upvalue p i => cases h

/-- The function `lua_pushvalue` at a stack index returns when its `api_check`
conditions hold. -/
theorem lua_pushvalue_total (L : lua_State) (hinv : StackInv L) (idx : Int)
    (hroom : L.top < L.ci.top)
    (h : (0 < idx ∧ idx ≤ (L.ci.top : Int) - L.base) ∨
      (LUA_REGISTRYINDEX < idx ∧ idx < 0 ∧ -idx ≤ (L.top : Int) - L.base)) :
    ∃ L1, lua_pushvalue L idx = .ok L1 := by
  have h1 := hinv.base_top
  have h2 := hinv.top_ci
  have h3 := hinv.ci_last
  have h4 := hinv.last_size
  have h5 := hinv.size
  have fin : ∀ v : TValue, ∃ L1,
      (setobj L (.stack L.top) v).bind api_incr_top = .ok L1 := by
    intro v
    rw [setobj_stack L L.top v (by omega)]
    refine ⟨{ L with stack := L.stack.set L.top v, top := L.top + 1 }, ?_⟩
    show api_incr_top _ = _
    unfold api_incr_top
    rw [api_check_pos _ (by exact hroom)]
    rfl
  unfold lua_pushvalue
  rcases h with ⟨a, b⟩ | ⟨a, b, c⟩
  · rw [index2adr_pos L idx a b]
    by_cases c : (L.base : Int) + (idx - 1) ≥ (L.top : Int)
    · rw [if_pos c]
      exact fin .nil
    · rw [if_neg c]
      have g := getobj_stack_lt L ((L.base : Int) + (idx - 1)).toNat (by omega)
      obtain ⟨L1, e⟩ := fin (L.stack.get ⟨((L.base : Int) + (idx - 1)).toNat, by omega⟩)
      refine ⟨L1, ?_⟩
      simp only [bind, Except.bind, g]
      exact e
  · rw [index2adr_neg L idx b a c]
    have g := getobj_stack_lt L ((L.top : Int) + idx).toNat (by omega)
    obtain ⟨L1, e⟩ := fin (L.stack.get ⟨((L.top : Int) + idx).toNat, by omega⟩)
    refine ⟨L1, ?_⟩
    simp only [bind, Except.bind, g]
    exact e

/-- A call of the stack API at a stack index returns when its `api_check` conditions
hold. -/
theorem stackop_total (L : lua_State) (hinv : StackInv L) (op : StackOp)
    (h : StackOp.checks L op) : ∃ L1, StackOp.run L op = .ok L1 := by
  have h1 := hinv.base_top
  cases op with
  | settop idx =>
    rcases h with ⟨a, b⟩ | ⟨a, b⟩
    · obtain ⟨S, e, _⟩ := lua_settop_nonneg L hinv idx.toNat (by omega)
      have hcast : ((idx.toNat : Nat) : Int) = idx := by omega
      rw [hcast] at e
      exact ⟨_, e⟩
    · exact ⟨_, lua_settop_neg L idx a b⟩
  | pushvalue idx => exact lua_pushvalue_total L hinv idx h.1 h.2
  | pusharg a => exact ⟨_, push_spec L hinv h a⟩
  | remove idx =>
    obtain ⟨p, hp⟩ := liveindex_position L idx h
    obtain ⟨S, e, _⟩ := lua_remove_spec L hinv idx p hp
    exact ⟨_, e⟩
  | insert idx =>
    obtain ⟨p, hp⟩ := liveindex_position L idx h
    obtain ⟨S, e, _⟩ := lua_insert_spec L hinv idx p hp
    exact ⟨_, e⟩
  | replace idx =>
    obtain ⟨p, hp⟩ := liveindex_position L idx h
    obtain ⟨v, _, e⟩ := lua_replace_spec L hinv idx p hp
    exact ⟨_, e⟩

/-! ## Lemmas: tables with dead keys -/

theorem length_markdead (dead : Nat → Bool) (t : Table) :
    (markdead dead t).node.length = t.node.length := by
  simp [markdead]

theorem gnode_ge (t : Table) (i : Nat) (h : t.node.length ≤ i) : gnode t i = dummynode_ := by
  unfold gnode
  rw [List.getD_eq_getElem?_getD, List.getElem?_eq_none h]
  rfl

theorem gnode_markdead (dead : Nat → Bool) (t : Table) (i : Nat) :
    gnode (markdead dead t) i =
      if dead i && iscollectable (gnode t i).i_key then deadnode (gnode t i)
      else gnode t i := by
  by_cases hi : i < t.node.length
  · show (markdead dead t).node.getD i dummynode_ = _
    simp only [markdead, List.getD_eq_getElem?_getD]
    rw [List.getElem?_map, List.getElem?_range hi]
    rfl
  · rw [gnode_ge _ i (by rw [length_markdead]; omega), gnode_ge t i (by omega)]
    have : iscollectable dummynode_.i_key = false := by decide
    rw [this, Bool.and_false]
    rfl

theorem next_markdead (dead : Nat → Bool) (t : Table) (i : Nat) :
    (gnode (markdead dead t) i).next = (gnode t i).next := by
  rw [gnode_markdead]
  split_ifs <;> rfl

theorem reaches_markdead (dead : Nat → Bool) (t : Table) (a b : Nat) :
    Reaches (markdead dead t) a b ↔ Reaches t a b :=
  ⟨reaches_congr _ t (fun i => (next_markdead dead t i).symm) a b,
    reaches_congr t _ (fun i => next_markdead dead t i) a b⟩

theorem mainposition_markdead (dead : Nat → Bool) (t : Table) (k : TValue) :
    mainposition (markdead dead t) k = mainposition t k :=
  mainposition_lsize t _ rfl k

/-- A chain without cycles is searched to its end within the budget. -/
theorem chainfind_complete_links (t : Table)
    (hlt : ∀ i j, i < t.node.length → (gnode t i).next = some j → j < t.node.length)
    (hrk : ∃ r : Nat → Nat, ∀ i j, i < t.node.length → (gnode t i).next = some j → r j < r i)
    (p : Node → Bool) (a i : Nat)
    (ha : a < t.node.length) (h : Reaches t a i) (hp : p (gnode t i) = true) :
    ∃ j, chainfind t p t.node.length a = .node j := by
  obtain ⟨r0, hr0⟩ := hrk
  obtain ⟨r, hb, hr⟩ := exists_bounded_rank t.node.length (fun i => (gnode t i).next) r0 hlt hr0
  have key : ∀ (a i : Nat), Reaches t a i → p (gnode t i) = true → ∀ f,
      a < t.node.length → r a < f → ∃ j, chainfind t p f a = .node j := by
    intro a i h
    induction h with
    | refl a =>
      intro hp f _ hf
      cases f with
      | zero => omega
      | succ f => exact ⟨a, by unfold chainfind; rw [if_pos hp]⟩
    | step a b c hn _ ih =>
      intro hp f ha hf
      cases f with
      | zero => omega
      | succ f =>
        unfold chainfind
        by_cases hpa : p (gnode t a) = true
        · exact ⟨a, by rw [if_pos hpa]⟩
        · rw [if_neg hpa, hn]
          exact ih hp f (hlt a b ha hn) (by have := hr a b ha hn; omega)
  exact key a i h hp _ ha (hb a ha)

/-- The function `luaH_next` raises the errors of `findindex` and no other. -/
theorem luaH_next_error (t : Table) (k : TValue) (e : LuaError) :
    luaH_next t k = .error e ↔ findindex t k = .error e := by
  unfold luaH_next
  cases findindex t k with
  | error x => exact ⟨fun h => by cases h; rfl, fun h => by cases h; rfl⟩
  | ok i0 =>
    simp only
    constructor
    · intro h
      split at h
      · cases h
      · split at h <;> cases h
    · intro h
      cases h

/-- The function `findindex` raises `invalid key to next`, exactly when the key is not
nil, is no index of the array part and the search of its chain fails. -/
theorem findindex_error (t : Table) (k : TValue) :
    (∀ e, findindex t k = .error e → e = .invalid_key_to_next) ∧
    ((∃ e, findindex t k = .error e) ↔
      (k ≠ .nil ∧ ¬ (0 < arrayindex k ∧ arrayindex k ≤ (t.sizearray : Int)) ∧
        ∀ j, chainfind t (fun n => luaO_rawequalObj n.i_key k ||
          (ttype n.i_key == LUA_TDEADKEY && iscollectable k &&
            gcvalue n.i_key == gcvalue k)) t.node.length (mainposition t k) ≠ .node j)) := by
  unfold findindex
  by_cases hk : k = .nil
  · subst hk
    refine ⟨(fun e h => by cases h), ⟨fun h => ?_, fun h => absurd rfl h.1⟩⟩
    obtain ⟨e, h⟩ := h
    cases h
  rw [(ttisnil_false_iff k).2 hk]
  simp only [Bool.false_eq_true, if_false]
  by_cases hr : 0 < arrayindex k ∧ arrayindex k ≤ (t.sizearray : Int)
  · rw [if_pos hr]
    refine ⟨(fun e h => by cases h), ⟨fun h => ?_, fun h => absurd hr h.2.1⟩⟩
    obtain ⟨e, h⟩ := h
    cases h
  rw [if_neg hr]
  cases hc : chainfind t (fun n => luaO_rawequalObj n.i_key k ||
      (ttype n.i_key == LUA_TDEADKEY && iscollectable k &&
        gcvalue n.i_key == gcvalue k)) t.node.length (mainposition t k) with
  | node n =>
    refine ⟨(fun e h => by cases h), ⟨fun h => ?_, fun h => absurd rfl (h.2.2 n)⟩⟩
    obtain ⟨e, h⟩ := h
    cases h
  | arr i =>
    exact ⟨(fun e h => by cases h; rfl), ⟨(fun _ => ⟨hk, hr, fun j h => by cases h⟩),
      fun _ => ⟨_, rfl⟩⟩⟩
  | nilobject =>
    exact ⟨(fun e h => by cases h; rfl), ⟨(fun _ => ⟨hk, hr, fun j h => by cases h⟩),
      fun _ => ⟨_, rfl⟩⟩⟩

/-- In a table whose links stay inside the node vector and form no cycle, `luaH_next`
raises `invalid key to next`, exactly when the key is not nil, is no index of the array
part and no node of its chain holds a raw-equal key or a dead key of the same
object. -/
theorem luaH_next_links (t : Table) (hsz : t.node.length = 2 ^ t.lsizenode)
    (hlt : ∀ i j, i < t.node.length → (gnode t i).next = some j → j < t.node.length)
    (hrk : ∃ r : Nat → Nat, ∀ i j, i < t.node.length → (gnode t i).next = some j → r j < r i)
    (k : TValue) :
    (∀ e, luaH_next t k = .error e → e = .invalid_key_to_next) ∧
    ((∃ e, luaH_next t k = .error e) ↔
      (k ≠ .nil ∧ ¬ (0 < arrayindex k ∧ arrayindex k ≤ (t.sizearray : Int)) ∧
        ∀ j, Reaches t (mainposition t k) j →
          (luaO_rawequalObj (gnode t j).i_key k ||
            (ttype (gnode t j).i_key == LUA_TDEADKEY && iscollectable k &&
              gcvalue (gnode t j).i_key == gcvalue k)) = false)) := by
  obtain ⟨f1, f2⟩ := findindex_error t k
  refine ⟨fun e h => f1 e ((luaH_next_error t k e).1 h), ?_⟩
  have hx : (∃ e, luaH_next t k = .error e) ↔ ∃ e, findindex t k = .error e :=
    ⟨fun ⟨e, h⟩ => ⟨e, (luaH_next_error t k e).1 h⟩,
      fun ⟨e, h⟩ => ⟨e, (luaH_next_error t k e).2 h⟩⟩
  rw [hx, f2]
  constructor
  · rintro ⟨h1, h2, h3⟩
    refine ⟨h1, h2, fun j hj => ?_⟩
    cases hp : (luaO_rawequalObj (gnode t j).i_key k ||
        (ttype (gnode t j).i_key == LUA_TDEADKEY && iscollectable k &&
          gcvalue (gnode t j).i_key == gcvalue k))
    · rfl
    · obtain ⟨j', hj'⟩ := chainfind_complete_links t hlt hrk (fun n => luaO_rawequalObj n.i_key k ||
          (ttype n.i_key == LUA_TDEADKEY && iscollectable k &&
            gcvalue n.i_key == gcvalue k)) (mainposition t k) j
          (mainposition_lt_length t hsz k) hj hp
      exact absurd hj' (h3 j')
  · rintro ⟨h1, h2, h3⟩
    refine ⟨h1, h2, fun j hj => ?_⟩
    obtain ⟨p1, p2⟩ := chainfind_node t _ _ _ _ hj
    have q : (luaO_rawequalObj (gnode t j).i_key k ||
        (ttype (gnode t j).i_key == LUA_TDEADKEY && iscollectable k &&
          gcvalue (gnode t j).i_key == gcvalue k)) = true := p1
    rw [h3 j p2] at q
    cases q

/-- A key that a node of a well-formed table holds is found by `findindex` after the
collector marked keys dead: by raw equality, or through the dead key of its node. -/
theorem luaH_next_markdead_held (t : Table) (hw : WFcore t) (dead : Nat → Bool) (i : Nat)
    (hi : i < t.node.length) (hk : (gnode t i).i_key ≠ .nil) :
    ∃ r, luaH_next (markdead dead t) (gnode t i).i_key = .ok r := by
  have hl := length_markdead dead t
  obtain ⟨_, f2⟩ := luaH_next_links (markdead dead t) (by rw [hl]; exact hw.size)
    (fun a b ha hn => by
      rw [hl] at ha ⊢
      rw [next_markdead] at hn
      exact (hw.next_lt a b ha hn).1)
    (by
      obtain ⟨r, hr⟩ := hw.rank
      exact ⟨r, fun a b ha hn => by
        rw [hl] at ha
        rw [next_markdead] at hn
        exact hr a b ha hn⟩)
    (gnode t i).i_key
  cases hn : luaH_next (markdead dead t) (gnode t i).i_key with
  | ok r => exact ⟨r, rfl⟩
  | error e =>
    exfalso
    obtain ⟨_, _, h3⟩ := f2.1 ⟨e, hn⟩
    have hr := (reaches_markdead dead t _ _).2 (hw.reach i hi hk)
    rw [← mainposition_markdead dead t] at hr
    have := h3 i hr
    rw [gnode_markdead] at this
    by_cases c : (dead i && iscollectable (gnode t i).i_key) = true
    · rw [if_pos c] at this
      have hc : iscollectable (gnode t i).i_key = true := by
        cases hd : dead i
        · rw [hd] at c; cases c
        · rw [hd] at c; simpa using c
      simp [deadnode, ttype, GCTag.tag, LUA_TDEADKEY, gcvalue, hc] at this
    · rw [if_neg c] at this
      rw [hw.keyok i hi hk] at this
      cases this

/-! ## Lemmas: an array part beyond `MAXASIZE` -/

theorem reach_ex0 : Reach ex0 := Reach.new 0 0 ex0 (by decide) rfl

theorem reach_put (t : Table) (k v : TValue) (h : Reach t) (hd : ttype k ≠ LUA_TDEADKEY)
    (hok : (luaH_set 1 t k).isOk = true) : Reach (put t k v) := by
  unfold put
  cases e : luaH_set 1 t k with
  | error x => rw [e] at hok; cases hok
  | ok r => exact Reach.set 1 t k r.1 r.2 v h hd e

/-- C3 (a fresh table has no bindings): for all sizes `narray` and `nhash` and every
key `k`, nil included, `luaH_new(narray, nhash)` returns a table in which
`luaH_get` points to nil for `k`, and with `nhash = 0` the hash part is the shared
`dummynode`, in which the search for a key finds nothing; the only other outcome
is the error `table overflow` for a hash size beyond `2^MAXBITS`. -/
theorem C3_fresh_table_empty (narray nhash : Nat) (k : TValue) :
    (∃ t, luaH_new narray nhash = .ok t ∧ slotval t (luaH_get t k) = .nil ∧
      (nhash = 0 → t.isdummy = true ∧ t.node = [dummynode_] ∧
        (k ≠ .nil → hfind t k = .nilobject))) ∨
    (nhash ≠ 0 ∧ MAXBITS < ceillog2 nhash ∧
      ∃ tb, luaH_new narray nhash = .error (.table_overflow, tb)) := by
  rcases luaH_new_spec narray nhash with h | ⟨t, h1, h2, h3, _, _, _, _, h8, _, _, _, h12, _⟩
  · right; exact h
  · left
    have hnode : ∀ j, (gnode t j).i_val = .nil := fun j => by rw [h2 j]; rfl
    have hslot : ∀ s, slotval t s = .nil := by
      intro s
      cases s with
      | arr i => exact h3 i
      | node j => exact hnode j
      | nilobject => rfl
    refine ⟨t, h1, hslot _, fun h0 => ⟨h12.2 h0, h8 (h12.2 h0), fun hk => ?_⟩⟩
    unfold hfind
    exact chainfind_none t _ (fun i => by
      rw [h2 i]
      exact Bool.eq_false_iff.2 (fun e => hk (rawequal_nil_left k e))) _ _

/-- C4 (`luaH_set` rejects nil and NaN): on a table reached from `luaH_new`, `luaH_set`
raises `table index is nil` exactly for the nil key and `table index is NaN`
exactly for a NaN key; the table that the error leaves behind is the old one with
`flags` reset, so sizes, array cells, nodes, keys, values and links are as before;
and no node of a reached table holds a NaN key, nor a nil key with a value or a
link. -/
theorem C4_set_rejects_nil_nan (t : Table) (ht : Reach t) (k : TValue)
    (hd : ttype k ≠ LUA_TDEADKEY) (fuel : Nat) :
    ((∃ tb, luaH_set (fuel + 1) t k = .error (.table_index_is_nil, tb)) ↔ k = .nil) ∧
    ((∃ tb, luaH_set (fuel + 1) t k = .error (.table_index_is_NaN, tb)) ↔
      ∃ n, k = .number n ∧ luai_numisnan n = true) ∧
    (∀ e tb, luaH_set (fuel + 1) t k = .error (e, tb) →
      e = .table_index_is_nil ∨ e = .table_index_is_NaN → tb = { t with flags := 0 }) ∧
    (∀ i, i < t.node.length → isnankey (gnode t i).i_key = false ∧
      ((gnode t i).i_key = .nil → (gnode t i).i_val = .nil ∧ (gnode t i).next = none)) := by
  have hw := reach_wf t ht
  have hinv := luaH_set_invalid (fuel + 1) t k
  have hvalid : k ≠ .nil → isnankey k = false → ∀ e tb,
      luaH_set (fuel + 1) t k = .error (e, tb) → e = .table_overflow := by
    intro h1 h2 e tb h
    rcases luaH_set_total fuel t hw k (validkey_of k h1 h2 hd) with ⟨_, tb', h3⟩ | ⟨s, t', h3, _⟩
    · rw [h3] at h
      cases h
      rfl
    · rw [h3] at h
      cases h
  have hcase : ∀ e tb, luaH_set (fuel + 1) t k = .error (e, tb) →
      (k = .nil ∧ e = .table_index_is_nil ∧ tb = { t with flags := 0 }) ∨
      (isnankey k = true ∧ e = .table_index_is_NaN ∧ tb = { t with flags := 0 }) ∨
      (k ≠ .nil ∧ isnankey k = false ∧ e = .table_overflow) := by
    intro e tb h
    by_cases h1 : k = .nil
    · left
      rw [hinv.1 h1] at h
      cases h
      exact ⟨h1, rfl, rfl⟩
    · cases h2 : isnankey k
      · right; right
        exact ⟨h1, rfl, hvalid h1 h2 e tb h⟩
      · right; left
        rw [hinv.2 h2] at h
        cases h
        exact ⟨rfl, rfl, rfl⟩
  refine ⟨⟨?_, fun h => ⟨_, hinv.1 h⟩⟩, ⟨?_, fun h => ⟨_, hinv.2 ((isnankey_iff k).2 h)⟩⟩, ?_, ?_⟩
  · rintro ⟨tb, h⟩
    rcases hcase _ _ h with ⟨h1, _, _⟩ | ⟨_, h2, _⟩ | ⟨_, _, h2⟩
    · exact h1
    · cases h2
    · cases h2
  · rintro ⟨tb, h⟩
    rcases hcase _ _ h with ⟨_, h2, _⟩ | ⟨h1, _, _⟩ | ⟨_, _, h2⟩
    · cases h2
    · exact (isnankey_iff k).1 h1
    · cases h2
  · intro e tb h he
    rcases hcase _ _ h with ⟨_, _, h3⟩ | ⟨_, _, h3⟩ | ⟨_, _, h2⟩
    · exact h3
    · exact h3
    · rcases he with he | he
      · rw [he] at h2; cases h2
      · rw [he] at h2; cases h2
  · intro i hi
    constructor
    · by_cases hk : (gnode t i).i_key = .nil
      · rw [hk]; rfl
      · cases e : isnankey (gnode t i).i_key
        · rfl
        · obtain ⟨n, h1, h2⟩ := (isnankey_iff _).1 e
          have := hw.keyok i hi hk
          rw [h1, rawequal_nan _ n h2] at this
          cases this
    · exact hw.free i hi

theorem reach_ex1235 : Reach ex1235 :=
  reach_put _ _ _ (reach_put _ _ _ (reach_put _ _ _ (reach_put _ _ _ reach_ex0
    (by decide) (by decide)) (by decide) (by decide)) (by decide) (by decide))
    (by decide) (by decide)

/-- Instance of C4 on the empty table and the nil key. -/
theorem C4_set_rejects_nil_nan_witness :
    Reach ex0 ∧
    luaH_set 1 ex0 .nil = .error (.table_index_is_nil, { ex0 with flags := 0 }) ∧
    (((∃ tb, luaH_set 1 ex0 .nil = .error (.table_index_is_nil, tb)) ↔ TValue.nil = .nil) ∧
    ((∃ tb, luaH_set 1 ex0 .nil = .error (.table_index_is_NaN, tb)) ↔
      ∃ n, TValue.nil = .number n ∧ luai_numisnan n = true) ∧
    (∀ e tb, luaH_set 1 ex0 .nil = .error (e, tb) →
      e = .table_index_is_nil ∨ e = .table_index_is_NaN → tb = { ex0 with flags := 0 }) ∧
    (∀ i, i < ex0.node.length → isnankey (gnode ex0 i).i_key = false ∧
      ((gnode ex0 i).i_key = .nil → (gnode ex0 i).i_val = .nil ∧ (gnode ex0 i).next = none))) :=
  ⟨reach_ex0, rfl, C4_set_rejects_nil_nan ex0 reach_ex0 .nil (by decide) 0⟩

/-- C5 (`luaH_getn` returns a border): for every table `t` reached from `luaH_new`,
`luaH_getn(t)` returns a number `n ≥ 0` such that either `n = 0` and `t[1]` is nil,
or `n ≥ 1`, `t[n]` is not nil and `t[n+1]` is nil, where `t[i]` is what
`luaH_getnum(t, i)` points to; this holds for the binary search in the array
part, for the full array part without hash part, and for `unbound_search`. -/
theorem C5_getn_border (t : Table) (ht : Reach t) :
    ∃ n : Nat, luaH_getn t = some n ∧
      ((n = 0 ∧ slotval t (luaH_getnum t 1) = .nil) ∨
        (1 ≤ n ∧ slotval t (luaH_getnum t (n : Int)) ≠ .nil ∧
          slotval t (luaH_getnum t ((n : Int) + 1)) = .nil)) :=
  luaH_getn_spec t (reach_wf t ht)

/-- Instance of C5 with the tables of the specification: `{10, 20, 30, [5] = 50}` has
length 3 (of the borders 3 and 5), with `t[4] = 40` added the length is 5, and
with `t[3] = nil` after that it is 5 (of the borders 2 and 5); the empty table
has length 0. -/
theorem C5_getn_border_witness :
    Reach ex1235 ∧ luaH_getn ex0 = some 0 ∧ luaH_getn ex1235 = some 3 ∧
    luaH_getn (put ex1235 (num 4) (num 40)) = some 5 ∧
    luaH_getn (put (put ex1235 (num 4) (num 40)) (num 3) .nil) = some 5 ∧
    ∃ n : Nat, luaH_getn ex1235 = some n ∧
      ((n = 0 ∧ slotval ex1235 (luaH_getnum ex1235 1) = .nil) ∨
        (1 ≤ n ∧ slotval ex1235 (luaH_getnum ex1235 (n : Int)) ≠ .nil ∧
          slotval ex1235 (luaH_getnum ex1235 ((n : Int) + 1)) = .nil)) :=
  ⟨reach_ex1235, by decide, by decide, by decide, by decide, C5_getn_border ex1235 reach_ex1235⟩

/-- C6 (a full traversal visits every binding exactly once, in order): for every table
`t` reached from `luaH_new`, the traversal that starts `luaH_next` from nil and
feeds each returned key back ends within `sizearray + sizenode + 1` calls; the
pairs it returns are those of the array cells with a non-nil value by increasing
index, followed by those of the nodes with a non-nil value by increasing node
index; each pair is a binding of `t` with its current non-nil value, each binding
of `t` with a non-nil value is among the pairs, and no two pairs have raw-equal
keys. -/
theorem C6_traverse_once_in_order (t : Table) (ht : Reach t) (fuel : Nat)
    (hf : t.sizearray + t.node.length < fuel) :
    traverse t fuel .nil = .ok (arrayentries t ++ nodeentries t) ∧
    (∀ kv ∈ arrayentries t ++ nodeentries t,
      kv.2 ≠ .nil ∧ slotval t (luaH_get t kv.1) = kv.2) ∧
    (∀ k, slotval t (luaH_get t k) ≠ .nil →
      ∃ kv, kv ∈ arrayentries t ++ nodeentries t ∧ luaO_rawequalObj kv.1 k = true ∧
        kv.2 = slotval t (luaH_get t k)) ∧
    (arrayentries t ++ nodeentries t).Pairwise
      (fun a b => luaO_rawequalObj a.1 b.1 = false) := by
  have hw := (reach_wf t ht).toWFcore
  exact ⟨traverse_spec t hw fuel hf, fun kv h => entries_sound t hw kv h,
    fun k h => entries_complete t hw k h, entries_nodup t hw⟩

/-- C7 (value-only updates keep the traversal): for every table `t` reached from
`luaH_new` and every key `k` bound to a non-nil value, `luaH_set(t, k)` returns the
slot that `luaH_get(t, k)` finds and leaves the table as it is but for the `flags`
field (no size, node, key or link changes); and after a non-nil value is written
to that slot, a fresh full traversal returns the same keys in the same order. -/
theorem C7_update_keeps_traversal (t : Table) (ht : Reach t) (k : TValue)
    (hb : slotval t (luaH_get t k) ≠ .nil) (v : TValue) (hv : v ≠ .nil) (fuel n : Nat)
    (hn : t.sizearray + t.node.length < n) :
    luaH_set fuel t k = .ok (luaH_get t k, { t with flags := 0 }) ∧
    ∃ l l', traverse t n .nil = .ok l ∧
      traverse (setslot { t with flags := 0 } (luaH_get t k) v) n .nil = .ok l' ∧
      l'.map Prod.fst = l.map Prod.fst := by
  have hw := reach_wf t ht
  have hne : luaH_get t k ≠ .nilobject := by
    intro e
    rw [e] at hb
    exact hb rfl
  have hw0 := wf_flags t 0 hw
  have hok : SlotOk { t with flags := 0 } (luaH_get t k) := slotok_get t hw.toWFcore k hne
  constructor
  · unfold luaH_set luaH_set_with
    simp only [if_pos hne]
  · refine ⟨_, _, traverse_spec t hw.toWFcore n hn,
      traverse_spec _ (wf_setslot _ hw0 _ hok v).toWFcore n
        (by rw [sizearray_setslot, length_setslot]; exact hn), ?_⟩
    rw [entries_keys_setslot _ hw0.toWFcore _ hok hb v hv]
    rfl

/-- Instance of C6: the traversal of `{10, 20, 30, [5] = 50}` returns the keys 1, 2, 3 of
the array part and then key 5 of the hash part. -/
theorem C6_traverse_once_in_order_witness :
    Reach ex1235 ∧ ex1235.sizearray + ex1235.node.length < 20 ∧
    traverse ex1235 20 .nil =
      .ok [(num 1, num 10), (num 2, num 20), (num 3, num 30), (num 5, num 50)] ∧
    (traverse ex1235 20 .nil = .ok (arrayentries ex1235 ++ nodeentries ex1235) ∧
    (∀ kv ∈ arrayentries ex1235 ++ nodeentries ex1235,
      kv.2 ≠ .nil ∧ slotval ex1235 (luaH_get ex1235 kv.1) = kv.2) ∧
    (∀ k, slotval ex1235 (luaH_get ex1235 k) ≠ .nil →
      ∃ kv, kv ∈ arrayentries ex1235 ++ nodeentries ex1235 ∧
        luaO_rawequalObj kv.1 k = true ∧ kv.2 = slotval ex1235 (luaH_get ex1235 k)) ∧
    (arrayentries ex1235 ++ nodeentries ex1235).Pairwise
      (fun a b => luaO_rawequalObj a.1 b.1 = false)) :=
  ⟨reach_ex1235, by decide, rfl, C6_traverse_once_in_order ex1235 reach_ex1235 20 (by decide)⟩

/-- Instance of C7: in `{10, 20, 30, [5] = 50}` the value of key 5 is overwritten with
51; the traversal returns the keys 1, 2, 3, 5 before and after. -/
theorem C7_update_keeps_traversal_witness :
    Reach ex1235 ∧ slotval ex1235 (luaH_get ex1235 (num 5)) ≠ .nil ∧ num 51 ≠ .nil ∧
    ex1235.sizearray + ex1235.node.length < 20 ∧
    (luaH_set 1 ex1235 (num 5) = .ok (luaH_get ex1235 (num 5), { ex1235 with flags := 0 }) ∧
    ∃ l l', traverse ex1235 20 .nil = .ok l ∧
      traverse (setslot { ex1235 with flags := 0 } (luaH_get ex1235 (num 5)) (num 51)) 20 .nil =
        .ok l' ∧
      l'.map Prod.fst = l.map Prod.fst) :=
  ⟨reach_ex1235, by decide, by decide, by decide,
    C7_update_keeps_traversal ex1235 reach_ex1235 (num 5) (by decide) (num 51) (by decide) 1 20
      (by decide)⟩

/-! ## Claims on the stack API -/

theorem posval_live (L : lua_State) (hinv : StackInv L) (j : Nat) (h1 : 1 ≤ j)
    (h2 : (j : Int) ≤ lua_gettop L) : ∃ v, posval L j = some v := by
  have := hinv.top_ci
  have := hinv.ci_last
  unfold lua_gettop at h2
  exact posval_lt L hinv j h1 (by omega)

/-- C18 (`lua_remove`): in a thread state that satisfies the stack invariant, for a
valid stack index `idx` that names position `p` (`1 ≤ p ≤ gettop`, given as `p` or as
`p - gettop - 1`, the latter above `LUA_REGISTRYINDEX`), `lua_remove(L, idx)` returns, `lua_gettop` decreases by 1, the
values at positions `1..p-1` are unchanged, and for every `j` with
`p ≤ j < old gettop` the new value at `j` is the old value at `j+1`. -/
theorem C18_remove_shifts_down (L : lua_State) (hinv : StackInv L) (idx : Int) (p : Nat)
    (h : StackIndex L idx p) :
    ∃ L1, lua_remove L idx = .ok L1 ∧ lua_gettop L1 = lua_gettop L - 1 ∧
      (∀ j : Nat, 1 ≤ j → j < p → ∃ v, posval L j = some v ∧ posval L1 j = some v) ∧
      (∀ j : Nat, p ≤ j → (j : Int) < lua_gettop L →
        ∃ v, posval L (j + 1) = some v ∧ posval L1 j = some v) := by
  obtain ⟨b1, b2, b3⟩ := stackIndex_bounds L hinv idx p h
  obtain ⟨S, e1, e2, e3⟩ := lua_remove_spec L hinv idx p h
  obtain ⟨h1, h2, _⟩ := h
  refine ⟨_, e1, ?_, fun j j1 j2 => ?_, fun j j1 j2 => ?_⟩
  · unfold lua_gettop
    simp only
    omega
  · obtain ⟨v, hv⟩ := posval_live L hinv j j1 (by omega)
    refine ⟨v, hv, ?_⟩
    rw [← hv]
    show S[L.base + (j - 1)]? = _
    rw [e3, if_neg (by omega)]
    rfl
  · obtain ⟨v, hv⟩ := posval_live L hinv (j + 1) (by omega) (by push_cast; omega)
    refine ⟨v, hv, ?_⟩
    rw [← hv]
    show S[L.base + (j - 1)]? = _
    unfold lua_gettop at j2
    rw [e3, if_pos ⟨by omega, by omega⟩]
    show _ = L.stack[L.base + (j + 1 - 1)]?
    congr 1
    omega

/-- C19 (`lua_insert`): in a thread state that satisfies the stack invariant, for a
valid stack index `idx` that names position `p` (`1 ≤ p ≤ gettop`, given as `p` or as
`p - gettop - 1`, the latter above `LUA_REGISTRYINDEX`), `lua_insert(L, idx)` returns, `lua_gettop` is unchanged, the values at positions
`1..p-1` are unchanged, the new value at `p` is the old top value, and for every `j`
with `p < j ≤ gettop` the new value at `j` is the old value at `j-1`. -/
theorem C19_insert_rotates (L : lua_State) (hinv : StackInv L) (idx : Int) (p : Nat)
    (h : StackIndex L idx p) :
    ∃ L1, lua_insert L idx = .ok L1 ∧ lua_gettop L1 = lua_gettop L ∧
      (∀ j : Nat, 1 ≤ j → j < p → ∃ v, posval L j = some v ∧ posval L1 j = some v) ∧
      (∃ v, posval L (lua_gettop L).toNat = some v ∧ posval L1 p = some v) ∧
      (∀ j : Nat, p < j → (j : Int) ≤ lua_gettop L →
        ∃ v, posval L (j - 1) = some v ∧ posval L1 j = some v) := by
  obtain ⟨b1, b2, b3⟩ := stackIndex_bounds L hinv idx p h
  obtain ⟨S, e1, e2, e3⟩ := lua_insert_spec L hinv idx p h
  obtain ⟨h1, h2, _⟩ := h
  have hg : (lua_gettop L).toNat = L.top - L.base := by unfold lua_gettop; omega
  refine ⟨_, e1, rfl, fun j j1 j2 => ?_, ?_, fun j j1 j2 => ?_⟩
  · obtain ⟨v, hv⟩ := posval_live L hinv j j1 (by omega)
    refine ⟨v, hv, ?_⟩
    rw [← hv]
    show S[L.base + (j - 1)]? = _
    rw [e3, if_neg (by omega), if_neg (by omega)]
    rfl
  · obtain ⟨v, hv⟩ := posval_live L hinv (lua_gettop L).toNat (by omega)
      (by unfold lua_gettop; omega)
    refine ⟨v, hv, ?_⟩
    rw [← hv]
    show S[L.base + (p - 1)]? = L.stack[L.base + ((lua_gettop L).toNat - 1)]?
    rw [e3, if_pos rfl, hg]
    congr 1
    omega
  · unfold lua_gettop at j2
    obtain ⟨v, hv⟩ := posval_live L hinv (j - 1) (by omega) (by unfold lua_gettop; omega)
    refine ⟨v, hv, ?_⟩
    rw [← hv]
    show S[L.base + (j - 1)]? = L.stack[L.base + (j - 1 - 1)]?
    rw [e3, if_neg (by omega), if_pos ⟨by omega, by omega⟩]
    congr 1
    omega

/-- C20 (`lua_replace`): in a thread state that satisfies the stack invariant, for a
valid stack index `idx` that names position `p` (`1 ≤ p ≤ gettop`, given as `p` or as
`p - gettop - 1`, the latter above `LUA_REGISTRYINDEX`), `lua_replace(L, idx)` returns, `lua_gettop` decreases by 1, every position other than
`p` among `1..gettop-1` is unchanged, and if `p < old gettop` the new value at `p` is
the old top value (when `p` is the top the call only pops: no position below it
changes). -/
theorem C20_replace_overwrites (L : lua_State) (hinv : StackInv L) (idx : Int) (p : Nat)
    (h : StackIndex L idx p) :
    ∃ L1, lua_replace L idx = .ok L1 ∧ lua_gettop L1 = lua_gettop L - 1 ∧
      (∀ j : Nat, 1 ≤ j → (j : Int) ≤ lua_gettop L - 1 → j ≠ p →
        ∃ v, posval L j = some v ∧ posval L1 j = some v) ∧
      ((p : Int) < lua_gettop L →
        ∃ v, posval L (lua_gettop L).toNat = some v ∧ posval L1 p = some v) := by
  obtain ⟨b1, b2, b3⟩ := stackIndex_bounds L hinv idx p h
  obtain ⟨w, hw, e1⟩ := lua_replace_spec L hinv idx p h
  obtain ⟨h1, h2, _⟩ := h
  have hg : (lua_gettop L).toNat = L.top - L.base := by unfold lua_gettop; omega
  have hs := hinv.size
  refine ⟨_, e1, ?_, fun j j1 j2 j3 => ?_, fun hp => ?_⟩
  · unfold lua_gettop
    simp only
    omega
  · obtain ⟨v, hv⟩ := posval_live L hinv j j1 (by omega)
    refine ⟨v, hv, ?_⟩
    rw [← hv]
    show (L.stack.set (L.base + (p - 1)) w)[L.base + (j - 1)]? = _
    rw [List.getElem?_set, if_neg (by omega)]
    rfl
  · obtain ⟨v, hv⟩ := posval_live L hinv (lua_gettop L).toNat (by omega)
      (by unfold lua_gettop; omega)
    refine ⟨v, hv, ?_⟩
    rw [← hv]
    show (L.stack.set (L.base + (p - 1)) w)[L.base + (p - 1)]? =
      L.stack[L.base + ((lua_gettop L).toNat - 1)]?
    rw [List.getElem?_set, if_pos rfl, if_pos (by omega), ← hw, hg]
    congr 1
    omega

/-- C17 (`lua_settop`): in a thread state that satisfies the stack invariant, for
`n ≥ 0` within the `api_check` bound `n ≤ stack_last - base`, `lua_settop(L, n)`
returns, `lua_gettop` is `n`, the values at positions `1..min(old gettop, n)` are
unchanged and every position in `old gettop+1..n` holds nil; for `idx < 0` with
`-(idx+1) ≤ gettop`, `lua_gettop` becomes `old gettop + idx + 1` and the remaining
values are unchanged; `lua_settop(L, -1)` changes nothing and `lua_settop(L, 0)`
empties the frame. -/
theorem C17_settop_sets_top (L : lua_State) (hinv : StackInv L) :
    (∀ n : Nat, (n : Int) ≤ (L.stack_last : Int) - L.base →
      ∃ L1, lua_settop L n = .ok L1 ∧ lua_gettop L1 = n ∧
        (∀ j : Nat, 1 ≤ j → j ≤ n → (j : Int) ≤ lua_gettop L →
          ∃ v, posval L j = some v ∧ posval L1 j = some v) ∧
        (∀ j : Nat, lua_gettop L < (j : Int) → j ≤ n → posval L1 j = some .nil)) ∧
    (∀ idx : Int, idx < 0 → -(idx + 1) ≤ lua_gettop L →
      ∃ L1, lua_settop L idx = .ok L1 ∧ lua_gettop L1 = lua_gettop L + idx + 1 ∧
        ∀ j : Nat, 1 ≤ j → (j : Int) ≤ lua_gettop L + idx + 1 →
          ∃ v, posval L j = some v ∧ posval L1 j = some v) ∧
    lua_settop L (-1) = .ok L ∧
    ∃ L1, lua_settop L 0 = .ok L1 ∧ lua_gettop L1 = 0 := by
  have hb := hinv.base_top
  have pos : ∀ n : Nat, (n : Int) ≤ (L.stack_last : Int) - L.base →
      ∃ L1, lua_settop L n = .ok L1 ∧ lua_gettop L1 = n ∧
        (∀ j : Nat, 1 ≤ j → j ≤ n → (j : Int) ≤ lua_gettop L →
          ∃ v, posval L j = some v ∧ posval L1 j = some v) ∧
        (∀ j : Nat, lua_gettop L < (j : Int) → j ≤ n → posval L1 j = some .nil) := by
    intro n hn
    obtain ⟨S, e1, e2, e3⟩ := lua_settop_nonneg L hinv n (by omega)
    refine ⟨_, e1, ?_, fun j j1 j2 j3 => ?_, fun j j1 j2 => ?_⟩
    · unfold lua_gettop
      simp only
      omega
    · obtain ⟨v, hv⟩ := posval_live L hinv j j1 j3
      refine ⟨v, hv, ?_⟩
      rw [← hv]
      show S[L.base + (j - 1)]? = _
      unfold lua_gettop at j3
      rw [e3, if_neg (by omega)]
      rfl
    · show S[L.base + (j - 1)]? = _
      unfold lua_gettop at j1
      rw [e3, if_pos ⟨by omega, by omega⟩]
  refine ⟨pos, fun idx i1 i2 => ?_, ?_, ?_⟩
  · unfold lua_gettop at i2
    refine ⟨_, lua_settop_neg L idx i1 i2, ?_, fun j j1 j2 => ?_⟩
    · unfold lua_gettop
      simp only
      omega
    · obtain ⟨v, hv⟩ := posval_live L hinv j j1 (by omega)
      exact ⟨v, hv, hv⟩
  · rw [lua_settop_neg L (-1) (by omega) (by omega)]
    simp
  · obtain ⟨L1, e1, e2, _⟩ := pos 0 (by have := hinv.top_ci; have := hinv.ci_last; omega)
    exact ⟨L1, e1, e2⟩

/-- C12 (`lua_checkstack` and the cap): `lua_checkstack(L, n)` reports failure (result 0)
if and only if `n > LUAI_MAXCSTACK` or `gettop + n > LUAI_MAXCSTACK`; in that case the
thread state is the one before the call; the result is 0 or 1. -/
theorem C12_checkstack_fails_iff (L : lua_State) (n : Int) :
    ((lua_checkstack L n).1 = 0 ↔ (n > LUAI_MAXCSTACK ∨ lua_gettop L + n > LUAI_MAXCSTACK)) ∧
    ((lua_checkstack L n).1 = 0 → (lua_checkstack L n).2 = L) ∧
    ((lua_checkstack L n).1 = 0 ∨ (lua_checkstack L n).1 = 1) := by
  unfold lua_checkstack lua_gettop
  by_cases c : n > LUAI_MAXCSTACK ∨ (L.top : Int) - L.base + n > LUAI_MAXCSTACK
  · rw [if_pos c]
    simp [c]
  · rw [if_neg c]
    by_cases d : n > 0
    · rw [if_pos d]
      simp only
      split_ifs <;> simp [c]
    · rw [if_neg d]
      simp [c]

/-- C11 (`lua_checkstack` reserves room), with the case `n ≤ 0` as the code has it: in a
thread state that satisfies the stack invariant, if `lua_checkstack(L, n)` returns 1
with `n > 0` then afterwards `stacksize - (top - stack) ≥ n` and `ci.top - top ≥ n`,
`ci.top` has not been lowered, `lua_gettop` and the values at positions `1..gettop`
are those before the call, and the stack invariant holds; with `n ≤ 0` the call
changes nothing, and it returns 1 exactly when `gettop + n ≤ LUAI_MAXCSTACK`
(and 0 otherwise). -/
theorem C11_checkstack_reserves (L : lua_State) (hinv : StackInv L) (n : Int) :
    (0 < n → (lua_checkstack L n).1 = 1 →
      ((lua_checkstack L n).2.stacksize : Int) - (lua_checkstack L n).2.top ≥ n ∧
      ((lua_checkstack L n).2.ci.top : Int) - (lua_checkstack L n).2.top ≥ n ∧
      L.ci.top ≤ (lua_checkstack L n).2.ci.top ∧
      lua_gettop (lua_checkstack L n).2 = lua_gettop L ∧
      (∀ j : Nat, 1 ≤ j → (j : Int) ≤ lua_gettop L →
        ∃ v, posval L j = some v ∧ posval (lua_checkstack L n).2 j = some v) ∧
      StackInv (lua_checkstack L n).2) ∧
    (n ≤ 0 → (lua_checkstack L n).2 = L ∧
      ((lua_checkstack L n).1 = 1 ↔ lua_gettop L + n ≤ LUAI_MAXCSTACK) ∧
      ((lua_checkstack L n).1 = 0 ↔ lua_gettop L + n > LUAI_MAXCSTACK)) := by
  constructor
  · intro h0 h1
    have hc : ¬ (n > LUAI_MAXCSTACK ∨ (L.top : Int) - L.base + n > LUAI_MAXCSTACK) := by
      intro c
      unfold lua_checkstack at h1
      rw [if_pos c] at h1
      cases h1
    obtain ⟨m, rfl⟩ : ∃ m : Nat, n = m := ⟨n.toNat, by omega⟩
    obtain ⟨k, last, e, a1, a2, a3⟩ := lua_checkstack_spec L hinv m (by omega) (by omega)
      (by omega)
    rw [e]
    have hb := hinv.base_top
    have ht := hinv.top_ci
    have hl := hinv.ci_last
    have hs := hinv.size
    have hz := hinv.last_size
    refine ⟨?_, ?_, ?_, rfl, fun j j1 j2 => ?_, ?_⟩
    · simp only; omega
    · simp only; omega
    · simp only; omega
    · obtain ⟨v, hv⟩ := posval_live L hinv j j1 j2
      refine ⟨v, hv, ?_⟩
      rw [← hv]
      unfold lua_gettop at j2
      show (L.stack ++ List.replicate k TValue.nil)[L.base + (j - 1)]? = _
      rw [List.getElem?_append_left (by omega)]
      rfl
    · refine ⟨hb, ?_, ?_, ?_, ?_⟩
      · simp only; omega
      · simp only; omega
      · simp only; omega
      · simp only [List.length_append, List.length_replicate]; omega
  · intro h0
    unfold lua_checkstack lua_gettop
    have hm : (0 : Int) ≤ LUAI_MAXCSTACK := by decide
    by_cases c : n > LUAI_MAXCSTACK ∨ (L.top : Int) - L.base + n > LUAI_MAXCSTACK
    · rw [if_pos c]
      refine ⟨rfl, ?_, ?_⟩
      · simp only
        constructor
        · intro h; cases h
        · intro h; omega
      · simp only
        constructor
        · intro _; omega
        · intro _; trivial
    · rw [if_neg c, if_neg (by omega)]
      refine ⟨rfl, ?_, ?_⟩
      · simp only
        constructor
        · intro _; omega
        · intro _; trivial
      · simp only
        constructor
        · intro h; cases h
        · intro h; omega

/-- Counterexample to C11 as stated ("with `n ≤ 0` it returns 1"): in the frame of a C
function that was called with 10000 arguments the stack invariant holds, and
`lua_checkstack(L, 0)` returns 0, because `gettop + 0 > LUAI_MAXCSTACK`. -/
theorem C11_counterexample :
    StackInv exdeep ∧ lua_gettop exdeep = 10000 ∧ (0 : Int) ≤ 0 ∧
    lua_checkstack exdeep 0 = (0, exdeep) :=
  ⟨inv_exdeep, by decide, by decide, rfl⟩

/-- C13 (positive and negative indices), with the bound that the code needs: in a
thread state that satisfies the stack invariant, for every `i` with `1 ≤ i ≤ gettop`
the index `i` resolves to the stack slot `base + (i - 1)`, and so does the index
`i - gettop - 1` whenever it is above `LUA_REGISTRYINDEX` (fewer than
`-LUA_REGISTRYINDEX` values from `i` to the top); then, for `i = gettop`, the
indices `-1` and `gettop` both name the slot `top - 1`. -/
theorem C13_index_same_slot (L : lua_State) (hinv : StackInv L) (i : Nat) (h1 : 1 ≤ i)
    (h2 : (i : Int) ≤ lua_gettop L) :
    index2adr L i = .ok (.stack (L.base + (i - 1)), L) ∧
    (LUA_REGISTRYINDEX < (i : Int) - lua_gettop L - 1 →
      index2adr L ((i : Int) - lua_gettop L - 1) = .ok (.stack (L.base + (i - 1)), L)) ∧
    ((i : Int) = lua_gettop L →
      index2adr L (-1) = .ok (.stack (L.top - 1), L) ∧
      index2adr L (lua_gettop L) = .ok (.stack (L.top - 1), L)) := by
  have e1 := index2adr_index L hinv i i ⟨h1, h2, Or.inl rfl⟩
  refine ⟨e1, fun h3 => index2adr_index L hinv _ i ⟨h1, h2, Or.inr ⟨rfl, h3⟩⟩, fun h3 => ?_⟩
  have hb : L.base + (i - 1) = L.top - 1 := by
    unfold lua_gettop at h3
    omega
  rw [← h3, e1, hb]
  refine ⟨?_, rfl⟩
  have := index2adr_index L hinv (-1) i ⟨h1, h2, Or.inr ⟨by omega, by decide⟩⟩
  rw [this, hb]

/-- Counterexample to C13 as stated: in the frame of a C function that was called with
10000 arguments the stack invariant holds and `i = 1` is a live position, the index
`i` names the slot `base`, and the index `i - gettop - 1 = -10000` is
`LUA_REGISTRYINDEX`: it resolves to the registry, not to a stack slot. -/
theorem C13_counterexample :
    StackInv exdeep ∧ (1 : Int) ≤ lua_gettop exdeep ∧
    index2adr exdeep 1 = .ok (.stack (exdeep.base + (1 - 1)), exdeep) ∧
    index2adr exdeep (1 - lua_gettop exdeep - 1) = .ok (.registry, exdeep) :=
  ⟨inv_exdeep, by decide, rfl, rfl⟩

/-- C14 (reads above the top): in a thread state that satisfies the stack invariant, for
every `idx` with `gettop < idx ≤ ci.top - base`, `index2adr` returns `luaO_nilobject`,
`lua_type(L, idx)` is `LUA_TNONE`, `lua_toboolean(L, idx)` is 0, and
`lua_rawequal(L, idx, j)` is 0 for every acceptable index `j` (one that `index2adr`
resolves), whatever `j` holds; the state does not change but for what resolving `j`
does. -/
theorem C14_above_top_is_none (L : lua_State) (hinv : StackInv L) (idx : Int)
    (h1 : lua_gettop L < idx) (h2 : idx ≤ (L.ci.top : Int) - L.base) :
    index2adr L idx = .ok (.nilobject, L) ∧
    lua_type L idx = .ok (LUA_TNONE, L) ∧
    lua_toboolean L idx = .ok (0, L) ∧
    ∀ (j : Int) (r : Addr × lua_State), index2adr L j = .ok r →
      lua_rawequal L idx j = .ok (0, r.2) := by
  have hb := hinv.base_top
  unfold lua_gettop at h1
  have e : index2adr L idx = .ok (.nilobject, L) := by
    rw [index2adr_pos L idx (by omega) h2, if_pos (by omega)]
  refine ⟨e, ?_, ?_, fun j r hr => ?_⟩
  · unfold lua_type
    rw [e]
    rfl
  · unfold lua_toboolean
    rw [e]
    rfl
  · unfold lua_rawequal
    rw [e]
    simp only [bind, Except.bind, hr]
    rfl

/-- C10 (push and pop are LIFO): in a thread state that satisfies the stack invariant,
with `top < ci.top`, each of `lua_pushnil`, `lua_pushnumber`, `lua_pushinteger`,
`lua_pushboolean` and `lua_pushlightuserdata` returns, increases `lua_gettop` by 1,
leaves the values at positions `1..old gettop` unchanged and makes index `-1` hold
the pushed value; a following `lua_settop(L, -2)` restores the previous `gettop` and
values.  And `k` pushes (with room for them below `ci.top`) followed by `k` pops
return the pushed values in reverse order and restore `gettop` and the values. -/
theorem C10_push_pop_lifo (L : lua_State) (hinv : StackInv L) :
    (∀ a : PushArg, L.top < L.ci.top →
      ∃ L1, push L a = .ok L1 ∧ lua_gettop L1 = lua_gettop L + 1 ∧
        (∀ j : Nat, 1 ≤ j → (j : Int) ≤ lua_gettop L →
          ∃ v, posval L j = some v ∧ posval L1 j = some v) ∧
        (∃ r, index2adr L1 (-1) = .ok r ∧ getobj r.2 r.1 = .ok (pushed a)) ∧
        ∃ L2, lua_settop L1 (-2) = .ok L2 ∧ lua_gettop L2 = lua_gettop L ∧
          ∀ j : Nat, 1 ≤ j → (j : Int) ≤ lua_gettop L →
            ∃ v, posval L j = some v ∧ posval L2 j = some v) ∧
    (∀ as : List PushArg, L.top + as.length ≤ L.ci.top →
      ∃ L1 L2, pushall L as = .ok L1 ∧ lua_gettop L1 = lua_gettop L + as.length ∧
        popall as.length L1 = .ok ((as.map pushed).reverse, L2) ∧
        lua_gettop L2 = lua_gettop L ∧
        ∀ j : Nat, 1 ≤ j → (j : Int) ≤ lua_gettop L →
          ∃ v, posval L j = some v ∧ posval L2 j = some v) := by
  have hb := hinv.base_top
  have h3 := hinv.ci_last
  have h4 := hinv.last_size
  have h5 := hinv.size
  constructor
  · intro a h
    have keep : ∀ j : Nat, 1 ≤ j → (j : Int) ≤ lua_gettop L →
        ∃ v, posval L j = some v ∧ (L.stack.set L.top (pushed a))[L.base + (j - 1)]? = some v := by
      intro j j1 j2
      obtain ⟨v, hv⟩ := posval_live L hinv j j1 j2
      refine ⟨v, hv, ?_⟩
      unfold lua_gettop at j2
      rw [← hv, List.getElem?_set, if_neg (by omega)]
      rfl
    have hinv1 := inv_push L hinv h (pushed a)
    refine ⟨_, push_spec L hinv h a, ?_, keep, ?_, ?_⟩
    · unfold lua_gettop
      simp only
      omega
    · refine ⟨_, index2adr_neg _ (-1) (by omega) (by decide) (by simp only; omega), ?_⟩
      apply getobj_stack
      show (L.stack.set L.top (pushed a))[(((L.top + 1 : Nat) : Int) + -1).toNat]? = _
      have : (((L.top + 1 : Nat) : Int) + -1).toNat = L.top := by omega
      rw [this, List.getElem?_set, if_pos rfl, if_pos (by omega)]
    · refine ⟨_, lua_settop_neg _ (-2) (by omega) (by simp only; omega), ?_, keep⟩
      unfold lua_gettop
      simp only
      omega
  · intro as h
    obtain ⟨L1, S, e1, e2, e3, e4, e5, e6⟩ := pushall_popall as L hinv h
    refine ⟨L1, _, e1, ?_, e4, rfl, fun j j1 j2 => ?_⟩
    · unfold lua_gettop
      rw [e2, e3]
      push_cast
      omega
    · obtain ⟨v, hv⟩ := posval_live L hinv j j1 j2
      refine ⟨v, hv, ?_⟩
      unfold lua_gettop at j2
      rw [← hv]
      show S[L.base + (j - 1)]? = L.stack[L.base + (j - 1)]?
      exact e6 _ (by omega)

/-- C15 (upvalue pseudo-indices): while the running function `*L->ci->func` is a C
closure with `m = nupvalues` upvalues (a vector of `m` cells), for every `k ≥ 1` the
index `LUA_GLOBALSINDEX - k` resolves to the cell `upvalue[k-1]` of that closure when
`k ≤ m`, a cell inside the vector, and to `luaO_nilobject` when `k > m`; the state
does not change. -/
theorem C15_upvalue_pseudo_indices (L : lua_State) (p : Nat) (cl : Closure)
    (hf : L.stack[L.ci.func]? = some (.gc .function p))
    (hc : heapget L.l_G.closures p = some cl) (_hC : cl.isC = true)
    (hm : cl.upvalue.length = cl.nupvalues) (k : Nat) (hk : 1 ≤ k) :
    (k ≤ cl.nupvalues →
      index2adr L (LUA_GLOBALSINDEX - k) = .ok (.upvalue p (k - 1), L) ∧
      k - 1 < cl.upvalue.length ∧
      ∃ v, cl.upvalue[k - 1]? = some v ∧ getobj L (.upvalue p (k - 1)) = .ok v) ∧
    (cl.nupvalues < k → index2adr L (LUA_GLOBALSINDEX - k) = .ok (.nilobject, L)) := by
  have hcf : curr_func L = .ok (p, cl) := by
    unfold curr_func
    rw [hf]
    simp only [hc]
  have e : index2adr L (LUA_GLOBALSINDEX - k) =
      .ok (if ((k : Int) ≤ (cl.nupvalues : Int)) then .upvalue p (k - 1) else .nilobject, L) := by
    unfold index2adr
    have g1 : LUA_GLOBALSINDEX = -10002 := rfl
    have g2 : LUA_REGISTRYINDEX = -10000 := rfl
    have g3 : LUA_ENVIRONINDEX = -10001 := rfl
    rw [if_neg (by omega), if_neg (by omega), if_neg (by omega), if_neg (by omega),
      if_neg (by omega), hcf]
    simp only [bind, Except.bind]
    have a1 : LUA_GLOBALSINDEX - (LUA_GLOBALSINDEX - (k : Int)) = k := by omega
    rw [a1]
    have a2 : ((k : Int) - 1).toNat = k - 1 := by omega
    rw [a2]
    by_cases c : (k : Int) ≤ (cl.nupvalues : Int)
    · rw [if_pos c, if_pos c]; rfl
    · rw [if_neg c, if_neg c]; rfl
  constructor
  · intro h
    rw [e, if_pos (by omega)]
    have hl : k - 1 < cl.upvalue.length := by omega
    exact ⟨rfl, hl, cl.upvalue[k - 1], List.getElem?_eq_getElem hl, getobj_upvalue L p _ cl hc hl⟩
  · intro h
    rw [e, if_neg (by omega)]

/-- C16 (`lua_pushcclosure`): in a thread state that satisfies the stack invariant and
has a current environment, for `0 ≤ n ≤ gettop`, and room for the result when `n = 0`
(`top < ci.top`, the `api_check` of `api_incr_top`), `lua_pushcclosure(L, fn, n)`
returns, `lua_gettop` becomes `old gettop - n + 1`, the new top value is a C closure
with function `fn` and a vector of `n` upvalues (`nupvalues` is `n` cast to a byte),
its `k`-th upvalue (`1 ≤ k ≤ n`) is the value formerly at position
`old gettop - n + k`, and the values at positions `1..old gettop - n` are unchanged. -/
theorem C16_pushcclosure_pops_n (L : lua_State) (hinv : StackInv L) (fn n e : Nat)
    (hn : (n : Int) ≤ lua_gettop L) (hroom : n = 0 → L.top < L.ci.top)
    (he : getcurrenv L = .ok e) :
    ∃ L1 p cl, lua_pushcclosure L fn n = .ok L1 ∧
      lua_gettop L1 = lua_gettop L - n + 1 ∧
      posval L1 (lua_gettop L1).toNat = some (.gc .function p) ∧
      heapget L1.l_G.closures p = some cl ∧ cl.isC = true ∧ cl.f = fn ∧
      cl.upvalue.length = n ∧ cl.nupvalues = n % 256 ∧
      (∀ k : Nat, 1 ≤ k → k ≤ n →
        ∃ v, posval L ((lua_gettop L).toNat - n + k) = some v ∧ cl.upvalue[k - 1]? = some v) ∧
      (∀ j : Nat, 1 ≤ j → (j : Int) ≤ lua_gettop L - n →
        ∃ v, posval L j = some v ∧ posval L1 j = some v) := by
  have hb := hinv.base_top
  have h1 := hinv.top_ci
  have h2 := hinv.ci_last
  have h3 := hinv.last_size
  have h4 := hinv.size
  have hr : L.top - n < L.ci.top := by
    by_cases c : n = 0
    · have := hroom c; omega
    · unfold lua_gettop at hn; omega
  obtain ⟨U, e1, e2, e3⟩ := lua_pushcclosure_spec L hinv fn n e hn hr he
  have hg : (lua_gettop L).toNat = L.top - L.base := by unfold lua_gettop; omega
  unfold lua_gettop at hn
  refine ⟨_, newaddr L.l_G, _, e1, ?_, ?_, heapget_heapset_same _ _ _, rfl, rfl, e2, ?_,
    fun k k1 k2 => ?_, fun j j1 j2 => ?_⟩
  · unfold lua_gettop
    simp only
    omega
  · unfold lua_gettop posval
    simp only
    have : L.base + (((((L.top - n + 1 : Nat) : Int) - (L.base : Int))).toNat - 1) = L.top - n := by
      omega
    rw [this, List.getElem?_set, if_pos rfl, if_pos (by omega)]
  · simp only
    omega
  · obtain ⟨v, hv⟩ := posval_live L hinv ((lua_gettop L).toNat - n + k) (by omega)
      (by unfold lua_gettop; omega)
    refine ⟨v, hv, ?_⟩
    rw [← hv, e3 (k - 1) (by omega), hg]
    unfold posval
    congr 1
    omega
  · obtain ⟨v, hv⟩ := posval_live L hinv j j1 (by unfold lua_gettop; omega)
    refine ⟨v, hv, ?_⟩
    rw [← hv]
    unfold lua_gettop at j2
    show (L.stack.set (L.top - n) _)[L.base + (j - 1)]? = _
    rw [List.getElem?_set, if_neg (by omega)]
    rfl

/-- Instance of C10 on the stack 10, 20, 30: three pushes and three pops. -/
theorem C10_push_pop_lifo_witness :
    StackInv ex3 ∧
    ((pushall ex3 [.integer 7, .nil, .boolean 1]).bind (popall 3)).map Prod.fst =
      .ok [.boolean true, .nil, num 7] ∧
    ((∀ a : PushArg, ex3.top < ex3.ci.top →
      ∃ L1, push ex3 a = .ok L1 ∧ lua_gettop L1 = lua_gettop ex3 + 1 ∧
        (∀ j : Nat, 1 ≤ j → (j : Int) ≤ lua_gettop ex3 →
          ∃ v, posval ex3 j = some v ∧ posval L1 j = some v) ∧
        (∃ r, index2adr L1 (-1) = .ok r ∧ getobj r.2 r.1 = .ok (pushed a)) ∧
        ∃ L2, lua_settop L1 (-2) = .ok L2 ∧ lua_gettop L2 = lua_gettop ex3 ∧
          ∀ j : Nat, 1 ≤ j → (j : Int) ≤ lua_gettop ex3 →
            ∃ v, posval ex3 j = some v ∧ posval L2 j = some v) ∧
    (∀ as : List PushArg, ex3.top + as.length ≤ ex3.ci.top →
      ∃ L1 L2, pushall ex3 as = .ok L1 ∧ lua_gettop L1 = lua_gettop ex3 + as.length ∧
        popall as.length L1 = .ok ((as.map pushed).reverse, L2) ∧
        lua_gettop L2 = lua_gettop ex3 ∧
        ∀ j : Nat, 1 ≤ j → (j : Int) ≤ lua_gettop ex3 →
          ∃ v, posval ex3 j = some v ∧ posval L2 j = some v)) :=
  ⟨inv_ex3, rfl, C10_push_pop_lifo ex3 inv_ex3⟩

/-- Instance of C11 on the stack 10, 20, 30: `lua_checkstack(L, 40)` has to grow the
stack, from 45 to 96 cells. -/
theorem C11_checkstack_reserves_witness :
    StackInv ex3 ∧ ex3.stacksize = 45 ∧
    (lua_checkstack ex3 40).1 = 1 ∧ (lua_checkstack ex3 40).2.stacksize = 96 ∧
    (lua_checkstack ex3 40).2.ci.top = 44 ∧ live (lua_checkstack ex3 40).2 = live ex3 ∧
    ((0 < (40 : Int) → (lua_checkstack ex3 40).1 = 1 →
      ((lua_checkstack ex3 40).2.stacksize : Int) - (lua_checkstack ex3 40).2.top ≥ 40 ∧
      ((lua_checkstack ex3 40).2.ci.top : Int) - (lua_checkstack ex3 40).2.top ≥ 40 ∧
      ex3.ci.top ≤ (lua_checkstack ex3 40).2.ci.top ∧
      lua_gettop (lua_checkstack ex3 40).2 = lua_gettop ex3 ∧
      (∀ j : Nat, 1 ≤ j → (j : Int) ≤ lua_gettop ex3 →
        ∃ v, posval ex3 j = some v ∧ posval (lua_checkstack ex3 40).2 j = some v) ∧
      StackInv (lua_checkstack ex3 40).2) ∧
    ((40 : Int) ≤ 0 → (lua_checkstack ex3 40).2 = ex3 ∧
      ((lua_checkstack ex3 40).1 = 1 ↔ lua_gettop ex3 + 40 ≤ LUAI_MAXCSTACK) ∧
      ((lua_checkstack ex3 40).1 = 0 ↔ lua_gettop ex3 + 40 > LUAI_MAXCSTACK))) :=
  ⟨inv_ex3, by decide, by decide, by decide, by decide, by decide,
    C11_checkstack_reserves ex3 inv_ex3 40⟩

/-- Instance of C13 on the stack 10, 20, 30: the indices 2 and -2 name the slot
`base + 1`. -/
theorem C13_index_same_slot_witness :
    StackInv ex3 ∧ 1 ≤ 2 ∧ ((2 : Nat) : Int) ≤ lua_gettop ex3 ∧
    index2adr ex3 (-2) = .ok (.stack 2, ex3) ∧
    (index2adr ex3 (2 : Nat) = .ok (.stack (ex3.base + (2 - 1)), ex3) ∧
    (LUA_REGISTRYINDEX < ((2 : Nat) : Int) - lua_gettop ex3 - 1 →
      index2adr ex3 (((2 : Nat) : Int) - lua_gettop ex3 - 1) =
        .ok (.stack (ex3.base + (2 - 1)), ex3)) ∧
    (((2 : Nat) : Int) = lua_gettop ex3 →
      index2adr ex3 (-1) = .ok (.stack (ex3.top - 1), ex3) ∧
      index2adr ex3 (lua_gettop ex3) = .ok (.stack (ex3.top - 1), ex3))) :=
  ⟨inv_ex3, by decide, by decide, rfl, C13_index_same_slot ex3 inv_ex3 2 (by decide) (by decide)⟩

/-- Instance of C14 on the stack 10, 20, 30: index 5 is above the top. -/
theorem C14_above_top_is_none_witness :
    StackInv ex3 ∧ lua_gettop ex3 < 5 ∧ (5 : Int) ≤ (ex3.ci.top : Int) - ex3.base ∧
    lua_rawequal ex3 5 6 = .ok (0, ex3) ∧
    (index2adr ex3 5 = .ok (.nilobject, ex3) ∧
    lua_type ex3 5 = .ok (LUA_TNONE, ex3) ∧
    lua_toboolean ex3 5 = .ok (0, ex3) ∧
    ∀ (j : Int) (r : Addr × lua_State), index2adr ex3 j = .ok r →
      lua_rawequal ex3 5 j = .ok (0, r.2)) :=
  ⟨inv_ex3, by decide, by decide, rfl, C14_above_top_is_none ex3 inv_ex3 5 (by decide) (by decide)⟩

/-- Instance of C15 in a call of a C closure with the upvalues 20 and 30: the index
`LUA_GLOBALSINDEX - 2` is the second upvalue, 30. -/
theorem C15_upvalue_pseudo_indices_witness :
    excall.stack[excall.ci.func]? = some (.gc .function 65) ∧
    heapget excall.l_G.closures 65 =
      some { isC := true, nupvalues := 2, env := 32, f := 7, upvalue := [num 20, num 30] } ∧
    getobj excall (.upvalue 65 1) = .ok (num 30) ∧
    index2adr excall (LUA_GLOBALSINDEX - 3) = .ok (.nilobject, excall) ∧
    ((2 ≤ 2 →
      index2adr excall (LUA_GLOBALSINDEX - (2 : Nat)) = .ok (.upvalue 65 (2 - 1), excall) ∧
      2 - 1 < [num 20, num 30].length ∧
      ∃ v, [num 20, num 30][2 - 1]? = some v ∧ getobj excall (.upvalue 65 (2 - 1)) = .ok v) ∧
    (2 < 2 → index2adr excall (LUA_GLOBALSINDEX - (2 : Nat)) = .ok (.nilobject, excall))) :=
  ⟨by decide, by decide, rfl, rfl,
    C15_upvalue_pseudo_indices excall 65
      { isC := true, nupvalues := 2, env := 32, f := 7, upvalue := [num 20, num 30] }
      (by decide) (by decide) rfl rfl 2 (by decide)⟩

/-- Instance of C16 on the stack 10, 20, 30: `lua_pushcclosure(L, fn, 2)` leaves 10 and
a closure with the upvalues 20 and 30. -/
theorem C16_pushcclosure_pops_n_witness :
    StackInv ex3 ∧ ((2 : Nat) : Int) ≤ lua_gettop ex3 ∧ (2 = 0 → ex3.top < ex3.ci.top) ∧
    getcurrenv ex3 = .ok 32 ∧
    (lua_pushcclosure ex3 7 2).map live = .ok [num 10, .gc .function 65] ∧
    ∃ L1 p cl, lua_pushcclosure ex3 7 (2 : Nat) = .ok L1 ∧
      lua_gettop L1 = lua_gettop ex3 - (2 : Nat) + 1 ∧
      posval L1 (lua_gettop L1).toNat = some (.gc .function p) ∧
      heapget L1.l_G.closures p = some cl ∧ cl.isC = true ∧ cl.f = 7 ∧
      cl.upvalue.length = 2 ∧ cl.nupvalues = 2 % 256 ∧
      (∀ k : Nat, 1 ≤ k → k ≤ 2 →
        ∃ v, posval ex3 ((lua_gettop ex3).toNat - 2 + k) = some v ∧
          cl.upvalue[k - 1]? = some v) ∧
      (∀ j : Nat, 1 ≤ j → (j : Int) ≤ lua_gettop ex3 - (2 : Nat) →
        ∃ v, posval ex3 j = some v ∧ posval L1 j = some v) :=
  ⟨inv_ex3, by decide, by decide, rfl, rfl,
    C16_pushcclosure_pops_n ex3 inv_ex3 7 2 32 (by decide) (by decide) rfl⟩

/-- Instance of C17 on the stack 10, 20, 30: `lua_settop(L, 5)` adds two nils and
`lua_settop(L, -3)` leaves 10. -/
theorem C17_settop_sets_top_witness :
    StackInv ex3 ∧ (lua_settop ex3 5).map live = .ok [num 10, num 20, num 30, .nil, .nil] ∧
    (lua_settop ex3 (-3)).map live = .ok [num 10] ∧
    ((∀ n : Nat, (n : Int) ≤ (ex3.stack_last : Int) - ex3.base →
      ∃ L1, lua_settop ex3 n = .ok L1 ∧ lua_gettop L1 = n ∧
        (∀ j : Nat, 1 ≤ j → j ≤ n → (j : Int) ≤ lua_gettop ex3 →
          ∃ v, posval ex3 j = some v ∧ posval L1 j = some v) ∧
        (∀ j : Nat, lua_gettop ex3 < (j : Int) → j ≤ n → posval L1 j = some .nil)) ∧
    (∀ idx : Int, idx < 0 → -(idx + 1) ≤ lua_gettop ex3 →
      ∃ L1, lua_settop ex3 idx = .ok L1 ∧ lua_gettop L1 = lua_gettop ex3 + idx + 1 ∧
        ∀ j : Nat, 1 ≤ j → (j : Int) ≤ lua_gettop ex3 + idx + 1 →
          ∃ v, posval ex3 j = some v ∧ posval L1 j = some v) ∧
    lua_settop ex3 (-1) = .ok ex3 ∧
    ∃ L1, lua_settop ex3 0 = .ok L1 ∧ lua_gettop L1 = 0) :=
  ⟨inv_ex3, rfl, rfl, C17_settop_sets_top ex3 inv_ex3⟩

theorem index_ex3 : StackIndex ex3 (-2) 2 :=
  ⟨by decide, by decide, Or.inr ⟨by decide, by decide⟩⟩

/-- Instance of C18 on the stack 10, 20, 30: `lua_remove(L, -2)` leaves 10, 30. -/
theorem C18_remove_shifts_down_witness :
    StackInv ex3 ∧ StackIndex ex3 (-2) 2 ∧
    (lua_remove ex3 (-2)).map live = .ok [num 10, num 30] ∧
    ∃ L1, lua_remove ex3 (-2) = .ok L1 ∧ lua_gettop L1 = lua_gettop ex3 - 1 ∧
      (∀ j : Nat, 1 ≤ j → j < 2 → ∃ v, posval ex3 j = some v ∧ posval L1 j = some v) ∧
      (∀ j : Nat, 2 ≤ j → (j : Int) < lua_gettop ex3 →
        ∃ v, posval ex3 (j + 1) = some v ∧ posval L1 j = some v) :=
  ⟨inv_ex3, index_ex3, rfl, C18_remove_shifts_down ex3 inv_ex3 (-2) 2 index_ex3⟩

/-- Instance of C19 on the stack 10, 20, 30: `lua_insert(L, -2)` leaves 10, 30, 20. -/
theorem C19_insert_rotates_witness :
    StackInv ex3 ∧ StackIndex ex3 (-2) 2 ∧
    (lua_insert ex3 (-2)).map live = .ok [num 10, num 30, num 20] ∧
    ∃ L1, lua_insert ex3 (-2) = .ok L1 ∧ lua_gettop L1 = lua_gettop ex3 ∧
      (∀ j : Nat, 1 ≤ j → j < 2 → ∃ v, posval ex3 j = some v ∧ posval L1 j = some v) ∧
      (∃ v, posval ex3 (lua_gettop ex3).toNat = some v ∧ posval L1 2 = some v) ∧
      (∀ j : Nat, 2 < j → (j : Int) ≤ lua_gettop ex3 →
        ∃ v, posval ex3 (j - 1) = some v ∧ posval L1 j = some v) :=
  ⟨inv_ex3, index_ex3, rfl, C19_insert_rotates ex3 inv_ex3 (-2) 2 index_ex3⟩

/-- Instance of C20 on the stack 10, 20, 30: `lua_replace(L, -2)` leaves 10, 30. -/
theorem C20_replace_overwrites_witness :
    StackInv ex3 ∧ StackIndex ex3 (-2) 2 ∧
    (lua_replace ex3 (-2)).map live = .ok [num 10, num 30] ∧
    (lua_replace ex3 1).map live = .ok [num 30, num 20] ∧
    ∃ L1, lua_replace ex3 (-2) = .ok L1 ∧ lua_gettop L1 = lua_gettop ex3 - 1 ∧
      (∀ j : Nat, 1 ≤ j → (j : Int) ≤ lua_gettop ex3 - 1 → j ≠ 2 →
        ∃ v, posval ex3 j = some v ∧ posval L1 j = some v) ∧
      (((2 : Nat) : Int) < lua_gettop ex3 →
        ∃ v, posval ex3 (lua_gettop ex3).toNat = some v ∧ posval L1 2 = some v) :=
  ⟨inv_ex3, index_ex3, rfl, rfl, C20_replace_overwrites ex3 inv_ex3 (-2) 2 index_ex3⟩

/-! ## Claims on the sizes and on the invariant of the hash part -/

/-- C28 (array size chosen by `rehash`), with the test of the code, "more than half":
when `nums[i]` is the number of distinct integer keys in `(2^(i-1), 2^i]` (so that at
most `2^i` keys are counted up to slice `i`) and `*narray` is their total (at least
every partial sum), `computesizes` sets `*narray` to the largest power of two `2^j`
of which more than half of the slots `1..2^j` are occupied by the counted keys
(`2^j / 2 < nums[0] + ... + nums[j]`), and to 0 when there is no such power; it
returns the number of counted keys that are at most that size (0 for size 0). -/
theorem C28_computesizes_largest (nums : List Nat) (narray : Nat)
    (hc : ∀ i, binsum nums (i + 1) ≤ 2 ^ i) (htot : ∀ i, binsum nums i ≤ narray) :
    ((computesizes nums narray).1 = 0 ∧ (computesizes nums narray).2 = 0 ∧
        ∀ k, ¬ 2 ^ k / 2 < binsum nums (k + 1)) ∨
      ∃ j, (computesizes nums narray).1 = 2 ^ j ∧
        (computesizes nums narray).2 = binsum nums (j + 1) ∧
        2 ^ j / 2 < binsum nums (j + 1) ∧
        ∀ k, j < k → ¬ 2 ^ k / 2 < binsum nums (k + 1) :=
  computesizes_max nums narray hc htot

theorem counters_nums13 :
    (∀ i, binsum nums13 (i + 1) ≤ 2 ^ i) ∧ ∀ i, binsum nums13 i ≤ 2 :=
  counters_ok nums13 2 (by decide) (by decide) (by decide)

theorem counters_nums1235 :
    (∀ i, binsum nums1235 (i + 1) ≤ 2 ^ i) ∧ ∀ i, binsum nums1235 i ≤ 4 :=
  counters_ok nums1235 4 (by decide) (by decide) (by decide)

/-- Counterexample to C28 as stated ("at least half of the slots"): for the integer keys
1 and 3 the counters are `nums[0] = 1`, `nums[2] = 1` and `*narray = 2`; half of the
slots `1..4` are occupied, and `computesizes` chooses the size 1, not 4. -/
theorem C28_counterexample :
    nums13.take 4 = [1, 0, 1, 0] ∧ binsum nums13 nums13.length = 2 ∧
    (∀ i, binsum nums13 (i + 1) ≤ 2 ^ i) ∧ (∀ i, binsum nums13 i ≤ 2) ∧
    2 ^ 2 / 2 ≤ binsum nums13 (2 + 1) ∧ computesizes nums13 2 = (1, 1) :=
  ⟨by decide, by decide, counters_nums13.1, counters_nums13.2, by decide, by decide⟩

/-- Instance of C28 for the integer keys 1, 2, 3 and 5: the size is 4 and 3 keys go to
the array part. -/
theorem C28_computesizes_largest_witness :
    (∀ i, binsum nums1235 (i + 1) ≤ 2 ^ i) ∧ (∀ i, binsum nums1235 i ≤ 4) ∧
    computesizes nums1235 4 = (4, 3) ∧
    (((computesizes nums1235 4).1 = 0 ∧ (computesizes nums1235 4).2 = 0 ∧
        ∀ k, ¬ 2 ^ k / 2 < binsum nums1235 (k + 1)) ∨
      ∃ j, (computesizes nums1235 4).1 = 2 ^ j ∧
        (computesizes nums1235 4).2 = binsum nums1235 (j + 1) ∧
        2 ^ j / 2 < binsum nums1235 (j + 1) ∧
        ∀ k, j < k → ¬ 2 ^ k / 2 < binsum nums1235 (k + 1)) :=
  ⟨counters_nums1235.1, counters_nums1235.2, by decide,
    C28_computesizes_largest nums1235 4 counters_nums1235.1 counters_nums1235.2⟩

/-- C29 (array load after `rehash`): when `nums[i]` counts distinct integer keys in
`(2^(i-1), 2^i]` (at most `2^i` keys are counted up to slice `i`), the size `n` that
`computesizes` stores in `*narray` and the count `na` that it returns satisfy
`n/2 ≤ na ≤ n`, the `lua_assert` at its end; more than half of the chosen array part
is occupied when the size is not 0. -/
theorem C29_computesizes_load (nums : List Nat) (narray : Nat)
    (hc : ∀ i, binsum nums (i + 1) ≤ 2 ^ i) :
    (computesizes nums narray).1 / 2 ≤ (computesizes nums narray).2 ∧
    (computesizes nums narray).2 ≤ (computesizes nums narray).1 ∧
    ((computesizes nums narray).1 ≠ 0 →
      (computesizes nums narray).1 / 2 < (computesizes nums narray).2) := by
  rcases computesizes_spec nums narray with ⟨h1, h2⟩ | ⟨j, h1, h2, _, h4⟩
  · rw [h1, h2]
    exact ⟨le_refl _, le_refl _, fun h => absurd rfl h⟩
  · have := hc j
    rw [h2] at h4
    rw [h1, h2]
    exact ⟨by omega, this, fun _ => h4⟩

/-- Instance of C29 for the integer keys 1, 2, 3 and 5: 3 keys in an array part of size
4. -/
theorem C29_computesizes_load_witness :
    (∀ i, binsum nums1235 (i + 1) ≤ 2 ^ i) ∧ computesizes nums1235 4 = (4, 3) ∧
    ((computesizes nums1235 4).1 / 2 ≤ (computesizes nums1235 4).2 ∧
    (computesizes nums1235 4).2 ≤ (computesizes nums1235 4).1 ∧
    ((computesizes nums1235 4).1 ≠ 0 →
      (computesizes nums1235 4).1 / 2 < (computesizes nums1235 4).2)) :=
  ⟨counters_nums1235.1, by decide, C29_computesizes_load nums1235 4 counters_nums1235.1⟩

/-- C30 (hash capacity): `setnodevector(L, t, size)` with `size = 0` makes the hash part
the shared `dummynode` (`lsizenode` 0); with `size > 0` it raises `table overflow` if
and only if `ceillog2(size) > MAXBITS`, that is `size > 2^26`, and otherwise the new
capacity is the smallest power of two that is at least `size`, every node has a nil
key, a nil value and a null `next`, and `lastfree` points one past the last node.
The capacity of a table reached from `luaH_new` is a power of two up to `2^26`.
In `rehash` the size asked for is the number of non-nil values of the table plus
one for the new key (`totaluse`), minus the count `na` that `computesizes` returns. -/
theorem C30_setnodevector_capacity (t : Table) (size : Nat) :
    (size = 0 →
      setnodevector t size =
        .ok { t with node := [dummynode_], isdummy := true, lsizenode := 0, lastfree := 0 }) ∧
    (0 < size →
      ((∃ tb, setnodevector t size = .error (.table_overflow, tb)) ↔ MAXBITS < ceillog2 size) ∧
      (MAXBITS < ceillog2 size ↔ 2 ^ MAXBITS < size) ∧
      (ceillog2 size ≤ MAXBITS →
        ∃ t2, setnodevector t size = .ok t2 ∧ t2.isdummy = false ∧
          t2.node.length = 2 ^ t2.lsizenode ∧ size ≤ t2.node.length ∧
          (∀ j, size ≤ 2 ^ j → t2.node.length ≤ 2 ^ j) ∧
          (∀ i, i < t2.node.length → t2.node[i]? = some ⟨.nil, .nil, none⟩) ∧
          t2.lastfree = (t2.node.length : Int))) ∧
    (∀ t1, Reach t1 → t1.node.length = 2 ^ t1.lsizenode ∧ t1.node.length ≤ 2 ^ MAXBITS) ∧
    (∀ (R : Table → TValue → Res (Slot × Table)) (t1 : Table) (ek : TValue), Reach t1 →
      ∃ n na, rehash_with R t1 ek = resize_with R t1 n (livecount t1 + 1 - na) ∧
        na = acnt t1 0 (min n t1.sizearray) + ncnt t1 (inrange n) t1.node.length +
          (if inrange n (arrayindex ek) then 1 else 0)) := by
  refine ⟨fun h => ?_, fun h => ⟨?_, ?_, fun h2 => ?_⟩, fun t1 h1 => ?_, fun R t1 ek h1 => ?_⟩
  · unfold setnodevector
    rw [if_pos h]
  · unfold setnodevector
    rw [if_neg (by omega)]
    simp only
    constructor
    · rintro ⟨tb, e⟩
      by_contra c
      rw [if_neg c] at e
      cases e
    · intro c
      exact ⟨t, by rw [if_pos c]⟩
  · have := ceillog2_le_iff size MAXBITS h
    constructor
    · intro c
      by_contra d
      exact absurd (this.2 (by omega)) (by omega)
    · intro c
      by_contra d
      exact absurd (this.1 (by omega)) (by omega)
  · unfold setnodevector
    rw [if_neg (by omega)]
    simp only
    rw [if_neg (by omega)]
    refine ⟨_, rfl, rfl, ?_, ?_, fun j hj => ?_, fun i hi => ?_, ?_⟩
    · simp [twoto]
    · simp only [List.length_replicate, twoto]
      exact le_twoto_ceillog2 size h
    · simp only [List.length_replicate, twoto]
      exact Nat.pow_le_pow_right (by decide) ((ceillog2_le_iff size j h).2 hj)
    · simp only [List.length_replicate] at hi
      simp [List.getElem?_replicate, hi]
    · simp
  · have hw := reach_wf t1 h1
    refine ⟨hw.size, ?_⟩
    rw [hw.size]
    exact Nat.pow_le_pow_right (by decide) hw.lsize
  · obtain ⟨n, na, e, _, hna⟩ := rehash_sizes R t1 (reach_wf t1 h1).toWFcore ek
    exact ⟨n, na, e, hna⟩

/-- C24 (truthiness): for an index `idx` that `index2adr` resolves, with the value `v`
there, `lua_toboolean(L, idx)` returns 0 exactly when `v` is nil or the boolean false,
and 1 for every other value; every number (0 too) and every string (the empty one
too) gives 1. -/
theorem C24_toboolean_truthiness (L : lua_State) (idx : Int) (r : Addr × lua_State)
    (v : TValue) (hr : index2adr L idx = .ok r) (hv : getobj r.2 r.1 = .ok v) :
    ∃ b, lua_toboolean L idx = .ok (b, r.2) ∧ (b = 0 ∨ b = 1) ∧
      (b = 0 ↔ (v = .nil ∨ v = .boolean false)) ∧
      (b = 1 ↔ ¬ (v = .nil ∨ v = .boolean false)) ∧
      (∀ n, v = .number n → b = 1) ∧ (∀ s, v = .string s → b = 1) := by
  have e : lua_toboolean L idx = .ok (if l_isfalse v then 0 else 1, r.2) := by
    unfold lua_toboolean
    rw [hr]
    simp only [bind, Except.bind, hv]
    rfl
  refine ⟨_, e, ?_, ?_, ?_, ?_, ?_⟩ <;> cases v <;> simp [l_isfalse]

/-- C26 (the stack invariant is kept), with the bound that `lua_settop` needs and at
the indices for which `lua_remove` and `lua_insert` are defined: from a thread state
with `stack ≤ base ≤ top ≤ ci.top ≤ stack_last`, a call of `lua_settop`,
`lua_pushvalue`, `lua_pushnil`, `lua_pushnumber`, `lua_pushinteger`,
`lua_pushboolean`, `lua_pushlightuserdata`, `lua_remove`, `lua_insert` or
`lua_replace` that returns (with `idx ≤ ci.top - base` for `lua_settop(L, idx)`)
yields a state that satisfies `stack ≤ base ≤ top ≤ ci.top ≤ stack_last` again, with
`base`, `ci`, `stack_last` and the size of the block unchanged.  The call does return
when the `api_check` conditions of the function hold at a stack index, and
`lua_remove` and `lua_insert` return at the index of a live stack slot only, not at
a pseudo-index. -/
theorem C26_stack_invariant_kept (L : lua_State) (op : StackOp) (hc : StackChain L)
    (hs : ∀ idx, op = .settop idx → idx ≤ (L.ci.top : Int) - L.base) :
    (∀ L1, StackOp.run L op = .ok L1 →
      StackChain L1 ∧ SameFrame L L1 ∧ (StackInv L → StackInv L1)) ∧
    (StackInv L → StackOp.checks L op → ∃ L1, StackOp.run L op = .ok L1) ∧
    (∀ idx, op = .remove idx ∨ op = .insert idx →
      (∃ L1, StackOp.run L op = .ok L1) → liveindex L idx) := by
  refine ⟨fun L1 h => ?_, fun hinv hk => stackop_total L hinv op hk, fun idx ho hr => ?_⟩
  · obtain ⟨c1, c2, c3⟩ := hc
    have key : SameFrame L L1 ∧ L.base ≤ L1.top ∧ L1.top ≤ L.ci.top := by
      cases op with
      | settop idx =>
        obtain ⟨f, hh⟩ := lua_settop_frame L L1 idx h
        have := hs idx rfl
        refine ⟨f, ?_, ?_⟩ <;> rcases hh with ⟨h1, h2, h3⟩ | ⟨h1, h2, h3⟩ <;> omega
      | pushvalue idx =>
        obtain ⟨f, h1, h2⟩ := lua_pushvalue_frame L L1 idx h
        exact ⟨f, by omega, by omega⟩
      | pusharg a =>
        obtain ⟨f, h1, h2⟩ := push_frame L L1 a h
        exact ⟨f, by omega, by omega⟩
      | remove idx =>
        obtain ⟨f, h1, h2⟩ := lua_remove_frame L L1 idx h
        exact ⟨f, by omega, by omega⟩
      | insert idx =>
        obtain ⟨f, h1⟩ := lua_insert_frame L L1 idx h
        exact ⟨f, by omega, by omega⟩
      | replace idx =>
        obtain ⟨f, h1, h2⟩ := lua_replace_frame L L1 idx h
        exact ⟨f, by omega, by omega⟩
    obtain ⟨f, k1, k2⟩ := key
    obtain ⟨f1, f2, f3, f4, f5⟩ := f
    have chain : StackChain L1 := by
      refine ⟨?_, ?_, ?_⟩
      · rw [f1]; exact k1
      · rw [f2]; exact k2
      · rw [f2, f3]; exact c3
    refine ⟨chain, ⟨f1, f2, f3, f4, f5⟩, fun hinv => ?_⟩
    exact ⟨chain.1, chain.2.1, chain.2.2, by rw [f3, f4]; exact hinv.last_size,
      by rw [f5, f4]; exact hinv.size⟩
  · obtain ⟨L1, h⟩ := hr
    rcases ho with e | e
    · subst e
      exact lua_remove_live L L1 idx h
    · subst e
      exact lua_insert_live L L1 idx h

/-- Counterexample to C26 as stated, in the main thread as `stack_init` leaves it
(`base = top = 1`, `ci.top = 21`, `stack_last = 39`), where the invariant holds.
`lua_settop(L, 30)` satisfies its `api_check`, `30 ≤ stack_last - base`, and returns
a state with `top = 31` above `ci.top = 21`.  `lua_remove(L, LUA_REGISTRYINDEX)`
satisfies the `api_check` of `index2adr` and `api_checkvalidindex` (the address is
that of the registry, not `luaO_nilobject`), and yields no state that satisfies the
invariant: the call is not defined, and in lapi.c `L->top--` then takes `top` below
`base`. -/
theorem C26_counterexample :
    StackChain exthread ∧ StackInv exthread ∧
    ((30 : Int) ≤ (exthread.stack_last : Int) - exthread.base ∧
      ∃ L1, StackOp.run exthread (.settop 30) = .ok L1 ∧ L1.ci.top = 21 ∧ L1.top = 31 ∧
        ¬ StackChain L1) ∧
    (index2adr exthread LUA_REGISTRYINDEX = .ok (.registry, exthread) ∧
      api_checkvalidindex .registry = .ok () ∧ exthread.top = exthread.base ∧
      StackOp.run exthread (.remove LUA_REGISTRYINDEX) = .error .undefined_behaviour ∧
      ¬ ∃ L1, StackOp.run exthread (.remove LUA_REGISTRYINDEX) = .ok L1 ∧ StackChain L1) :=
  ⟨⟨by decide, by decide, by decide⟩, inv_exthread,
    ⟨by decide, after (lua_settop exthread 30) exthread, rfl, by decide, by decide,
      fun h => absurd h.2.1 (by decide)⟩,
    ⟨rfl, rfl, by decide, rfl, fun h => by
      obtain ⟨L1, h1, _⟩ := h
      cases h1⟩⟩

/-- Instance of C26 on the stack 10, 20, 30: `lua_remove(L, -2)` returns and keeps the
invariant; -2 is the index of a live slot. -/
theorem C26_stack_invariant_kept_witness :
    StackChain ex3 ∧
    (∀ idx, StackOp.remove (-2) = .settop idx → idx ≤ (ex3.ci.top : Int) - ex3.base) ∧
    StackOp.run ex3 (.remove (-2)) = .ok (after (lua_remove ex3 (-2)) ex3) ∧
    live (after (lua_remove ex3 (-2)) ex3) = [num 10, num 30] ∧
    StackInv ex3 ∧ StackOp.checks ex3 (.remove (-2)) ∧
    ((∀ L1, StackOp.run ex3 (.remove (-2)) = .ok L1 →
      StackChain L1 ∧ SameFrame ex3 L1 ∧ (StackInv ex3 → StackInv L1)) ∧
    (StackInv ex3 → StackOp.checks ex3 (.remove (-2)) →
      ∃ L1, StackOp.run ex3 (.remove (-2)) = .ok L1) ∧
    (∀ idx, StackOp.remove (-2) = .remove idx ∨ StackOp.remove (-2) = .insert idx →
      (∃ L1, StackOp.run ex3 (.remove (-2)) = .ok L1) → liveindex ex3 idx)) :=
  ⟨⟨by decide, by decide, by decide⟩, (fun _ h => by cases h), rfl, by decide, inv_ex3,
    by decide,
    C26_stack_invariant_kept ex3 (.remove (-2)) ⟨by decide, by decide, by decide⟩
      (fun _ h => by cases h)⟩

/-- C21 (`lua_xmove`): for two distinct threads `A` (at `pfrom`) and `B` (at `pto`) of
one global state that satisfy the stack invariant, with a number `n` of values to
move, `n ≤ gettop(A)` and `ci.top - top ≥ n` on `B`, `lua_xmove(A, B, n)` returns,
`A`'s `gettop` decreases by `n` and `B`'s increases by `n`, the values formerly at
the positions `gettop(A) - n + k` of `A` (`1 ≤ k ≤ n`) are at the positions
`gettop(B) + k` of `B`, in the same order, every other live slot of both stacks is
unchanged, and so is every other thread; when `from` and `to` are the same thread
nothing changes. -/
theorem C21_xmove_moves_values (ths : List (Nat × lua_State)) (pfrom pto : Nat)
    (A B : lua_State) (n : Nat) (hne : pfrom ≠ pto)
    (hA : heapget ths pfrom = some A) (hB : heapget ths pto = some B)
    (invA : StackInv A) (invB : StackInv B) (hG : A.l_G = B.l_G)
    (hn : (n : Int) ≤ lua_gettop A) (hroom : (B.ci.top : Int) - B.top ≥ n) :
    (∃ ths1 A1 B1, lua_xmove ths pfrom pto n = .ok ths1 ∧
      heapget ths1 pfrom = some A1 ∧ heapget ths1 pto = some B1 ∧
      (∀ q, q ≠ pfrom → q ≠ pto → heapget ths1 q = heapget ths q) ∧
      lua_gettop A1 = lua_gettop A - n ∧ lua_gettop B1 = lua_gettop B + n ∧
      (∀ k : Nat, 1 ≤ k → k ≤ n →
        ∃ v, posval A ((lua_gettop A).toNat - n + k) = some v ∧
          posval B1 ((lua_gettop B).toNat + k) = some v) ∧
      (∀ j : Nat, 1 ≤ j → (j : Int) ≤ lua_gettop A - n →
        ∃ v, posval A j = some v ∧ posval A1 j = some v) ∧
      (∀ j : Nat, 1 ≤ j → (j : Int) ≤ lua_gettop B →
        ∃ v, posval B j = some v ∧ posval B1 j = some v)) ∧
    ∀ (p : Nat) (m : Int), lua_xmove ths p p m = .ok ths := by
  have a1 := invA.base_top
  have a2 := invA.top_ci
  have a3 := invA.ci_last
  have a4 := invA.last_size
  have a5 := invA.size
  have b1 := invB.base_top
  have b2 := invB.top_ci
  have b3 := invB.ci_last
  have b4 := invB.last_size
  have b5 := invB.size
  have gA : (lua_gettop A).toNat = A.top - A.base := by unfold lua_gettop; omega
  have gB : (lua_gettop B).toNat = B.top - B.base := by unfold lua_gettop; omega
  refine ⟨?_, fun p m => by unfold lua_xmove; rw [if_pos rfl]⟩
  unfold lua_gettop at hn
  have ht : ((A.top : Int) - (n : Int)).toNat = A.top - n := by omega
  obtain ⟨S, e1, e2, e3⟩ := xmove_loop_spec { A with top := A.top - n } n 0 B
    (by show A.top - n + 0 + n ≤ A.stack.length; omega) (by omega)
  have hx : lua_xmove ths pfrom pto n =
      .ok (heapset (heapset ths pfrom { A with top := A.top - n }) pto
        { B with stack := S, top := B.top + n }) := by
    unfold lua_xmove api_checknelems
    rw [if_neg hne, hA, hB]
    simp only
    rw [api_check_pos _ hn, api_check_pos _ hG, api_check_pos _ hroom]
    simp only [bind, Except.bind, Int.toNat_ofNat, ht, e1]
    rfl
  refine ⟨_, { A with top := A.top - n }, { B with stack := S, top := B.top + n }, hx, ?_,
    heapget_heapset_same _ _ _, fun q q1 q2 => ?_, ?_, ?_,
    fun k k1 k2 => ?_, fun j j1 j2 => ?_, fun j j1 j2 => ?_⟩
  · rw [heapget_heapset_other _ _ _ _ hne, heapget_heapset_same]
  · rw [heapget_heapset_other _ _ _ _ q2, heapget_heapset_other _ _ _ _ q1]
  · unfold lua_gettop
    simp only
    omega
  · unfold lua_gettop
    simp only
    omega
  · obtain ⟨v, hv⟩ := posval_live A invA ((lua_gettop A).toNat - n + k) (by omega)
      (by unfold lua_gettop; omega)
    refine ⟨v, hv, ?_⟩
    rw [← hv, gA, gB]
    show S[B.base + (B.top - B.base + k - 1)]? = A.stack[A.base + (A.top - A.base - n + k - 1)]?
    rw [e3, if_pos ⟨by omega, by omega⟩]
    show A.stack[A.top - n + 0 + (B.base + (B.top - B.base + k - 1) - B.top)]? = _
    congr 1
    omega
  · obtain ⟨v, hv⟩ := posval_live A invA j j1 (by unfold lua_gettop; omega)
    exact ⟨v, hv, hv⟩
  · obtain ⟨v, hv⟩ := posval_live B invB j j1 j2
    refine ⟨v, hv, ?_⟩
    rw [← hv]
    unfold lua_gettop at j2
    show S[B.base + (j - 1)]? = _
    rw [e3, if_neg (by omega)]
    rfl

/-- Instance of C21: the thread with 10, 20, 30 gives its two top values to the empty
thread. -/
theorem C21_xmove_moves_values_witness :
    (1 : Nat) ≠ 2 ∧ heapget exthreads 1 = some ex3 ∧ heapget exthreads 2 = some exthread ∧
    StackInv ex3 ∧ StackInv exthread ∧ ex3.l_G = exthread.l_G ∧
    ((2 : Nat) : Int) ≤ lua_gettop ex3 ∧ (exthread.ci.top : Int) - exthread.top ≥ (2 : Nat) ∧
    (lua_xmove exthreads 1 2 2).map
      (fun ths1 => ((heapget ths1 1).map live, (heapget ths1 2).map live)) =
        .ok (some [num 10], some [num 20, num 30]) ∧
    ((∃ ths1 A1 B1, lua_xmove exthreads 1 2 (2 : Nat) = .ok ths1 ∧
      heapget ths1 1 = some A1 ∧ heapget ths1 2 = some B1 ∧
      (∀ q, q ≠ 1 → q ≠ 2 → heapget ths1 q = heapget exthreads q) ∧
      lua_gettop A1 = lua_gettop ex3 - (2 : Nat) ∧
      lua_gettop B1 = lua_gettop exthread + (2 : Nat) ∧
      (∀ k : Nat, 1 ≤ k → k ≤ 2 →
        ∃ v, posval ex3 ((lua_gettop ex3).toNat - 2 + k) = some v ∧
          posval B1 ((lua_gettop exthread).toNat + k) = some v) ∧
      (∀ j : Nat, 1 ≤ j → (j : Int) ≤ lua_gettop ex3 - (2 : Nat) →
        ∃ v, posval ex3 j = some v ∧ posval A1 j = some v) ∧
      (∀ j : Nat, 1 ≤ j → (j : Int) ≤ lua_gettop exthread →
        ∃ v, posval exthread j = some v ∧ posval B1 j = some v)) ∧
    ∀ (p : Nat) (m : Int), lua_xmove exthreads p p m = .ok exthreads) :=
  ⟨by decide, rfl, rfl, inv_ex3, inv_exthread, rfl, by decide, by decide, rfl,
    C21_xmove_moves_values exthreads 1 2 ex3 exthread 2 (by decide) rfl rfl inv_ex3
      inv_exthread rfl (by decide) (by decide)⟩

/-- Instance of C24: in the stack that holds the number 0 and `false`, index 1 (the
number 0) is true and index 2 is false. -/
theorem C24_toboolean_truthiness_witness :
    index2adr ex0f 1 = .ok (.stack 1, ex0f) ∧ getobj ex0f (.stack 1) = .ok (num 0) ∧
    lua_toboolean ex0f 1 = .ok (1, ex0f) ∧ lua_toboolean ex0f 2 = .ok (0, ex0f) ∧
    ∃ b, lua_toboolean ex0f 1 = .ok (b, ex0f) ∧ (b = 0 ∨ b = 1) ∧
      (b = 0 ↔ (num 0 = .nil ∨ num 0 = .boolean false)) ∧
      (b = 1 ↔ ¬ (num 0 = .nil ∨ num 0 = .boolean false)) ∧
      (∀ n, num 0 = .number n → b = 1) ∧ (∀ s, num 0 = .string s → b = 1) :=
  ⟨rfl, rfl, rfl, rfl, C24_toboolean_truthiness ex0f 1 (.stack 1, ex0f) (num 0) rfl rfl⟩

/-- C25 (`lua_next`, stack effect): with a table at `idx` and the key `key` on top,
`lua_next(L, idx)` returns 1 when `luaH_next` finds a binding after `key` (and there is
room for one more value below `ci.top`): the key slot then holds the next key and its
value is pushed above it (`gettop + 1`); it returns 0, pops the key (`gettop - 1`) and
pushes nothing when `luaH_next` finds none; in both cases the values below the key are
unchanged. When `luaH_next` raises an error (the key is not in the table) `lua_next`
raises it too, and whenever `lua_next` returns, its result is non-zero exactly when
`luaH_next` found a binding. -/
theorem C25_next_stack_effect (L : lua_State) (idx : Int) (r : Addr × lua_State) (h : Nat)
    (tb : Table) (key : TValue) (inv : StackInv L)
    (hr : index2adr L idx = .ok r) (ht : getobj r.2 r.1 = .ok (.gc .table h))
    (htb : heapget L.l_G.tables h = some tb)
    (h1 : 1 ≤ lua_gettop L) (hkey : posval L (lua_gettop L).toNat = some key) :
    (∀ k v, luaH_next tb key = .ok (some (k, v)) → L.top < L.ci.top →
      ∃ L1, lua_next L idx = .ok (1, L1) ∧ lua_gettop L1 = lua_gettop L + 1 ∧
        posval L1 (lua_gettop L).toNat = some k ∧
        posval L1 ((lua_gettop L).toNat + 1) = some v ∧
        ∀ j : Nat, 1 ≤ j → (j : Int) < lua_gettop L →
          ∃ w, posval L j = some w ∧ posval L1 j = some w) ∧
    (luaH_next tb key = .ok none →
      ∃ L1, lua_next L idx = .ok (0, L1) ∧ lua_gettop L1 = lua_gettop L - 1 ∧
        ∀ j : Nat, 1 ≤ j → (j : Int) < lua_gettop L →
          ∃ w, posval L j = some w ∧ posval L1 j = some w) ∧
    (∀ e, luaH_next tb key = .error e → lua_next L idx = .error (.runerror e)) ∧
    ∀ res L1, lua_next L idx = .ok (res, L1) →
      (res ≠ 0 ↔ ∃ kv, luaH_next tb key = .ok (some kv)) := by
  have a1 := inv.base_top
  have a2 := inv.top_ci
  have a3 := inv.ci_last
  have a4 := inv.last_size
  have a5 := inv.size
  obtain ⟨ev, hev⟩ := index2adr_state L idx r hr
  obtain ⟨a, R⟩ := r
  simp only at hev ht
  subst hev
  unfold lua_gettop at h1
  have g : (lua_gettop L).toNat = L.top - L.base := by unfold lua_gettop; omega
  rw [g] at hkey
  have hk : L.stack[L.top - 1]? = some key := by
    rw [← hkey]
    unfold posval
    congr 1
    omega
  have hne : ¬ L.top = 0 := by omega
  have e0 : lua_next L idx =
      match luaH_next tb key with
      | .error e => .error (.runerror e)
      | .ok (some kv) => do
        let L1 ← setobj { L with env := ev } (.stack (L.top - 1)) kv.1
        let L2 ← setobj L1 (.stack L1.top) kv.2
        let L3 ← api_incr_top L2
        return (1, L3)
      | .ok none => return (0, { L with env := ev, top := L.top - 1 }) := by
    unfold lua_next
    rw [hr]
    simp only [bind, Except.bind, ht]
    rw [api_check_pos _ (show ttistable (TValue.gc GCTag.table h) = true from rfl)]
    simp only [hvalue, htb, if_neg hne]
    rewrite [getobj_stack _ _ _ (show ({ L with env := ev } : lua_State).stack[L.top - 1]? =
      some key from hk)]
    rfl
  have below : ∀ (S : List TValue) (tp : Nat) (ev1 : TValue),
      (∀ i, i < L.top - 1 → S[i]? = L.stack[i]?) →
      ∀ j : Nat, 1 ≤ j → (j : Int) < lua_gettop L →
        ∃ w, posval L j = some w ∧
          posval { L with env := ev1, stack := S, top := tp } j = some w := by
    intro S tp ev1 hS j j1 j2
    obtain ⟨w, hw⟩ := posval_live L inv j j1 (by omega)
    refine ⟨w, hw, ?_⟩
    rw [← hw]
    unfold lua_gettop at j2
    show S[L.base + (j - 1)]? = L.stack[L.base + (j - 1)]?
    exact hS _ (by omega)
  refine ⟨fun k v hn hroom => ?_, fun hn => ?_, fun e hn => ?_, fun res L1 hres => ?_⟩
  · rw [hn] at e0
    have s1 := setobj_stack { L with env := ev } (L.top - 1) k
      (by show L.top - 1 < L.stack.length; omega)
    have s2 := setobj_stack { L with env := ev, stack := L.stack.set (L.top - 1) k } L.top v
      (by show L.top < (L.stack.set (L.top - 1) k).length; rw [List.length_set]; omega)
    have s3 : api_incr_top
        { L with env := ev, stack := (L.stack.set (L.top - 1) k).set L.top v } =
        .ok { L with env := ev, stack := (L.stack.set (L.top - 1) k).set L.top v, top := L.top + 1 } := by
      unfold api_incr_top
      rw [api_check_pos _ (by exact hroom)]
      rfl
    simp only [bind, Except.bind, s1, s2, s3, pure, Except.pure] at e0
    refine ⟨_, e0, ?_, ?_, ?_, ?_⟩
    · unfold lua_gettop
      simp only
      omega
    · rw [g]
      unfold posval
      simp only
      rw [List.getElem?_set_ne (by omega), show L.base + (L.top - L.base - 1) = L.top - 1 by omega,
        List.getElem?_set_self (by omega)]
    · rw [g]
      unfold posval
      simp only
      rw [show L.base + (L.top - L.base + 1 - 1) = L.top by omega,
        List.getElem?_set_self (by simp only [List.length_set]; omega)]
    · exact below _ _ _ (fun i hi => by
        rw [List.getElem?_set_ne (by omega), List.getElem?_set_ne (by omega)])
  · rw [hn] at e0
    refine ⟨_, e0, ?_, ?_⟩
    · unfold lua_gettop
      simp only
      omega
    · exact below _ _ _ (fun i _ => rfl)
  · rw [hn] at e0
    exact e0
  · rw [e0] at hres
    cases hn : luaH_next tb key with
    | error e =>
      rw [hn] at hres
      cases hres
    | ok o =>
      rw [hn] at hres
      cases o with
      | none =>
        cases hres
        simp
      | some kv =>
        simp only [bind, Except.bind] at hres
        have hres1 := hres
        split at hres1
        · cases hres1
        split at hres1
        · cases hres1
        split at hres1
        · cases hres1
        cases hres1
        simp


/-- Instance of C25: for the table `\x7b30\x7d` at index 1 and nil on top, `lua_next`
returns 1 and leaves the key 1 and the value 30 on top; after the value is popped, the
next call returns 0 and pops the key. -/
theorem C25_next_stack_effect_witness :
    StackInv exnext ∧ index2adr exnext 1 = .ok (.stack 1, exnext) ∧
    getobj exnext (.stack 1) = .ok (.gc .table 65) ∧
    heapget exnext.l_G.tables 65 = some extab30 ∧ put ex0 (num 1) (num 30) = extab30 ∧
    (1 : Int) ≤ lua_gettop exnext ∧ posval exnext (lua_gettop exnext).toNat = some .nil ∧
    luaH_next extab30 .nil = .ok (some (num 1, num 30)) ∧
    (lua_next exnext 1).map (fun x => (x.1, live x.2)) =
      .ok (1, [.gc .table 65, num 10, num 20, num 1, num 30]) ∧
    ((lua_next exnext 1).bind (fun x => (lua_settop x.2 (-2)).bind
      (fun y => lua_next y 1))).map (fun x => (x.1, live x.2)) =
        .ok (0, [.gc .table 65, num 10, num 20]) ∧
    (∀ k v, luaH_next extab30 .nil = .ok (some (k, v)) →
      exnext.top < exnext.ci.top →
      ∃ L1, lua_next exnext 1 = .ok (1, L1) ∧ lua_gettop L1 = lua_gettop exnext + 1 ∧
        posval L1 (lua_gettop exnext).toNat = some k ∧
        posval L1 ((lua_gettop exnext).toNat + 1) = some v ∧
        ∀ j : Nat, 1 ≤ j → (j : Int) < lua_gettop exnext →
          ∃ w, posval exnext j = some w ∧ posval L1 j = some w) ∧
    (luaH_next extab30 .nil = .ok none →
      ∃ L1, lua_next exnext 1 = .ok (0, L1) ∧ lua_gettop L1 = lua_gettop exnext - 1 ∧
        ∀ j : Nat, 1 ≤ j → (j : Int) < lua_gettop exnext →
          ∃ w, posval exnext j = some w ∧ posval L1 j = some w) ∧
    (∀ e, luaH_next extab30 .nil = .error e →
      lua_next exnext 1 = .error (.runerror e)) ∧
    ∀ res L1, lua_next exnext 1 = .ok (res, L1) →
      (res ≠ 0 ↔ ∃ kv, luaH_next extab30 .nil = .ok (some kv)) :=
  ⟨inv_exnext, rfl, rfl, rfl, rfl, by decide, rfl, rfl, rfl, rfl,
    C25_next_stack_effect exnext 1 (.stack 1, exnext) 65 extab30 .nil
      inv_exnext rfl rfl rfl (by decide) rfl⟩

/-- C22 (protected-call restoration): let the value at `top - (nargs+1)` be a foreign
closure, with its `nargs ≥ 0` arguments above it, and let the callee, run in its frame
with the handler of `errfunc` installed, raise an error with the status
`status ≠ 0` after it has pushed `k` junk values (any `k`) and the error object
`errobj`, without a write below its frame.  Then `lua_pcall(L, nargs, nresults,
errfunc)` returns `status`, `gettop` is afterwards the `gettop` before the function and
its arguments were pushed plus 1, the new top value is `errobj`, the values below are
unchanged, and the call chain and the handler slot are those before the call. -/
theorem C22_pcall_restores (code : Nat → lua_CFunction) (L : lua_State)
    (nargs nresults errfunc : Int) (ef p k : Nat) (cl : Closure) (status : Int)
    (Lr : lua_State) (errobj : TValue) (inv : StackInv L) (hbase : L.ci.base = L.base)
    (hn : 0 ≤ nargs) (hargs : nargs + 1 ≤ lua_gettop L)
    (hres : nresults = LUA_MULTRET ∨ (L.ci.top : Int) - L.top ≥ nresults - nargs)
    (hef : (errfunc = 0 ∧ ef = 0) ∨
      (errfunc ≠ 0 ∧ index2adr L errfunc = .ok (.stack ef, L)))
    (hf : L.stack[L.top - (nargs.toNat + 1)]? = some (.gc .function p))
    (hcl : heapget L.l_G.closures p = some cl) (hC : cl.isC = true)
    (hraise : code cl.f (precall_frame { L with errfunc := ef } (L.top - (nargs.toNat + 1))) =
      .ok (.raised status Lr))
    (hst : status ≠ 0)
    (hk : Lr.top = L.top + k + 1) (hlen : Lr.top ≤ Lr.stack.length)
    (herr : Lr.stack[Lr.top - 1]? = some errobj)
    (hbelow : ∀ i, i < L.top - (nargs.toNat + 1) → Lr.stack[i]? = L.stack[i]?)
    (hchain : ∃ pre, Lr.callers = pre ++ L.ci :: L.callers) :
    ∃ L1, lua_pcall code L nargs nresults errfunc = .ok (some (status, L1)) ∧ status ≠ 0 ∧
      lua_gettop L1 = lua_gettop L - (nargs + 1) + 1 ∧
      posval L1 (lua_gettop L1).toNat = some errobj ∧
      (∀ j : Nat, 1 ≤ j → (j : Int) ≤ lua_gettop L - (nargs + 1) →
        ∃ v, posval L j = some v ∧ posval L1 j = some v) ∧
      L1.base = L.base ∧ L1.ci = L.ci ∧ L1.callers = L.callers ∧ L1.errfunc = L.errfunc := by
  have a1 := inv.base_top
  have a2 := inv.top_ci
  have a3 := inv.ci_last
  have a4 := inv.last_size
  have a5 := inv.size
  unfold lua_gettop at hargs
  obtain ⟨m, rfl⟩ : ∃ m : Nat, nargs = (m : Int) := ⟨nargs.toNat, by omega⟩
  simp only [Int.toNat_ofNat] at hf hraise hbelow
  obtain ⟨pre, hpre⟩ := hchain
  have hcf : (((L.top : Int) - ((m : Int) + 1)).toNat) = L.top - (m + 1) := by omega
  have e1 : (if errfunc = 0 then (pure (0, L) : Api (Nat × lua_State))
      else do
        let o ← index2adr L errfunc
        api_checkvalidindex o.1
        let func ← savestack o.1
        pure (func, o.2)) = .ok (ef, L) := by
    rcases hef with ⟨h0, h1⟩ | ⟨h0, h1⟩
    · rw [if_pos h0, h1]
      rfl
    · rw [if_neg h0, h1]
      simp only [bind, Except.bind, api_checkvalidindex]
      rw [api_check_pos _ (by simp)]
      rfl
  have e2 : luaD_call code { L with errfunc := ef } (L.top - (m + 1)) nresults =
      .ok (.raised status Lr) := by
    unfold luaD_call
    rw [getobj_stack _ _ _ (show ({ L with errfunc := ef } : lua_State).stack[L.top - (m + 1)]? =
      some (.gc .function p) from hf)]
    simp only [bind, Except.bind]
    rw [show ({ L with errfunc := ef } : lua_State).l_G = L.l_G from rfl, hcl]
    simp only [hC, if_true, hraise]
    rfl
  have hot : L.top - (m + 1) < Lr.stack.length := by omega
  have e3 : luaD_seterrorobj Lr status (L.top - (m + 1)) =
      .ok { Lr with stack := Lr.stack.set (L.top - (m + 1)) errobj,
                    top := L.top - (m + 1) + 1 } := by
    unfold luaD_seterrorobj
    rw [getobj_stack _ _ _ herr]
    simp only [bind, Except.bind]
    rw [setobj_stack _ _ _ hot]
    rfl
  have e4 : luaD_pcall L (fun L1 => luaD_call code L1 (L.top - (m + 1)) nresults)
      (L.top - (m + 1)) ef =
      .ok (some (status,
        { Lr with
          stack := Lr.stack.set (L.top - (m + 1)) errobj,
          top := L.top - (m + 1) + 1, ci := L.ci, callers := L.callers,
          base := L.ci.base, errfunc := L.errfunc })) := by
    unfold luaD_pcall
    simp only [bind, Except.bind, e2, e3, hpre]
    rw [if_neg (by simp only [List.length_cons, List.length_append]; omega), drop_chain]
    rfl
  have hadj : ∀ X : lua_State, X.ci = L.ci → X.top = L.top - (m + 1) + 1 →
      adjustresults X nresults = X := by
    intro X x1 x2
    unfold adjustresults
    split_ifs with c
    · have ht : X.ci.top = X.top := by
        rw [x1] at c ⊢
        omega
      have hc : ({ X.ci with top := X.top } : CallInfo) = X.ci := by rw [← ht]
      show { X with ci := { X.ci with top := X.top } } = X
      rw [hc]
    · rfl
  refine ⟨
    { Lr with
      stack := Lr.stack.set (L.top - (m + 1)) errobj,
      top := L.top - (m + 1) + 1, ci := L.ci, callers := L.callers,
      base := L.ci.base, errfunc := L.errfunc }, ?_, hst, ?_, ?_, ?_, hbase, rfl, rfl, rfl⟩
  · unfold lua_pcall api_checknelems checkresults
    rw [api_check_pos _ hargs, api_check_pos _ hres, e1]
    simp only [bind, Except.bind, hcf, e4, pure, Except.pure]
    exact congrArg (fun X => Except.ok (some (status, X))) (hadj _ rfl rfl)
  · unfold lua_gettop
    simp only
    omega
  · unfold lua_gettop posval
    simp only
    rw [hbase, show ((L.top - (m + 1) + 1 : Nat) - (L.base : Int)).toNat =
      L.top - (m + 1) + 1 - L.base by omega, show L.base + (L.top - (m + 1) + 1 - L.base - 1) = L.top - (m + 1) by omega,
      List.getElem?_set_self hot]
  · intro j j1 j2
    unfold lua_gettop at j2
    obtain ⟨v, hv⟩ := posval_live L inv j j1 (by unfold lua_gettop; omega)
    refine ⟨v, hv, ?_⟩
    rw [← hv]
    unfold posval
    simp only
    rw [hbase, List.getElem?_set_ne (by omega)]
    exact hbelow _ (by omega)

/-- Instance of C22: above 10, 20 and 30, a foreign function called with the argument
99 pushes three junk values and raises the error 42; `lua_pcall(L, 1, 0, 0)` returns
the status 2 and leaves 10, 20, 30 and 42.  With a message handler at index 1 that
returns `true`, the error object left is `true`. -/
theorem C22_pcall_restores_witness :
    StackInv expcall ∧ expcall.ci.base = expcall.base ∧ (0 : Int) ≤ 1 ∧
    (1 : Int) + 1 ≤ lua_gettop expcall ∧
    ((0 : Int) = LUA_MULTRET ∨ (expcall.ci.top : Int) - expcall.top ≥ 0 - 1) ∧
    expcall.stack[expcall.top - ((1 : Int).toNat + 1)]? = some (.gc .function 65) ∧
    heapget expcall.l_G.closures 65 =
      some { isC := true, nupvalues := 0, env := 32, f := 7, upvalue := [] } ∧
    excode 7 (precall_frame { expcall with errfunc := 0 } (expcall.top - ((1 : Int).toNat + 1))) =
      .ok (.raised LUA_ERRRUN exraised) ∧
    LUA_ERRRUN ≠ 0 ∧ exraised.top = expcall.top + 3 + 1 ∧
    exraised.top ≤ exraised.stack.length ∧
    exraised.stack[exraised.top - 1]? = some (num 42) ∧
    (∀ i, i < expcall.top - ((1 : Int).toNat + 1) → exraised.stack[i]? = expcall.stack[i]?) ∧
    (∃ pre, exraised.callers = pre ++ expcall.ci :: expcall.callers) ∧
    live expcall = [num 10, num 20, num 30, .gc .function 65, num 99] ∧
    (lua_pcall excode expcall 1 0 0).map (fun r => r.map (fun x => (x.1, live x.2))) =
      .ok (some (2, [num 10, num 20, num 30, num 42])) ∧
    live exhandler = [.gc .function 65, num 10, .gc .function 66, num 99] ∧
    (lua_pcall excode exhandler 1 0 1).map (fun r => r.map (fun x => (x.1, live x.2))) =
      .ok (some (2, [.gc .function 65, num 10, .boolean true])) ∧
    ∃ L1, lua_pcall excode expcall 1 0 0 = .ok (some (LUA_ERRRUN, L1)) ∧ LUA_ERRRUN ≠ 0 ∧
      lua_gettop L1 = lua_gettop expcall - (1 + 1) + 1 ∧
      posval L1 (lua_gettop L1).toNat = some (num 42) ∧
      (∀ j : Nat, 1 ≤ j → (j : Int) ≤ lua_gettop expcall - (1 + 1) →
        ∃ v, posval expcall j = some v ∧ posval L1 j = some v) ∧
      L1.base = expcall.base ∧ L1.ci = expcall.ci ∧ L1.callers = expcall.callers ∧
      L1.errfunc = expcall.errfunc :=
  have hb : ∀ i, i < expcall.top - ((1 : Int).toNat + 1) →
      exraised.stack[i]? = expcall.stack[i]? := by
    intro i hi
    have h4 : i < 4 := hi
    interval_cases i <;> rfl
  ⟨inv_expcall, by decide, by decide, by decide, by decide, by decide, by decide, rfl,
    by decide, by decide, by decide, by decide, hb, ⟨[], by decide⟩, by decide, rfl,
    by decide, rfl,
    C22_pcall_restores excode expcall 1 0 0 0 65 3
      { isC := true, nupvalues := 0, env := 32, f := 7, upvalue := [] } LUA_ERRRUN exraised
      (num 42) inv_expcall (by decide) (by decide) (by decide) (by decide)
      (Or.inl ⟨rfl, rfl⟩) (by decide) (by decide) rfl rfl (by decide) (by decide)
      (by decide) (by decide) hb ⟨[], by decide⟩⟩

/-- C23 (`lua_concat`): in a thread that satisfies the stack invariant,
`lua_concat(L, 0)` (with room for one value) pushes the empty string (`gettop + 1`);
`lua_concat(L, 1)` leaves the state unchanged; and for `n ≥ 2` with `n` strings on
top, `lua_concat(L, n)` leaves `gettop` decreased by `n - 1` and the new top value is
the string whose bytes are those of the `n` strings, left to right.  The values below
are unchanged, and every string keeps its bytes. -/
theorem C23_concat_strings (L : lua_State) (inv : StackInv L) :
    (L.top < L.ci.top →
      ∃ L1 s, lua_concat L 0 = .ok (some L1) ∧ lua_gettop L1 = lua_gettop L + 1 ∧
        posval L1 (lua_gettop L1).toNat = some (.string s) ∧ getstr L1.l_G s = some [] ∧
        (∀ j : Nat, 1 ≤ j → (j : Int) ≤ lua_gettop L →
          ∃ v, posval L j = some v ∧ posval L1 j = some v) ∧
        ∀ s1 b, getstr L.l_G s1 = some b → getstr L1.l_G s1 = some b) ∧
    (1 ≤ lua_gettop L → lua_concat L 1 = .ok (some L)) ∧
    ∀ (n : Nat) (ss : List TString) (bs : List (List Nat)),
      2 ≤ n → (n : Int) ≤ lua_gettop L → ss.length = n →
      (live L).drop ((lua_gettop L).toNat - n) = ss.map TValue.string →
      ss.map (getstr L.l_G) = bs.map some →
      ∃ L1 s, lua_concat L n = .ok (some L1) ∧ lua_gettop L1 = lua_gettop L - (n - 1) ∧
        posval L1 (lua_gettop L1).toNat = some (.string s) ∧
        getstr L1.l_G s = some bs.flatten ∧
        (∀ j : Nat, 1 ≤ j → (j : Int) ≤ lua_gettop L - n →
          ∃ v, posval L j = some v ∧ posval L1 j = some v) ∧
        ∀ s1 b, getstr L.l_G s1 = some b → getstr L1.l_G s1 = some b := by
  have a1 := inv.base_top
  have a2 := inv.top_ci
  have a3 := inv.ci_last
  have a4 := inv.last_size
  have a5 := inv.size
  have g : (lua_gettop L).toNat = L.top - L.base := by unfold lua_gettop; omega
  refine ⟨fun hroom => ?_, fun h1 => ?_, fun n ss bs n2 hn hlen htop hbytes => ?_⟩
  · obtain ⟨p1, p2, _⟩ := luaS_newlstr_spec L.l_G []
    have e : lua_concat L 0 = .ok (some
        { L with
          l_G := (luaS_newlstr L.l_G []).2,
          stack := L.stack.set L.top (.string (luaS_newlstr L.l_G []).1),
          top := L.top + 1 }) := by
      unfold lua_concat api_checknelems
      rw [api_check_pos _ (by omega)]
      simp only [bind, Except.bind]
      rw [if_pos True.intro]
      rw [setobj_stack _ _ _ (by show L.top < L.stack.length; omega)]
      simp only [api_incr_top]
      rw [api_check_pos _ (by exact hroom)]
      rfl
    refine ⟨_, _, e, ?_, ?_, p1, fun j j1 j2 => ?_, p2⟩
    · unfold lua_gettop
      simp only
      omega
    · unfold lua_gettop posval
      simp only
      rw [show L.base + ((((L.top + 1 : Nat) : Int) - (L.base : Int)).toNat - 1) = L.top by omega,
        List.getElem?_set_self (by omega)]
    · obtain ⟨v, hv⟩ := posval_live L inv j j1 j2
      refine ⟨v, hv, ?_⟩
      rw [← hv]
      unfold lua_gettop at j2
      unfold posval
      simp only
      rw [List.getElem?_set_ne (by omega)]
  · unfold lua_gettop at h1
    unfold lua_concat api_checknelems
    rw [api_check_pos _ h1]
    simp only [bind, Except.bind]
    rw [if_neg (by decide), if_neg (by decide)]
    rfl
  · unfold lua_gettop at hn
    rw [g] at htop
    rw [live_drop L n a1 (by omega)] at htop
    obtain ⟨p1, p2, _⟩ := luaS_newlstr_spec L.l_G bs.flatten
    have hfirst : ((L.base : Int) + ((L.top : Int) - L.base - 1) + 1).toNat - n = L.top - n := by
      omega
    have e0 : luaV_concat L n ((L.top : Int) - L.base - 1) = .ok (some
        { L with
          l_G := (luaS_newlstr L.l_G bs.flatten).2,
          stack := L.stack.set (L.top - n) (.string (luaS_newlstr L.l_G bs.flatten).1) }) := by
      unfold luaV_concat
      simp only [hfirst, htop, concat_bytes_strings L.l_G ss bs hbytes]
      rw [setobj_stack _ _ _ (by show L.top - n < L.stack.length; omega)]
    have e : lua_concat L n = .ok (some
        { L with
          l_G := (luaS_newlstr L.l_G bs.flatten).2,
          stack := L.stack.set (L.top - n) (.string (luaS_newlstr L.l_G bs.flatten).1),
          top := L.top - (n - 1) }) := by
      unfold lua_concat api_checknelems
      rw [api_check_pos _ hn]
      simp only [bind, Except.bind]
      rw [if_pos (by omega), Int.toNat_ofNat, e0]
      simp only [pure, Except.pure]
      congr 3
      omega
    refine ⟨_, _, e, ?_, ?_, p1, fun j j1 j2 => ?_, p2⟩
    · unfold lua_gettop
      simp only
      omega
    · unfold lua_gettop posval
      simp only
      rw [show L.base + ((((L.top - (n - 1) : Nat) : Int) - (L.base : Int)).toNat - 1) = L.top - n
        by omega, List.getElem?_set_self (by omega)]
    · unfold lua_gettop at j2
      obtain ⟨v, hv⟩ := posval_live L inv j j1 (by unfold lua_gettop; omega)
      refine ⟨v, hv, ?_⟩
      rw [← hv]
      unfold posval
      simp only
      rw [List.getElem?_set_ne (by omega)]

/-- Instance of C23: above 10, the strings "ab", "" and "c" give "abc" under
`lua_concat(L, 3)`; `lua_concat(L, 0)` pushes the empty string and `lua_concat(L, 1)`
changes nothing. -/
theorem C23_concat_strings_witness :
    StackInv exstrings ∧
    livebytes exstrings = [none, some [97, 98], some [], some [99]] ∧
    (lua_concat exstrings 3).map (fun r => r.map livebytes) =
      .ok (some [none, some [97, 98, 99]]) ∧
    (lua_concat exstrings 0).map (fun r => r.map livebytes) =
      .ok (some [none, some [97, 98], some [], some [99], some []]) ∧
    (lua_concat exstrings 1).map (fun r => r.map livebytes) =
      .ok (some [none, some [97, 98], some [], some [99]]) ∧
    ((exstrings.top < exstrings.ci.top →
      ∃ L1 s, lua_concat exstrings 0 = .ok (some L1) ∧
        lua_gettop L1 = lua_gettop exstrings + 1 ∧
        posval L1 (lua_gettop L1).toNat = some (.string s) ∧ getstr L1.l_G s = some [] ∧
        (∀ j : Nat, 1 ≤ j → (j : Int) ≤ lua_gettop exstrings →
          ∃ v, posval exstrings j = some v ∧ posval L1 j = some v) ∧
        ∀ s1 b, getstr exstrings.l_G s1 = some b → getstr L1.l_G s1 = some b) ∧
    (1 ≤ lua_gettop exstrings → lua_concat exstrings 1 = .ok (some exstrings)) ∧
    ∀ (n : Nat) (ss : List TString) (bs : List (List Nat)),
      2 ≤ n → (n : Int) ≤ lua_gettop exstrings → ss.length = n →
      (live exstrings).drop ((lua_gettop exstrings).toNat - n) = ss.map TValue.string →
      ss.map (getstr exstrings.l_G) = bs.map some →
      ∃ L1 s, lua_concat exstrings n = .ok (some L1) ∧
        lua_gettop L1 = lua_gettop exstrings - (n - 1) ∧
        posval L1 (lua_gettop L1).toNat = some (.string s) ∧
        getstr L1.l_G s = some bs.flatten ∧
        (∀ j : Nat, 1 ≤ j → (j : Int) ≤ lua_gettop exstrings - n →
          ∃ v, posval exstrings j = some v ∧ posval L1 j = some v) ∧
        ∀ s1 b, getstr exstrings.l_G s1 = some b → getstr L1.l_G s1 = some b) :=
  ⟨inv_exstrings, by decide, rfl, rfl, rfl, C23_concat_strings exstrings inv_exstrings⟩

/-! ## The claims on hashing, the fast paths, `rehash` and `luaH_next` -/

/-- C31 (main position of a number key), with the fold of the code, an addition: for
every number `n` and every table with the hash capacity `c = sizenode(t)`, `hashnum`
returns the node at index `((lo + hi) mod 2^32) mod ((c - 1) | 1)`, where `lo` and
`hi` are the two 32-bit words of the bit pattern of the double `n + 1`; the index is
below `c`, it is the main position of the key `n`, and numbers that are equal as
doubles (`+0` and `-0`) have the same one. -/
theorem C31_hashnum_position (t : Table) (n : lua_Number) :
    hashnum t n =
      ((n.add1.bits % 2 ^ 32 + n.add1.bits / 2 ^ 32 % 2 ^ 32) % 2 ^ 32) %
        ((sizenode t - 1) ||| 1) ∧
    hashnum t n < sizenode t ∧ mainposition t (.number n) = hashnum t n ∧
    (∀ m, luai_numeq n m = true → hashnum t m = hashnum t n) ∧
    hashnum t ⟨2 ^ 63⟩ = hashnum t ⟨0⟩ :=
  ⟨rfl, hashmod_lt t _, rfl, fun m h => (hashnum_congr t n m h).symm,
    hashnum_congr t ⟨2 ^ 63⟩ ⟨0⟩ (by decide)⟩

/-- Counterexample to C31 as stated ("lo XOR hi"): in a table of capacity 4 the number
`2^22` has `n + 1 = 4194305`, with the words `lo = 0x40000000` and `hi = 0x41500000`;
`hashnum` returns node 2, the sum of the words modulo 3, where the exclusive or of
the words gives 0. -/
theorem C31_counterexample :
    sizenode excoll = 4 ∧ (cast_num 4194304).add1 = cast_num 4194305 ∧
    (cast_num 4194304).add1.bits = 0x4150000040000000 ∧
    (cast_num 4194304).add1.bits % 2 ^ 32 = 0x40000000 ∧
    (cast_num 4194304).add1.bits / 2 ^ 32 % 2 ^ 32 = 0x41500000 ∧
    hashnum excoll (cast_num 4194304) = 2 ∧
    ((cast_num 4194304).add1.bits % 2 ^ 32 ^^^ (cast_num 4194304).add1.bits / 2 ^ 32 % 2 ^ 32) %
      ((sizenode excoll - 1) ||| 1) = 0 ∧
    hashnum excoll (cast_num 4194304) ≠
      ((cast_num 4194304).add1.bits % 2 ^ 32 ^^^ (cast_num 4194304).add1.bits / 2 ^ 32 % 2 ^ 32) %
        ((sizenode excoll - 1) ||| 1) :=
  ⟨by decide, by decide, by decide, by decide, by decide, by decide, by decide, by decide⟩

/-- C32 (the unsigned range test of `luaH_getnum`): for every `int` key and every
`sizearray` (an `int`, at least 0), the test
`(unsigned)(key - 1) < (unsigned)sizearray`, computed modulo `2^32`, holds if and only
if `1 ≤ key ≤ sizearray`; so `luaH_getnum` returns the cell `array[key-1]`, which is
inside the array part, exactly for these keys, and for every other key, `key ≤ 0`
(`INT_MIN` too) and `key > sizearray`, it searches the hash part, where it finds a node
or nothing. -/
theorem C32_unsigned_range_test (t : Table) (key : Int) (h1 : -(2 ^ 31) ≤ key)
    (h2 : key < 2 ^ 31) (hs : t.sizearray < 2 ^ 31) :
    (((key - 1) % 2 ^ 32).toNat < t.sizearray % 2 ^ 32 ↔ (1 ≤ key ∧ key ≤ (t.sizearray : Int))) ∧
    ((1 ≤ key ∧ key ≤ (t.sizearray : Int)) →
      luaH_getnum t key = .arr (key - 1).toNat ∧ (key - 1).toNat < t.sizearray) ∧
    (¬ (1 ≤ key ∧ key ≤ (t.sizearray : Int)) →
      luaH_getnum t key = hfind t (.number (cast_num key)) ∧
      ∀ i, luaH_getnum t key ≠ .arr i) ∧
    ((∃ i, luaH_getnum t key = .arr i) ↔ (1 ≤ key ∧ key ≤ (t.sizearray : Int))) ∧
    (∀ i, luaH_getnum t key = .arr i → i < t.sizearray) := by
  have ht := unsigned_range_test key t.sizearray h1 h2 hs
  have he := luaH_getnum_eq t hs key h1 h2
  have hh : ∀ i, hfind t (.number (cast_num key)) ≠ .arr i := by
    intro i c
    rcases chainfind_cases t (fun n => luaO_rawequalObj n.i_key (.number (cast_num key)))
      t.node.length (mainposition t (.number (cast_num key))) with h | ⟨j, h⟩
    · unfold hfind at c
      rw [h] at c
      cases c
    · unfold hfind at c
      rw [h] at c
      cases c
  have hin : (1 ≤ key ∧ key ≤ (t.sizearray : Int)) →
      luaH_getnum t key = .arr (key - 1).toNat ∧ (key - 1).toNat < t.sizearray := by
    intro h
    rw [he, if_pos ⟨by omega, h.2⟩]
    exact ⟨rfl, by omega⟩
  have hout : ¬ (1 ≤ key ∧ key ≤ (t.sizearray : Int)) →
      luaH_getnum t key = hfind t (.number (cast_num key)) ∧
      ∀ i, luaH_getnum t key ≠ .arr i := by
    intro h
    rw [he, if_neg (by omega)]
    exact ⟨rfl, hh⟩
  refine ⟨by rw [ht]; constructor <;> intro h <;> omega, hin, hout, ?_, ?_⟩
  · constructor
    · rintro ⟨i, hi⟩
      by_contra c
      exact (hout c).2 i hi
    · intro h
      exact ⟨_, (hin h).1⟩
  · intro i hi
    by_cases c : 1 ≤ key ∧ key ≤ (t.sizearray : Int)
    · have := hin c
      rw [this.1] at hi
      cases hi
      exact this.2
    · exact absurd hi ((hout c).2 i)

/-- C33 (the fast paths agree with the general functions): for every table `t`,
`luaH_getnum(t, i)` returns the slot of `luaH_get(t, Number(i))` for every `int`
`i`, and `luaH_getstr(t, s)` the slot of `luaH_get(t, String(s))`; `luaH_set` with the
key `Number(i)` (with `String(s)`) has the result of `luaH_setnum(t, i)` (of
`luaH_setstr(t, s)`), the same slot or the same error, with the same table but for
`flags`, which `luaH_set` resets to 0; so the bindings are the same. -/
theorem C33_fast_paths_agree (t : Table) :
    (∀ i : Int, -(2 ^ 31) ≤ i → i < 2 ^ 31 →
      luaH_getnum t i = luaH_get t (.number (cast_num i))) ∧
    (∀ s : TString, luaH_getstr t s = luaH_get t (.string s)) ∧
    (∀ (fuel : Nat) (i : Int), -(2 ^ 31) ≤ i → i < 2 ^ 31 →
      luaH_set fuel t (.number (cast_num i)) = resetres (luaH_setnum fuel t i) ∧
      ∀ sl t', luaH_setnum fuel t i = .ok (sl, t') →
        luaH_set fuel t (.number (cast_num i)) = .ok (sl, { t' with flags := 0 }) ∧
        ∀ x, getval { t' with flags := 0 } x = getval t' x) ∧
    (∀ (fuel : Nat) (s : TString),
      luaH_set fuel t (.string s) = resetres (luaH_setstr fuel t s) ∧
      ∀ sl t', luaH_setstr fuel t s = .ok (sl, t') →
        luaH_set fuel t (.string s) = .ok (sl, { t' with flags := 0 }) ∧
        ∀ x, getval { t' with flags := 0 } x = getval t' x) := by
  have hnum : ∀ (fuel : Nat) (i : Int), -(2 ^ 31) ≤ i → i < 2 ^ 31 →
      luaH_set fuel t (.number (cast_num i)) = resetres (luaH_setnum fuel t i) := by
    intro fuel i h1 h2
    unfold luaH_set luaH_setnum luaH_set_with luaH_setnum_with
    simp only [luaH_get_cast_num t i h1 h2]
    by_cases c : luaH_getnum t i ≠ .nilobject
    · rw [if_pos c, if_pos c]
      rfl
    · rw [if_neg c, if_neg c]
      have hv := validkey_cast_num i h1 h2
      have hn : ttisnil (TValue.number (cast_num i)) = false := rfl
      rw [hn, validkey_not_nan _ hv]
      simp only [Bool.false_eq_true, if_false]
      exact newkey_with_resetflags _ (rehash_set_resetflags fuel) t _
  have hstr : ∀ (fuel : Nat) (s : TString),
      luaH_set fuel t (.string s) = resetres (luaH_setstr fuel t s) := by
    intro fuel s
    unfold luaH_set luaH_setstr luaH_set_with luaH_setstr_with
    have hg : luaH_get t (.string s) = luaH_getstr t s := rfl
    simp only [hg]
    by_cases c : luaH_getstr t s ≠ .nilobject
    · rw [if_pos c, if_pos c]
      rfl
    · rw [if_neg c, if_neg c]
      have hn : ttisnil (TValue.string s) = false := rfl
      have hm : (ttisnumber (TValue.string s) && luai_numisnan (nvalue (TValue.string s))) =
          false := rfl
      rw [hn, hm]
      simp only [Bool.false_eq_true, if_false]
      exact newkey_with_resetflags _ (rehash_set_resetflags fuel) t _
  refine ⟨fun i h1 h2 => (luaH_get_cast_num t i h1 h2).symm, fun s => rfl,
    fun fuel i h1 h2 => ⟨hnum fuel i h1 h2, fun sl t' h => ?_⟩,
    fun fuel s => ⟨hstr fuel s, fun sl t' h => ?_⟩⟩
  · rw [hnum fuel i h1 h2, h]
    exact ⟨rfl, getval_resetflags t'⟩
  · rw [hstr fuel s, h]
    exact ⟨rfl, getval_resetflags t'⟩

/-- C34 (leading hole), for an array part without a value: for every well-formed table
`t` whose `t[1]` is nil and whose array part holds no value other than nil,
`luaH_getn(t)` returns 0.  For every well-formed table whose `t[1]` is nil, 0 is a
border and `luaH_getn(t)` returns a border `n`: 0, or else `t[n]` is not nil and
`t[n+1]` is nil. -/
theorem C34_leading_hole (t : Table) (hw : WF t) (h1 : slotval t (luaH_getnum t 1) = .nil) :
    ((∀ i, i < t.sizearray → t.array.getD i .nil = .nil) → luaH_getn t = some 0) ∧
    isborder t 0 ∧
    ∃ n : Nat, luaH_getn t = some n ∧
      (n = 0 ∨ (1 ≤ n ∧ slotval t (luaH_getnum t (n : Int)) ≠ .nil ∧
        slotval t (luaH_getnum t ((n : Int) + 1)) = .nil)) := by
  refine ⟨fun hall => ?_, Or.inl ⟨rfl, h1⟩, ?_⟩
  · unfold luaH_getn
    simp only
    by_cases c : t.sizearray > 0
    · have hl : t.array.getD (t.sizearray - 1) .nil = .nil := hall _ (by omega)
      rw [if_pos ⟨c, by rw [hl]; rfl⟩, getn_arraysearch_allnil t _ _ hall]
    · rw [if_neg (fun h => c h.1)]
      have hz : t.sizearray = 0 := by omega
      by_cases d : t.isdummy = true
      · rw [if_pos d, hz]
      · rw [if_neg d, hz]
        unfold unbound_search unbound_double
        have e1 : toInt32 ((0 + 1) % 2 ^ 32) = 1 := by decide
        rw [e1, h1]
        simp only [ttisnil, ttype, beq_self_eq_true, Bool.not_true, Bool.false_eq_true, if_false]
        rfl
  · obtain ⟨n, hn, hb⟩ := luaH_getn_spec t hw
    refine ⟨n, hn, ?_⟩
    rcases hb with ⟨b1, _⟩ | ⟨b1, b2, b3⟩
    · exact Or.inl b1
    · exact Or.inr ⟨b1, b2, b3⟩

/-- C36 (`luaH_next` rejects unknown keys): in a well-formed table, `luaH_next(t, k)`
raises an error, which is `invalid key to next`, exactly when `k` is not nil, is not
an integer-valued number in `1..sizearray`, and no node on the chain that starts at the
main position of `k` holds a key raw-equal to `k` or a dead key of the same
collectable object; that is the case exactly when no node of the table holds a key
raw-equal to `k`.  It raises no error for the nil key and none for a key that a node
of `t` holds.  The same holds of the table after the collector marked keys dead (the
nodes that `dead` selects): the error is raised exactly when no node of the chain
holds a raw-equal key or a dead key of the same object, and it is raised for no key
that a node of `t` holds, whether the node still holds the key or its dead key, which
is not raw-equal to the key. -/
theorem C36_next_rejects_unknown (t : Table) (hw : WF t) (dead : Nat → Bool) (k : TValue) :
    (∀ e, luaH_next t k = .error e → e = .invalid_key_to_next) ∧
    ((∃ e, luaH_next t k = .error e) ↔
      (k ≠ .nil ∧ ¬ (0 < arrayindex k ∧ arrayindex k ≤ (t.sizearray : Int)) ∧
        ∀ j, Reaches t (mainposition t k) j →
          (luaO_rawequalObj (gnode t j).i_key k ||
            (ttype (gnode t j).i_key == LUA_TDEADKEY && iscollectable k &&
              gcvalue (gnode t j).i_key == gcvalue k)) = false)) ∧
    ((∃ e, luaH_next t k = .error e) ↔
      (k ≠ .nil ∧ ¬ (0 < arrayindex k ∧ arrayindex k ≤ (t.sizearray : Int)) ∧
        ∀ j, j < t.node.length → luaO_rawequalObj (gnode t j).i_key k = false)) ∧
    (∃ r, luaH_next t .nil = .ok r) ∧
    (∀ i, i < t.node.length → (gnode t i).i_key ≠ .nil →
      ∃ r, luaH_next t (gnode t i).i_key = .ok r) ∧
    (∀ e, luaH_next (markdead dead t) k = .error e → e = .invalid_key_to_next) ∧
    ((∃ e, luaH_next (markdead dead t) k = .error e) ↔
      (k ≠ .nil ∧ ¬ (0 < arrayindex k ∧ arrayindex k ≤ (t.sizearray : Int)) ∧
        ∀ j, Reaches (markdead dead t) (mainposition (markdead dead t) k) j →
          (luaO_rawequalObj (gnode (markdead dead t) j).i_key k ||
            (ttype (gnode (markdead dead t) j).i_key == LUA_TDEADKEY && iscollectable k &&
              gcvalue (gnode (markdead dead t) j).i_key == gcvalue k)) = false)) ∧
    (∃ r, luaH_next (markdead dead t) .nil = .ok r) ∧
    (∀ i, i < t.node.length → (gnode t i).i_key ≠ .nil →
      ∃ r, luaH_next (markdead dead t) (gnode t i).i_key = .ok r) ∧
    (∀ i, i < t.node.length → (dead i && iscollectable (gnode t i).i_key) = true →
      (gnode (markdead dead t) i).i_key = .gc .deadkey (gcvalue (gnode t i).i_key) ∧
      (gnode (markdead dead t) i).i_val = .nil ∧
      luaO_rawequalObj (gnode (markdead dead t) i).i_key (gnode t i).i_key = false) := by
  have hc := hw.toWFcore
  have hn := luaH_next_scan t hc
  have hf := findindex_eq t hc
  have key : (∃ e, luaH_next t k = .error e) ↔
      (k ≠ .nil ∧ ¬ (0 < arrayindex k ∧ arrayindex k ≤ (t.sizearray : Int)) ∧
        hfind t k = .nilobject) := by
    rw [hn k, hf k]
    by_cases hk : k = .nil
    · rw [if_pos hk]
      constructor
      · rintro ⟨e, he⟩
        cases he
      · rintro ⟨h, _⟩
        exact absurd hk h
    rw [if_neg hk]
    by_cases hr : 0 < arrayindex k ∧ arrayindex k ≤ (t.sizearray : Int)
    · rw [if_pos hr]
      constructor
      · rintro ⟨e, he⟩
        cases he
      · rintro ⟨_, h, _⟩
        exact absurd hr h
    rw [if_neg hr]
    rcases hfind_cases t hc k with e | ⟨i, _, e, _⟩
    · rw [e]
      exact ⟨fun _ => ⟨hk, hr, rfl⟩, fun _ => ⟨_, rfl⟩⟩
    · rw [e]
      constructor
      · rintro ⟨e, he⟩
        cases he
      · rintro ⟨_, _, h⟩
        cases h
  refine ⟨fun e he => ?_, ?_, ?_, ?_, fun i hi hk => ?_, ?_⟩
  · rw [hn k, hf k] at he
    by_cases c1 : k = .nil
    · rw [if_pos c1] at he
      cases he
    rw [if_neg c1] at he
    by_cases c2 : 0 < arrayindex k ∧ arrayindex k ≤ (t.sizearray : Int)
    · rw [if_pos c2] at he
      cases he
    rw [if_neg c2] at he
    · cases hh : hfind t k with
      | nilobject =>
        rw [hh] at he
        cases he
        rfl
      | arr i =>
        rw [hh] at he
        cases he
        rfl
      | node n =>
        rw [hh] at he
        cases he
  · rw [key]
    constructor
    · rintro ⟨h1, h2, h3⟩
      refine ⟨h1, h2, fun j _ => ?_⟩
      rw [findindex_pred t hc k j]
      by_cases hj : j < t.node.length
      · exact hfind_nilobject t hc k h1 h3 j hj
      · have : gnode t j = dummynode_ := by
          unfold gnode
          rw [List.getD_eq_getElem?_getD, List.getElem?_eq_none (by omega)]
          rfl
        rw [this]
        cases k <;> first | rfl | exact absurd rfl h1
    · rintro ⟨h1, h2, h3⟩
      refine ⟨h1, h2, ?_⟩
      rcases hfind_cases t hc k with e | ⟨i, _, e, _⟩
      · exact e
      · obtain ⟨p1, p2⟩ := chainfind_node t _ _ _ _ e
        have := h3 i p2
        rw [findindex_pred t hc k i] at this
        rw [this] at p1
        cases p1
  · rw [key]
    constructor
    · rintro ⟨h1, h2, h3⟩
      exact ⟨h1, h2, fun j hj => hfind_nilobject t hc k h1 h3 j hj⟩
    · rintro ⟨h1, h2, h3⟩
      exact ⟨h1, h2, hfind_absent t hc k h3⟩
  · rw [hn .nil, hf .nil, if_pos rfl]
    exact ⟨_, rfl⟩
  · have := findindex_node t hc (t.sizearray + i) (by omega) (by omega)
      (by rw [Nat.add_sub_cancel_left]; exact hk)
    rw [cellkey_node] at this
    rw [hn, this]
    exact ⟨_, rfl⟩
  · have hl := length_markdead dead t
    have lk := fun k' => luaH_next_links (markdead dead t) (by rw [hl]; exact hc.size)
      (fun a b ha hx => by
        rw [hl] at ha ⊢
        rw [next_markdead] at hx
        exact (hc.next_lt a b ha hx).1)
      (by
        obtain ⟨r, hr⟩ := hc.rank
        exact ⟨r, fun a b ha hx => by
          rw [hl] at ha
          rw [next_markdead] at hx
          exact hr a b ha hx⟩) k'
    refine ⟨(lk k).1, (lk k).2, ?_, fun i hi hk => luaH_next_markdead_held t hc dead i hi hk,
      fun i hi hd => ?_⟩
    · cases hx : luaH_next (markdead dead t) .nil with
      | ok r => exact ⟨r, rfl⟩
      | error e => exact absurd rfl ((lk .nil).2.1 ⟨e, hx⟩).1
    · rw [gnode_markdead, if_pos hd]
      refine ⟨rfl, rfl, ?_⟩
      have hnd := hc.nodead i hi
      show luaO_rawequalObj (.gc .deadkey (gcvalue (gnode t i).i_key)) (gnode t i).i_key = false
      cases hkey : (gnode t i).i_key with
      | gc tt p =>
        rw [hkey] at hnd
        cases tt <;> first | rfl | exact absurd rfl hnd
      | _ => rfl

/-- C37 (clearing a field during a traversal): in a well-formed table `t` that holds the
key `k`, in its array part or in a node, let the value of `k` be overwritten with nil
through its slot, the key staying in place.  Then `luaH_next(t, k)` raises no error
and returns the first binding with a non-nil value after the cell of `k`, in the
order array part, then nodes: what it returned before the value was cleared. -/
theorem C37_clear_during_traversal (t : Table) (hw : WF t) (k : TValue)
    (hheld : luaH_get t k ≠ .nilobject) :
    luaH_get (setslot t (luaH_get t k) .nil) k = luaH_get t k ∧
    slotval (setslot t (luaH_get t k) .nil) (luaH_get t k) = .nil ∧
    luaH_next (setslot t (luaH_get t k) .nil) k = luaH_next t k ∧
    ∃ i : Nat, findindex (setslot t (luaH_get t k) .nil) k = .ok (i : Int) ∧
      findindex t k = .ok (i : Int) ∧ cellkey t i = cellkey (setslot t (luaH_get t k) .nil) i ∧
      luaO_rawequalObj (cellkey t i) k = true ∧
      luaH_next (setslot t (luaH_get t k) .nil) k =
        .ok (scan (setslot t (luaH_get t k) .nil) (i + 1)) ∧
      scan (setslot t (luaH_get t k) .nil) (i + 1) = scan t (i + 1) := by
  have hc := hw.toWFcore
  have hok := slotok_get t hc k hheld
  have hw' := wf_setslot t hw _ hok .nil
  have hc' := hw'.toWFcore
  have hget : luaH_get (setslot t (luaH_get t k) .nil) k = luaH_get t k :=
    luaH_get_setslot t (sizearray_lt t hc) _ _ k
  have hval : slotval (setslot t (luaH_get t k) .nil) (luaH_get t k) = .nil := by
    rw [slotval_setslot t hc _ hok, if_pos rfl]
  have hcell := cell_setslot t hc (luaH_get t k) hok .nil
  have hheld' : luaH_get (setslot t (luaH_get t k) .nil) k ≠ .nilobject := by
    rw [hget]; exact hheld
  have main : ∃ i : Nat, findindex (setslot t (luaH_get t k) .nil) k = .ok (i : Int) ∧
      findindex t k = .ok (i : Int) ∧ luaO_rawequalObj (cellkey t i) k = true ∧
      ∀ p, i + 1 ≤ p → cellval (setslot t (luaH_get t k) .nil) p = cellval t p := by
    rcases findindex_held t hc k hheld with ⟨h1, h2, h3, h4⟩ | ⟨h1, n, hn, h3, h4⟩
    · rcases findindex_held _ hc' k hheld' with ⟨g1, g2, g3, g4⟩ | ⟨g1, _⟩
      · refine ⟨(arrayindex k - 1).toNat, ?_, ?_, ?_, fun p hp => ?_⟩
        · rw [g4]; congr 1; omega
        · rw [h4]; congr 1; omega
        · rw [cellkey_array t _ (by omega)]
          apply rawequal_of_arrayindex
          · rw [show (((arrayindex k - 1).toNat : Nat) : Int) + 1 = arrayindex k by omega]
            have := arrayindex_range k
            exact arrayindex_cast_num _ this.1 this.2
          · rw [show (((arrayindex k - 1).toNat : Nat) : Int) + 1 = arrayindex k by omega]
            have := arrayindex_range k
            rw [arrayindex_cast_num _ this.1 this.2]
            exact h1
        · exact hcell.2.1 _ h3 p (by omega)
      · rw [sizearray_setslot] at g1
        exact absurd ⟨h1, h2⟩ g1
    · rcases findindex_held _ hc' k hheld' with ⟨g1, g2, _⟩ | ⟨g1, m, hm, g3, g4⟩
      · rw [sizearray_setslot] at g2
        exact absurd ⟨g1, g2⟩ h1
      · rw [hget, h3] at g3
        cases g3
        rw [sizearray_setslot] at g4
        refine ⟨t.sizearray + n, ?_, ?_, ?_, fun p hp => ?_⟩
        · rw [g4]; congr 1; push_cast; omega
        · rw [h4]; congr 1; push_cast; omega
        · rw [cellkey_node]
          have hs : SlotOk t (.node n) := by rw [← h3]; exact hok
          have := getval_nodekey t hc n hn hs.2
          have e : luaH_get t (gnode t n).i_key = luaH_get t k := by
            rw [h3, luaH_get_eq t (sizearray_lt t hc), if_neg hs.2, if_neg (hc.arr n hn)]
            exact hfind_of_key t hc _ n hn (hc.keyok n hn hs.2) hs.2
          exact rawequal_of_slot t hc _ _ e hheld
        · exact hcell.2.2 n h3 p (by omega)
  obtain ⟨i, m1, m2, m3, m4⟩ := main
  have hscan : scan (setslot t (luaH_get t k) .nil) (i + 1) = scan t (i + 1) :=
    scan_congr t _ (i + 1) (sizearray_setslot _ _ _) (length_setslot _ _ _) m4 hcell.1
  have n1 : luaH_next (setslot t (luaH_get t k) .nil) k =
      .ok (scan (setslot t (luaH_get t k) .nil) (i + 1)) := by
    rw [luaH_next_scan _ hc' k, m1]
    show Except.ok (scan _ (((i : Int) + 1).toNat)) = _
    rw [show ((i : Int) + 1).toNat = i + 1 by omega]
  have n2 : luaH_next t k = .ok (scan t (i + 1)) := by
    rw [luaH_next_scan _ hc k, m2]
    show Except.ok (scan _ (((i : Int) + 1).toNat)) = _
    rw [show ((i : Int) + 1).toNat = i + 1 by omega]
  exact ⟨hget, hval, by rw [n1, n2, hscan], i, m1, m2, (hcell.1 i).symm, m3, n1, hscan⟩

/-- C39 (the main position is always in range): for every table, with the hash capacity
`sizenode(t) = 2^lsizenode` (capacity 1 and the `dummynode` included), and every key,
`mainposition` returns a node index below the capacity: `hashmod` yields
`n mod ((size-1)|1)`, whose modulus is `size - 1` (1 for capacity 1), never 0, and
`hashpow2` yields `n & (size-1)`, which is `n mod size`; in a node vector of that
size the index is the one of a node. -/
theorem C39_mainposition_in_range (t : Table) (key : TValue) :
    sizenode t = 2 ^ t.lsizenode ∧ mainposition t key < sizenode t ∧
    (∀ n, hashmod t n = n % ((sizenode t - 1) ||| 1) ∧ 0 < ((sizenode t - 1) ||| 1) ∧
      (sizenode t - 1) ||| 1 = (if t.lsizenode = 0 then 1 else sizenode t - 1) ∧
      hashmod t n < sizenode t) ∧
    (∀ n, hashpow2 t n = n &&& (sizenode t - 1) ∧ hashpow2 t n = n % sizenode t ∧
      hashpow2 t n < sizenode t) ∧
    (t.lsizenode = 0 → mainposition t key = 0) ∧
    (t.node.length = sizenode t → ∃ nd, t.node[mainposition t key]? = some nd) := by
  refine ⟨rfl, mainposition_lt t key, fun n => ⟨rfl, (hashmod_modulus t).2,
    (hashmod_modulus t).1, hashmod_lt t n⟩, fun n => ⟨rfl, ?_, hashpow2_lt t n⟩,
    fun h0 => ?_, fun hlen => ?_⟩
  · unfold hashpow2 lmod sizenode twoto
    exact Nat.and_pow_two_sub_one_eq_mod n t.lsizenode
  · have := mainposition_lt t key
    unfold sizenode twoto at this
    rw [h0] at this
    omega
  · have := mainposition_lt t key
    rw [← hlen] at this
    exact ⟨t.node[mainposition t key], List.getElem?_eq_getElem this⟩

/-- C40 (`computesizes` stays inside `nums`): when the counters `nums[0..MAXBITS]` sum
to `*narray`, every read `nums[i]` of the loop of `computesizes` has `i ≤ MAXBITS`
(the function with its reads checked returns the result of `computesizes`): the loop
is left when the running sum `a` equals `*narray`, at `i = MAXBITS` at the latest, or
when `2^i / 2 ≥ *narray`.  The counters and the count that `rehash` passes for a table
whose array part has at most `MAXASIZE` cells satisfy the condition. -/
theorem C40_computesizes_inside_nums (nums : List Nat) (narray : Nat)
    (hl : nums.length = MAXBITS + 1) (hsum : binsum nums (MAXBITS + 1) = narray) :
    computesizes_chk nums narray = some (computesizes nums narray) ∧
    (∀ (fuel i a na n : Nat), i ≤ MAXBITS → a = binsum nums i →
      computesizes_loop_chk nums narray fuel i (2 ^ i) a na n =
        some (computesizes_loop nums narray fuel i (2 ^ i) a na n) ∧
      (2 ^ i / 2 < narray → binsum nums (i + 1) ≠ narray → i + 1 ≤ MAXBITS)) ∧
    ∀ (R : Table → TValue → Res (Slot × Table)) (t : Table) (ek : TValue),
      t.sizearray ≤ MAXASIZE →
      (rehash_nums t ek).1.length = MAXBITS + 1 ∧
      binsum (rehash_nums t ek).1 (MAXBITS + 1) = (rehash_nums t ek).2 ∧
      computesizes_chk (rehash_nums t ek).1 (rehash_nums t ek).2 =
        some (computesizes (rehash_nums t ek).1 (rehash_nums t ek).2) ∧
      rehash_with R t ek = resize_with R t
        (computesizes (rehash_nums t ek).1 (rehash_nums t ek).2).1
        ((numusearray t (List.replicate (MAXBITS + 1) 0)).1 +
          (numusehash t (numusearray t (List.replicate (MAXBITS + 1) 0)).2
            (numusearray t (List.replicate (MAXBITS + 1) 0)).1).1 + 1 -
          (computesizes (rehash_nums t ek).1 (rehash_nums t ek).2).2) := by
  have main := computesizes_loop_chk_spec nums narray hl hsum
  refine ⟨main _ 0 0 0 0 (Nat.zero_le _) (binsum_zero nums).symm,
    fun fuel i a na n hi ha => ⟨main fuel i a na n hi ha, fun _ hne => ?_⟩,
    fun R t ek hsa => ?_⟩
  · by_contra hc
    have : i = MAXBITS := by omega
    rw [this, hsum] at hne
    exact hne rfl
  · obtain ⟨r1, r2⟩ := rehash_nums_spec t ek hsa
    exact ⟨r1, r2, computesizes_loop_chk_spec _ _ r1 r2 _ 0 0 0 0 (Nat.zero_le _)
      (binsum_zero _).symm, rfl⟩

/-- Instance of C40 for the integer keys 1, 2, 3 and 5; with counters that do not sum to
`*narray` (all 0, and `*narray = 2^27`) the loop reads `nums[27]`. -/
theorem C40_computesizes_inside_nums_witness :
    nums1235.length = MAXBITS + 1 ∧ binsum nums1235 (MAXBITS + 1) = 4 ∧
    computesizes_chk nums1235 4 = some (4, 3) ∧
    computesizes_chk (List.replicate (MAXBITS + 1) 0) (2 ^ 27) = none ∧
    (computesizes_chk nums1235 4 = some (computesizes nums1235 4) ∧
    (∀ (fuel i a na n : Nat), i ≤ MAXBITS → a = binsum nums1235 i →
      computesizes_loop_chk nums1235 4 fuel i (2 ^ i) a na n =
        some (computesizes_loop nums1235 4 fuel i (2 ^ i) a na n) ∧
      (2 ^ i / 2 < 4 → binsum nums1235 (i + 1) ≠ 4 → i + 1 ≤ MAXBITS)) ∧
    ∀ (R : Table → TValue → Res (Slot × Table)) (t : Table) (ek : TValue),
      t.sizearray ≤ MAXASIZE →
      (rehash_nums t ek).1.length = MAXBITS + 1 ∧
      binsum (rehash_nums t ek).1 (MAXBITS + 1) = (rehash_nums t ek).2 ∧
      computesizes_chk (rehash_nums t ek).1 (rehash_nums t ek).2 =
        some (computesizes (rehash_nums t ek).1 (rehash_nums t ek).2) ∧
      rehash_with R t ek = resize_with R t
        (computesizes (rehash_nums t ek).1 (rehash_nums t ek).2).1
        ((numusearray t (List.replicate (MAXBITS + 1) 0)).1 +
          (numusehash t (numusearray t (List.replicate (MAXBITS + 1) 0)).2
            (numusearray t (List.replicate (MAXBITS + 1) 0)).1).1 + 1 -
          (computesizes (rehash_nums t ek).1 (rehash_nums t ek).2).2)) :=
  ⟨by decide, by decide, by decide, by decide,
    C40_computesizes_inside_nums nums1235 4 (by decide) (by decide)⟩

theorem reach_exnew4 : Reach exnew4 := Reach.new 4 0 exnew4 (by decide) rfl

theorem reach_exhole : Reach exhole := reach_put _ _ _ reach_exnew4 (by decide) (by decide)

theorem reach_exhash2 : Reach exhash2 := reach_put _ _ _ reach_ex0 (by decide) (by decide)

/-- Instance of C32 in the table `{10, 20, 30, [5] = 50}`, whose array part has 4 cells:
key 2 is the cell `array[1]`, the keys 5 and `INT_MIN` go to the hash part. -/
theorem C32_unsigned_range_test_witness :
    -(2 ^ 31) ≤ (2 : Int) ∧ (2 : Int) < 2 ^ 31 ∧ ex1235.sizearray < 2 ^ 31 ∧
    ex1235.sizearray = 4 ∧ luaH_getnum ex1235 2 = .arr 1 ∧ luaH_getnum ex1235 5 = .node 0 ∧
    luaH_getnum ex1235 0 = .nilobject ∧ luaH_getnum ex1235 (-(2 ^ 31)) = .nilobject ∧
    (
((((2 : Int) - 1) % 2 ^ 32).toNat < ex1235.sizearray % 2 ^ 32 ↔ (1 ≤ (2 : Int) ∧ (2 : Int) ≤ (ex1235.sizearray : Int))) ∧
    ((1 ≤ (2 : Int) ∧ (2 : Int) ≤ (ex1235.sizearray : Int)) →
      luaH_getnum ex1235 (2 : Int) = .arr ((2 : Int) - 1).toNat ∧ ((2 : Int) - 1).toNat < ex1235.sizearray) ∧
    (¬ (1 ≤ (2 : Int) ∧ (2 : Int) ≤ (ex1235.sizearray : Int)) →
      luaH_getnum ex1235 (2 : Int) = hfind ex1235 (.number (cast_num (2 : Int))) ∧
      ∀ i, luaH_getnum ex1235 (2 : Int) ≠ .arr i) ∧
    ((∃ i, luaH_getnum ex1235 (2 : Int) = .arr i) ↔ (1 ≤ (2 : Int) ∧ (2 : Int) ≤ (ex1235.sizearray : Int))) ∧
    (∀ i, luaH_getnum ex1235 (2 : Int) = .arr i → i < ex1235.sizearray)
    ) :=
  ⟨by decide, by decide, by decide, by decide, by decide, by decide, by decide, by decide,
    C32_unsigned_range_test ex1235 2 (by decide) (by decide) (by decide)⟩

/-- Counterexample to C34 as stated: the table `{nil, 20, nil, nil}`, with four array
cells, is well formed and its `t[1]` is nil; the binary search of `luaH_getn` in the
array part returns the border 2. -/
theorem C34_counterexample :
    Reach exhole ∧ WF exhole ∧ exhole.sizearray = 4 ∧
    exhole.array = [.nil, num 20, .nil, .nil] ∧
    slotval exhole (luaH_getnum exhole 1) = .nil ∧ luaH_getn exhole = some 2 ∧
    luaH_getn exhole ≠ some 0 :=
  ⟨reach_exhole, reach_wf _ reach_exhole, by decide, by decide, by decide, by decide,
    by decide⟩

/-- Instance of C34 on the table `{[2] = 20}`, without array part: the length is 0. -/
theorem C34_leading_hole_witness :
    WF exhash2 ∧ slotval exhash2 (luaH_getnum exhash2 1) = .nil ∧ exhash2.sizearray = 0 ∧
    luaH_getn exhash2 = some 0 ∧
    (
((∀ i, i < exhash2.sizearray → exhash2.array.getD i .nil = .nil) → luaH_getn exhash2 = some 0) ∧
    isborder exhash2 0 ∧
    ∃ n : Nat, luaH_getn exhash2 = some n ∧
      (n = 0 ∨ (1 ≤ n ∧ slotval exhash2 (luaH_getnum exhash2 (n : Int)) ≠ .nil ∧
        slotval exhash2 (luaH_getnum exhash2 ((n : Int) + 1)) = .nil))
    ) :=
  ⟨reach_wf _ reach_exhash2, by decide, by decide, by decide,
    C34_leading_hole exhash2 (reach_wf _ reach_exhash2) (by decide)⟩

theorem reach_exkeys : Reach exkeys :=
  reach_put _ _ _ (reach_put _ _ _ reach_ex0 (by decide) (by decide)) (by decide) (by decide)

/-- Instance of C36 in the table `{[s] = 10, [u] = 20}`, where node 0 holds the table
`u` and node 1 the string `s`, after the collector marked the key of node 0 dead:
`luaH_next` with `u` finds the dead key and returns the binding of `s`, and it raises
the error for a table that is no key. -/
theorem C36_next_rejects_unknown_witness :
    WF exkeys ∧
    (gnode (markdead (fun n => n == 0) exkeys) 0).i_key = .gc .deadkey (gcvalue (tab 1)) ∧
    luaH_next (markdead (fun n => n == 0) exkeys) (tab 1) = .ok (some (str 1, num 10)) ∧
    luaH_next (markdead (fun n => n == 0) exkeys) (str 1) = .ok none ∧
    luaH_next (markdead (fun n => n == 0) exkeys) (tab 2) = .error .invalid_key_to_next ∧
    luaH_next exkeys (tab 2) = .error .invalid_key_to_next ∧
    (
(∀ e, luaH_next exkeys (tab 2) = .error e → e = .invalid_key_to_next) ∧
    ((∃ e, luaH_next exkeys (tab 2) = .error e) ↔
      ((tab 2) ≠ .nil ∧ ¬ (0 < arrayindex (tab 2) ∧ arrayindex (tab 2) ≤ (exkeys.sizearray : Int)) ∧
        ∀ j, Reaches exkeys (mainposition exkeys (tab 2)) j →
          (luaO_rawequalObj (gnode exkeys j).i_key (tab 2) ||
            (ttype (gnode exkeys j).i_key == LUA_TDEADKEY && iscollectable (tab 2) &&
              gcvalue (gnode exkeys j).i_key == gcvalue (tab 2))) = false)) ∧
    ((∃ e, luaH_next exkeys (tab 2) = .error e) ↔
      ((tab 2) ≠ .nil ∧ ¬ (0 < arrayindex (tab 2) ∧ arrayindex (tab 2) ≤ (exkeys.sizearray : Int)) ∧
        ∀ j, j < exkeys.node.length → luaO_rawequalObj (gnode exkeys j).i_key (tab 2) = false)) ∧
    (∃ r, luaH_next exkeys .nil = .ok r) ∧
    (∀ i, i < exkeys.node.length → (gnode exkeys i).i_key ≠ .nil →
      ∃ r, luaH_next exkeys (gnode exkeys i).i_key = .ok r) ∧
    (∀ e, luaH_next (markdead (fun n => n == 0) exkeys) (tab 2) = .error e → e = .invalid_key_to_next) ∧
    ((∃ e, luaH_next (markdead (fun n => n == 0) exkeys) (tab 2) = .error e) ↔
      ((tab 2) ≠ .nil ∧ ¬ (0 < arrayindex (tab 2) ∧ arrayindex (tab 2) ≤ (exkeys.sizearray : Int)) ∧
        ∀ j, Reaches (markdead (fun n => n == 0) exkeys) (mainposition (markdead (fun n => n == 0) exkeys) (tab 2)) j →
          (luaO_rawequalObj (gnode (markdead (fun n => n == 0) exkeys) j).i_key (tab 2) ||
            (ttype (gnode (markdead (fun n => n == 0) exkeys) j).i_key == LUA_TDEADKEY && iscollectable (tab 2) &&
              gcvalue (gnode (markdead (fun n => n == 0) exkeys) j).i_key == gcvalue (tab 2))) = false)) ∧
    (∃ r, luaH_next (markdead (fun n => n == 0) exkeys) .nil = .ok r) ∧
    (∀ i, i < exkeys.node.length → (gnode exkeys i).i_key ≠ .nil →
      ∃ r, luaH_next (markdead (fun n => n == 0) exkeys) (gnode exkeys i).i_key = .ok r) ∧
    (∀ i, i < exkeys.node.length → ((fun n => n == 0) i && iscollectable (gnode exkeys i).i_key) = true →
      (gnode (markdead (fun n => n == 0) exkeys) i).i_key = .gc .deadkey (gcvalue (gnode exkeys i).i_key) ∧
      (gnode (markdead (fun n => n == 0) exkeys) i).i_val = .nil ∧
      luaO_rawequalObj (gnode (markdead (fun n => n == 0) exkeys) i).i_key (gnode exkeys i).i_key = false)
    ) :=
  ⟨reach_wf _ reach_exkeys, rfl, rfl, rfl, rfl, rfl,
    C36_next_rejects_unknown exkeys (reach_wf _ reach_exkeys) (fun n => n == 0) (tab 2)⟩

/-- Instance of C37 in the table `{10, 20, 30, [5] = 50}`: after `t[2] = nil` the call
`luaH_next(t, 2)` returns key 3 with the value 30, as before. -/
theorem C37_clear_during_traversal_witness :
    WF ex1235 ∧ luaH_get ex1235 (num 2) ≠ .nilobject ∧
    luaH_next ex1235 (num 2) = .ok (some (num 3, num 30)) ∧
    luaH_next (setslot ex1235 (luaH_get ex1235 (num 2)) .nil) (num 2) =
      .ok (some (num 3, num 30)) ∧
    (
luaH_get (setslot ex1235 (luaH_get ex1235 (num 2)) .nil) (num 2) = luaH_get ex1235 (num 2) ∧
    slotval (setslot ex1235 (luaH_get ex1235 (num 2)) .nil) (luaH_get ex1235 (num 2)) = .nil ∧
    luaH_next (setslot ex1235 (luaH_get ex1235 (num 2)) .nil) (num 2) = luaH_next ex1235 (num 2) ∧
    ∃ i : Nat, findindex (setslot ex1235 (luaH_get ex1235 (num 2)) .nil) (num 2) = .ok (i : Int) ∧
      findindex ex1235 (num 2) = .ok (i : Int) ∧ cellkey ex1235 i = cellkey (setslot ex1235 (luaH_get ex1235 (num 2)) .nil) i ∧
      luaO_rawequalObj (cellkey ex1235 i) (num 2) = true ∧
      luaH_next (setslot ex1235 (luaH_get ex1235 (num 2)) .nil) (num 2) =
        .ok (scan (setslot ex1235 (luaH_get ex1235 (num 2)) .nil) (i + 1)) ∧
      scan (setslot ex1235 (luaH_get ex1235 (num 2)) .nil) (i + 1) = scan ex1235 (i + 1)
    ) :=
  ⟨reach_wf _ reach_ex1235, by decide, rfl, rfl,
    C37_clear_during_traversal ex1235 (reach_wf _ reach_ex1235) (num 2) (by decide)⟩

end Lua
